import Mathlib

/-!
math-repl: tokenizer, parser and evaluator.

A shallow embedding of the calculator core (`token.cpp`, `expression.cpp`,
`state.cpp`, `evaluator.cpp`) and theorems about it.

Conventions of the embedding.

* `double` and the `<cmath>` functions are not part of the repository. They are
  taken as a parameter `Arith V`: the carrier `V` stands for `double`, and the
  record holds the arithmetic the code calls. Every definition is executable
  once an `Arith V` is supplied, and theorems quantify over all of them unless
  a hypothesis says otherwise.
* C++ exceptions are values of `Error`; a function that can throw returns an
  `Except Error _`, paired with the state it had reached where the caller can
  observe that state afterwards.
* `std::unordered_map<Identifier, T>` is a function `String → Option T`.
* Recursion that the C++ code bounds only by its call stack (user functions
  calling themselves) takes a `fuel : Nat`, the permitted depth of nested
  calls; running out of it is the result `Error.OutOfFuel`, which is neither
  a `ParseError` nor an `EvalError`.
* Loops and recursions of the lexer and the parser, which consume input at
  every round, are written with a counter started above the length of what
  is left to read.
-/

namespace Repl

/-! ## errors.hpp -/

/-- The exceptions the core can raise. `ParseError`, `EvalError` and
`CommandError` are the classes of `errors.hpp`; the others are the standard
exceptions reachable from the code (`std::underflow_error` of `TokenStream`,
`std::out_of_range` of `std::stod`, `std::bad_variant_access` of
`Token::get`), an access past the end of a built-in argument span, and the
exhaustion of the recursion budget of the embedding. -/
inductive Error where
  | ParseError (message : String)
  | EvalError (message : String)
  | CommandError (message : String)
  | UnderflowError (message : String)
  | OutOfRange
  | BadVariantAccess
  | SpanOutOfBounds
  | OutOfFuel
  deriving DecidableEq, Repr

/-- Whether an error is a `ParseError`. -/
def Error.isParseError : Error → Bool
  | .ParseError _ => true
  | _ => false

/-- Whether an error is an `EvalError`. -/
def Error.isEvalError : Error → Bool
  | .EvalError _ => true
  | _ => false

/-! ## token.hpp -/

/-- Token categories produced by the lexer (`enum class TType`). -/
inductive TType where
  | Number | Identifier | Plus | Minus | Star | Slash | Percent | Caret
  | LParen | RParen | Equals | EqualEqual | BangEqual | Less | LessEqual
  | Greater | GreaterEqual | Question | Colon | Comma
  deriving DecidableEq, Repr

/-- Name type for variables and functions (`using Identifier = std::string`). -/
abbrev Identifier := String

/-- Parameter list type (`using Identifiers = std::vector<Identifier>`). -/
abbrev Identifiers := List Identifier

/-- The payload of a token: `std::variant<std::monostate, double, Identifier>`. -/
inductive TokenData (V : Type) where
  | monostate
  | number (value : V)
  | identifier (name : Identifier)
  deriving DecidableEq, Repr

/-- A single token with optional payload (`struct Token`). -/
structure Token (V : Type) where
  type : TType
  data : TokenData V
  deriving DecidableEq, Repr

/-- `Token::number`. -/
def Token.number {V : Type} (value : V) : Token V :=
  ⟨TType.Number, TokenData.number value⟩

/-- `Token::identifier`. -/
def Token.identifier {V : Type} (name : Identifier) : Token V :=
  ⟨TType.Identifier, TokenData.identifier name⟩

/-- An operator or punctuation token, `{type, {}}` in the lexer. -/
def Token.op {V : Type} (type : TType) : Token V :=
  ⟨type, TokenData.monostate⟩

/-- `Token::get<double>`: throws `std::bad_variant_access` on another payload. -/
def Token.get_double {V : Type} (token : Token V) : Except Error V :=
  match token.data with
  | .number value => .ok value
  | _ => .error .BadVariantAccess

/-- `Token::get<Identifier>`. -/
def Token.get_identifier {V : Type} (token : Token V) : Except Error Identifier :=
  match token.data with
  | .identifier name => .ok name
  | _ => .error .BadVariantAccess

/-- Token sequence produced by the lexer. -/
abbrev Tokens (V : Type) := List (Token V)

/-- Display name of a token type (`to_string(TType)`). -/
def to_string : TType → String
  | .Number => "Number"
  | .Identifier => "Identifier"
  | .Plus => "Plus"
  | .Minus => "Minus"
  | .Star => "Star"
  | .Slash => "Slash"
  | .Percent => "Percent"
  | .Caret => "Caret"
  | .LParen => "LParen"
  | .RParen => "RParen"
  | .Equals => "Equals"
  | .EqualEqual => "EqualEqual"
  | .BangEqual => "BangEqual"
  | .Less => "Less"
  | .LessEqual => "LessEqual"
  | .Greater => "Greater"
  | .GreaterEqual => "GreaterEqual"
  | .Question => "Question"
  | .Colon => "Colon"
  | .Comma => "Comma"

/-! ## The arithmetic parameter -/

/-- The operations on `double` that the code uses and the repository does not
define. `ofNat n` is the double written as the integer literal `n` (`0.0`,
`1.0`, `2.0` in the source); `stod` is `std::stod` on the text of a number
token, `none` when it throws `std::out_of_range`; `lt` ... `ne` are the C++
comparison operators on doubles; `cmath1` and `cmath2` are the one- and
two-argument functions of `<cmath>`, looked up by their C++ name (`"sin"`,
`"log10"`, `"pow"`, `"fmod"`, ...); `pi` and `e` are `std::numbers::pi` and
`std::numbers::e`. -/
structure Arith (V : Type) where
  ofNat : Nat → V
  stod : List Char → Option V
  add : V → V → V
  sub : V → V → V
  mul : V → V → V
  div : V → V → V
  neg : V → V
  lt : V → V → Bool
  le : V → V → Bool
  gt : V → V → Bool
  ge : V → V → Bool
  eq : V → V → Bool
  ne : V → V → Bool
  cmath1 : String → V → V
  cmath2 : String → V → V → V
  pi : V
  e : V

/-- The conversion of a C++ `bool` to `double`: `true` is `1.0`, `false` is `0.0`. -/
def Arith.ofBool {V : Type} (A : Arith V) (b : Bool) : V :=
  if b then A.ofNat 1 else A.ofNat 0

/-! ## token.cpp: the lexer -/

/-- `std::isdigit` in the "C" locale. -/
def is_digit (ch : Char) : Bool :=
  decide ('0'.toNat ≤ ch.toNat ∧ ch.toNat ≤ '9'.toNat)

/-- `std::isalpha` in the "C" locale. -/
def is_alpha (ch : Char) : Bool :=
  decide (('a'.toNat ≤ ch.toNat ∧ ch.toNat ≤ 'z'.toNat) ∨
          ('A'.toNat ≤ ch.toNat ∧ ch.toNat ≤ 'Z'.toNat))

/-- `std::isalnum` in the "C" locale. -/
def is_alnum (ch : Char) : Bool :=
  is_alpha ch || is_digit ch

/-- `std::isspace` in the "C" locale: space, `\t`, `\n`, `\v`, `\f`, `\r`. -/
def is_space (ch : Char) : Bool :=
  decide (ch.toNat = 32 ∨ (9 ≤ ch.toNat ∧ ch.toNat ≤ 13))

/-- The inner `while` loop of the number branch of `tokenize`, started at the
first character of the number with `seen_dot = false`: the characters of the
number text (`input.substr(start, pos - start)`) and the input that follows. -/
def scan_number : List Char → Bool → List Char × List Char
  | [], _ => ([], [])
  | current :: rest, seen_dot =>
    if current = '.' then
      if seen_dot then ([], current :: rest)
      else
        let r := scan_number rest true
        (current :: r.1, r.2)
    else if !is_digit current then ([], current :: rest)
    else
      let r := scan_number rest seen_dot
      (current :: r.1, r.2)

/-- The `while` loop of the identifier branch of `tokenize`: the characters of
the identifier and the input that follows. -/
def scan_identifier : List Char → List Char × List Char
  | [] => ([], [])
  | current :: rest =>
    if is_alnum current || current = '_' then
      let r := scan_identifier rest
      (current :: r.1, r.2)
    else ([], current :: rest)

/-- Whether the input continues with `=` (`pos + 1 < input.size() &&
input[pos + 1] == '='`, asked about the input after position `pos`). -/
def next_is_equals : List Char → Bool
  | '=' :: _ => true
  | _ => false

/-- Whether the input continues with a digit (`pos + 1 < input.size() &&
is_digit(input[pos + 1])`). -/
def next_is_digit : List Char → Bool
  | ch :: _ => is_digit ch
  | [] => false

/-- The `for` loop of `tokenize`. `input` is what is left of the text from
position `pos` on, `result` the tokens pushed so far; `steps` bounds the
number of iterations, each of which consumes at least one character. -/
def tokenize_loop {V : Type} (A : Arith V) :
    Nat → List Char → Nat → Tokens V → Except Error (Tokens V)
  | 0, _, _, _ => .error .OutOfFuel
  | _ + 1, [], _, result => .ok result
  | steps + 1, c :: rest, pos, result =>
    if is_space c then tokenize_loop A steps rest (pos + 1) result
    else if c = '+' then tokenize_loop A steps rest (pos + 1) (result ++ [Token.op .Plus])
    else if c = '-' then tokenize_loop A steps rest (pos + 1) (result ++ [Token.op .Minus])
    else if c = '*' then tokenize_loop A steps rest (pos + 1) (result ++ [Token.op .Star])
    else if c = '/' then tokenize_loop A steps rest (pos + 1) (result ++ [Token.op .Slash])
    else if c = '%' then tokenize_loop A steps rest (pos + 1) (result ++ [Token.op .Percent])
    else if c = '^' then tokenize_loop A steps rest (pos + 1) (result ++ [Token.op .Caret])
    else if c = '(' then tokenize_loop A steps rest (pos + 1) (result ++ [Token.op .LParen])
    else if c = ')' then tokenize_loop A steps rest (pos + 1) (result ++ [Token.op .RParen])
    else if c = ',' then tokenize_loop A steps rest (pos + 1) (result ++ [Token.op .Comma])
    else if c = '?' then tokenize_loop A steps rest (pos + 1) (result ++ [Token.op .Question])
    else if c = ':' then tokenize_loop A steps rest (pos + 1) (result ++ [Token.op .Colon])
    else if c = '=' then
      if next_is_equals rest then
        tokenize_loop A steps (rest.drop 1) (pos + 2) (result ++ [Token.op .EqualEqual])
      else tokenize_loop A steps rest (pos + 1) (result ++ [Token.op .Equals])
    else if c = '!' then
      if next_is_equals rest then
        tokenize_loop A steps (rest.drop 1) (pos + 2) (result ++ [Token.op .BangEqual])
      else
        .error (.ParseError
          ("Unexpected '!' at position " ++ toString pos ++ ". Did you mean '!='?"))
    else if c = '<' then
      if next_is_equals rest then
        tokenize_loop A steps (rest.drop 1) (pos + 2) (result ++ [Token.op .LessEqual])
      else tokenize_loop A steps rest (pos + 1) (result ++ [Token.op .Less])
    else if c = '>' then
      if next_is_equals rest then
        tokenize_loop A steps (rest.drop 1) (pos + 2) (result ++ [Token.op .GreaterEqual])
      else tokenize_loop A steps rest (pos + 1) (result ++ [Token.op .Greater])
    else if is_digit c || (c = '.' && next_is_digit rest) then
      let scanned := scan_number (c :: rest) false
      match A.stod scanned.1 with
      | none => .error .OutOfRange
      | some value =>
        tokenize_loop A steps scanned.2 (pos + scanned.1.length) (result ++ [Token.number value])
    else if is_alpha c || c = '_' then
      let scanned := scan_identifier (c :: rest)
      tokenize_loop A steps scanned.2 (pos + scanned.1.length)
        (result ++ [Token.identifier (String.mk scanned.1)])
    else
      .error (.ParseError
        ("Could not parse character '" ++ String.singleton c ++ "' at position "
          ++ toString pos))

/-- Tokenize a source string (`tokenize`). A `Char` of the input stands for one
`char` of the `std::string_view`. -/
def tokenize {V : Type} (A : Arith V) (input : String) : Except Error (Tokens V) :=
  tokenize_loop A (input.length + 1) input.toList 0 []

/-- Lightweight stream for parsing tokens (`class TokenStream`): the token
vector it refers to and the cursor. The constructor sets the cursor to 0. -/
structure TokenStream (V : Type) where
  tokens_ : Tokens V
  pos_ : Nat

/-- `TokenStream::TokenStream(const Tokens&)`. -/
def TokenStream.mk_stream {V : Type} (tokens : Tokens V) : TokenStream V :=
  ⟨tokens, 0⟩

/-- `TokenStream::remaining`: `tokens_.size() - pos_`, an unsigned difference;
the cursor starts at 0 and advances only on a stream that is not exhausted. -/
def TokenStream.remaining {V : Type} (s : TokenStream V) : Nat :=
  s.tokens_.length - s.pos_

/-- `TokenStream::empty`: `remaining() == 0`. -/
def TokenStream.empty {V : Type} (s : TokenStream V) : Bool :=
  s.remaining == 0

/-- The element `tokens_[pos_]` of a stream that is not exhausted. -/
def TokenStream.current {V : Type} (s : TokenStream V) (h : s.empty = false) : Token V :=
  s.tokens_.get ⟨s.pos_, by
    simp only [TokenStream.empty, TokenStream.remaining, beq_eq_false_iff_ne, ne_eq] at h
    omega⟩

/-- `TokenStream::peek`: the current token, without consuming it. The stream
is returned with the result so that its cursor can be observed. -/
def TokenStream.peek {V : Type} (s : TokenStream V) : Except Error (Token V) × TokenStream V :=
  if h : s.empty = false then (.ok (s.current h), s)
  else (.error (.UnderflowError "Cannot peek empty token stream"), s)

/-- `TokenStream::get`: consume and return the current token. -/
def TokenStream.get {V : Type} (s : TokenStream V) : Except Error (Token V) × TokenStream V :=
  if h : s.empty = false then (.ok (s.current h), { s with pos_ := s.pos_ + 1 })
  else (.error (.UnderflowError "Cannot get from empty token stream"), s)

/-- `TokenStream::match`: consume the token if it has the expected type. -/
def TokenStream.match_ {V : Type} (s : TokenStream V) (type : TType) : Bool × TokenStream V :=
  if h : s.empty = false then
    if (s.current h).type = type then (true, (s.get).2) else (false, s)
  else (false, s)

/-- `TokenStream::expect`: consume the token or throw if it does not match. -/
def TokenStream.expect {V : Type} (s : TokenStream V) (type : TType) :
    Except Error (Token V) × TokenStream V :=
  if h : s.empty = false then
    if (s.current h).type ≠ type then
      (.error (.ParseError ("Expected token " ++ to_string type ++ " but found "
        ++ to_string (s.current h).type)), s)
    else s.get
  else (.error (.UnderflowError "Cannot read from empty token stream"), s)

/-- The type of the current token, `stream.peek().type`; `none` stands for
the exception of `peek` on an exhausted stream. -/
def TokenStream.peek_type {V : Type} (s : TokenStream V) : Option TType :=
  match s.peek.1 with
  | .ok token => some token.type
  | .error _ => none

/-! ## expression.hpp -/

/-- Expression node categories (`enum class EType`). -/
inductive EType where
  | Number | Variable | Unary | Binary | FnCall | Ternary
  deriving DecidableEq, Repr

/-- An expression node (`struct Expression`). The constructors are the
factory functions `make_number`, `make_variable`, `make_unary`, `make_binary`,
`make_fn_call` and `make_ternary`, the only way the code builds a node; a
child pointer is never null. -/
inductive Expression (V : Type) where
  | Number (value : V)
  | Variable (name : Identifier)
  | Unary (op : TType) (right : Expression V)
  | Binary (op : TType) (left : Expression V) (right : Expression V)
  | FnCall (name : Identifier) (args : List (Expression V))
  | Ternary (condition : Expression V) (then_branch : Expression V)
      (else_branch : Expression V)

/-- The tag `Expression::type`. -/
def Expression.type {V : Type} : Expression V → EType
  | .Number _ => .Number
  | .Variable _ => .Variable
  | .Unary _ _ => .Unary
  | .Binary _ _ _ => .Binary
  | .FnCall _ _ => .FnCall
  | .Ternary _ _ _ => .Ternary

/-- `using ExpressionList = std::vector<ExpressionPtr>`. -/
abbrev ExpressionList (V : Type) := List (Expression V)

/-! ## expression.cpp: the parser -/

/-- What a parsing function returns: the node and the stream after it, or the
exception thrown. -/
abbrev ParseResult (V : Type) (α : Type) := Except Error (α × TokenStream V)

/-- A parsing function on a token stream, `ExpressionPtr(TokenStream&)`. -/
abbrev Parser (V : Type) := TokenStream V → ParseResult V (Expression V)

/-- `token_sets.back().push_back(token)`. -/
def push_back_last {V : Type} (token_sets : List (Tokens V)) (token : Token V) :
    List (Tokens V) :=
  match token_sets.getLast? with
  | some last => token_sets.dropLast ++ [last ++ [token]]
  | none => token_sets

/-- The `while` loop of `parse_fn_args`, which splits the tokens of the
argument list at the commas of depth 0. It stops in front of the closing `)`
or at the end of the stream; `steps` bounds the iterations, each of which
consumes a token. -/
def scan_fn_args {V : Type} :
    Nat → TokenStream V → List (Tokens V) → Int → ParseResult V (List (Tokens V))
  | 0, _, _, _ => .error .OutOfFuel
  | steps + 1, stream, token_sets, paren_depth =>
    if stream.empty then .ok (token_sets, stream)
    else if stream.peek_type = some TType.RParen ∧ paren_depth = 0 then
      .ok (token_sets, stream)
    else
      match stream.get with
      | (.error err, _) => .error err
      | (.ok token, stream) =>
        let depth : Except Error Int :=
          if token.type = TType.LParen then .ok (paren_depth + 1)
          else if token.type = TType.RParen then
            if paren_depth = 0 then
              .error (.ParseError "Unexpected ')' inside function arguments")
            else .ok (paren_depth - 1)
          else .ok paren_depth
        match depth with
        | .error err => .error err
        | .ok paren_depth =>
          if token.type = TType.Comma ∧ paren_depth = 0 then
            scan_fn_args steps stream (token_sets ++ [[]]) paren_depth
          else scan_fn_args steps stream (push_back_last token_sets token) paren_depth

/-- The `for` loop of `parse_fn_args` over the token sets: every set must be
non-empty and is parsed on its own by `parse`. -/
def parse_token_sets {V : Type} (parse : Tokens V → Except Error (Expression V)) :
    List (Tokens V) → Except Error (ExpressionList V)
  | [] => .ok []
  | tokens :: rest =>
    if tokens.isEmpty then .error (.ParseError "Empty function argument")
    else
      match parse tokens with
      | .error err => .error err
      | .ok arg =>
        match parse_token_sets parse rest with
        | .error err => .error err
        | .ok args => .ok (arg :: args)

/-- `parse_fn_args`; `parse` is the function `parse(const Tokens&)` it calls on
each argument. -/
def parse_fn_args {V : Type} (parse : Tokens V → Except Error (Expression V))
    (stream : TokenStream V) : ParseResult V (ExpressionList V) :=
  match stream.expect TType.LParen with
  | (.error err, _) => .error err
  | (.ok _, stream) =>
    match scan_fn_args (stream.remaining + 1) stream [[]] 0 with
    | .error err => .error err
    | .ok (token_sets, stream) =>
      if stream.empty then .error (.ParseError "Expected ')' to close function call")
      else
        match stream.get with
        | (.error err, _) => .error err
        | (.ok _, stream) =>
          if token_sets.length = 1 ∧ (token_sets.head?.getD []).isEmpty then .ok ([], stream)
          else
            match parse_token_sets parse token_sets with
            | .error err => .error err
            | .ok args => .ok (args, stream)

/-- `parse(const Tokens&)` over a given `parse(TokenStream&)`: parse the tokens
and ensure full consumption. -/
def parse_all {V : Type} (parse_stream : Parser V) (tokens : Tokens V) :
    Except Error (Expression V) :=
  match parse_stream (TokenStream.mk_stream tokens) with
  | .error err => .error err
  | .ok (expr, stream) =>
    if !stream.empty then
      match stream.peek.1 with
      | .error err => .error err
      | .ok token => .error (.ParseError ("Unexpected token '" ++ to_string token.type ++ "'"))
    else .ok expr

/-- `parse_primary`; `parse_assignment` is the function it re-enters for a
parenthesized sub-expression and, through `parse`, for call arguments. -/
def parse_primary {V : Type} (parse_assignment : Parser V) (stream : TokenStream V) :
    ParseResult V (Expression V) :=
  if stream.empty then
    .error (.ParseError "Unexpected end of input while parsing expression")
  else
    match stream.get with
    | (.error err, _) => .error err
    | (.ok current, stream) =>
      match current.type with
      | .Number =>
        match current.get_double with
        | .error err => .error err
        | .ok value => .ok (.Number value, stream)
      | .Identifier =>
        match current.get_identifier with
        | .error err => .error err
        | .ok id =>
          if !stream.empty ∧ stream.peek_type = some TType.LParen then
            match parse_fn_args (parse_all parse_assignment) stream with
            | .error err => .error err
            | .ok (args, stream) => .ok (.FnCall id args, stream)
          else .ok (.Variable id, stream)
      | .LParen =>
        match parse_assignment stream with
        | .error err => .error err
        | .ok (result, stream) =>
          if stream.empty then .error (.ParseError "Expected ')' to close expression")
          else
            match stream.get with
            | (.error err, _) => .error err
            | (.ok closing, stream) =>
              if closing.type ≠ TType.RParen then
                .error (.ParseError ("Expected ')' but found " ++ to_string closing.type))
              else .ok (result, stream)
      | _ =>
        .error (.ParseError ("Could not parse expression starting with token '"
          ++ to_string current.type ++ "'"))

/-- `parse_unary`, with the bound `steps` on its recursion: every recursive
call follows the consumption of a sign token. -/
def parse_unary_steps {V : Type} (parse_assignment : Parser V) :
    Nat → TokenStream V → ParseResult V (Expression V)
  | 0, _ => .error .OutOfFuel
  | steps + 1, stream =>
    if stream.empty then
      .error (.ParseError "Unexpected end of input while parsing unary expression")
    else if stream.peek_type = some TType.Plus ∨ stream.peek_type = some TType.Minus then
      match stream.get with
      | (.error err, _) => .error err
      | (.ok token, stream) =>
        match parse_unary_steps parse_assignment steps stream with
        | .error err => .error err
        | .ok (right, stream) => .ok (.Unary token.type right, stream)
    else parse_primary parse_assignment stream

/-- `parse_unary`. -/
def parse_unary {V : Type} (parse_assignment : Parser V) (stream : TokenStream V) :
    ParseResult V (Expression V) :=
  parse_unary_steps parse_assignment (stream.remaining + 1) stream

/-- `enum class Associativity`. -/
inductive Associativity where
  | Left | Right
  deriving DecidableEq, Repr

/-- `abstract_parse` (the overload taking the operator predicate), with the
bound `steps` on the iterations of its loop and on its recursion, each of
which consumes an operator token. A further iteration of the `while` loop is
the call with the new `left`. -/
def abstract_parse_steps {V : Type} (parser : Parser V) (is_operator : Token V → Bool)
    (assoc : Associativity) :
    Nat → TokenStream V → Option (Expression V) → ParseResult V (Expression V)
  | 0, _, _ => .error .OutOfFuel
  | steps + 1, stream, left =>
    let first : ParseResult V (Expression V) :=
      match left with
      | some left => .ok (left, stream)
      | none => parser stream
    match first with
    | .error err => .error err
    | .ok (left, stream) =>
      if stream.empty then .ok (left, stream)
      else
      match stream.peek.1 with
      | .error err => .error err
      | .ok token =>
        if is_operator token then
          match stream.get with
          | (.error err, _) => .error err
          | (.ok op, stream) =>
            if assoc = Associativity.Right then
              match abstract_parse_steps parser is_operator assoc steps stream none with
              | .error err => .error err
              | .ok (right, stream) => .ok (.Binary op.type left right, stream)
            else
              match parser stream with
              | .error err => .error err
              | .ok (right, stream) =>
                abstract_parse_steps parser is_operator assoc steps stream
                  (some (.Binary op.type left right))
        else .ok (left, stream)

/-- The lambda `valid_operator` of `abstract_parse`. -/
def valid_operator {V : Type} (operators : List TType) (token : Token V) : Bool :=
  operators.any (fun op => token.type = op)

/-- `abstract_parse` (the overload taking the operator list). -/
def abstract_parse {V : Type} (stream : TokenStream V) (parser : Parser V)
    (operators : List TType) (assoc : Associativity) : ParseResult V (Expression V) :=
  abstract_parse_steps parser (valid_operator operators) assoc (stream.remaining + 1) stream none

/-- `parse_power`. -/
def parse_power {V : Type} (parse_assignment : Parser V) (stream : TokenStream V) :
    ParseResult V (Expression V) :=
  abstract_parse stream (parse_unary parse_assignment) [.Caret] .Right

/-- `parse_term`. -/
def parse_term {V : Type} (parse_assignment : Parser V) (stream : TokenStream V) :
    ParseResult V (Expression V) :=
  abstract_parse stream (parse_power parse_assignment) [.Star, .Slash, .Percent] .Left

/-- `parse_additive`. -/
def parse_additive {V : Type} (parse_assignment : Parser V) (stream : TokenStream V) :
    ParseResult V (Expression V) :=
  abstract_parse stream (parse_term parse_assignment) [.Plus, .Minus] .Left

/-- `parse_relational`. -/
def parse_relational {V : Type} (parse_assignment : Parser V) (stream : TokenStream V) :
    ParseResult V (Expression V) :=
  abstract_parse stream (parse_additive parse_assignment)
    [.Less, .LessEqual, .Greater, .GreaterEqual] .Left

/-- `parse_equality`. -/
def parse_equality {V : Type} (parse_assignment : Parser V) (stream : TokenStream V) :
    ParseResult V (Expression V) :=
  abstract_parse stream (parse_relational parse_assignment) [.EqualEqual, .BangEqual] .Left

/-- `parse_ternary`, with the bound `steps` on its recursion: both recursive
calls follow the consumption of the `?`. -/
def parse_ternary_steps {V : Type} (parse_assignment : Parser V) :
    Nat → TokenStream V → ParseResult V (Expression V)
  | 0, _ => .error .OutOfFuel
  | steps + 1, stream =>
    match parse_equality parse_assignment stream with
    | .error err => .error err
    | .ok (condition, stream) =>
      if !stream.empty ∧ stream.peek_type = some TType.Question then
        match stream.get with
        | (.error err, _) => .error err
        | (.ok _, stream) =>
          match parse_ternary_steps parse_assignment steps stream with
          | .error err => .error err
          | .ok (then_branch, stream) =>
            if stream.empty then .error (.ParseError "Expected ':' in ternary expression")
            else
              match stream.get with
              | (.error err, _) => .error err
              | (.ok colon, stream) =>
                if colon.type ≠ TType.Colon then
                  .error (.ParseError "Expected ':' in ternary expression")
                else
                  match parse_ternary_steps parse_assignment steps stream with
                  | .error err => .error err
                  | .ok (else_branch, stream) =>
                    .ok (.Ternary condition then_branch else_branch, stream)
      else .ok (condition, stream)

/-- `parse_ternary`. -/
def parse_ternary {V : Type} (parse_assignment : Parser V) (stream : TokenStream V) :
    ParseResult V (Expression V) :=
  parse_ternary_steps parse_assignment (stream.remaining + 1) stream

/-- `parse_assignment`. `depth` bounds the nesting of parenthesized
sub-expressions and call arguments, each level of which consumes a token. -/
def parse_assignment {V : Type} : Nat → TokenStream V → ParseResult V (Expression V)
  | 0, _ => .error .OutOfFuel
  | depth + 1, stream =>
    abstract_parse stream (parse_ternary (parse_assignment depth)) [.Equals] .Right

/-- `parse(TokenStream&)`. -/
def parse_stream {V : Type} (depth : Nat) (stream : TokenStream V) :
    ParseResult V (Expression V) :=
  parse_assignment depth stream

/-- `parse(const Tokens&)`: parse tokens and ensure full consumption. A token
list of length `n` nests at most `n` deep. -/
def parse {V : Type} (tokens : Tokens V) : Except Error (Expression V) :=
  parse_all (parse_stream (tokens.length + 1)) tokens

/-! ## state.hpp, state.cpp -/

/-- Map of variable values (`std::unordered_map<Identifier, double>`). -/
abbrev VariableMap (V : Type) := Identifier → Option V

/-- User-defined function data (`struct FnObj`). -/
structure FnObj (V : Type) where
  params : Identifiers
  expr : Expression V

/-- User-defined function table. -/
abbrev UserFnMap (V : Type) := Identifier → Option (FnObj V)

/-- The assignment `map[key] = value` of `std::unordered_map`. -/
def map_set {T : Type} (map : Identifier → Option T) (key : Identifier) (value : T) :
    Identifier → Option T :=
  fun name => if name = key then some value else map name

/-- Metadata for built-in functions (`struct BuiltinSpec`). The callable takes
the span of argument values; reading past its end is `Error.SpanOutOfBounds`. -/
structure BuiltinSpec (V : Type) where
  name : Identifier
  arity : Nat
  description : String
  fn : List V → Except Error V

/-- REPL evaluation state (`struct State`). -/
structure State (V : Type) where
  vars : VariableMap V
  fns : UserFnMap V
  last_result : V
  has_last_result : Bool

/-- A default-constructed `State`: empty maps, `last_result = 0.0`,
`has_last_result = false`. -/
def State.init {V : Type} (A : Arith V) : State V :=
  ⟨fun _ => none, fun _ => none, A.ofNat 0, false⟩

/-- The element `args[index]` of a span. -/
def span_at {V : Type} (args : List V) (index : Nat) : Except Error V :=
  match args[index]? with
  | some value => .ok value
  | none => .error .SpanOutOfBounds

/-- `make_unary` of `state.cpp`: a built-in of arity 1 that applies `fn` to `args[0]`. -/
def BuiltinSpec.make_unary {V : Type} (name : String) (description : String) (fn : V → V) :
    BuiltinSpec V :=
  ⟨name, 1, description, fun args =>
    match span_at args 0 with
    | .error err => .error err
    | .ok a => .ok (fn a)⟩

/-- `make_binary` of `state.cpp`: a built-in of arity 2 that applies `fn` to
`args[0]` and `args[1]`. -/
def BuiltinSpec.make_binary {V : Type} (name : String) (description : String)
    (fn : V → V → V) : BuiltinSpec V :=
  ⟨name, 2, description, fun args =>
    match span_at args 0 with
    | .error err => .error err
    | .ok a =>
      match span_at args 1 with
      | .error err => .error err
      | .ok b => .ok (fn a b)⟩

/-- The built-in function registry (`builtin_functions`), in the order of its
construction; the names are pairwise distinct, so the first entry with a given
name is the entry of the map. -/
def builtin_functions {V : Type} (A : Arith V) : List (BuiltinSpec V) :=
  [ .make_unary "sin" "Sine (radians)" (A.cmath1 "sin"),
    .make_unary "cos" "Cosine (radians)" (A.cmath1 "cos"),
    .make_unary "tan" "Tangent (radians)" (A.cmath1 "tan"),
    .make_unary "asin" "Inverse sine" (A.cmath1 "asin"),
    .make_unary "acos" "Inverse cosine" (A.cmath1 "acos"),
    .make_unary "atan" "Inverse tangent" (A.cmath1 "atan"),
    .make_unary "sinh" "Hyperbolic sine" (A.cmath1 "sinh"),
    .make_unary "cosh" "Hyperbolic cosine" (A.cmath1 "cosh"),
    .make_unary "tanh" "Hyperbolic tangent" (A.cmath1 "tanh"),
    .make_unary "asinh" "Inverse hyperbolic sine" (A.cmath1 "asinh"),
    .make_unary "acosh" "Inverse hyperbolic cosine" (A.cmath1 "acosh"),
    .make_unary "atanh" "Inverse hyperbolic tangent" (A.cmath1 "atanh"),
    .make_unary "sqrt" "Square root" (A.cmath1 "sqrt"),
    .make_unary "cbrt" "Cube root" (A.cmath1 "cbrt"),
    .make_unary "exp" "Exponential (e^x)" (A.cmath1 "exp"),
    .make_unary "ln" "Natural logarithm" (A.cmath1 "log"),
    .make_unary "log" "Base-10 logarithm" (A.cmath1 "log10"),
    .make_unary "log2" "Base-2 logarithm" (A.cmath1 "log2"),
    .make_unary "abs" "Absolute value" (A.cmath1 "fabs"),
    .make_unary "floor" "Round down" (A.cmath1 "floor"),
    .make_unary "ceil" "Round up" (A.cmath1 "ceil"),
    .make_unary "round" "Round to nearest" (A.cmath1 "round"),
    .make_unary "trunc" "Truncate fractional part" (A.cmath1 "trunc"),
    .make_binary "pow" "Power" (A.cmath2 "pow"),
    .make_binary "fmod" "Floating-point modulo" (A.cmath2 "fmod"),
    .make_binary "atan2" "Quadrant-aware arctangent" (A.cmath2 "atan2") ]

/-- `builtin_functions().find(name)`. -/
def find_builtin {V : Type} (A : Arith V) (name : Identifier) : Option (BuiltinSpec V) :=
  (builtin_functions A).find? (fun spec => spec.name = name)

/-- The constant registry (`constants`): `pi`, `e` and `tau = pi * 2.0`. -/
def constants {V : Type} (A : Arith V) : List (Identifier × V) :=
  [("pi", A.pi), ("e", A.e), ("tau", A.mul A.pi (A.ofNat 2))]

/-- `constants().find(name)`. -/
def find_constant {V : Type} (A : Arith V) (name : Identifier) : Option V :=
  (constants A).lookup name

/-- Whether a name matches a built-in function (`is_builtin_function`). -/
def is_builtin_function {V : Type} (A : Arith V) (name : Identifier) : Bool :=
  (find_builtin A name).isSome

/-- Whether a name matches a constant (`is_constant`). -/
def is_constant {V : Type} (A : Arith V) (name : Identifier) : Bool :=
  (find_constant A name).isSome

/-- Whether a name is reserved from assignment (`is_reserved_identifier`). -/
def is_reserved_identifier {V : Type} (A : Arith V) (name : Identifier) : Bool :=
  if name = "_" then true
  else is_constant A name || is_builtin_function A name

/-! ## evaluator.hpp, evaluator.cpp -/

/-- Evaluation result for a top-level query (`struct EvalResult`). -/
structure EvalResult (V : Type) where
  value : Option V
  info : Option String

/-- The evaluation context (`struct EvalContext`): the local overlay, present
only inside the body of a user function, and the definition flag. The overlay
is the map the pointer `locals` refers to. -/
structure EvalContext (V : Type) where
  locals : Option (VariableMap V)
  allow_function_definition : Bool

/-- What a call of the evaluator leaves behind: the value returned or the
exception thrown, the session state and the context (with its overlay) as the
call left them. -/
structure EvalOut (V : Type) (α : Type) where
  result : Except Error α
  state : State V
  ctx : EvalContext V

/-- Sequencing: run `next` on the value, state and context of a call that
returned; an exception propagates with the state reached. -/
def EvalOut.andThen {V α β : Type} (out : EvalOut V α)
    (next : α → State V → EvalContext V → EvalOut V β) : EvalOut V β :=
  match out.result with
  | .error err => ⟨.error err, out.state, out.ctx⟩
  | .ok value => next value out.state out.ctx

/-- An evaluation function `double(Expression&, State&, EvalContext&)`. -/
abbrev Evaluator (V : Type) := Expression V → State V → EvalContext V → EvalOut V V

/-- `join_params`: the parameter names separated by `", "`. The accumulator
is `result`, `index` the loop counter. -/
def join_params_from (result : String) (index : Nat) : Identifiers → String
  | [] => result
  | param :: rest =>
    join_params_from ((if index > 0 then result ++ ", " else result) ++ param) (index + 1) rest

/-- `join_params`. -/
def join_params (params : Identifiers) : String :=
  join_params_from "" 0 params

/-- `eval_binary`; `eval_value` is the function it calls on the operands. For
`/` and `%` the source evaluates the right operand in a statement of its own
before the left one. For the other operators both calls stand in one C++
expression, which leaves their order to the compiler, and the embedding takes
the order in which the program built with GCC runs them: the two calls that
are the arguments of the one `std::pow` call of `^` last to first, the right
operand before the left one, and the two calls that are the operands of
`+ - *` and of a comparison operator first to last, the left operand before
the right one. -/
def eval_binary {V : Type} (A : Arith V) (eval_value : Evaluator V) (op : TType)
    (left : Expression V) (right : Expression V) (state : State V) (ctx : EvalContext V) :
    EvalOut V V :=
  let both (f : V → V → V) : EvalOut V V :=
    (eval_value left state ctx).andThen fun a state ctx =>
      (eval_value right state ctx).andThen fun b state ctx => ⟨.ok (f a b), state, ctx⟩
  match op with
  | .Plus => both A.add
  | .Minus => both A.sub
  | .Star => both A.mul
  | .Slash =>
    (eval_value right state ctx).andThen fun rhs state ctx =>
      if A.eq rhs (A.ofNat 0) then ⟨.error (.EvalError "Division by zero"), state, ctx⟩
      else (eval_value left state ctx).andThen fun lhs state ctx =>
        ⟨.ok (A.div lhs rhs), state, ctx⟩
  | .Percent =>
    (eval_value right state ctx).andThen fun rhs state ctx =>
      if A.eq rhs (A.ofNat 0) then ⟨.error (.EvalError "Modulo by zero"), state, ctx⟩
      else (eval_value left state ctx).andThen fun lhs state ctx =>
        ⟨.ok (A.cmath2 "fmod" lhs rhs), state, ctx⟩
  | .Caret =>
    (eval_value right state ctx).andThen fun b state ctx =>
      (eval_value left state ctx).andThen fun a state ctx =>
        ⟨.ok (A.cmath2 "pow" a b), state, ctx⟩
  | .Less => both fun a b => A.ofBool (A.lt a b)
  | .LessEqual => both fun a b => A.ofBool (A.le a b)
  | .Greater => both fun a b => A.ofBool (A.gt a b)
  | .GreaterEqual => both fun a b => A.ofBool (A.ge a b)
  | .EqualEqual => both fun a b => A.ofBool (A.eq a b)
  | .BangEqual => both fun a b => A.ofBool (A.ne a b)
  | .Equals =>
    match left with
    | .Variable name =>
      if is_reserved_identifier A name then
        ⟨.error (.EvalError ("'" ++ name ++ "' is read-only")), state, ctx⟩
      else
        (eval_value right state ctx).andThen fun value state ctx =>
          match ctx.locals with
          | some locals => ⟨.ok value, state, { ctx with locals := some (map_set locals name value) }⟩
          | none => ⟨.ok value, { state with vars := map_set state.vars name value }, ctx⟩
    | _ => ⟨.error (.EvalError "Left side of '=' must be a variable name"), state, ctx⟩
  | _ => ⟨.error (.EvalError "Invalid or unsupported operator type"), state, ctx⟩

/-- The loop of `eval_function_call` that evaluates the arguments of a
built-in, first to last, and collects their values. -/
def eval_args {V : Type} (eval_value : Evaluator V) :
    List (Expression V) → State V → EvalContext V → EvalOut V (List V)
  | [], state, ctx => ⟨.ok [], state, ctx⟩
  | arg :: rest, state, ctx =>
    (eval_value arg state ctx).andThen fun value state ctx =>
      (eval_args eval_value rest state ctx).andThen fun values state ctx =>
        ⟨.ok (value :: values), state, ctx⟩

/-- The loop of `eval_function_call` that binds the parameters of a user
function: `locals[params[index]] = eval_value(*args[index], state, ctx)` for
every index. It runs after the check that both lists have the same length. -/
def bind_params {V : Type} (eval_value : Evaluator V) :
    Identifiers → List (Expression V) → VariableMap V → State V → EvalContext V →
      EvalOut V (VariableMap V)
  | param :: params, arg :: args, locals, state, ctx =>
    (eval_value arg state ctx).andThen fun value state ctx =>
      bind_params eval_value params args (map_set locals param value) state ctx
  | _, _, locals, state, ctx => ⟨.ok locals, state, ctx⟩

/-- `eval_function_call`; `eval_value` is the function it calls on the
arguments and on the body. -/
def eval_function_call {V : Type} (A : Arith V) (eval_value : Evaluator V)
    (name : Identifier) (args : List (Expression V)) (state : State V) (ctx : EvalContext V) :
    EvalOut V V :=
  match find_builtin A name with
  | some spec =>
    if args.length ≠ spec.arity then
      ⟨.error (.EvalError ("Function '" ++ name ++ "' expects " ++ toString spec.arity
        ++ " arguments, got " ++ toString args.length)), state, ctx⟩
    else
      (eval_args eval_value args state ctx).andThen fun values state ctx =>
        ⟨spec.fn values, state, ctx⟩
  | none =>
    match state.fns name with
    | none => ⟨.error (.EvalError ("Function '" ++ name ++ "' not defined")), state, ctx⟩
    | some fn_obj =>
      if args.length ≠ fn_obj.params.length then
        ⟨.error (.EvalError ("Function '" ++ name ++ "' expects "
          ++ toString fn_obj.params.length ++ " arguments, got " ++ toString args.length)),
          state, ctx⟩
      else
        (bind_params eval_value fn_obj.params args (fun _ => none) state ctx).andThen
          fun locals state ctx =>
            let body := eval_value fn_obj.expr state ⟨some locals, false⟩
            ⟨body.result, body.state, ctx⟩

/-- `eval_ternary`. -/
def eval_ternary {V : Type} (A : Arith V) (eval_value : Evaluator V)
    (condition : Expression V) (then_branch : Expression V) (else_branch : Expression V)
    (state : State V) (ctx : EvalContext V) : EvalOut V V :=
  (eval_value condition state ctx).andThen fun condition state ctx =>
    if A.ne condition (A.ofNat 0) then eval_value then_branch state ctx
    else eval_value else_branch state ctx

/-- The `Variable` case of `eval_value`: the local overlay, then `_`, then the
session variables, then the constants. -/
def eval_variable {V : Type} (A : Arith V) (name : Identifier) (state : State V)
    (ctx : EvalContext V) : EvalOut V V :=
  match ctx.locals.bind (fun locals => locals name) with
  | some value => ⟨.ok value, state, ctx⟩
  | none =>
    if name = "_" then
      if !state.has_last_result then
        ⟨.error (.EvalError "No previous result available for '_'"), state, ctx⟩
      else ⟨.ok state.last_result, state, ctx⟩
    else
      match state.vars name with
      | some value => ⟨.ok value, state, ctx⟩
      | none =>
        match find_constant A name with
        | some value => ⟨.ok value, state, ctx⟩
        | none => ⟨.error (.EvalError ("Variable '" ++ name ++ "' not defined")), state, ctx⟩

/-- `eval_value`. `fuel` bounds the depth of nested calls of `eval_value`,
which the C++ code bounds by its call stack. -/
def eval_value {V : Type} (A : Arith V) :
    Nat → Expression V → State V → EvalContext V → EvalOut V V
  | 0, _, state, ctx => ⟨.error .OutOfFuel, state, ctx⟩
  | fuel + 1, expr, state, ctx =>
    match expr with
    | .Number value => ⟨.ok value, state, ctx⟩
    | .Variable name => eval_variable A name state ctx
    | .Unary op right =>
      (eval_value A fuel right state ctx).andThen fun value state ctx =>
        ⟨.ok (if op = TType.Plus then value else A.neg value), state, ctx⟩
    | .Binary op left right => eval_binary A (eval_value A fuel) op left right state ctx
    | .FnCall name args => eval_function_call A (eval_value A fuel) name args state ctx
    | .Ternary condition then_branch else_branch =>
      eval_ternary A (eval_value A fuel) condition then_branch else_branch state ctx

/-- The loop of `define_function` over the arguments of the call pattern:
each must be a variable whose name is neither reserved nor already seen. -/
def collect_params {V : Type} (A : Arith V) :
    List (Expression V) → Identifiers → Except Error Identifiers
  | [], params => .ok params
  | arg :: rest, params =>
    match arg with
    | .Variable name =>
      if is_reserved_identifier A name then
        .error (.EvalError ("'" ++ name ++ "' is read-only"))
      else if params.contains name then
        .error (.EvalError ("Duplicate parameter '" ++ name ++ "'"))
      else collect_params A rest (params ++ [name])
    | _ => .error (.EvalError "Function parameters must be identifiers")

/-- `define_function`, on the operands of the `=` node. -/
def define_function {V : Type} (A : Arith V) (left : Expression V) (right : Expression V)
    (state : State V) : Except Error (EvalResult V) × State V :=
  match left with
  | .FnCall name args =>
    if is_reserved_identifier A name then
      (.error (.EvalError ("'" ++ name ++ "' is read-only")), state)
    else
      match collect_params A args [] with
      | .error err => (.error err, state)
      | .ok params =>
        (.ok ⟨none, some ("Defined " ++ name ++ "(" ++ join_params params ++ ")")⟩,
          { state with fns := map_set state.fns name ⟨params, right⟩ })
  | _ => (.error (.EvalError "Invalid function definition"), state)

/-- Whether an expression is a `FnCall` node (`type == EType::FnCall`). -/
def Expression.isFnCall {V : Type} (expr : Expression V) : Bool :=
  expr.type = EType.FnCall

/-- `evaluate`: a root `=` whose left side is a call defines a function; any
other expression is evaluated to a value, with no local overlay. -/
def evaluate {V : Type} (A : Arith V) (fuel : Nat) (expr : Expression V) (state : State V) :
    Except Error (EvalResult V) × State V :=
  match expr with
  | .Binary .Equals (.FnCall name args) right =>
    define_function A (.FnCall name args) right state
  | _ =>
    let out := eval_value A fuel expr state ⟨none, true⟩
    match out.result with
    | .error err => (.error err, out.state)
    | .ok value => (.ok ⟨some value, none⟩, out.state)

/-- `process_query`: tokenize, parse, evaluate, and record a numeric result
as the last result. -/
def process_query {V : Type} (A : Arith V) (fuel : Nat) (input : String) (state : State V) :
    Except Error (EvalResult V) × State V :=
  match tokenize A input with
  | .error err => (.error err, state)
  | .ok tokens =>
    match parse tokens with
    | .error err => (.error err, state)
    | .ok expr =>
      match evaluate A fuel expr state with
      | (.error err, state) => (.error err, state)
      | (.ok result, state) =>
        match result.value with
        | some value => (.ok result, { state with last_result := value, has_last_result := true })
        | none => (.ok result, state)

/-! ## Facts about `double` used for concrete queries -/

/-- The number a string of decimal digits denotes. -/
def decimal_value (text : List Char) : Nat :=
  text.foldl (fun acc ch => 10 * acc + (ch.toNat - '0'.toNat)) 0

/-- Every natural number up to `2 ^ 53` is a `double`. -/
def max_exact : Nat := 2 ^ 53

/-- Arithmetic on small natural numbers is exact: what IEEE-754 binary64 (with
a `pow` that returns the exact result when it is representable) guarantees
as long as operands and results do not exceed `2 ^ 53`. Theorems about the
numeric value of a concrete query assume this of the arithmetic and nothing
else. -/
structure Arith.ExactOnNat {V : Type} (A : Arith V) : Prop where
  stod_digits : ∀ text : List Char, text ≠ [] → (∀ ch ∈ text, is_digit ch = true) →
    decimal_value text ≤ max_exact → A.stod text = some (A.ofNat (decimal_value text))
  add_nat : ∀ a b : Nat, a + b ≤ max_exact → A.add (A.ofNat a) (A.ofNat b) = A.ofNat (a + b)
  sub_nat : ∀ a b : Nat, b ≤ a → a ≤ max_exact →
    A.sub (A.ofNat a) (A.ofNat b) = A.ofNat (a - b)
  mul_nat : ∀ a b : Nat, a * b ≤ max_exact → A.mul (A.ofNat a) (A.ofNat b) = A.ofNat (a * b)
  pow_nat : ∀ a b : Nat, a ^ b ≤ max_exact →
    A.cmath2 "pow" (A.ofNat a) (A.ofNat b) = A.ofNat (a ^ b)
  lt_nat : ∀ a b : Nat, a ≤ max_exact → b ≤ max_exact →
    A.lt (A.ofNat a) (A.ofNat b) = decide (a < b)
  le_nat : ∀ a b : Nat, a ≤ max_exact → b ≤ max_exact →
    A.le (A.ofNat a) (A.ofNat b) = decide (a ≤ b)
  gt_nat : ∀ a b : Nat, a ≤ max_exact → b ≤ max_exact →
    A.gt (A.ofNat a) (A.ofNat b) = decide (a > b)
  ge_nat : ∀ a b : Nat, a ≤ max_exact → b ≤ max_exact →
    A.ge (A.ofNat a) (A.ofNat b) = decide (a ≥ b)
  eq_nat : ∀ a b : Nat, a ≤ max_exact → b ≤ max_exact →
    A.eq (A.ofNat a) (A.ofNat b) = decide (a = b)
  ne_nat : ∀ a b : Nat, a ≤ max_exact → b ≤ max_exact →
    A.ne (A.ofNat a) (A.ofNat b) = decide (a ≠ b)

/-- The rational number a number text denotes: digits, at most one `.`, digits. -/
def rat_stod (text : List Char) : Option ℚ :=
  let whole := text.takeWhile (fun ch => ch ≠ '.')
  let fraction := (text.dropWhile (fun ch => ch ≠ '.')).drop 1
  some ((decimal_value whole : ℚ) + (decimal_value fraction : ℚ) / 10 ^ fraction.length)

/-- Truncation of a rational towards zero. -/
def rat_trunc (q : ℚ) : ℤ :=
  if 0 ≤ q then ⌊q⌋ else ⌈q⌉

/-- Exact arithmetic on the rationals: an arithmetic in which small natural
numbers behave as they do in `double`, which shows that `Arith.ExactOnNat`
can be met. The functions of `<cmath>` that leave the rationals are given
the value 0. -/
def Arith.rat : Arith ℚ where
  ofNat n := (n : ℚ)
  stod := rat_stod
  add a b := a + b
  sub a b := a - b
  mul a b := a * b
  div a b := a / b
  neg a := -a
  lt a b := decide (a < b)
  le a b := decide (a ≤ b)
  gt a b := decide (a > b)
  ge a b := decide (a ≥ b)
  eq a b := decide (a = b)
  ne a b := decide (a ≠ b)
  cmath1 name x :=
    if name = "fabs" then |x|
    else if name = "floor" then (⌊x⌋ : ℚ)
    else if name = "ceil" then (⌈x⌉ : ℚ)
    else if name = "trunc" then (rat_trunc x : ℚ)
    else 0
  cmath2 name x y :=
    if name = "pow" then (if y.den = 1 then x ^ y.num else 0)
    else if name = "fmod" then x - y * (rat_trunc (x / y) : ℚ)
    else 0
  pi := 884279719003555 / 281474976710656
  e := 6121026514868073 / 2251799813685248

/-! ## Vocabulary of the statements -/

/-- A primary operand of the grammar that is a single token: a number or an
identifier. -/
inductive Operand (V : Type) where
  | number (value : V)
  | identifier (name : Identifier)

/-- The token of an operand. -/
def Operand.token {V : Type} : Operand V → Token V
  | .number value => Token.number value
  | .identifier name => Token.identifier name

/-- The node an operand stands for: `Number` or `Variable`. -/
def Operand.expr {V : Type} : Operand V → Expression V
  | .number value => .Number value
  | .identifier name => .Variable name

/-- The local overlay `{p1 -> v1, ..., pn -> vn}`: the empty map in which each
parameter in turn is bound to the value at its position. -/
def overlay {V : Type} (params : Identifiers) (values : List V) : VariableMap V :=
  (params.zip values).foldl (fun locals pv => map_set locals pv.1 pv.2) (fun _ => none)

/-- The body of `square(x) = x * x`. -/
def square_body {V : Type} : Expression V :=
  .Binary .Star (.Variable "x") (.Variable "x")

/-- An outcome that left the session state `state` as it was and still has a
local overlay. -/
def EvalOut.Isolated {V α : Type} (out : EvalOut V α) (state : State V) : Prop :=
  out.state = state ∧ out.ctx.locals.isSome = true

/-- An evaluator that, under a local overlay, leaves the session state as it
was and keeps an overlay. -/
def Evaluator.Isolated {V : Type} (ev : Evaluator V) : Prop :=
  ∀ expr state ctx, ctx.locals.isSome = true → (ev expr state ctx).Isolated state

/-- An evaluator that keeps a property of the session state. -/
def Evaluator.Preserves {V : Type} (P : State V → Prop) (ev : Evaluator V) : Prop :=
  ∀ expr state ctx, P state → P (ev expr state ctx).state

/-- No key of `vars` and no key of `fns` is a reserved identifier. -/
def State.NoReservedKeys {V : Type} (A : Arith V) (state : State V) : Prop :=
  ∀ name, is_reserved_identifier A name = true →
    state.vars name = none ∧ state.fns name = none

/-- The states reachable from a default-constructed `State` by a finite
sequence of `process_query` calls, on any inputs and with any budgets, failed
calls included. -/
inductive Reachable {V : Type} (A : Arith V) : State V → Prop where
  | init : Reachable A (State.init A)
  | query (fuel : Nat) (input : String) (state : State V) :
      Reachable A state → Reachable A (process_query A fuel input state).2

/-- The reserved identifiers, by name: `_`, the constants and the built-ins. -/
def reserved_names : List Identifier :=
  ["_", "pi", "e", "tau", "sin", "cos", "tan", "asin", "acos", "atan", "sinh", "cosh", "tanh",
    "asinh", "acosh", "atanh", "sqrt", "cbrt", "exp", "ln", "log", "log2", "abs", "floor",
    "ceil", "round", "trunc", "pow", "fmod", "atan2"]

/-- A call of `eval_value`: the budget and the three arguments. -/
structure Call (V : Type) where
  fuel : Nat
  expr : Expression V
  state : State V
  ctx : EvalContext V

/-- What a call returns. -/
def Call.run {V : Type} (A : Arith V) (call : Call V) : EvalOut V V :=
  eval_value A call.fuel call.expr call.state call.ctx

/-- The binary operators whose left operand `eval_binary` evaluates first. -/
def left_first : TType → Bool
  | .Plus | .Minus | .Star | .Less | .LessEqual | .Greater | .GreaterEqual
  | .EqualEqual | .BangEqual => true
  | _ => false

/-- The binary operators whose right operand `eval_binary` evaluates first and
compares with zero before it evaluates the left one. -/
def right_first : TType → Bool
  | .Slash | .Percent => true
  | _ => false

/-- The calls of `eval_value` that a call of `eval_value` makes itself, read
off the control flow of `eval_value`, `eval_binary`, `eval_ternary` and
`eval_function_call`: which sub-expression is evaluated, in which state and
context, and under which condition on what was evaluated before it. -/
inductive DirectCall {V : Type} (A : Arith V) : Call V → Call V → Prop where
  | unary (fuel : Nat) (op : TType) (right : Expression V) (state : State V)
      (ctx : EvalContext V) :
      DirectCall A ⟨fuel + 1, .Unary op right, state, ctx⟩ ⟨fuel, right, state, ctx⟩
  | first_left (fuel : Nat) (op : TType) (left right : Expression V) (state : State V)
      (ctx : EvalContext V) : left_first op = true →
      DirectCall A ⟨fuel + 1, .Binary op left right, state, ctx⟩ ⟨fuel, left, state, ctx⟩
  | then_right (fuel : Nat) (op : TType) (left right : Expression V) (state state1 : State V)
      (ctx ctx1 : EvalContext V) (a : V) : left_first op = true →
      eval_value A fuel left state ctx = ⟨.ok a, state1, ctx1⟩ →
      DirectCall A ⟨fuel + 1, .Binary op left right, state, ctx⟩ ⟨fuel, right, state1, ctx1⟩
  | first_right (fuel : Nat) (op : TType) (left right : Expression V) (state : State V)
      (ctx : EvalContext V) : right_first op = true →
      DirectCall A ⟨fuel + 1, .Binary op left right, state, ctx⟩ ⟨fuel, right, state, ctx⟩
  | then_left (fuel : Nat) (op : TType) (left right : Expression V) (state state1 : State V)
      (ctx ctx1 : EvalContext V) (rhs : V) : right_first op = true →
      eval_value A fuel right state ctx = ⟨.ok rhs, state1, ctx1⟩ →
      A.eq rhs (A.ofNat 0) = false →
      DirectCall A ⟨fuel + 1, .Binary op left right, state, ctx⟩ ⟨fuel, left, state1, ctx1⟩
  | first_exponent (fuel : Nat) (left right : Expression V) (state : State V)
      (ctx : EvalContext V) :
      DirectCall A ⟨fuel + 1, .Binary .Caret left right, state, ctx⟩ ⟨fuel, right, state, ctx⟩
  | then_base (fuel : Nat) (left right : Expression V) (state state1 : State V)
      (ctx ctx1 : EvalContext V) (b : V) :
      eval_value A fuel right state ctx = ⟨.ok b, state1, ctx1⟩ →
      DirectCall A ⟨fuel + 1, .Binary .Caret left right, state, ctx⟩ ⟨fuel, left, state1, ctx1⟩
  | assigned (fuel : Nat) (name : Identifier) (right : Expression V) (state : State V)
      (ctx : EvalContext V) : is_reserved_identifier A name = false →
      DirectCall A ⟨fuel + 1, .Binary .Equals (.Variable name) right, state, ctx⟩
        ⟨fuel, right, state, ctx⟩
  | condition (fuel : Nat) (condition then_branch else_branch : Expression V)
      (state : State V) (ctx : EvalContext V) :
      DirectCall A ⟨fuel + 1, .Ternary condition then_branch else_branch, state, ctx⟩
        ⟨fuel, condition, state, ctx⟩
  | then_branch (fuel : Nat) (condition then_branch else_branch : Expression V)
      (state state1 : State V) (ctx ctx1 : EvalContext V) (value : V) :
      eval_value A fuel condition state ctx = ⟨.ok value, state1, ctx1⟩ →
      A.ne value (A.ofNat 0) = true →
      DirectCall A ⟨fuel + 1, .Ternary condition then_branch else_branch, state, ctx⟩
        ⟨fuel, then_branch, state1, ctx1⟩
  | else_branch (fuel : Nat) (condition then_branch else_branch : Expression V)
      (state state1 : State V) (ctx ctx1 : EvalContext V) (value : V) :
      eval_value A fuel condition state ctx = ⟨.ok value, state1, ctx1⟩ →
      A.ne value (A.ofNat 0) = false →
      DirectCall A ⟨fuel + 1, .Ternary condition then_branch else_branch, state, ctx⟩
        ⟨fuel, else_branch, state1, ctx1⟩
  | builtin_arg (fuel : Nat) (name : Identifier) (before : List (Expression V))
      (arg : Expression V) (after : List (Expression V)) (state state1 : State V)
      (ctx ctx1 : EvalContext V) (spec : BuiltinSpec V) (values : List V) :
      find_builtin A name = some spec → (before ++ arg :: after).length = spec.arity →
      eval_args (eval_value A fuel) before state ctx = ⟨.ok values, state1, ctx1⟩ →
      DirectCall A ⟨fuel + 1, .FnCall name (before ++ arg :: after), state, ctx⟩
        ⟨fuel, arg, state1, ctx1⟩
  | user_arg (fuel : Nat) (name : Identifier) (before : List (Expression V))
      (arg : Expression V) (after : List (Expression V)) (state state1 : State V)
      (ctx ctx1 : EvalContext V) (fn_obj : FnObj V) (values : List V) :
      find_builtin A name = none → state.fns name = some fn_obj →
      (before ++ arg :: after).length = fn_obj.params.length →
      eval_args (eval_value A fuel) before state ctx = ⟨.ok values, state1, ctx1⟩ →
      DirectCall A ⟨fuel + 1, .FnCall name (before ++ arg :: after), state, ctx⟩
        ⟨fuel, arg, state1, ctx1⟩
  | user_body (fuel : Nat) (name : Identifier) (args : List (Expression V))
      (state state1 : State V) (ctx ctx1 : EvalContext V) (fn_obj : FnObj V)
      (values : List V) :
      find_builtin A name = none → state.fns name = some fn_obj →
      args.length = fn_obj.params.length →
      eval_args (eval_value A fuel) args state ctx = ⟨.ok values, state1, ctx1⟩ →
      DirectCall A ⟨fuel + 1, .FnCall name args, state, ctx⟩
        ⟨fuel, fn_obj.expr, state1, ⟨some (overlay fn_obj.params values), false⟩⟩

/-- The calls of `eval_value` made in the course of a call: the call itself,
the calls it makes, the calls those make, and so on. -/
def Evaluates {V : Type} (A : Arith V) : Call V → Call V → Prop :=
  Relation.ReflTransGen (DirectCall A)

/-- An evaluator that keeps a property of the evaluation context. -/
def Evaluator.PreservesCtx {V : Type} (Q : EvalContext V → Prop) (ev : Evaluator V) : Prop :=
  ∀ expr state ctx, Q ctx → Q (ev expr state ctx).ctx

/-- No parameter of a stored user function is a reserved identifier. -/
def State.ParamsNotReserved {V : Type} (A : Arith V) (state : State V) : Prop :=
  ∀ name fn_obj, state.fns name = some fn_obj →
    ∀ param ∈ fn_obj.params, is_reserved_identifier A param = false

/-- The local overlay, when there is one, binds no reserved identifier. -/
def EvalContext.NoReservedLocals {V : Type} (A : Arith V) (ctx : EvalContext V) : Prop :=
  ∀ locals, ctx.locals = some locals →
    ∀ name, is_reserved_identifier A name = true → locals name = none

/-- The body of `fact(n) = n <= 1 ? 1 : n * fact(n - 1)`, with `one` the value
of the literal `1`. -/
def fact_body {V : Type} (one : V) : Expression V :=
  .Ternary (.Binary .LessEqual (.Variable "n") (.Number one)) (.Number one)
    (.Binary .Star (.Variable "n")
      (.FnCall "fact" [.Binary .Minus (.Variable "n") (.Number one)]))

/-- Whether no branch of the lexer takes the character at a token start. -/
def unclassifiable (c : Char) : Bool :=
  !(is_space c || is_alpha c || is_digit c || c = '_' || c = '.'
    || "+-*/%^(),?:=!<>".toList.contains c)

/-- One iteration of the `for` loop of `tokenize` at the character `c`, with
`rest` the input after it: the token pushed (none for whitespace), the number
of characters consumed, and the input that is left. The loop is this step
repeated (`tokenize_loop_step`). -/
def lex_one {V : Type} (A : Arith V) (c : Char) (rest : List Char) (pos : Nat) :
    Except Error (Option (Token V) × Nat × List Char) :=
  if is_space c then .ok (none, 1, rest)
  else if c = '+' then .ok (some (Token.op .Plus), 1, rest)
  else if c = '-' then .ok (some (Token.op .Minus), 1, rest)
  else if c = '*' then .ok (some (Token.op .Star), 1, rest)
  else if c = '/' then .ok (some (Token.op .Slash), 1, rest)
  else if c = '%' then .ok (some (Token.op .Percent), 1, rest)
  else if c = '^' then .ok (some (Token.op .Caret), 1, rest)
  else if c = '(' then .ok (some (Token.op .LParen), 1, rest)
  else if c = ')' then .ok (some (Token.op .RParen), 1, rest)
  else if c = ',' then .ok (some (Token.op .Comma), 1, rest)
  else if c = '?' then .ok (some (Token.op .Question), 1, rest)
  else if c = ':' then .ok (some (Token.op .Colon), 1, rest)
  else if c = '=' then
    if next_is_equals rest then .ok (some (Token.op .EqualEqual), 2, rest.drop 1)
    else .ok (some (Token.op .Equals), 1, rest)
  else if c = '!' then
    if next_is_equals rest then .ok (some (Token.op .BangEqual), 2, rest.drop 1)
    else
      .error (.ParseError
        ("Unexpected '!' at position " ++ toString pos ++ ". Did you mean '!='?"))
  else if c = '<' then
    if next_is_equals rest then .ok (some (Token.op .LessEqual), 2, rest.drop 1)
    else .ok (some (Token.op .Less), 1, rest)
  else if c = '>' then
    if next_is_equals rest then .ok (some (Token.op .GreaterEqual), 2, rest.drop 1)
    else .ok (some (Token.op .Greater), 1, rest)
  else if is_digit c || (c = '.' && next_is_digit rest) then
    match A.stod (scan_number (c :: rest) false).1 with
    | none => .error .OutOfRange
    | some value =>
      .ok (some (Token.number value), (scan_number (c :: rest) false).1.length,
        (scan_number (c :: rest) false).2)
  else if is_alpha c || c = '_' then
    .ok (some (Token.identifier (String.mk (scan_identifier (c :: rest)).1)),
      (scan_identifier (c :: rest)).1.length, (scan_identifier (c :: rest)).2)
  else
    .error (.ParseError
      ("Could not parse character '" ++ String.singleton c ++ "' at position "
        ++ toString pos))

/-- The cases of one iteration of the lexer at the character `c` followed by
`rest`, as a relation between the input and the outcome of `lex_one`
(`lex_one_iff`). -/
inductive LexStep {V : Type} (A : Arith V) (c : Char) (rest : List Char) (pos : Nat) :
    Except Error (Option (Token V) × Nat × List Char) → Prop
  | space : is_space c = true → LexStep A c rest pos (.ok (none, 1, rest))
  | single (type : TType) :
      (c, type) ∈ [('+', TType.Plus), ('-', .Minus), ('*', .Star), ('/', .Slash),
        ('%', .Percent), ('^', .Caret), ('(', .LParen), (')', .RParen), (',', .Comma),
        ('?', .Question), (':', .Colon)] →
      LexStep A c rest pos (.ok (some (Token.op type), 1, rest))
  | double (type : TType) (rest1 : List Char) :
      (c, type) ∈ [('=', TType.EqualEqual), ('!', .BangEqual), ('<', .LessEqual),
        ('>', .GreaterEqual)] →
      rest = '=' :: rest1 → LexStep A c rest pos (.ok (some (Token.op type), 2, rest1))
  | lone (type : TType) :
      (c, type) ∈ [('=', TType.Equals), ('<', .Less), ('>', .Greater)] →
      next_is_equals rest = false →
      LexStep A c rest pos (.ok (some (Token.op type), 1, rest))
  | bang : c = '!' → next_is_equals rest = false →
      LexStep A c rest pos (.error (.ParseError
        ("Unexpected '!' at position " ++ toString pos ++ ". Did you mean '!='?")))
  | number (value : V) : (is_digit c = true ∨ (c = '.' ∧ next_is_digit rest = true)) →
      A.stod (scan_number (c :: rest) false).1 = some value →
      LexStep A c rest pos (.ok (some (Token.number value),
        (scan_number (c :: rest) false).1.length, (scan_number (c :: rest) false).2))
  | range : (is_digit c = true ∨ (c = '.' ∧ next_is_digit rest = true)) →
      A.stod (scan_number (c :: rest) false).1 = none →
      LexStep A c rest pos (.error .OutOfRange)
  | identifier : (is_alpha c = true ∨ c = '_') →
      LexStep A c rest pos
        (.ok (some (Token.identifier (String.mk (scan_identifier (c :: rest)).1)),
          (scan_identifier (c :: rest)).1.length, (scan_identifier (c :: rest)).2))
  | unknown : (unclassifiable c = true ∨ (c = '.' ∧ next_is_digit rest = false)) →
      LexStep A c rest pos (.error (.ParseError
        ("Could not parse character '" ++ String.singleton c ++ "' at position "
          ++ toString pos)))

/-- Whether the character `c`, put right after the character `p`, may be read
as part of the token that `p` ends or as its lookahead: a letter, digit, `_`
or `.` after one of these, or `=` after `=`, `<` or `>`. -/
def glues (p c : Char) : Bool :=
  ((is_alnum p || p = '_' || p = '.') && (is_alnum c || c = '_' || c = '.'))
    || ((p = '=' || p = '<' || p = '>') && c = '=')

/-- The text `post` may follow the text `pre` without changing how `pre` is
read: one of them is empty, or the first character of `post` does not glue to
the last character of `pre`. -/
def Boundary (pre post : List Char) : Prop :=
  ∀ p ∈ pre.getLast?, ∀ c ∈ post.head?, glues p c = false

/-- Exact rational arithmetic with the range of `double` for number literals.
`std::stod` throws `std::out_of_range` when the value of the text is out of
the range of `double`; every value of `2 ^ 1024` or more is, and this
arithmetic rejects exactly the texts of such a value. -/
def Arith.rat_range : Arith ℚ :=
  { Arith.rat with
    stod := fun text =>
      match rat_stod text with
      | some q => if q < 2 ^ 1024 then some q else none
      | none => none }

/-- The tokens of a stream that are not consumed yet, `tokens_[pos_ ..]`. -/
def TokenStream.rest {V : Type} (s : TokenStream V) : Tokens V :=
  s.tokens_.drop s.pos_

/-- A token as the specification defines it and as `Token::number`,
`Token::identifier` and the lexer build it: a Number token carries a number
and an Identifier token carries a name. The payload of any other token is
not read. -/
def Token.well_formed {V : Type} (token : Token V) : Bool :=
  match token.type, token.data with
  | .Number, .number _ => true
  | .Number, _ => false
  | .Identifier, .identifier _ => true
  | .Identifier, _ => false
  | _, _ => true

/-- A list of tokens in which a Question token is never without a Colon token:
if some token has type Question, some token has type Colon. -/
def question_has_colon {V : Type} (tokens : Tokens V) : Prop :=
  (∃ t ∈ tokens, t.type = TType.Question) → ∃ t ∈ tokens, t.type = TType.Colon

/-- The token types that no parsing function takes as a continuation of a
complete expression: Number, Identifier, RParen, Colon and Comma. -/
def stopper (type : TType) : Bool :=
  type = .Number || type = .Identifier || type = .RParen || type = .Colon || type = .Comma

/-- The stream after `get` on a stream that is not exhausted: the cursor is
one token further. -/
def TokenStream.next {V : Type} (s : TokenStream V) : TokenStream V :=
  { s with pos_ := s.pos_ + 1 }

/-- A stream all of whose remaining tokens are well formed. -/
def TokenStream.well_formed {V : Type} (s : TokenStream V) : Prop :=
  ∀ t ∈ s.rest, t.well_formed = true

/-- The stream `s1` is `s` after the consumption of at least one token, and
among the tokens consumed a Question token is never without a Colon token. -/
def Consumes {V : Type} (s s1 : TokenStream V) : Prop :=
  ∃ consumed, consumed ≠ [] ∧ s.rest = consumed ++ s1.rest ∧ question_has_colon consumed

/-- The stream `s1` is `s` after the consumption of some tokens, possibly none,
and among the tokens consumed a Question token is never without a Colon
token. -/
def Consumes0 {V : Type} (s s1 : TokenStream V) : Prop :=
  ∃ consumed, s.rest = consumed ++ s1.rest ∧ question_has_colon consumed

/-- How a parsing function may fail on the stream `s` under the nesting bound
`depth`: with a ParseError; with the `std::bad_variant_access` of `Token::get`,
on a stream that holds a token that is not well formed; or by running out of
the nesting bound, on a stream of at least `depth` tokens. -/
def ParseFailure {V : Type} (err : Error) (depth : Nat) (s : TokenStream V) : Prop :=
  err.isParseError = true ∨ (err = .BadVariantAccess ∧ ¬ s.well_formed)
    ∨ (err = .OutOfFuel ∧ depth ≤ s.rest.length)

/-- A parsing function that, on every stream, either returns after consuming
at least one token, with every Question token it consumed matched by a Colon
token, or fails as `ParseFailure` describes. -/
def Parser.Good {V : Type} (p : Parser V) (depth : Nat) : Prop :=
  ∀ s : TokenStream V,
    (∀ e s1, p s = .ok (e, s1) → Consumes s s1)
    ∧ (∀ err, p s = .error err → ParseFailure err depth s)

/-- The part of an iteration of `abstract_parse` that follows its first
operand `left`, with `steps` the bound left for the calls it makes
(`abstract_parse_steps_succ`). -/
def abstract_parse_tail {V : Type} (parser : Parser V) (is_operator : Token V → Bool)
    (assoc : Associativity) (steps : Nat) (left : Expression V) (stream : TokenStream V) :
    ParseResult V (Expression V) :=
  if stream.empty then .ok (left, stream)
  else
  match stream.peek.1 with
  | .error err => .error err
  | .ok token =>
    if is_operator token then
      match stream.get with
      | (.error err, _) => .error err
      | (.ok op, stream) =>
        if assoc = Associativity.Right then
          match abstract_parse_steps parser is_operator assoc steps stream none with
          | .error err => .error err
          | .ok (right, stream) => .ok (.Binary op.type left right, stream)
        else
          match parser stream with
          | .error err => .error err
          | .ok (right, stream) =>
            abstract_parse_steps parser is_operator assoc steps stream
              (some (.Binary op.type left right))
    else .ok (left, stream)

/-- A list of tokens that is empty or starts with a stopper token. -/
def Stops {V : Type} (suffix : Tokens V) : Prop :=
  ∀ t ∈ suffix.head?, stopper t.type = true

/-- The parsing function `q` does on a stream followed by further tokens
`suffix` what `p` does on the stream alone, whenever `p` returns and `suffix`
is empty or starts with a stopper token: it returns the same node and leaves
what `p` leaves, followed by `suffix`. -/
def Parser.Extends {V : Type} (p q : Parser V) : Prop :=
  ∀ (s s2 : TokenStream V) (suffix : Tokens V) (e : Expression V) (s1 : TokenStream V),
    s2.rest = s.rest ++ suffix → Stops suffix → p s = .ok (e, s1) →
    ∃ s3, q s2 = .ok (e, s3) ∧ s3.rest = s1.rest ++ suffix

/-- Whether `evaluate` takes the expression for a function definition: the
root is an `=` node whose left side is a function-call node
(`expr.type == EType::Binary`, `node.op == TType::Equals`,
`node.left->type == EType::FnCall`). -/
def Expression.is_definition {V : Type} : Expression V → Bool
  | .Binary .Equals (.FnCall _ _) _ => true
  | _ => false

/-- An evaluator all of whose failures are of a kind `Q`. -/
def Evaluator.FailsWith {V : Type} (Q : Error → Prop) (ev : Evaluator V) : Prop :=
  ∀ expr state ctx err, (ev expr state ctx).result = .error err → Q err

/-- The parenthesis depth after a run of tokens read from depth `depth`, as
the argument scan of `parse_fn_args` counts it: LParen raises it, RParen
lowers it. There is none when the run holds an RParen at depth 0 or a Comma
at depth 0, the two tokens that end an argument. -/
def paren_walk {V : Type} : Tokens V → Nat → Option Nat
  | [], depth => some depth
  | token :: rest, depth =>
    if token.type = TType.LParen then paren_walk rest (depth + 1)
    else if token.type = TType.RParen then
      if depth = 0 then none else paren_walk rest (depth - 1)
    else if token.type = TType.Comma ∧ depth = 0 then none
    else paren_walk rest depth

/-- A run of tokens whose parentheses match and whose commas all stand inside
parentheses. -/
def Balanced {V : Type} (tokens : Tokens V) : Prop :=
  paren_walk tokens 0 = some 0

/-- The stream `s1` is `s` after the consumption of a balanced run of tokens. -/
def Balances {V : Type} (s s1 : TokenStream V) : Prop :=
  ∃ consumed, s.rest = consumed ++ s1.rest ∧ Balanced consumed

/-- A parsing function that consumes a balanced run of tokens whenever it
returns. -/
def Parser.Balanced {V : Type} (p : Parser V) : Prop :=
  ∀ s e s1, p s = .ok (e, s1) → Balances s s1

/-- The argument token sequences of a call, separated by Comma tokens:
`a1 , a2 , ... , an`. -/
def join_args {V : Type} : List (Tokens V) → Tokens V
  | [] => []
  | [a] => a
  | a :: b :: rest => a ++ Token.op .Comma :: join_args (b :: rest)

/-- The tokens of a call `f ( a1 , a2 , ... , an )` with the argument token
sequences `args`. -/
def call_tokens {V : Type} (f : Identifier) (args : List (Tokens V)) : Tokens V :=
  Token.identifier f :: Token.op .LParen :: (join_args args ++ [Token.op .RParen])

/-! ## Theorems -/

section Theorems

variable {V : Type}

/-! ### The rational arithmetic is exact on small natural numbers -/

theorem is_digit_ne_dot (ch : Char) (h : is_digit ch = true) : ch ≠ '.' := by
  rintro rfl
  revert h
  decide

theorem takeWhile_digits (text : List Char) (h : ∀ ch ∈ text, is_digit ch = true) :
    text.takeWhile (fun ch => ch ≠ '.') = text ∧ text.dropWhile (fun ch => ch ≠ '.') = [] := by
  induction text with
  | nil => exact ⟨rfl, rfl⟩
  | cons c cs ih =>
    have hc : decide (c ≠ '.') = true := decide_eq_true (is_digit_ne_dot c (h c (by simp)))
    obtain ⟨h1, h2⟩ := ih (fun ch hch => h ch (by simp [hch]))
    constructor
    · rw [List.takeWhile_cons, hc, if_pos rfl, h1]
    · rw [List.dropWhile_cons, hc, if_pos rfl, h2]

theorem rat_stod_digits (text : List Char) (h : ∀ ch ∈ text, is_digit ch = true) :
    rat_stod text = some (decimal_value text : ℚ) := by
  obtain ⟨h1, h2⟩ := takeWhile_digits text h
  unfold rat_stod
  rw [h1, h2]
  simp [decimal_value]

theorem Arith.rat_exactOnNat : Arith.rat.ExactOnNat where
  stod_digits text _ h _ := rat_stod_digits text h
  add_nat a b _ := by simp [Arith.rat]
  sub_nat a b h _ := by simp [Arith.rat, Nat.cast_sub h]
  mul_nat a b _ := by simp [Arith.rat]
  pow_nat a b _ := by simp [Arith.rat]
  lt_nat a b _ _ := by simp [Arith.rat]
  le_nat a b _ _ := by simp [Arith.rat]
  gt_nat a b _ _ := by simp [Arith.rat]
  ge_nat a b _ _ := by simp [Arith.rat]
  eq_nat a b _ _ := by simp [Arith.rat]
  ne_nat a b _ _ := by simp [Arith.rat]

/-- The value `std::stod` gives a short string of digits, in a form whose side
conditions are decided by evaluation. -/
theorem stod_nat_lit (A : Arith V) (h : A.ExactOnNat) (text : List Char) (n : Nat)
    (h1 : text ≠ []) (h2 : (text.all is_digit) = true) (h3 : decimal_value text = n)
    (h4 : n ≤ max_exact) : A.stod text = some (A.ofNat n) := by
  subst h3
  exact h.stod_digits text h1 (by simpa [List.all_eq_true] using h2) h4

/-! ### C1: multiplicative operators bind tighter than additive ones -/

/-- C1. Multiplicative operators bind tighter than additive ones. For all
single-token operands `x`, `y`, `z`, every additive operator `a` and every
term operator `m`, `parse [x, a, y, m, z]` returns
`Binary a x (Binary m y z)`. In particular, in an arithmetic that is exact on
small natural numbers, `2 + 3 * 4` tokenizes and parses to
`Binary Plus 2 (Binary Star 3 4)`, and the query returns 14 (and records it
as the last result) whenever at least three nested evaluator calls are
allowed. -/
theorem C1_mul_binds_tighter (A : Arith V) (hA : A.ExactOnNat) :
    (∀ (x y z : Operand V) (a m : TType), (a = .Plus ∨ a = .Minus) →
        (m = .Star ∨ m = .Slash ∨ m = .Percent) →
        parse [x.token, Token.op a, y.token, Token.op m, z.token]
          = .ok (.Binary a x.expr (.Binary m y.expr z.expr))) ∧
    (tokenize A "2 + 3 * 4").bind parse
      = .ok (.Binary .Plus (.Number (A.ofNat 2))
          (.Binary .Star (.Number (A.ofNat 3)) (.Number (A.ofNat 4)))) ∧
    (∀ (fuel : Nat) (state : State V), 3 ≤ fuel →
      process_query A fuel "2 + 3 * 4" state
        = (.ok ⟨some (A.ofNat 14), none⟩,
            { state with last_result := A.ofNat 14, has_last_result := true })) := by
  have h2 : A.stod ['2'] = some (A.ofNat 2) :=
    stod_nat_lit A hA _ 2 (by simp) (by decide) (by decide) (by decide)
  have h3 : A.stod ['3'] = some (A.ofNat 3) :=
    stod_nat_lit A hA _ 3 (by simp) (by decide) (by decide) (by decide)
  have h4 : A.stod ['4'] = some (A.ofNat 4) :=
    stod_nat_lit A hA _ 4 (by simp) (by decide) (by decide) (by decide)
  have hl : "2 + 3 * 4".length = 9 := by decide
  have ht : "2 + 3 * 4".toList = ['2', ' ', '+', ' ', '3', ' ', '*', ' ', '4'] := by decide
  have htok : tokenize A "2 + 3 * 4" = .ok [Token.number (A.ofNat 2), .op .Plus,
      .number (A.ofNat 3), .op .Star, .number (A.ofNat 4)] := by
    simp +decide [tokenize, hl, ht, tokenize_loop, scan_number, h2, h3, h4]
  have hparse : parse [Token.number (A.ofNat 2), Token.op .Plus,
      .number (A.ofNat 3), .op .Star, .number (A.ofNat 4)]
      = .ok (.Binary .Plus (.Number (A.ofNat 2))
          (.Binary .Star (.Number (A.ofNat 3)) (.Number (A.ofNat 4)))) := rfl
  refine ⟨?_, ?_, ?_⟩
  · intro x y z a m ha hm
    rcases ha with rfl | rfl <;> rcases hm with rfl | rfl | rfl <;>
      cases x <;> cases y <;> cases z <;> rfl
  · rw [htok]; exact hparse
  · intro fuel state hfuel
    obtain ⟨n, rfl⟩ := Nat.exists_eq_add_of_le hfuel
    have hm : A.mul (A.ofNat 3) (A.ofNat 4) = A.ofNat 12 := hA.mul_nat 3 4 (by decide)
    have ha : A.add (A.ofNat 2) (A.ofNat 12) = A.ofNat 14 := hA.add_nat 2 12 (by decide)
    rw [show 3 + n = (n + 2) + 1 by omega]
    simp [process_query, htok, hparse, evaluate, eval_value, eval_binary, EvalOut.andThen, hm, ha]

/-- C1 at a concrete input: in the rational arithmetic, `x - y / z` over
variables parses with the division below the subtraction, and the query
`2 + 3 * 4` on a fresh state returns 14. -/
theorem C1_mul_binds_tighter_witness :
    Arith.rat.ExactOnNat ∧
    parse [Token.identifier "x", Token.op .Minus, Token.identifier "y", Token.op .Slash,
        (Token.identifier "z" : Token ℚ)]
      = .ok (.Binary .Minus (.Variable "x") (.Binary .Slash (.Variable "y") (.Variable "z"))) ∧
    process_query Arith.rat 3 "2 + 3 * 4" (State.init Arith.rat)
      = (.ok ⟨some (Arith.rat.ofNat 14), none⟩,
          { State.init Arith.rat with
            last_result := Arith.rat.ofNat 14, has_last_result := true }) :=
  ⟨Arith.rat_exactOnNat,
    (C1_mul_binds_tighter Arith.rat Arith.rat_exactOnNat).1 (.identifier "x") (.identifier "y")
      (.identifier "z") .Minus .Slash (Or.inr rfl) (Or.inr (Or.inl rfl)),
    (C1_mul_binds_tighter Arith.rat Arith.rat_exactOnNat).2.2 3 (State.init Arith.rat)
      (Nat.le_refl 3)⟩

/-! ### C2: power is right-associative -/

/-- C2. Power is right-associative. For all single-token operands `x`, `y`,
`z`, `parse [x, ^, y, ^, z]` returns `Binary Caret x (Binary Caret y z)`. In
particular, in an arithmetic that is exact on small natural numbers,
`2 ^ 3 ^ 2` tokenizes and parses to `2 ^ (3 ^ 2)` and the query returns 512
whenever at least three nested evaluator calls are allowed. -/
theorem C2_power_right_assoc (A : Arith V) (hA : A.ExactOnNat) :
    (∀ (x y z : Operand V),
        parse [x.token, Token.op .Caret, y.token, Token.op .Caret, z.token]
          = .ok (.Binary .Caret x.expr (.Binary .Caret y.expr z.expr))) ∧
    (tokenize A "2 ^ 3 ^ 2").bind parse
      = .ok (.Binary .Caret (.Number (A.ofNat 2))
          (.Binary .Caret (.Number (A.ofNat 3)) (.Number (A.ofNat 2)))) ∧
    (∀ (fuel : Nat) (state : State V), 3 ≤ fuel →
      process_query A fuel "2 ^ 3 ^ 2" state
        = (.ok ⟨some (A.ofNat 512), none⟩,
            { state with last_result := A.ofNat 512, has_last_result := true })) := by
  have h2 : A.stod ['2'] = some (A.ofNat 2) :=
    stod_nat_lit A hA _ 2 (by simp) (by decide) (by decide) (by decide)
  have h3 : A.stod ['3'] = some (A.ofNat 3) :=
    stod_nat_lit A hA _ 3 (by simp) (by decide) (by decide) (by decide)
  have hl : "2 ^ 3 ^ 2".length = 9 := by decide
  have ht : "2 ^ 3 ^ 2".toList = ['2', ' ', '^', ' ', '3', ' ', '^', ' ', '2'] := by decide
  have htok : tokenize A "2 ^ 3 ^ 2" = .ok [Token.number (A.ofNat 2), .op .Caret,
      .number (A.ofNat 3), .op .Caret, .number (A.ofNat 2)] := by
    simp +decide [tokenize, hl, ht, tokenize_loop, scan_number, h2, h3]
  have hparse : parse [Token.number (A.ofNat 2), Token.op .Caret,
      .number (A.ofNat 3), .op .Caret, .number (A.ofNat 2)]
      = .ok (.Binary .Caret (.Number (A.ofNat 2))
          (.Binary .Caret (.Number (A.ofNat 3)) (.Number (A.ofNat 2)))) := rfl
  refine ⟨?_, ?_, ?_⟩
  · intro x y z
    cases x <;> cases y <;> cases z <;> rfl
  · rw [htok]; exact hparse
  · intro fuel state hfuel
    obtain ⟨n, rfl⟩ := Nat.exists_eq_add_of_le hfuel
    have hp : A.cmath2 "pow" (A.ofNat 3) (A.ofNat 2) = A.ofNat 9 := hA.pow_nat 3 2 (by decide)
    have hq : A.cmath2 "pow" (A.ofNat 2) (A.ofNat 9) = A.ofNat 512 := hA.pow_nat 2 9 (by decide)
    rw [show 3 + n = (n + 2) + 1 by omega]
    simp [process_query, htok, hparse, evaluate, eval_value, eval_binary, EvalOut.andThen, hp, hq]

/-- C2 at a concrete input: in the rational arithmetic `x ^ y ^ 2` parses to
`x ^ (y ^ 2)` and the query `2 ^ 3 ^ 2` on a fresh state returns 512. -/
theorem C2_power_right_assoc_witness :
    Arith.rat.ExactOnNat ∧
    parse [Token.identifier "x", Token.op .Caret, Token.identifier "y", Token.op .Caret,
        (Token.number 2 : Token ℚ)]
      = .ok (.Binary .Caret (.Variable "x") (.Binary .Caret (.Variable "y") (.Number 2))) ∧
    process_query Arith.rat 3 "2 ^ 3 ^ 2" (State.init Arith.rat)
      = (.ok ⟨some (Arith.rat.ofNat 512), none⟩,
          { State.init Arith.rat with
            last_result := Arith.rat.ofNat 512, has_last_result := true }) :=
  ⟨Arith.rat_exactOnNat,
    (C2_power_right_assoc Arith.rat Arith.rat_exactOnNat).1 (.identifier "x") (.identifier "y")
      (.number 2),
    (C2_power_right_assoc Arith.rat Arith.rat_exactOnNat).2.2 3 (State.init Arith.rat)
      (Nat.le_refl 3)⟩

/-! ### C3: assignment is right-associative and yields the assigned value -/

/-- C3. Assignment is right-associative and yields the assigned value. For
all non-reserved identifiers `a` and `b` (distinct or not) and every number
`v`, the tokens `[a, =, b, =, v]` parse to
`Binary Equals a (Binary Equals b v)`; and `process_query` of any text with
these tokens, on any state and with at least three nested evaluator calls
allowed, returns the value `v`, leaves `vars[a] = vars[b] = v`, and changes
no other variable and no function. -/
theorem C3_assignment_right_assoc (A : Arith V) (a b : Identifier) (v : V) (fuel : Nat)
    (state : State V) (input : String)
    (ha : is_reserved_identifier A a = false) (hb : is_reserved_identifier A b = false)
    (hfuel : 3 ≤ fuel)
    (htok : tokenize A input = .ok [Token.identifier a, Token.op .Equals, Token.identifier b,
      Token.op .Equals, Token.number v]) :
    parse [Token.identifier a, Token.op .Equals, Token.identifier b, Token.op .Equals,
        Token.number v]
      = .ok (.Binary .Equals (.Variable a) (.Binary .Equals (.Variable b) (.Number v))) ∧
    (process_query A fuel input state).1 = .ok ⟨some v, none⟩ ∧
    (process_query A fuel input state).2.vars a = some v ∧
    (process_query A fuel input state).2.vars b = some v ∧
    (∀ name, name ≠ a → name ≠ b →
      (process_query A fuel input state).2.vars name = state.vars name) ∧
    (process_query A fuel input state).2.fns = state.fns := by
  have hparse : parse [Token.identifier a, Token.op .Equals, Token.identifier b,
      Token.op .Equals, Token.number v]
      = .ok (.Binary .Equals (.Variable a) (.Binary .Equals (.Variable b) (.Number v))) := rfl
  obtain ⟨n, rfl⟩ := Nat.exists_eq_add_of_le hfuel
  have hq : process_query A (3 + n) input state
      = (.ok ⟨some v, none⟩,
          { vars := map_set (map_set state.vars b v) a v, fns := state.fns,
            last_result := v, has_last_result := true }) := by
    rw [show 3 + n = (n + 2) + 1 by omega]
    simp [process_query, htok, hparse, evaluate, eval_value, eval_binary, EvalOut.andThen, ha, hb]
  rw [hq]
  refine ⟨hparse, rfl, ?_, ?_, ?_, rfl⟩
  · simp [map_set]
  · simp [map_set]
  · intro name h1 h2
    simp [map_set, h1, h2]

/-- C3 at a concrete input: the query `a = b = 3` on a fresh state, in the
rational arithmetic, returns 3 and leaves both `a` and `b` at 3. -/
theorem C3_assignment_right_assoc_witness :
    is_reserved_identifier Arith.rat "a" = false ∧
    is_reserved_identifier Arith.rat "b" = false ∧
    (process_query Arith.rat 3 "a = b = 3" (State.init Arith.rat)).1
      = .ok ⟨some (Arith.rat.ofNat 3), none⟩ ∧
    (process_query Arith.rat 3 "a = b = 3" (State.init Arith.rat)).2.vars "a"
      = some (Arith.rat.ofNat 3) ∧
    (process_query Arith.rat 3 "a = b = 3" (State.init Arith.rat)).2.vars "b"
      = some (Arith.rat.ofNat 3) := by
  have h3 : Arith.rat.stod ['3'] = some (Arith.rat.ofNat 3) :=
    stod_nat_lit Arith.rat Arith.rat_exactOnNat _ 3 (by simp) (by decide) (by decide) (by decide)
  have hl : "a = b = 3".length = 9 := by decide
  have ht : "a = b = 3".toList = ['a', ' ', '=', ' ', 'b', ' ', '=', ' ', '3'] := by decide
  have htok : tokenize Arith.rat "a = b = 3" = .ok [Token.identifier "a", Token.op .Equals,
      Token.identifier "b", Token.op .Equals, Token.number (Arith.rat.ofNat 3)] := by
    simp +decide [tokenize, hl, ht, tokenize_loop, scan_number, scan_identifier, h3]
  have h := C3_assignment_right_assoc Arith.rat "a" "b" (Arith.rat.ofNat 3) 3
    (State.init Arith.rat) "a = b = 3" (by decide) (by decide) (Nat.le_refl 3) htok
  exact ⟨by decide, by decide, h.2.1, h.2.2.1, h.2.2.2.1⟩

/-! ### C4: function definition -/

theorem join_params_from_eq_go (params : Identifiers) (result : String) (index : Nat)
    (h : 0 < index) :
    join_params_from result index params = String.intercalate.go result ", " params := by
  induction params generalizing result index with
  | nil => rfl
  | cons p ps ih =>
    simp only [join_params_from, String.intercalate.go, h, if_true, gt_iff_lt]
    exact ih _ _ (Nat.succ_pos _)

theorem join_params_eq_intercalate (params : Identifiers) :
    join_params params = ", ".intercalate params := by
  cases params with
  | nil => rfl
  | cons p ps =>
    simp only [join_params, join_params_from, String.intercalate, gt_iff_lt, lt_self_iff_false,
      if_false]
    rw [join_params_from_eq_go _ _ _ (by decide), String.empty_append]

theorem collect_params_variables (A : Arith V) (ps acc : Identifiers)
    (hps : ∀ p ∈ ps, is_reserved_identifier A p = false) (hnd : (acc ++ ps).Nodup) :
    collect_params A (ps.map (fun p => (Expression.Variable p : Expression V))) acc
      = .ok (acc ++ ps) := by
  induction ps generalizing acc with
  | nil => simp [collect_params]
  | cons p ps ih =>
    have hp : is_reserved_identifier A p = false := hps p (by simp)
    have hnotin : p ∉ acc := by
      intro hmem
      have := List.nodup_append.mp hnd
      exact (List.disjoint_left.mp this.2.2) hmem (by simp)
    have hnd2 : ((acc ++ [p]) ++ ps).Nodup := by simpa using hnd
    simp only [List.map_cons, collect_params, hp, Bool.false_eq_true, if_false]
    rw [if_neg (by simpa using hnotin)]
    rw [ih (acc ++ [p]) (fun q hq => hps q (by simp [hq])) hnd2]
    simp

/-- C4. Function definition. For every non-reserved name `f`, every list
`ps` of pairwise-distinct non-reserved parameter names (possibly empty) and
every body expression, evaluating `f(p1, ..., pn) = body` at top level
succeeds on any state and for every evaluation budget, zero included, so
without evaluating the body: the result has no value and the info
`"Defined f(p1, ..., pn)"` with the parameters joined by `", "`; `fns[f]`
becomes `(ps, body)` whatever it was before; `vars`, every other entry of
`fns` and the last-result memo are unchanged. The same holds of
`process_query` on any text that tokenizes and parses to that expression. -/
theorem C4_function_definition (A : Arith V) (f : Identifier) (ps : Identifiers)
    (body : Expression V) (fuel : Nat) (state : State V)
    (hf : is_reserved_identifier A f = false)
    (hps : ∀ p ∈ ps, is_reserved_identifier A p = false) (hnd : ps.Nodup) :
    evaluate A fuel (.Binary .Equals (.FnCall f (ps.map .Variable)) body) state
      = (.ok ⟨none, some ("Defined " ++ f ++ "(" ++ ", ".intercalate ps ++ ")")⟩,
          { state with fns := map_set state.fns f ⟨ps, body⟩ }) ∧
    (∀ (input : String) (tokens : Tokens V), tokenize A input = .ok tokens →
      parse tokens = .ok (.Binary .Equals (.FnCall f (ps.map .Variable)) body) →
      process_query A fuel input state
        = (.ok ⟨none, some ("Defined " ++ f ++ "(" ++ ", ".intercalate ps ++ ")")⟩,
            { state with fns := map_set state.fns f ⟨ps, body⟩ })) ∧
    (map_set state.fns f ⟨ps, body⟩) f = some ⟨ps, body⟩ ∧
    (∀ g, g ≠ f → (map_set state.fns f ⟨ps, body⟩) g = state.fns g) := by
  have hc := collect_params_variables A ps [] hps (by simpa using hnd)
  have hev : evaluate A fuel (.Binary .Equals (.FnCall f (ps.map .Variable)) body) state
      = (.ok ⟨none, some ("Defined " ++ f ++ "(" ++ ", ".intercalate ps ++ ")")⟩,
          { state with fns := map_set state.fns f ⟨ps, body⟩ }) := by
    simp only [evaluate, define_function, hf, Bool.false_eq_true, if_false, hc, List.nil_append,
      join_params_eq_intercalate]
  refine ⟨hev, ?_, by simp [map_set], fun g hg => by simp [map_set, hg]⟩
  intro input tokens htok hparse
  simp only [process_query, htok, hparse, hev]

/-- C4 at a concrete input: `g(x, y) = x + zz`, whose body names an undefined
variable, is accepted on a fresh state with no evaluation budget at all. -/
theorem C4_function_definition_witness :
    is_reserved_identifier Arith.rat "g" = false ∧ ["x", "y"].Nodup ∧
    process_query Arith.rat 0 "g(x, y) = x + zz" (State.init Arith.rat)
      = (.ok ⟨none, some "Defined g(x, y)"⟩,
          { State.init Arith.rat with
            fns := map_set (State.init Arith.rat).fns "g"
              ⟨["x", "y"], .Binary .Plus (.Variable "x") (.Variable "zz")⟩ }) := by
  have h := (C4_function_definition Arith.rat "g" ["x", "y"]
    (.Binary .Plus (.Variable "x") (.Variable "zz")) 0 (State.init Arith.rat)
    (by decide) (by decide) (by decide)).2.1 "g(x, y) = x + zz"
    [Token.identifier "g", Token.op .LParen, Token.identifier "x", Token.op .Comma,
      Token.identifier "y", Token.op .RParen, Token.op .Equals, Token.identifier "x",
      Token.op .Plus, Token.identifier "zz"] rfl rfl
  exact ⟨by decide, by decide, h⟩
/-! ### C5: calling a user function -/

theorem bind_fold_not_mem (ps : Identifiers) (vs : List V) (m : VariableMap V)
    (name : Identifier) (h : name ∉ ps) :
    ((ps.zip vs).foldl (fun locals pv => map_set locals pv.1 pv.2) m) name = m name := by
  induction ps generalizing vs m with
  | nil => rfl
  | cons p ps ih =>
    cases vs with
    | nil => rfl
    | cons v vs =>
      simp only [List.zip_cons_cons, List.foldl_cons]
      rw [ih vs _ (fun hmem => h (List.mem_cons_of_mem _ hmem))]
      have : name ≠ p := fun heq => h (heq ▸ List.mem_cons_self _ _)
      simp [map_set, this]

theorem bind_fold_get (ps : Identifiers) (vs : List V) (m : VariableMap V) (hnd : ps.Nodup)
    (i : Nat) (h1 : i < ps.length) (h2 : i < vs.length) :
    ((ps.zip vs).foldl (fun locals pv => map_set locals pv.1 pv.2) m) (ps.get ⟨i, h1⟩)
      = some (vs.get ⟨i, h2⟩) := by
  induction ps generalizing vs m i with
  | nil => simp at h1
  | cons p ps ih =>
    cases vs with
    | nil => simp at h2
    | cons v vs =>
      simp only [List.zip_cons_cons, List.foldl_cons]
      cases i with
      | zero =>
        simp only [List.get_eq_getElem, List.getElem_cons_zero]
        rw [bind_fold_not_mem ps vs _ p (List.nodup_cons.mp hnd).1]
        simp [map_set]
      | succ i =>
        simp only [List.get_eq_getElem, List.getElem_cons_succ]
        have := ih vs (map_set m p v) (List.nodup_cons.mp hnd).2 i
          (by simpa using h1) (by simpa using h2)
        simpa using this

theorem andThen_ok {α β : Type} (value : α) (state : State V) (ctx : EvalContext V)
    (next : α → State V → EvalContext V → EvalOut V β) :
    (EvalOut.mk (.ok value) state ctx).andThen next = next value state ctx := rfl

theorem andThen_error {α β : Type} (err : Error) (state : State V) (ctx : EvalContext V)
    (next : α → State V → EvalContext V → EvalOut V β) :
    (EvalOut.mk (.error err : Except Error α) state ctx).andThen next = ⟨.error err, state, ctx⟩ :=
  rfl

/-- Binding the parameters evaluates the arguments first to last, as
`eval_args` does, and the overlay is built from the values on the side. -/
theorem bind_params_eq_eval_args (ev : Evaluator V) (ps : Identifiers)
    (args : List (Expression V)) (m : VariableMap V) (state : State V) (ctx : EvalContext V)
    (hlen : args.length = ps.length) :
    bind_params ev ps args m state ctx
      = (eval_args ev args state ctx).andThen fun vs state ctx =>
          ⟨.ok ((ps.zip vs).foldl (fun locals pv => map_set locals pv.1 pv.2) m), state, ctx⟩ := by
  induction ps generalizing args m state ctx with
  | nil =>
    cases args with
    | nil => rfl
    | cons a as => simp at hlen
  | cons p ps ih =>
    cases args with
    | nil => simp at hlen
    | cons a as =>
      simp only [bind_params, eval_args]
      rcases hev : ev a state ctx with ⟨r, s1, c1⟩
      cases r with
      | error err => rfl
      | ok v =>
        simp only [andThen_ok]
        rw [ih as (map_set m p v) s1 c1 (by simpa using hlen)]
        rcases eval_args ev as s1 c1 with ⟨r2, s2, c2⟩
        cases r2 with
        | error err => rfl
        | ok vs => rfl

theorem find_builtin_square (A : Arith V) : find_builtin A "square" = none := by
  rfl

theorem tokenize_square_def (A : Arith V) :
    tokenize A "square(x) = x * x" = .ok [Token.identifier "square", Token.op .LParen,
      Token.identifier "x", Token.op .RParen, Token.op .Equals, Token.identifier "x",
      Token.op .Star, Token.identifier "x"] := by
  rfl

theorem process_square_def (A : Arith V) (fuel : Nat) (state : State V) :
    process_query A fuel "square(x) = x * x" state
      = (.ok ⟨none, some "Defined square(x)"⟩,
          { state with fns := map_set state.fns "square" ⟨["x"], square_body⟩ }) := by
  rfl

theorem process_square_call (A : Arith V) (fuel : Nat) (state : State V) (input : String)
    (v : V) (hfuel : 3 ≤ fuel)
    (htok : tokenize A input = .ok [Token.identifier "square", Token.op .LParen,
      Token.number v, Token.op .RParen]) :
    process_query A fuel input
        { state with fns := map_set state.fns "square" ⟨["x"], square_body⟩ }
      = (.ok ⟨some (A.mul v v), none⟩,
          { state with fns := map_set state.fns "square" ⟨["x"], square_body⟩,
                       last_result := A.mul v v, has_last_result := true }) := by
  obtain ⟨n, rfl⟩ := Nat.exists_eq_add_of_le hfuel
  have hparse : parse [Token.identifier "square", Token.op .LParen,
      Token.number v, Token.op .RParen] = .ok (.FnCall "square" [.Number v]) := rfl
  rw [show 3 + n = (n + 2) + 1 by omega]
  simp [process_query, htok, hparse, evaluate, eval_value, eval_function_call,
    find_builtin_square, map_set, bind_params, EvalOut.andThen, square_body, eval_binary,
    eval_variable]

/-- C5. User-function call. If `fns[f] = (ps, body)`, `f` is not a built-in
and the call has as many arguments as `f` has parameters, then a call
`f(a1, ..., an)` whose arguments, evaluated first to last in the caller's
context, give the values `vs` (leaving state `state1` and context `ctx1`)
returns what `body` evaluates to in `state1` under the fresh overlay
`{p1 -> v1, ..., pn -> vn}` with definitions not permitted, and hands the
caller's context back as the arguments left it. The overlay binds each
parameter to the value at its position and nothing else. In particular,
after `square(x) = x * x`, the query `square(v)` on a number `v` returns
`v * v`, and `square(5)` returns 25 in an arithmetic exact on small natural
numbers. -/
theorem C5_user_function_call (A : Arith V) :
    (∀ (f : Identifier) (ps : Identifiers) (body : Expression V)
        (args : List (Expression V)) (vs : List V) (fuel : Nat) (state state1 : State V)
        (ctx ctx1 : EvalContext V),
      find_builtin A f = none → state.fns f = some ⟨ps, body⟩ → args.length = ps.length →
      eval_args (eval_value A fuel) args state ctx = ⟨.ok vs, state1, ctx1⟩ →
      eval_value A (fuel + 1) (.FnCall f args) state ctx
          = ⟨(eval_value A fuel body state1 ⟨some (overlay ps vs), false⟩).result,
             (eval_value A fuel body state1 ⟨some (overlay ps vs), false⟩).state, ctx1⟩ ∧
      (ps.Nodup → ∀ (i : Nat) (h1 : i < ps.length) (h2 : i < vs.length),
        overlay ps vs (ps.get ⟨i, h1⟩) = some (vs.get ⟨i, h2⟩)) ∧
      (∀ name, name ∉ ps → overlay ps vs name = none)) ∧
    (∀ (fuel0 fuel : Nat) (state : State V) (input : String) (v : V), 3 ≤ fuel →
      tokenize A input = .ok [Token.identifier "square", Token.op .LParen, Token.number v,
        Token.op .RParen] →
      (process_query A fuel input (process_query A fuel0 "square(x) = x * x" state).2).1
        = .ok ⟨some (A.mul v v), none⟩) ∧
    (A.ExactOnNat → ∀ (fuel0 fuel : Nat) (state : State V), 3 ≤ fuel →
      (process_query A fuel "square(5)" (process_query A fuel0 "square(x) = x * x" state).2).1
        = .ok ⟨some (A.ofNat 25), none⟩) := by
  refine ⟨?_, ?_, ?_⟩
  · intro f ps body args vs fuel state state1 ctx ctx1 hb hf hlen hargs
    refine ⟨?_, fun hnd i h1 h2 => bind_fold_get ps vs _ hnd i h1 h2,
      fun name h => bind_fold_not_mem ps vs _ name h⟩
    simp only [eval_value, eval_function_call, hb, hf]
    rw [if_neg (by simpa using hlen), bind_params_eq_eval_args _ _ _ _ _ _ hlen, hargs]
    rfl
  · intro fuel0 fuel state input v hfuel htok
    rw [process_square_def, process_square_call A fuel state input v hfuel htok]
  · intro hA fuel0 fuel state hfuel
    have h5 : A.stod ['5'] = some (A.ofNat 5) :=
      stod_nat_lit A hA _ 5 (by simp) (by decide) (by decide) (by decide)
    have hl : "square(5)".length = 9 := by decide
    have ht : "square(5)".toList = ['s', 'q', 'u', 'a', 'r', 'e', '(', '5', ')'] := by decide
    have htok : tokenize A "square(5)" = .ok [Token.identifier "square", Token.op .LParen,
        Token.number (A.ofNat 5), Token.op .RParen] := by
      simp +decide [tokenize, hl, ht, tokenize_loop, scan_number, scan_identifier, h5]
    rw [process_square_def, process_square_call A fuel state _ _ hfuel htok,
      hA.mul_nat 5 5 (by decide)]

/-- C5 at concrete inputs, in the rational arithmetic: on a state in which
`square` is defined by `x * x`, the call `square(5)` is the body evaluated
under the overlay `{x -> 5}`, which binds `x` and not `y`; and after the
query `square(x) = x * x` on a fresh state the query `square(5)` returns
`5 * 5`, which is 25. -/
theorem C5_user_function_call_witness :
    Arith.rat.ExactOnNat ∧
    (eval_value Arith.rat 3 (.FnCall "square" [.Number 5])
        { State.init Arith.rat with fns := map_set (fun _ => none) "square" ⟨["x"], square_body⟩ }
        ⟨none, true⟩).result
      = (eval_value Arith.rat 2 square_body
        { State.init Arith.rat with fns := map_set (fun _ => none) "square" ⟨["x"], square_body⟩ }
        ⟨some (overlay ["x"] [5]), false⟩).result ∧
    overlay ["x"] [(5 : ℚ)] "x" = some 5 ∧
    overlay ["x"] [(5 : ℚ)] "y" = none ∧
    (process_query Arith.rat 3 "square(5)"
        (process_query Arith.rat 0 "square(x) = x * x" (State.init Arith.rat)).2).1
      = .ok ⟨some (Arith.rat.mul (Arith.rat.ofNat 5) (Arith.rat.ofNat 5)), none⟩ ∧
    (process_query Arith.rat 3 "square(5)"
        (process_query Arith.rat 0 "square(x) = x * x" (State.init Arith.rat)).2).1
      = .ok ⟨some (Arith.rat.ofNat 25), none⟩ := by
  have h := C5_user_function_call Arith.rat
  have h1 := h.1 "square" ["x"] square_body [.Number 5] [5] 2
    { State.init Arith.rat with fns := map_set (fun _ => none) "square" ⟨["x"], square_body⟩ }
    { State.init Arith.rat with fns := map_set (fun _ => none) "square" ⟨["x"], square_body⟩ }
    ⟨none, true⟩ ⟨none, true⟩ rfl rfl rfl rfl
  have d5 : Arith.rat.stod ['5'] = some (Arith.rat.ofNat 5) :=
    stod_nat_lit Arith.rat Arith.rat_exactOnNat _ 5 (by simp) (by decide) (by decide)
      (by decide)
  have hl : "square(5)".length = 9 := by decide
  have ht : "square(5)".toList = ['s', 'q', 'u', 'a', 'r', 'e', '(', '5', ')'] := by decide
  have htok : tokenize Arith.rat "square(5)" = .ok [Token.identifier "square",
      Token.op .LParen, Token.number (Arith.rat.ofNat 5), Token.op .RParen] := by
    simp +decide [tokenize, hl, ht, tokenize_loop, scan_number, scan_identifier, d5]
  refine ⟨Arith.rat_exactOnNat, ?_, ?_, ?_, ?_, ?_⟩
  · rw [h1.1]
  · exact h1.2.1 (by decide) 0 (by decide) (by decide)
  · exact h1.2.2 "y" (by decide)
  · exact h.2.1 0 3 (State.init Arith.rat) "square(5)" (Arith.rat.ofNat 5) (Nat.le_refl 3) htok
  · exact h.2.2 Arith.rat_exactOnNat 0 3 (State.init Arith.rat) (Nat.le_refl 3)

/-! ### C6: local-scope isolation -/

theorem isolated_mk {α : Type} (r : Except Error α) (state : State V) (ctx : EvalContext V)
    (h : ctx.locals.isSome = true) : (EvalOut.mk r state ctx).Isolated state :=
  ⟨rfl, h⟩

theorem isolated_andThen {α β : Type} (out : EvalOut V α)
    (next : α → State V → EvalContext V → EvalOut V β) (state : State V)
    (h1 : out.Isolated state)
    (h2 : ∀ v c, c.locals.isSome = true → (next v state c).Isolated state) :
    (out.andThen next).Isolated state := by
  rcases out with ⟨r, s, c⟩
  obtain ⟨hs, hc⟩ := h1
  simp only at hs hc
  subst hs
  cases r with
  | error err => exact ⟨rfl, hc⟩
  | ok v => exact h2 v c hc

theorem isolated_eval_binary (A : Arith V) (ev : Evaluator V) (hev : ev.Isolated) (op : TType)
    (left right : Expression V) (state : State V) (ctx : EvalContext V)
    (h : ctx.locals.isSome = true) :
    (eval_binary A ev op left right state ctx).Isolated state := by
  have both : ∀ f : V → V → V,
      ((ev left state ctx).andThen fun a state ctx =>
        (ev right state ctx).andThen fun b state ctx =>
          (⟨.ok (f a b), state, ctx⟩ : EvalOut V V)).Isolated state := by
    intro f
    refine isolated_andThen _ _ _ (hev _ _ _ h) fun a c hc => ?_
    exact isolated_andThen _ _ _ (hev _ _ _ hc) fun b c2 hc2 => isolated_mk _ _ _ hc2
  have powlike : ∀ f : V → V → V,
      ((ev right state ctx).andThen fun b state ctx =>
        (ev left state ctx).andThen fun a state ctx =>
          (⟨.ok (f a b), state, ctx⟩ : EvalOut V V)).Isolated state := by
    intro f
    refine isolated_andThen _ _ _ (hev _ _ _ h) fun a c hc => ?_
    exact isolated_andThen _ _ _ (hev _ _ _ hc) fun b c2 hc2 => isolated_mk _ _ _ hc2
  have divlike : ∀ (msg : String) (f : V → V → V),
      ((ev right state ctx).andThen fun rhs state ctx =>
        if A.eq rhs (A.ofNat 0) = true then (⟨.error (.EvalError msg), state, ctx⟩ : EvalOut V V)
        else (ev left state ctx).andThen fun lhs state ctx =>
          ⟨.ok (f lhs rhs), state, ctx⟩).Isolated state := by
    intro msg f
    refine isolated_andThen _ _ _ (hev _ _ _ h) fun a c hc => ?_
    split
    · exact isolated_mk _ _ _ hc
    · exact isolated_andThen _ _ _ (hev _ _ _ hc) fun b c2 hc2 => isolated_mk _ _ _ hc2
  cases op <;> simp only [eval_binary] <;>
    first
    | exact both _
    | exact powlike _
    | exact divlike _ _
    | exact isolated_mk _ _ _ h
    | skip
  -- the assignment
  cases left <;> try exact isolated_mk _ _ _ h
  rename_i name
  simp only
  split
  · exact isolated_mk _ _ _ h
  · refine isolated_andThen _ _ _ (hev _ _ _ h) fun v c hc => ?_
    cases hl : c.locals with
    | none => simp [hl] at hc
    | some locals => exact ⟨rfl, rfl⟩

theorem isolated_eval_args (ev : Evaluator V) (hev : ev.Isolated) (args : List (Expression V))
    (state : State V) (ctx : EvalContext V) (h : ctx.locals.isSome = true) :
    (eval_args ev args state ctx).Isolated state := by
  induction args generalizing ctx with
  | nil => exact isolated_mk _ _ _ h
  | cons a as ih =>
    simp only [eval_args]
    refine isolated_andThen _ _ _ (hev _ _ _ h) fun v c hc => ?_
    exact isolated_andThen _ _ _ (ih c hc) fun vs c2 hc2 => isolated_mk _ _ _ hc2

theorem isolated_bind_params (ev : Evaluator V) (hev : ev.Isolated) (ps : Identifiers)
    (args : List (Expression V)) (m : VariableMap V) (state : State V) (ctx : EvalContext V)
    (h : ctx.locals.isSome = true) :
    (bind_params ev ps args m state ctx).Isolated state := by
  induction ps generalizing args m ctx with
  | nil => cases args <;> exact isolated_mk _ _ _ h
  | cons p ps ih =>
    cases args with
    | nil => exact isolated_mk _ _ _ h
    | cons a as =>
      simp only [bind_params]
      exact isolated_andThen _ _ _ (hev _ _ _ h) fun v c hc => ih as _ c hc

theorem isolated_eval_function_call (A : Arith V) (ev : Evaluator V) (hev : ev.Isolated)
    (name : Identifier) (args : List (Expression V)) (state : State V) (ctx : EvalContext V)
    (h : ctx.locals.isSome = true) :
    (eval_function_call A ev name args state ctx).Isolated state := by
  unfold eval_function_call
  split
  · split
    · exact isolated_mk _ _ _ h
    · exact isolated_andThen _ _ _ (isolated_eval_args ev hev _ _ _ h)
        fun vs c hc => isolated_mk _ _ _ hc
  · split
    · exact isolated_mk _ _ _ h
    · split
      · exact isolated_mk _ _ _ h
      · refine isolated_andThen _ _ _ (isolated_bind_params ev hev _ _ _ _ _ h)
          fun locals c hc => ?_
        exact ⟨(hev _ _ ⟨some locals, false⟩ rfl).1, hc⟩

theorem isolated_eval_ternary (A : Arith V) (ev : Evaluator V) (hev : ev.Isolated)
    (c t e : Expression V) (state : State V) (ctx : EvalContext V)
    (h : ctx.locals.isSome = true) :
    (eval_ternary A ev c t e state ctx).Isolated state := by
  unfold eval_ternary
  refine isolated_andThen _ _ _ (hev _ _ _ h) fun v c hc => ?_
  split
  · exact hev _ _ _ hc
  · exact hev _ _ _ hc

theorem isolated_eval_variable (A : Arith V) (name : Identifier) (state : State V)
    (ctx : EvalContext V) (h : ctx.locals.isSome = true) :
    (eval_variable A name state ctx).Isolated state := by
  unfold eval_variable
  repeat' split
  all_goals exact isolated_mk _ _ _ h

theorem isolated_eval_value (A : Arith V) (fuel : Nat) :
    Evaluator.Isolated (eval_value A fuel) := by
  induction fuel with
  | zero => intro expr state ctx h; exact isolated_mk _ _ _ h
  | succ fuel ih =>
    intro expr state ctx h
    cases expr with
    | Number v => exact isolated_mk _ _ _ h
    | Variable name => exact isolated_eval_variable A name state ctx h
    | Unary op right =>
      simp only [eval_value]
      exact isolated_andThen _ _ _ (ih _ _ _ h) fun v c hc => isolated_mk _ _ _ hc
    | Binary op left right => exact isolated_eval_binary A _ ih op left right state ctx h
    | FnCall name args => exact isolated_eval_function_call A _ ih name args state ctx h
    | Ternary c t e => exact isolated_eval_ternary A _ ih c t e state ctx h
theorem find_builtin_set_local (A : Arith V) : find_builtin A "set_local" = none := by
  rfl

theorem set_local_scenario (A : Arith V) (hA : A.ExactOnNat) (f1 f2 f3 f4 : Nat)
    (state : State V) (h1 : 2 ≤ f1) (h3 : 3 ≤ f3) (h4 : 1 ≤ f4) :
    (process_query A f3 "set_local()"
      (process_query A f2 "set_local() = y = 5" (process_query A f1 "y = 1" state).2).2).1
      = .ok ⟨some (A.ofNat 5), none⟩ ∧
    (process_query A f4 "y"
      (process_query A f3 "set_local()"
        (process_query A f2 "set_local() = y = 5" (process_query A f1 "y = 1" state).2).2).2).1
      = .ok ⟨some (A.ofNat 1), none⟩ := by
  have d1 : A.stod ['1'] = some (A.ofNat 1) :=
    stod_nat_lit A hA _ 1 (by simp) (by decide) (by decide) (by decide)
  have d5 : A.stod ['5'] = some (A.ofNat 5) :=
    stod_nat_lit A hA _ 5 (by simp) (by decide) (by decide) (by decide)
  obtain ⟨n1, rfl⟩ := Nat.exists_eq_add_of_le h1
  obtain ⟨n3, rfl⟩ := Nat.exists_eq_add_of_le h3
  obtain ⟨n4, rfl⟩ := Nat.exists_eq_add_of_le h4
  have q1 : process_query A (2 + n1) "y = 1" state
      = (.ok ⟨some (A.ofNat 1), none⟩,
          { state with vars := map_set state.vars "y" (A.ofNat 1),
                       last_result := A.ofNat 1, has_last_result := true }) := by
    have hl : "y = 1".length = 5 := by decide
    have ht : "y = 1".toList = ['y', ' ', '=', ' ', '1'] := by decide
    have htok : tokenize A "y = 1" = .ok [Token.identifier "y", Token.op .Equals,
        Token.number (A.ofNat 1)] := by
      simp +decide [tokenize, hl, ht, tokenize_loop, scan_number, scan_identifier, d1]
    have hparse : parse [Token.identifier "y", Token.op .Equals, Token.number (A.ofNat 1)]
        = .ok (.Binary .Equals (.Variable "y") (.Number (A.ofNat 1))) := rfl
    have hres : is_reserved_identifier A "y" = false := rfl
    rw [show 2 + n1 = (n1 + 1) + 1 by omega]
    simp [process_query, htok, hparse, evaluate, eval_value, eval_binary, EvalOut.andThen, hres]
  have q2 : ∀ s : State V, process_query A f2 "set_local() = y = 5" s
      = (.ok ⟨none, some "Defined set_local()"⟩,
          { s with fns := (map_set s.fns "set_local"
              ⟨[], .Binary .Equals (.Variable "y") (.Number (A.ofNat 5))⟩) }) := by
    intro s
    have hl : "set_local() = y = 5".length = 19 := by decide
    have ht : "set_local() = y = 5".toList = ['s', 'e', 't', '_', 'l', 'o', 'c', 'a', 'l', '(',
        ')', ' ', '=', ' ', 'y', ' ', '=', ' ', '5'] := by decide
    have htok : tokenize A "set_local() = y = 5" = .ok [Token.identifier "set_local",
        Token.op .LParen, Token.op .RParen, Token.op .Equals, Token.identifier "y",
        Token.op .Equals, Token.number (A.ofNat 5)] := by
      simp +decide [tokenize, hl, ht, tokenize_loop, scan_number, scan_identifier, d5]
    have hparse : parse [Token.identifier "set_local", Token.op .LParen, Token.op .RParen,
        Token.op .Equals, Token.identifier "y", Token.op .Equals, Token.number (A.ofNat 5)]
        = .ok (.Binary .Equals (.FnCall "set_local" [])
            (.Binary .Equals (.Variable "y") (.Number (A.ofNat 5)))) := rfl
    have hres : is_reserved_identifier A "set_local" = false := rfl
    simp [process_query, htok, hparse, evaluate, define_function, hres, collect_params,
      join_params, join_params_from]
  have q3 : ∀ s : State V, s.fns "set_local"
        = some ⟨[], .Binary .Equals (.Variable "y") (.Number (A.ofNat 5))⟩ →
      process_query A (3 + n3) "set_local()" s
        = (.ok ⟨some (A.ofNat 5), none⟩,
            { s with last_result := A.ofNat 5, has_last_result := true }) := by
    intro s hs
    have htok : tokenize A "set_local()" = .ok [Token.identifier "set_local",
        Token.op .LParen, Token.op .RParen] := rfl
    have hparse : parse [Token.identifier "set_local", Token.op .LParen,
        (Token.op .RParen : Token V)] = .ok (.FnCall "set_local" []) := rfl
    have hres : is_reserved_identifier A "y" = false := rfl
    rw [show 3 + n3 = (n3 + 2) + 1 by omega]
    simp [process_query, htok, hparse, evaluate, eval_value, eval_function_call,
      find_builtin_set_local, hs, bind_params, EvalOut.andThen, eval_binary, hres]
  have q4 : ∀ s : State V, s.vars "y" = some (A.ofNat 1) →
      process_query A (1 + n4) "y" s
        = (.ok ⟨some (A.ofNat 1), none⟩,
            { s with last_result := A.ofNat 1, has_last_result := true }) := by
    intro s hs
    have htok : tokenize A "y" = .ok [Token.identifier "y"] := rfl
    have hparse : parse [(Token.identifier "y" : Token V)] = .ok (.Variable "y") := rfl
    rw [show 1 + n4 = n4 + 1 by omega]
    simp [process_query, htok, hparse, evaluate, eval_value, eval_variable, hs]
  rw [q1, q2, q3 _ (by simp [map_set]), q4 _ (by simp [map_set])]
  exact ⟨rfl, rfl⟩

/-- C6. Local-scope isolation. Evaluating any expression under a local
overlay, with any budget and whether it returns or fails, leaves the session
state (`vars`, `fns` and the last-result memo) exactly as it was. An
assignment to a non-reserved name under an overlay returns the value of its
right-hand side and writes it to the overlay. A call of a user function,
from any context, leaves the session state as the evaluation of its
arguments left it, whatever the body does. In an arithmetic exact on small
natural numbers: after `y = 1` and `set_local() = y = 5`, the query
`set_local()` returns 5 and the query `y` then still returns 1. -/
theorem C6_local_scope_isolation (A : Arith V) :
    (∀ (fuel : Nat) (expr : Expression V) (state : State V) (ctx : EvalContext V),
      ctx.locals.isSome = true → (eval_value A fuel expr state ctx).state = state) ∧
    (∀ (fuel : Nat) (name : Identifier) (rhs : Expression V) (state state1 : State V)
        (ctx ctx1 : EvalContext V) (v : V) (locals1 : VariableMap V),
      is_reserved_identifier A name = false →
      eval_value A fuel rhs state ctx = ⟨.ok v, state1, ctx1⟩ → ctx1.locals = some locals1 →
      eval_value A (fuel + 1) (.Binary .Equals (.Variable name) rhs) state ctx
        = ⟨.ok v, state1, { ctx1 with locals := some (map_set locals1 name v) }⟩) ∧
    (∀ (f : Identifier) (ps : Identifiers) (body : Expression V)
        (args : List (Expression V)) (vs : List V) (fuel : Nat) (state state1 : State V)
        (ctx ctx1 : EvalContext V),
      find_builtin A f = none → state.fns f = some ⟨ps, body⟩ → args.length = ps.length →
      eval_args (eval_value A fuel) args state ctx = ⟨.ok vs, state1, ctx1⟩ →
      (eval_value A (fuel + 1) (.FnCall f args) state ctx).state = state1) ∧
    (A.ExactOnNat → ∀ (f1 f2 f3 f4 : Nat) (state : State V), 2 ≤ f1 → 3 ≤ f3 → 1 ≤ f4 →
      (process_query A f3 "set_local()"
        (process_query A f2 "set_local() = y = 5" (process_query A f1 "y = 1" state).2).2).1
        = .ok ⟨some (A.ofNat 5), none⟩ ∧
      (process_query A f4 "y"
        (process_query A f3 "set_local()"
          (process_query A f2 "set_local() = y = 5"
            (process_query A f1 "y = 1" state).2).2).2).1
        = .ok ⟨some (A.ofNat 1), none⟩) := by
  refine ⟨?_, ?_, ?_, ?_⟩
  · intro fuel expr state ctx h
    exact (isolated_eval_value A fuel expr state ctx h).1
  · intro fuel name rhs state state1 ctx ctx1 v locals1 hres hrhs hloc
    simp only [eval_value, eval_binary, hres, Bool.false_eq_true, if_false, hrhs, andThen_ok,
      hloc]
  · intro f ps body args vs fuel state state1 ctx ctx1 hb hf hlen hargs
    simp only [eval_value, eval_function_call, hb, hf]
    rw [if_neg (by simpa using hlen), bind_params_eq_eval_args _ _ _ _ _ _ hlen, hargs]
    exact (isolated_eval_value A fuel body state1 ⟨some _, false⟩ rfl).1
  · intro hA f1 f2 f3 f4 state h1 h3 h4
    exact set_local_scenario A hA f1 f2 f3 f4 state h1 h3 h4


/-- C6 at concrete inputs, in the rational arithmetic: the assignment `y = 5`
under an empty overlay leaves a fresh session state untouched and binds `y`
in the overlay; a call of `set_local`, defined by `y = 5`, leaves the session
state as it was; and the scenario of the claim. -/
theorem C6_local_scope_isolation_witness :
    (eval_value Arith.rat 2 (.Binary .Equals (.Variable "y") (.Number 5))
        (State.init Arith.rat) ⟨some (fun _ => none), false⟩).state = State.init Arith.rat ∧
    eval_value Arith.rat 2 (.Binary .Equals (.Variable "y") (.Number 5))
        (State.init Arith.rat) ⟨some (fun _ => none), false⟩
      = ⟨.ok 5, State.init Arith.rat, ⟨some (map_set (fun _ => none) "y" 5), false⟩⟩ ∧
    (eval_value Arith.rat 3 (.FnCall "set_local" [])
        { State.init Arith.rat with
          fns := map_set (fun _ => none) "set_local"
            ⟨[], .Binary .Equals (.Variable "y") (.Number 5)⟩ }
        ⟨none, true⟩).state
      = { State.init Arith.rat with
          fns := map_set (fun _ => none) "set_local"
            ⟨[], .Binary .Equals (.Variable "y") (.Number 5)⟩ } ∧
    (process_query Arith.rat 3 "set_local()"
      (process_query Arith.rat 0 "set_local() = y = 5"
        (process_query Arith.rat 2 "y = 1" (State.init Arith.rat)).2).2).1
      = .ok ⟨some (Arith.rat.ofNat 5), none⟩ ∧
    (process_query Arith.rat 1 "y"
      (process_query Arith.rat 3 "set_local()"
        (process_query Arith.rat 0 "set_local() = y = 5"
          (process_query Arith.rat 2 "y = 1" (State.init Arith.rat)).2).2).2).1
      = .ok ⟨some (Arith.rat.ofNat 1), none⟩ := by
  have h := C6_local_scope_isolation Arith.rat
  refine ⟨h.1 2 _ (State.init Arith.rat) ⟨some (fun _ => none), false⟩ rfl, ?_, ?_,
    h.2.2.2 Arith.rat_exactOnNat 2 0 3 1 (State.init Arith.rat) (Nat.le_refl 2)
      (Nat.le_refl 3) (Nat.le_refl 1)⟩
  · exact h.2.1 1 "y" (.Number 5) (State.init Arith.rat) (State.init Arith.rat)
      ⟨some (fun _ => none), false⟩ ⟨some (fun _ => none), false⟩ 5 (fun _ => none)
      (by decide) rfl rfl
  · exact h.2.2.1 "set_local" [] (.Binary .Equals (.Variable "y") (.Number 5)) [] [] 2
      _ _ ⟨none, true⟩ ⟨none, true⟩ rfl rfl rfl rfl

/-! ### C7: no reserved identifier is ever a key of the session maps -/

theorem preserves_andThen {α β : Type} (P : State V → Prop) (out : EvalOut V α)
    (next : α → State V → EvalContext V → EvalOut V β)
    (h1 : P out.state) (h2 : ∀ v s c, P s → P (next v s c).state) :
    P (out.andThen next).state := by
  rcases out with ⟨r, s, c⟩
  cases r with
  | error err => exact h1
  | ok v => exact h2 v s c h1

theorem preserves_eval_binary (A : Arith V) (P : State V → Prop)
    (hP : ∀ s name v, is_reserved_identifier A name = false → P s →
      P { s with vars := map_set s.vars name v })
    (ev : Evaluator V) (hev : ev.Preserves P) (op : TType)
    (left right : Expression V) (state : State V) (ctx : EvalContext V) (h : P state) :
    P (eval_binary A ev op left right state ctx).state := by
  have both : ∀ f : V → V → V,
      P ((ev left state ctx).andThen fun a state ctx =>
        (ev right state ctx).andThen fun b state ctx =>
          (⟨.ok (f a b), state, ctx⟩ : EvalOut V V)).state := by
    intro f
    refine preserves_andThen P _ _ (hev _ _ _ h) fun a s c hs => ?_
    exact preserves_andThen P _ _ (hev _ _ _ hs) fun b s2 c2 hs2 => hs2
  have powlike : ∀ f : V → V → V,
      P ((ev right state ctx).andThen fun b state ctx =>
        (ev left state ctx).andThen fun a state ctx =>
          (⟨.ok (f a b), state, ctx⟩ : EvalOut V V)).state := by
    intro f
    refine preserves_andThen P _ _ (hev _ _ _ h) fun a s c hs => ?_
    exact preserves_andThen P _ _ (hev _ _ _ hs) fun b s2 c2 hs2 => hs2
  have divlike : ∀ (msg : String) (f : V → V → V),
      P ((ev right state ctx).andThen fun rhs state ctx =>
        if A.eq rhs (A.ofNat 0) = true then (⟨.error (.EvalError msg), state, ctx⟩ : EvalOut V V)
        else (ev left state ctx).andThen fun lhs state ctx =>
          ⟨.ok (f lhs rhs), state, ctx⟩).state := by
    intro msg f
    refine preserves_andThen P _ _ (hev _ _ _ h) fun a s c hs => ?_
    split
    · exact hs
    · exact preserves_andThen P _ _ (hev _ _ _ hs) fun b s2 c2 hs2 => hs2
  cases op <;> simp only [eval_binary] <;>
    first
    | exact both _
    | exact powlike _
    | exact divlike _ _
    | exact h
    | skip
  cases left <;> try exact h
  rename_i name
  simp only
  split
  · exact h
  · rename_i hres
    refine preserves_andThen P _ _ (hev _ _ _ h) fun v s c hs => ?_
    cases c.locals with
    | none => exact hP s name v (by simpa using hres) hs
    | some locals => exact hs

theorem preserves_eval_args (P : State V → Prop) (ev : Evaluator V) (hev : ev.Preserves P)
    (args : List (Expression V)) (state : State V) (ctx : EvalContext V) (h : P state) :
    P (eval_args ev args state ctx).state := by
  induction args generalizing state ctx with
  | nil => exact h
  | cons a as ih =>
    simp only [eval_args]
    refine preserves_andThen P _ _ (hev _ _ _ h) fun v s c hs => ?_
    exact preserves_andThen P _ _ (ih s c hs) fun vs s2 c2 hs2 => hs2

theorem preserves_bind_params (P : State V → Prop) (ev : Evaluator V) (hev : ev.Preserves P)
    (ps : Identifiers) (args : List (Expression V)) (m : VariableMap V) (state : State V)
    (ctx : EvalContext V) (h : P state) :
    P (bind_params ev ps args m state ctx).state := by
  induction ps generalizing args m state ctx with
  | nil => cases args <;> exact h
  | cons p ps ih =>
    cases args with
    | nil => exact h
    | cons a as =>
      simp only [bind_params]
      exact preserves_andThen P _ _ (hev _ _ _ h) fun v s c hs => ih as _ s c hs

theorem preserves_eval_function_call (A : Arith V) (P : State V → Prop) (ev : Evaluator V)
    (hev : ev.Preserves P) (name : Identifier) (args : List (Expression V)) (state : State V)
    (ctx : EvalContext V) (h : P state) :
    P (eval_function_call A ev name args state ctx).state := by
  unfold eval_function_call
  split
  · split
    · exact h
    · exact preserves_andThen P _ _ (preserves_eval_args P ev hev _ _ _ h)
        fun vs s c hs => hs
  · split
    · exact h
    · split
      · exact h
      · refine preserves_andThen P _ _ (preserves_bind_params P ev hev _ _ _ _ _ h)
          fun locals s c hs => ?_
        exact hev _ _ _ hs

theorem preserves_eval_ternary (A : Arith V) (P : State V → Prop) (ev : Evaluator V)
    (hev : ev.Preserves P) (c t e : Expression V) (state : State V) (ctx : EvalContext V)
    (h : P state) :
    P (eval_ternary A ev c t e state ctx).state := by
  unfold eval_ternary
  refine preserves_andThen P _ _ (hev _ _ _ h) fun v s c hs => ?_
  split
  · exact hev _ _ _ hs
  · exact hev _ _ _ hs

theorem eval_variable_state (A : Arith V) (name : Identifier) (state : State V)
    (ctx : EvalContext V) : (eval_variable A name state ctx).state = state := by
  unfold eval_variable
  repeat' split
  all_goals rfl

/-- The evaluator keeps every property of the session state that assignments
to non-reserved variables keep. -/
theorem preserves_eval_value (A : Arith V) (P : State V → Prop)
    (hP : ∀ s name v, is_reserved_identifier A name = false → P s →
      P { s with vars := map_set s.vars name v })
    (fuel : Nat) : Evaluator.Preserves P (eval_value A fuel) := by
  induction fuel with
  | zero => intro expr state ctx h; exact h
  | succ fuel ih =>
    intro expr state ctx h
    cases expr with
    | Number v => exact h
    | Variable name =>
      simp only [eval_value, eval_variable_state]
      exact h
    | Unary op right =>
      simp only [eval_value]
      exact preserves_andThen P _ _ (ih _ _ _ h) fun v s c hs => hs
    | Binary op left right => exact preserves_eval_binary A P hP _ ih op left right state ctx h
    | FnCall name args => exact preserves_eval_function_call A P _ ih name args state ctx h
    | Ternary c t e => exact preserves_eval_ternary A P _ ih c t e state ctx h

theorem noReservedKeys_set_var (A : Arith V) (s : State V) (name : Identifier) (v : V)
    (hres : is_reserved_identifier A name = false) (h : s.NoReservedKeys A) :
    State.NoReservedKeys A { s with vars := map_set s.vars name v } := by
  intro r hr
  have hne : r ≠ name := by
    rintro rfl
    rw [hr] at hres
    exact absurd hres (by simp)
  exact ⟨by simp [map_set, hne, (h r hr).1], (h r hr).2⟩

theorem noReservedKeys_define_function (A : Arith V) (left right : Expression V)
    (s : State V) (h : s.NoReservedKeys A) :
    State.NoReservedKeys A (define_function A left right s).2 := by
  unfold define_function
  split
  · rename_i name args
    split
    · exact h
    · rename_i hres
      split
      · exact h
      · intro r hr
        have hne : r ≠ name := by
          rintro rfl
          exact hres hr
        exact ⟨(h r hr).1, by simp [map_set, hne, (h r hr).2]⟩
  · exact h

theorem noReservedKeys_evaluate (A : Arith V) (fuel : Nat) (expr : Expression V)
    (s : State V) (h : s.NoReservedKeys A) :
    State.NoReservedKeys A (evaluate A fuel expr s).2 := by
  have hev := preserves_eval_value A (State.NoReservedKeys A)
    (fun s name v hres hs => noReservedKeys_set_var A s name v hres hs) fuel
  unfold evaluate
  split
  · exact noReservedKeys_define_function A _ _ s h
  · have := hev expr s ⟨none, true⟩ h
    simp only
    split <;> exact this

theorem noReservedKeys_process_query (A : Arith V) (fuel : Nat) (input : String)
    (s : State V) (h : s.NoReservedKeys A) :
    State.NoReservedKeys A (process_query A fuel input s).2 := by
  unfold process_query
  split
  · exact h
  · split
    · exact h
    · rename_i expr _
      have hev := noReservedKeys_evaluate A fuel expr s h
      split
      · rename_i heq
        rw [heq] at hev
        exact hev
      · rename_i heq
        rw [heq] at hev
        split
        · exact fun r hr => ⟨(hev r hr).1, (hev r hr).2⟩
        · exact hev

theorem noReservedKeys_reachable (A : Arith V) (s : State V) (h : Reachable A s) :
    s.NoReservedKeys A := by
  induction h with
  | init => intro r _; exact ⟨rfl, rfl⟩
  | query fuel input state _ ih => exact noReservedKeys_process_query A fuel input state ih
theorem is_builtin_iff_mem (A : Arith V) (name : Identifier) :
    is_builtin_function A name = true ↔ name ∈ (builtin_functions A).map (fun spec => spec.name) := by
  simp only [is_builtin_function, find_builtin, List.find?_isSome, List.mem_map,
    decide_eq_true_eq]

theorem is_constant_iff_mem (A : Arith V) (name : Identifier) :
    is_constant A name = true ↔ name ∈ (constants A).map (fun kv => kv.1) := by
  simp only [is_constant, find_constant, List.lookup_isSome_iff, List.mem_map]
  constructor
  · rintro ⟨p, hp, hk⟩
    exact ⟨p, hp, (by simpa using hk : name = p.1).symm⟩
  · rintro ⟨p, hp, hk⟩
    exact ⟨p, hp, by simp [hk]⟩

theorem is_reserved_iff_mem (A : Arith V) (name : Identifier) :
    is_reserved_identifier A name = true ↔ name ∈ reserved_names := by
  have hb : (builtin_functions A).map (fun spec => spec.name)
      = ["sin", "cos", "tan", "asin", "acos", "atan", "sinh", "cosh", "tanh",
        "asinh", "acosh", "atanh", "sqrt", "cbrt", "exp", "ln", "log", "log2", "abs", "floor",
        "ceil", "round", "trunc", "pow", "fmod", "atan2"] := rfl
  have hc : (constants A).map (fun kv => kv.1) = ["pi", "e", "tau"] := rfl
  have h1 := is_builtin_iff_mem A name
  have h2 := is_constant_iff_mem A name
  rw [hb] at h1
  rw [hc] at h2
  unfold is_reserved_identifier
  by_cases h0 : name = "_"
  · subst h0
    exact ⟨fun _ => List.mem_cons_self _ _, fun _ => rfl⟩
  · rw [if_neg h0, Bool.or_eq_true, h1, h2]
    simp only [reserved_names, List.mem_cons, List.mem_nil_iff, or_false, h0, false_or,
      or_assoc]

theorem find_constant_reserved (A : Arith V) (name : Identifier) (c : V)
    (h : find_constant A name = some c) : is_reserved_identifier A name = true := by
  simp [is_reserved_identifier, is_constant, h]

theorem find_constant_underscore (A : Arith V) : find_constant A "_" = none := rfl

/-- C7. Reserved-name invariant. In every state reachable from an empty
`State` by any finite sequence of `process_query` calls (on arbitrary inputs
and budgets, failing calls included), no key of `vars` and no key of `fns`
is a reserved identifier: none is `_`, a constant name or a built-in
function name. Consequently a constant is never shadowed by a session
variable: at top level a constant name evaluates to the constant. -/
theorem C7_reserved_name_invariant (A : Arith V) (state : State V) (h : Reachable A state) :
    (∀ name, is_reserved_identifier A name = true →
      state.vars name = none ∧ state.fns name = none) ∧
    (∀ name, name ∈ reserved_names → state.vars name = none ∧ state.fns name = none) ∧
    (∀ (name : Identifier) (c : V) (fuel : Nat) (flag : Bool), find_constant A name = some c →
      eval_value A (fuel + 1) (.Variable name) state ⟨none, flag⟩
        = ⟨.ok c, state, ⟨none, flag⟩⟩) := by
  have hinv := noReservedKeys_reachable A state h
  refine ⟨hinv, fun name hmem => hinv name ((is_reserved_iff_mem A name).mpr hmem), ?_⟩
  intro name c fuel flag hc
  have hvars := (hinv name (find_constant_reserved A name c hc)).1
  have hne : name ≠ "_" := by
    rintro rfl
    rw [find_constant_underscore] at hc
    exact absurd hc (by simp)
  simp [eval_value, eval_variable, hne, hvars, hc]

/-- C7 at a concrete input: after the (failing) query `pi = 3` and the query
`x = 1` on a fresh state, neither `pi` nor `_` is a variable, `sin` is not a
user function, and `pi` evaluates to the constant. -/
theorem C7_reserved_name_invariant_witness :
    Reachable Arith.rat
      (process_query Arith.rat 2 "x = 1"
        (process_query Arith.rat 2 "pi = 3" (State.init Arith.rat)).2).2 ∧
    (process_query Arith.rat 2 "x = 1"
      (process_query Arith.rat 2 "pi = 3" (State.init Arith.rat)).2).2.vars "pi" = none ∧
    (process_query Arith.rat 2 "x = 1"
      (process_query Arith.rat 2 "pi = 3" (State.init Arith.rat)).2).2.fns "sin" = none ∧
    (process_query Arith.rat 2 "x = 1"
      (process_query Arith.rat 2 "pi = 3" (State.init Arith.rat)).2).2.vars "_" = none ∧
    (eval_value Arith.rat 1 (.Variable "pi")
      (process_query Arith.rat 2 "x = 1"
        (process_query Arith.rat 2 "pi = 3" (State.init Arith.rat)).2).2 ⟨none, true⟩).result
      = .ok Arith.rat.pi := by
  have hr : Reachable Arith.rat
      (process_query Arith.rat 2 "x = 1"
        (process_query Arith.rat 2 "pi = 3" (State.init Arith.rat)).2).2 :=
    Reachable.query _ _ _ (Reachable.query _ _ _ Reachable.init)
  have h := C7_reserved_name_invariant Arith.rat _ hr
  refine ⟨hr, (h.1 "pi" rfl).1, (h.1 "sin" rfl).2, (h.2.1 "_" (by decide)).1, ?_⟩
  rw [h.2.2 "pi" Arith.rat.pi 0 true rfl]

/-! ### C8: assignment to a reserved name is rejected -/

/-- C8. Reserved-name protection. For every reserved identifier `r` (these are
exactly `_`, `pi`, `e`, `tau` and the built-in function names) and every
right-hand side, evaluating `r = rhs` fails with the EvalError
`'r' is read-only`, in every context (at top level and under a local overlay
alike), and leaves the session state and the context, with its overlay,
unchanged; the right-hand side is not evaluated, the outcome being the same
for every right-hand side. The same holds of `evaluate` at top level. In an
arithmetic exact on small natural numbers the queries `pi = 3` and `_ = 2`
fail in this way and leave the state unchanged. -/
theorem C8_reserved_name_protection (A : Arith V) :
    (∀ r : Identifier, is_reserved_identifier A r = true ↔ r ∈ reserved_names) ∧
    (∀ (r : Identifier) (rhs : Expression V) (fuel : Nat) (state : State V)
        (ctx : EvalContext V), is_reserved_identifier A r = true →
      eval_value A (fuel + 1) (.Binary .Equals (.Variable r) rhs) state ctx
        = ⟨.error (.EvalError ("'" ++ r ++ "' is read-only")), state, ctx⟩) ∧
    (∀ (r : Identifier) (rhs : Expression V) (fuel : Nat) (state : State V),
      is_reserved_identifier A r = true →
      evaluate A (fuel + 1) (.Binary .Equals (.Variable r) rhs) state
        = (.error (.EvalError ("'" ++ r ++ "' is read-only")), state)) ∧
    (A.ExactOnNat → ∀ (fuel : Nat) (state : State V),
      process_query A (fuel + 1) "pi = 3" state
        = (.error (.EvalError "'pi' is read-only"), state) ∧
      process_query A (fuel + 1) "_ = 2" state
        = (.error (.EvalError "'_' is read-only"), state)) := by
  refine ⟨is_reserved_iff_mem A, ?_, ?_, ?_⟩
  · intro r rhs fuel state ctx hr
    simp only [eval_value, eval_binary, hr, if_true]
  · intro r rhs fuel state hr
    simp only [evaluate, eval_value, eval_binary, hr, if_true]
  · intro hA fuel state
    have d2 : A.stod ['2'] = some (A.ofNat 2) :=
      stod_nat_lit A hA _ 2 (by simp) (by decide) (by decide) (by decide)
    have d3 : A.stod ['3'] = some (A.ofNat 3) :=
      stod_nat_lit A hA _ 3 (by simp) (by decide) (by decide) (by decide)
    have hl1 : "pi = 3".length = 6 := by decide
    have ht1 : "pi = 3".toList = ['p', 'i', ' ', '=', ' ', '3'] := by decide
    have htok1 : tokenize A "pi = 3" = .ok [Token.identifier "pi", Token.op .Equals,
        Token.number (A.ofNat 3)] := by
      simp +decide [tokenize, hl1, ht1, tokenize_loop, scan_number, scan_identifier, d3]
    have hl2 : "_ = 2".length = 5 := by decide
    have ht2 : "_ = 2".toList = ['_', ' ', '=', ' ', '2'] := by decide
    have htok2 : tokenize A "_ = 2" = .ok [Token.identifier "_", Token.op .Equals,
        Token.number (A.ofNat 2)] := by
      simp +decide [tokenize, hl2, ht2, tokenize_loop, scan_number, scan_identifier, d2]
    have hparse : ∀ (name : Identifier) (v : V),
        parse [Token.identifier name, Token.op .Equals, Token.number v]
          = .ok (.Binary .Equals (.Variable name) (.Number v)) := fun _ _ => rfl
    have hpi : is_reserved_identifier A "pi" = true := rfl
    have hu : is_reserved_identifier A "_" = true := rfl
    constructor
    · simp [process_query, htok1, hparse, evaluate, eval_value, eval_binary, hpi]
    · simp [process_query, htok2, hparse, evaluate, eval_value, eval_binary, hu]

/-- C8 at concrete inputs, in the rational arithmetic: `sin = zz` under a
local overlay, `tau = 1` at top level, and the queries `pi = 3` and `_ = 2`
on a fresh state. -/
theorem C8_reserved_name_protection_witness :
    Arith.rat.ExactOnNat ∧
    is_reserved_identifier Arith.rat "sin" = true ∧
    eval_value Arith.rat 1 (.Binary .Equals (.Variable "sin") (.Variable "zz"))
        (State.init Arith.rat) ⟨some (fun _ => none), false⟩
      = ⟨.error (.EvalError "'sin' is read-only"), State.init Arith.rat,
          ⟨some (fun _ => none), false⟩⟩ ∧
    evaluate Arith.rat 1 (.Binary .Equals (.Variable "tau") (.Number 1)) (State.init Arith.rat)
      = (.error (.EvalError "'tau' is read-only"), State.init Arith.rat) ∧
    process_query Arith.rat 1 "pi = 3" (State.init Arith.rat)
      = (.error (.EvalError "'pi' is read-only"), State.init Arith.rat) ∧
    process_query Arith.rat 1 "_ = 2" (State.init Arith.rat)
      = (.error (.EvalError "'_' is read-only"), State.init Arith.rat) :=
  ⟨Arith.rat_exactOnNat, rfl,
    (C8_reserved_name_protection Arith.rat).2.1 "sin" (.Variable "zz") 0 (State.init Arith.rat)
      ⟨some (fun _ => none), false⟩ rfl,
    (C8_reserved_name_protection Arith.rat).2.2.1 "tau" (.Number 1) 0 (State.init Arith.rat) rfl,
    (C8_reserved_name_protection Arith.rat).2.2.2 Arith.rat_exactOnNat 0 (State.init Arith.rat)⟩

/-! ### The calls made during an evaluation -/

theorem andThen_result_error {α β : Type} (out : EvalOut V α)
    (next : α → State V → EvalContext V → EvalOut V β) (err : Error)
    (h : out.result = .error err) : (out.andThen next).result = .error err := by
  rcases out with ⟨r, s, c⟩
  simp only at h
  subst h
  rfl

theorem eval_args_append_error (ev : Evaluator V) (before : List (Expression V))
    (arg : Expression V) (after : List (Expression V)) (state state1 : State V)
    (ctx ctx1 : EvalContext V) (values : List V) (err : Error)
    (h1 : eval_args ev before state ctx = ⟨.ok values, state1, ctx1⟩)
    (h2 : (ev arg state1 ctx1).result = .error err) :
    (eval_args ev (before ++ arg :: after) state ctx).result = .error err := by
  induction before generalizing state ctx values with
  | nil =>
    simp only [eval_args, EvalOut.mk.injEq] at h1
    obtain ⟨-, rfl, rfl⟩ := h1
    simp only [List.nil_append, eval_args]
    exact andThen_result_error _ _ _ h2
  | cons b bs ih =>
    simp only [List.cons_append, eval_args] at h1 ⊢
    rcases hb : ev b state ctx with ⟨rb, sb, cb⟩
    rw [hb] at h1
    cases rb with
    | error e => simp [EvalOut.andThen] at h1
    | ok vb =>
      simp only [andThen_ok] at h1 ⊢
      rcases hbs : eval_args ev bs sb cb with ⟨rbs, sbs, cbs⟩
      rw [hbs] at h1
      cases rbs with
      | error e => simp [EvalOut.andThen] at h1
      | ok vbs =>
        simp only [andThen_ok, EvalOut.mk.injEq] at h1
        obtain ⟨-, rfl, rfl⟩ := h1
        exact andThen_result_error _ _ _ (ih sb cb vbs hbs)

/-- Errors are not caught: when a call made directly by a call fails, the
call fails with the same error. -/
theorem direct_call_error (A : Arith V) (k k1 : Call V) (err : Error)
    (h : DirectCall A k k1) (herr : (k1.run A).result = .error err) :
    (k.run A).result = .error err := by
  cases h with
  | unary fuel op right state ctx =>
    simp only [Call.run, eval_value] at herr ⊢
    exact andThen_result_error _ _ _ herr
  | first_left fuel op left right state ctx hop =>
    simp only [Call.run] at herr ⊢
    cases op <;> simp only [left_first, Bool.false_eq_true] at hop <;>
      simp only [eval_value, eval_binary] <;> exact andThen_result_error _ _ _ herr
  | then_right fuel op left right state state1 ctx ctx1 a hop hl =>
    simp only [Call.run] at herr ⊢
    cases op <;> simp only [left_first, Bool.false_eq_true] at hop <;>
      simp only [eval_value, eval_binary, hl, andThen_ok] <;>
      exact andThen_result_error _ _ _ herr
  | first_right fuel op left right state ctx hop =>
    simp only [Call.run] at herr ⊢
    cases op <;> simp only [right_first, Bool.false_eq_true] at hop <;>
      simp only [eval_value, eval_binary] <;> exact andThen_result_error _ _ _ herr
  | then_left fuel op left right state state1 ctx ctx1 rhs hop hr hz =>
    simp only [Call.run] at herr ⊢
    cases op <;> simp only [right_first, Bool.false_eq_true] at hop <;>
      simp only [eval_value, eval_binary, hr, andThen_ok, hz, Bool.false_eq_true, if_false] <;>
      exact andThen_result_error _ _ _ herr
  | first_exponent fuel left right state ctx =>
    simp only [Call.run] at herr ⊢
    simp only [eval_value, eval_binary]
    exact andThen_result_error _ _ _ herr
  | then_base fuel left right state state1 ctx ctx1 b hr =>
    simp only [Call.run] at herr ⊢
    simp only [eval_value, eval_binary, hr, andThen_ok]
    exact andThen_result_error _ _ _ herr
  | assigned fuel name right state ctx hres =>
    simp only [Call.run] at herr ⊢
    simp only [eval_value, eval_binary, hres, Bool.false_eq_true, if_false]
    exact andThen_result_error _ _ _ herr
  | condition fuel c t e state ctx =>
    simp only [Call.run] at herr ⊢
    simp only [eval_value, eval_ternary]
    exact andThen_result_error _ _ _ herr
  | then_branch fuel c t e state state1 ctx ctx1 value hc hnz =>
    simp only [Call.run] at herr ⊢
    simp only [eval_value, eval_ternary, hc, andThen_ok, hnz, if_true]
    exact herr
  | else_branch fuel c t e state state1 ctx ctx1 value hc hz =>
    simp only [Call.run] at herr ⊢
    simp only [eval_value, eval_ternary, hc, andThen_ok, hz, Bool.false_eq_true, if_false]
    exact herr
  | builtin_arg fuel name before arg after state state1 ctx ctx1 spec values hb hlen hargs =>
    simp only [Call.run] at herr ⊢
    simp only [eval_value, eval_function_call, hb]
    rw [if_neg (by simpa using hlen)]
    exact andThen_result_error _ _ _
      (eval_args_append_error _ _ _ _ _ _ _ _ _ _ hargs herr)
  | user_arg fuel name before arg after state state1 ctx ctx1 fn_obj values hb hf hlen hargs =>
    simp only [Call.run] at herr ⊢
    simp only [eval_value, eval_function_call, hb, hf]
    rw [if_neg (by simpa using hlen), bind_params_eq_eval_args _ _ _ _ _ _ hlen]
    exact andThen_result_error _ _ _ (andThen_result_error _ _ _
      (eval_args_append_error _ _ _ _ _ _ _ _ _ _ hargs herr))
  | user_body fuel name args state state1 ctx ctx1 fn_obj values hb hf hlen hargs =>
    simp only [Call.run] at herr ⊢
    simp only [eval_value, eval_function_call, hb, hf]
    rw [if_neg (by simpa using hlen), bind_params_eq_eval_args _ _ _ _ _ _ hlen, hargs]
    exact herr

/-- Errors are not caught: when any call made in the course of a call fails,
the call fails with the same error. -/
theorem evaluates_error (A : Arith V) (k k1 : Call V) (err : Error)
    (h : Evaluates A k k1) (herr : (k1.run A).result = .error err) :
    (k.run A).result = .error err := by
  induction h with
  | refl => exact herr
  | tail _ hstep ih => exact ih (direct_call_error A _ _ err hstep herr)
/-- A property of the session state that assignments to non-reserved
variables keep holds at every call made directly by a call. -/
theorem direct_call_state (A : Arith V) (P : State V → Prop)
    (hP : ∀ s name v, is_reserved_identifier A name = false → P s →
      P { s with vars := map_set s.vars name v })
    (k k1 : Call V) (h : DirectCall A k k1) (hk : P k.state) : P k1.state := by
  have hev := fun fuel => preserves_eval_value A P hP fuel
  cases h with
  | unary | first_left | first_right | first_exponent | assigned | condition => exact hk
  | then_base fuel left right state state1 ctx ctx1 b hr =>
    have := hev fuel right state ctx hk
    rw [hr] at this
    exact this
  | then_right fuel op left right state state1 ctx ctx1 a hop hl =>
    have := hev fuel left state ctx hk
    rw [hl] at this
    exact this
  | then_left fuel op left right state state1 ctx ctx1 rhs hop hr hz =>
    have := hev fuel right state ctx hk
    rw [hr] at this
    exact this
  | then_branch fuel c t e state state1 ctx ctx1 value hc hnz =>
    have := hev fuel c state ctx hk
    rw [hc] at this
    exact this
  | else_branch fuel c t e state state1 ctx ctx1 value hc hz =>
    have := hev fuel c state ctx hk
    rw [hc] at this
    exact this
  | builtin_arg fuel name before arg after state state1 ctx ctx1 spec values hb hlen hargs =>
    have := preserves_eval_args P _ (hev fuel) before state ctx hk
    rw [hargs] at this
    exact this
  | user_arg fuel name before arg after state state1 ctx ctx1 fn_obj values hb hf hlen hargs =>
    have := preserves_eval_args P _ (hev fuel) before state ctx hk
    rw [hargs] at this
    exact this
  | user_body fuel name args state state1 ctx ctx1 fn_obj values hb hf hlen hargs =>
    have := preserves_eval_args P _ (hev fuel) args state ctx hk
    rw [hargs] at this
    exact this

theorem evaluates_state (A : Arith V) (P : State V → Prop)
    (hP : ∀ s name v, is_reserved_identifier A name = false → P s →
      P { s with vars := map_set s.vars name v })
    (k k1 : Call V) (h : Evaluates A k k1) (hk : P k.state) : P k1.state := by
  induction h with
  | refl => exact hk
  | tail _ hstep ih => exact direct_call_state A P hP _ _ hstep ih

/-! ### C9: the ternary evaluates only the branch it takes -/

/-- C9. Ternary short-circuit. For every state, context and budget and all
expressions `c`, `t`, `e`, evaluating `Ternary c t e` evaluates `c`; if that
fails, the ternary fails with the same error; if `c` returns a nonzero value
the ternary is the evaluation of `t` in the state and context `c` left, the
only calls it makes are those on `c` and on `t`, and (the right-hand side not
mentioning `e`) the outcome is the same for every `e`; if `c` returns zero
the same holds with `e` in place of `t`. In an arithmetic exact on small
natural numbers the query `3 > 2 ? 10 : (x = 20)` returns 10 and changes
nothing in the state but the last-result memo, so that `x` stays undefined. -/
theorem C9_ternary_short_circuit (A : Arith V) :
    (∀ (fuel : Nat) (c t e : Expression V) (state state1 : State V)
        (ctx ctx1 : EvalContext V) (err : Error),
      eval_value A fuel c state ctx = ⟨.error err, state1, ctx1⟩ →
      eval_value A (fuel + 1) (.Ternary c t e) state ctx = ⟨.error err, state1, ctx1⟩) ∧
    (∀ (fuel : Nat) (c t e : Expression V) (state state1 : State V)
        (ctx ctx1 : EvalContext V) (v : V),
      eval_value A fuel c state ctx = ⟨.ok v, state1, ctx1⟩ → A.ne v (A.ofNat 0) = true →
      eval_value A (fuel + 1) (.Ternary c t e) state ctx = eval_value A fuel t state1 ctx1 ∧
      ∀ k, DirectCall A ⟨fuel + 1, .Ternary c t e, state, ctx⟩ k →
        k = ⟨fuel, c, state, ctx⟩ ∨ k = ⟨fuel, t, state1, ctx1⟩) ∧
    (∀ (fuel : Nat) (c t e : Expression V) (state state1 : State V)
        (ctx ctx1 : EvalContext V) (v : V),
      eval_value A fuel c state ctx = ⟨.ok v, state1, ctx1⟩ → A.ne v (A.ofNat 0) = false →
      eval_value A (fuel + 1) (.Ternary c t e) state ctx = eval_value A fuel e state1 ctx1 ∧
      ∀ k, DirectCall A ⟨fuel + 1, .Ternary c t e, state, ctx⟩ k →
        k = ⟨fuel, c, state, ctx⟩ ∨ k = ⟨fuel, e, state1, ctx1⟩) ∧
    (A.ExactOnNat → ∀ (fuel : Nat) (state : State V), 3 ≤ fuel →
      process_query A fuel "3 > 2 ? 10 : (x = 20)" state
        = (.ok ⟨some (A.ofNat 10), none⟩,
            { state with last_result := A.ofNat 10, has_last_result := true })) := by
  refine ⟨?_, ?_, ?_, ?_⟩
  · intro fuel c t e state state1 ctx ctx1 err hc
    simp only [eval_value, eval_ternary, hc, andThen_error]
  · intro fuel c t e state state1 ctx ctx1 v hc hv
    refine ⟨by simp only [eval_value, eval_ternary, hc, andThen_ok, hv, if_true], ?_⟩
    intro k hk
    cases hk with
    | condition => exact Or.inl rfl
    | then_branch _ _ _ _ _ s2 _ c2 v2 hc2 hv2 =>
      rw [hc] at hc2
      simp only [EvalOut.mk.injEq, Except.ok.injEq] at hc2
      obtain ⟨-, rfl, rfl⟩ := hc2
      exact Or.inr rfl
    | else_branch _ _ _ _ _ s2 _ c2 v2 hc2 hv2 =>
      rw [hc] at hc2
      simp only [EvalOut.mk.injEq, Except.ok.injEq] at hc2
      obtain ⟨rfl, -, -⟩ := hc2
      rw [hv] at hv2
      exact absurd hv2 (by simp)
  · intro fuel c t e state state1 ctx ctx1 v hc hv
    refine ⟨by simp only [eval_value, eval_ternary, hc, andThen_ok, hv, Bool.false_eq_true,
      if_false], ?_⟩
    intro k hk
    cases hk with
    | condition => exact Or.inl rfl
    | then_branch _ _ _ _ _ s2 _ c2 v2 hc2 hv2 =>
      rw [hc] at hc2
      simp only [EvalOut.mk.injEq, Except.ok.injEq] at hc2
      obtain ⟨rfl, -, -⟩ := hc2
      rw [hv] at hv2
      exact absurd hv2 (by simp)
    | else_branch _ _ _ _ _ s2 _ c2 v2 hc2 hv2 =>
      rw [hc] at hc2
      simp only [EvalOut.mk.injEq, Except.ok.injEq] at hc2
      obtain ⟨-, rfl, rfl⟩ := hc2
      exact Or.inr rfl
  · intro hA fuel state hfuel
    obtain ⟨n, rfl⟩ := Nat.exists_eq_add_of_le hfuel
    have d2 : A.stod ['2'] = some (A.ofNat 2) :=
      stod_nat_lit A hA _ 2 (by simp) (by decide) (by decide) (by decide)
    have d3 : A.stod ['3'] = some (A.ofNat 3) :=
      stod_nat_lit A hA _ 3 (by simp) (by decide) (by decide) (by decide)
    have d10 : A.stod ['1', '0'] = some (A.ofNat 10) :=
      stod_nat_lit A hA _ 10 (by simp) (by decide) (by decide) (by decide)
    have d20 : A.stod ['2', '0'] = some (A.ofNat 20) :=
      stod_nat_lit A hA _ 20 (by simp) (by decide) (by decide) (by decide)
    have hl : "3 > 2 ? 10 : (x = 20)".length = 21 := by decide
    have ht : "3 > 2 ? 10 : (x = 20)".toList = ['3', ' ', '>', ' ', '2', ' ', '?', ' ', '1',
        '0', ' ', ':', ' ', '(', 'x', ' ', '=', ' ', '2', '0', ')'] := by decide
    have htok : tokenize A "3 > 2 ? 10 : (x = 20)" = .ok [Token.number (A.ofNat 3),
        Token.op .Greater, Token.number (A.ofNat 2), Token.op .Question,
        Token.number (A.ofNat 10), Token.op .Colon, Token.op .LParen, Token.identifier "x",
        Token.op .Equals, Token.number (A.ofNat 20), Token.op .RParen] := by
      simp +decide [tokenize, hl, ht, tokenize_loop, scan_number, scan_identifier, d2, d3, d10,
        d20]
    have hparse : parse [Token.number (A.ofNat 3),
        Token.op .Greater, Token.number (A.ofNat 2), Token.op .Question,
        Token.number (A.ofNat 10), Token.op .Colon, Token.op .LParen, Token.identifier "x",
        Token.op .Equals, Token.number (A.ofNat 20), Token.op .RParen]
        = .ok (.Ternary (.Binary .Greater (.Number (A.ofNat 3)) (.Number (A.ofNat 2)))
            (.Number (A.ofNat 10))
            (.Binary .Equals (.Variable "x") (.Number (A.ofNat 20)))) := rfl
    have hgt : A.gt (A.ofNat 3) (A.ofNat 2) = true := by
      rw [hA.gt_nat 3 2 (by decide) (by decide)]; decide
    have hne : A.ne (A.ofNat 1) (A.ofNat 0) = true := by
      rw [hA.ne_nat 1 0 (by decide) (by decide)]; decide
    rw [show 3 + n = (n + 2) + 1 by omega]
    simp [process_query, htok, hparse, evaluate, eval_value, eval_ternary, eval_binary,
      EvalOut.andThen, hgt, Arith.ofBool, hne]

/-- C9 at concrete inputs, in the rational arithmetic: a failing condition,
a nonzero condition with an undefined variable in the untaken else branch, a
zero condition with one in the untaken then branch, and the query
`3 > 2 ? 10 : (x = 20)` on a fresh state, which returns 10 and leaves `x`
undefined. -/
theorem C9_ternary_short_circuit_witness :
    Arith.rat.ExactOnNat ∧
    eval_value Arith.rat 2 (.Ternary (.Variable "zz") (.Number 1) (.Number 2))
        (State.init Arith.rat) ⟨none, true⟩
      = ⟨.error (.EvalError "Variable 'zz' not defined"), State.init Arith.rat, ⟨none, true⟩⟩ ∧
    eval_value Arith.rat 2 (.Ternary (.Number 1) (.Number 10) (.Variable "zz"))
        (State.init Arith.rat) ⟨none, true⟩
      = eval_value Arith.rat 1 (.Number 10) (State.init Arith.rat) ⟨none, true⟩ ∧
    eval_value Arith.rat 2 (.Ternary (.Number 0) (.Variable "zz") (.Number 7))
        (State.init Arith.rat) ⟨none, true⟩
      = eval_value Arith.rat 1 (.Number 7) (State.init Arith.rat) ⟨none, true⟩ ∧
    (process_query Arith.rat 3 "3 > 2 ? 10 : (x = 20)" (State.init Arith.rat)).1
      = .ok ⟨some (Arith.rat.ofNat 10), none⟩ ∧
    (process_query Arith.rat 3 "3 > 2 ? 10 : (x = 20)" (State.init Arith.rat)).2.vars "x"
      = none := by
  have h := C9_ternary_short_circuit Arith.rat
  have h4 := h.2.2.2 Arith.rat_exactOnNat 3 (State.init Arith.rat) (Nat.le_refl 3)
  rw [h4]
  refine ⟨Arith.rat_exactOnNat, ?_, ?_, ?_, rfl, rfl⟩
  · exact h.1 1 (.Variable "zz") (.Number 1) (.Number 2) _ _ ⟨none, true⟩ ⟨none, true⟩ _ rfl
  · exact (h.2.1 1 (.Number 1) (.Number 10) (.Variable "zz") _ _ ⟨none, true⟩ ⟨none, true⟩ 1
      rfl (by simp [Arith.rat])).1
  · exact (h.2.2.1 1 (.Number 0) (.Variable "zz") (.Number 7) _ _ ⟨none, true⟩ ⟨none, true⟩ 0
      rfl (by simp [Arith.rat])).1

/-! ### C10: the last-result memo -/

theorem tokenize_underscore (A : Arith V) :
    tokenize A "_" = .ok [Token.identifier "_"] := rfl

theorem parse_underscore : parse [(Token.identifier "_" : Token V)] = .ok (.Variable "_") := rfl

/-- The query `_` on a state without a recorded result. -/
theorem process_underscore_none (A : Arith V) (fuel : Nat) (state : State V)
    (h : state.has_last_result = false) :
    process_query A (fuel + 1) "_" state
      = (.error (.EvalError "No previous result available for '_'"), state) := by
  simp [process_query, tokenize_underscore, parse_underscore, evaluate, eval_value,
    eval_variable, h]

/-- The query `_` on a state with a recorded result. -/
theorem process_underscore_some (A : Arith V) (fuel : Nat) (state : State V)
    (h : state.has_last_result = true) :
    process_query A (fuel + 1) "_" state = (.ok ⟨some state.last_result, none⟩, state) := by
  rcases state with ⟨vars, fns, last, has⟩
  simp only at h
  subst h
  simp [process_query, tokenize_underscore, parse_underscore, evaluate, eval_value,
    eval_variable]

/-- A query that returns a value records it. -/
theorem process_query_records (A : Arith V) (fuel : Nat) (input : String)
    (state state1 : State V) (v : V) (info : Option String)
    (h : process_query A fuel input state = (.ok ⟨some v, info⟩, state1)) :
    state1.has_last_result = true ∧ state1.last_result = v := by
  unfold process_query at h
  split at h
  · simp at h
  · split at h
    · simp at h
    · split at h
      · simp at h
      · rename_i result s2 _
        split at h
        · rename_i value hval
          simp only [Prod.mk.injEq, Except.ok.injEq] at h
          obtain ⟨h1, rfl⟩ := h
          rw [h1] at hval
          simp only [Option.some.injEq] at hval
          exact ⟨rfl, hval.symm⟩
        · rename_i hval
          simp only [Prod.mk.injEq, Except.ok.injEq] at h
          rw [h.1] at hval
          simp at hval

/-- A call on the variable `_`, with budget and without a local of that
name, fails when no result has been recorded. -/
theorem read_underscore_fails (A : Arith V) (k : Call V) (hexpr : k.expr = .Variable "_")
    (hfuel : 0 < k.fuel) (hloc : k.ctx.locals.bind (fun locals => locals "_") = none)
    (hmemo : k.state.has_last_result = false) :
    (k.run A).result = .error (.EvalError "No previous result available for '_'") := by
  rcases k with ⟨fuel, expr, state, ctx⟩
  simp only at hexpr hfuel hloc hmemo
  subst hexpr
  obtain ⟨n, rfl⟩ := Nat.exists_eq_succ_of_ne_zero (Nat.pos_iff_ne_zero.mp hfuel)
  simp [Call.run, eval_value, eval_variable, hloc, hmemo]

/-- The root of a function definition makes no call of `eval_value`. -/
theorem no_direct_call_from_definition (A : Arith V) (fuel : Nat) (name : Identifier)
    (args : List (Expression V)) (right : Expression V) (state : State V)
    (ctx : EvalContext V) (k : Call V) :
    ¬ DirectCall A ⟨fuel, .Binary .Equals (.FnCall name args) right, state, ctx⟩ k := by
  intro h
  cases h with
  | first_left _ _ _ _ _ _ hop => simp [left_first] at hop
  | then_right _ _ _ _ _ _ _ _ _ hop => simp [left_first] at hop
  | first_right _ _ _ _ _ _ hop => simp [right_first] at hop
  | then_left _ _ _ _ _ _ _ _ _ hop => simp [right_first] at hop

/-- A query in whose evaluation `_` is read while no result is recorded fails
with the EvalError of `_`. -/
theorem evaluate_reads_underscore (A : Arith V) (fuel : Nat) (expr : Expression V)
    (state : State V) (k : Call V) (hmemo : state.has_last_result = false)
    (hev : Evaluates A ⟨fuel, expr, state, ⟨none, true⟩⟩ k) (hexpr : k.expr = .Variable "_")
    (hfuel : 0 < k.fuel) (hloc : k.ctx.locals.bind (fun locals => locals "_") = none) :
    (evaluate A fuel expr state).1
      = .error (.EvalError "No previous result available for '_'") := by
  have hk : k.state.has_last_result = false :=
    evaluates_state A (fun s => s.has_last_result = false) (fun _ _ _ _ hs => hs) _ _ hev hmemo
  have hfail := evaluates_error A _ _ _ hev (read_underscore_fails A k hexpr hfuel hloc hk)
  simp only [Call.run] at hfail
  unfold evaluate
  split
  · rename_i name args right
    rcases Relation.ReflTransGen.cases_head hev with heq | ⟨k1, hstep, -⟩
    · rw [← heq] at hexpr
      simp at hexpr
    · exact absurd hstep (no_direct_call_from_definition A _ _ _ _ _ _ _)
  · simp only [hfail]
/-! ### In reachable states no local variable is named `_` -/

theorem ctx_preserves_andThen {α β : Type} (Q : EvalContext V → Prop) (out : EvalOut V α)
    (next : α → State V → EvalContext V → EvalOut V β)
    (h1 : Q out.ctx) (h2 : ∀ v s c, Q c → Q (next v s c).ctx) :
    Q (out.andThen next).ctx := by
  rcases out with ⟨r, s, c⟩
  cases r with
  | error err => exact h1
  | ok v => exact h2 v s c h1

theorem ctx_preserves_eval_binary (A : Arith V) (Q : EvalContext V → Prop)
    (hQ : ∀ (c : EvalContext V) locals name v, is_reserved_identifier A name = false → Q c →
      c.locals = some locals → Q { c with locals := some (map_set locals name v) })
    (ev : Evaluator V) (hev : ev.PreservesCtx Q) (op : TType)
    (left right : Expression V) (state : State V) (ctx : EvalContext V) (h : Q ctx) :
    Q (eval_binary A ev op left right state ctx).ctx := by
  have both : ∀ f : V → V → V,
      Q ((ev left state ctx).andThen fun a state ctx =>
        (ev right state ctx).andThen fun b state ctx =>
          (⟨.ok (f a b), state, ctx⟩ : EvalOut V V)).ctx := by
    intro f
    refine ctx_preserves_andThen Q _ _ (hev _ _ _ h) fun a s c hc => ?_
    exact ctx_preserves_andThen Q _ _ (hev _ _ _ hc) fun b s2 c2 hc2 => hc2
  have powlike : ∀ f : V → V → V,
      Q ((ev right state ctx).andThen fun b state ctx =>
        (ev left state ctx).andThen fun a state ctx =>
          (⟨.ok (f a b), state, ctx⟩ : EvalOut V V)).ctx := by
    intro f
    refine ctx_preserves_andThen Q _ _ (hev _ _ _ h) fun a s c hc => ?_
    exact ctx_preserves_andThen Q _ _ (hev _ _ _ hc) fun b s2 c2 hc2 => hc2
  have divlike : ∀ (msg : String) (f : V → V → V),
      Q ((ev right state ctx).andThen fun rhs state ctx =>
        if A.eq rhs (A.ofNat 0) = true then (⟨.error (.EvalError msg), state, ctx⟩ : EvalOut V V)
        else (ev left state ctx).andThen fun lhs state ctx =>
          ⟨.ok (f lhs rhs), state, ctx⟩).ctx := by
    intro msg f
    refine ctx_preserves_andThen Q _ _ (hev _ _ _ h) fun a s c hc => ?_
    split
    · exact hc
    · exact ctx_preserves_andThen Q _ _ (hev _ _ _ hc) fun b s2 c2 hc2 => hc2
  cases op <;> simp only [eval_binary] <;>
    first
    | exact both _
    | exact powlike _
    | exact divlike _ _
    | exact h
    | skip
  cases left <;> try exact h
  rename_i name
  simp only
  split
  · exact h
  · rename_i hres
    refine ctx_preserves_andThen Q _ _ (hev _ _ _ h) fun v s c hc => ?_
    cases hl : c.locals with
    | none => exact hc
    | some locals => exact hQ c locals name v (by simpa using hres) hc hl

theorem ctx_preserves_eval_args (Q : EvalContext V → Prop) (ev : Evaluator V)
    (hev : ev.PreservesCtx Q) (args : List (Expression V)) (state : State V)
    (ctx : EvalContext V) (h : Q ctx) :
    Q (eval_args ev args state ctx).ctx := by
  induction args generalizing state ctx with
  | nil => exact h
  | cons a as ih =>
    simp only [eval_args]
    refine ctx_preserves_andThen Q _ _ (hev _ _ _ h) fun v s c hc => ?_
    exact ctx_preserves_andThen Q _ _ (ih s c hc) fun vs s2 c2 hc2 => hc2

theorem ctx_preserves_bind_params (Q : EvalContext V → Prop) (ev : Evaluator V)
    (hev : ev.PreservesCtx Q) (ps : Identifiers) (args : List (Expression V))
    (m : VariableMap V) (state : State V) (ctx : EvalContext V) (h : Q ctx) :
    Q (bind_params ev ps args m state ctx).ctx := by
  induction ps generalizing args m state ctx with
  | nil => cases args <;> exact h
  | cons p ps ih =>
    cases args with
    | nil => exact h
    | cons a as =>
      simp only [bind_params]
      exact ctx_preserves_andThen Q _ _ (hev _ _ _ h) fun v s c hc => ih as _ s c hc

theorem ctx_preserves_eval_function_call (A : Arith V) (Q : EvalContext V → Prop)
    (ev : Evaluator V) (hev : ev.PreservesCtx Q) (name : Identifier)
    (args : List (Expression V)) (state : State V) (ctx : EvalContext V) (h : Q ctx) :
    Q (eval_function_call A ev name args state ctx).ctx := by
  unfold eval_function_call
  split
  · split
    · exact h
    · exact ctx_preserves_andThen Q _ _ (ctx_preserves_eval_args Q ev hev _ _ _ h)
        fun vs s c hc => hc
  · split
    · exact h
    · split
      · exact h
      · exact ctx_preserves_andThen Q _ _ (ctx_preserves_bind_params Q ev hev _ _ _ _ _ h)
          fun locals s c hc => hc

theorem ctx_preserves_eval_ternary (A : Arith V) (Q : EvalContext V → Prop)
    (ev : Evaluator V) (hev : ev.PreservesCtx Q) (c t e : Expression V) (state : State V)
    (ctx : EvalContext V) (h : Q ctx) :
    Q (eval_ternary A ev c t e state ctx).ctx := by
  unfold eval_ternary
  refine ctx_preserves_andThen Q _ _ (hev _ _ _ h) fun v s c hc => ?_
  split
  · exact hev _ _ _ hc
  · exact hev _ _ _ hc

theorem eval_variable_ctx (A : Arith V) (name : Identifier) (state : State V)
    (ctx : EvalContext V) : (eval_variable A name state ctx).ctx = ctx := by
  unfold eval_variable
  repeat' split
  all_goals rfl

/-- The evaluator keeps every property of the context that assignments of
non-reserved names to the overlay keep. -/
theorem ctx_preserves_eval_value (A : Arith V) (Q : EvalContext V → Prop)
    (hQ : ∀ (c : EvalContext V) locals name v, is_reserved_identifier A name = false → Q c →
      c.locals = some locals → Q { c with locals := some (map_set locals name v) })
    (fuel : Nat) : Evaluator.PreservesCtx Q (eval_value A fuel) := by
  induction fuel with
  | zero => intro expr state ctx h; exact h
  | succ fuel ih =>
    intro expr state ctx h
    cases expr with
    | Number v => exact h
    | Variable name =>
      simp only [eval_value, eval_variable_ctx]
      exact h
    | Unary op right =>
      simp only [eval_value]
      exact ctx_preserves_andThen Q _ _ (ih _ _ _ h) fun v s c hc => hc
    | Binary op left right => exact ctx_preserves_eval_binary A Q hQ _ ih op left right state ctx h
    | FnCall name args => exact ctx_preserves_eval_function_call A Q _ ih name args state ctx h
    | Ternary c t e => exact ctx_preserves_eval_ternary A Q _ ih c t e state ctx h

theorem noReservedLocals_set (A : Arith V) (c : EvalContext V) (locals : VariableMap V)
    (name : Identifier) (v : V) (hres : is_reserved_identifier A name = false)
    (hc : c.NoReservedLocals A) (hl : c.locals = some locals) :
    EvalContext.NoReservedLocals A { c with locals := some (map_set locals name v) } := by
  intro l2 hl2 r hr
  simp only [Option.some.injEq] at hl2
  subst hl2
  have hne : r ≠ name := by
    rintro rfl
    rw [hr] at hres
    exact absurd hres (by simp)
  simp [map_set, hne, hc locals hl r hr]

theorem noReservedLocals_overlay (A : Arith V) (ps : Identifiers) (vs : List V) (flag : Bool)
    (hps : ∀ p ∈ ps, is_reserved_identifier A p = false) :
    EvalContext.NoReservedLocals A ⟨some (overlay ps vs), flag⟩ := by
  intro locals hl r hr
  simp only [Option.some.injEq] at hl
  subst hl
  refine bind_fold_not_mem ps vs _ r fun hmem => ?_
  rw [hps r hmem] at hr
  exact absurd hr (by simp)

/-- At every call made directly by a call, the overlay binds no reserved name
and no stored parameter is reserved, if that is so at the call. -/
theorem direct_call_locals (A : Arith V) (k k1 : Call V) (h : DirectCall A k k1)
    (hs : k.state.ParamsNotReserved A) (hc : k.ctx.NoReservedLocals A) :
    k1.state.ParamsNotReserved A ∧ k1.ctx.NoReservedLocals A := by
  have hstate := direct_call_state A (State.ParamsNotReserved A)
    (fun _ _ _ _ hp => hp) k k1 h hs
  refine ⟨hstate, ?_⟩
  have hev := fun fuel => ctx_preserves_eval_value A (EvalContext.NoReservedLocals A)
    (fun c locals name v hres hq hl => noReservedLocals_set A c locals name v hres hq hl) fuel
  cases h with
  | unary | first_left | first_right | first_exponent | assigned | condition => exact hc
  | then_base fuel left right state state1 ctx ctx1 b hr =>
    have := hev fuel right state ctx hc
    rw [hr] at this
    exact this
  | then_right fuel op left right state state1 ctx ctx1 a hop hl =>
    have := hev fuel left state ctx hc
    rw [hl] at this
    exact this
  | then_left fuel op left right state state1 ctx ctx1 rhs hop hr hz =>
    have := hev fuel right state ctx hc
    rw [hr] at this
    exact this
  | then_branch fuel c t e state state1 ctx ctx1 value hcond hnz =>
    have := hev fuel c state ctx hc
    rw [hcond] at this
    exact this
  | else_branch fuel c t e state state1 ctx ctx1 value hcond hz =>
    have := hev fuel c state ctx hc
    rw [hcond] at this
    exact this
  | builtin_arg fuel name before arg after state state1 ctx ctx1 spec values hb hlen hargs =>
    have := ctx_preserves_eval_args _ _ (hev fuel) before state ctx hc
    rw [hargs] at this
    exact this
  | user_arg fuel name before arg after state state1 ctx ctx1 fn_obj values hb hf hlen hargs =>
    have := ctx_preserves_eval_args _ _ (hev fuel) before state ctx hc
    rw [hargs] at this
    exact this
  | user_body fuel name args state state1 ctx ctx1 fn_obj values hb hf hlen hargs =>
    exact noReservedLocals_overlay A _ _ _ (hs name fn_obj hf)

theorem evaluates_locals (A : Arith V) (k k1 : Call V) (h : Evaluates A k k1)
    (hs : k.state.ParamsNotReserved A) (hc : k.ctx.NoReservedLocals A) :
    k1.state.ParamsNotReserved A ∧ k1.ctx.NoReservedLocals A := by
  induction h with
  | refl => exact ⟨hs, hc⟩
  | tail _ hstep ih => exact direct_call_locals A _ _ hstep ih.1 ih.2

theorem collect_params_not_reserved (A : Arith V) (args : List (Expression V))
    (acc ps : Identifiers) (h : collect_params A args acc = .ok ps)
    (hacc : ∀ p ∈ acc, is_reserved_identifier A p = false) :
    ∀ p ∈ ps, is_reserved_identifier A p = false := by
  induction args generalizing acc with
  | nil =>
    simp only [collect_params, Except.ok.injEq] at h
    subst h
    exact hacc
  | cons a as ih =>
    cases a with
    | Variable name =>
      simp only [collect_params] at h
      split at h
      · simp at h
      · rename_i hres
        split at h
        · simp at h
        · refine ih (acc ++ [name]) h fun p hp => ?_
          rcases List.mem_append.mp hp with hp | hp
          · exact hacc p hp
          · simp only [List.mem_singleton] at hp
            subst hp
            simpa using hres
    | Number _ | Unary _ _ | Binary _ _ _ | FnCall _ _ | Ternary _ _ _ =>
      simp [collect_params] at h

theorem paramsNotReserved_define_function (A : Arith V) (left right : Expression V)
    (s : State V) (h : s.ParamsNotReserved A) :
    State.ParamsNotReserved A (define_function A left right s).2 := by
  unfold define_function
  split
  · rename_i name args
    split
    · exact h
    · split
      · exact h
      · rename_i params hcollect
        intro g fn_obj hg
        simp only [map_set] at hg
        split at hg
        · simp only [Option.some.injEq] at hg
          subst hg
          exact collect_params_not_reserved A args [] params hcollect (by simp)
        · exact h g fn_obj hg
  · exact h

theorem paramsNotReserved_process_query (A : Arith V) (fuel : Nat) (input : String)
    (s : State V) (h : s.ParamsNotReserved A) :
    State.ParamsNotReserved A (process_query A fuel input s).2 := by
  have hev := preserves_eval_value A (State.ParamsNotReserved A) (fun _ _ _ _ hp => hp) fuel
  have hevaluate : ∀ expr, State.ParamsNotReserved A (evaluate A fuel expr s).2 := by
    intro expr
    unfold evaluate
    split
    · exact paramsNotReserved_define_function A _ _ s h
    · have := hev expr s ⟨none, true⟩ h
      simp only
      split <;> exact this
  unfold process_query
  split
  · exact h
  · split
    · exact h
    · rename_i expr _
      have h2 := hevaluate expr
      split
      · rename_i heq
        rw [heq] at h2
        exact h2
      · rename_i heq
        rw [heq] at h2
        split
        · exact h2
        · exact h2

theorem paramsNotReserved_reachable (A : Arith V) (s : State V) (h : Reachable A s) :
    s.ParamsNotReserved A := by
  induction h with
  | init => intro name fn_obj hf; simp [State.init] at hf
  | query fuel input state _ ih => exact paramsNotReserved_process_query A fuel input state ih

/-- In a reachable state, no call made in the course of a top-level
evaluation has a local variable named `_`. -/
theorem reachable_no_local_underscore (A : Arith V) (fuel : Nat) (expr : Expression V)
    (state : State V) (k : Call V) (flag : Bool) (hr : Reachable A state)
    (hev : Evaluates A ⟨fuel, expr, state, ⟨none, flag⟩⟩ k) :
    k.ctx.locals.bind (fun locals => locals "_") = none := by
  have h := (evaluates_locals A _ _ hev (paramsNotReserved_reachable A state hr)
    (fun locals hl => by simp at hl)).2
  cases hl : k.ctx.locals with
  | none => rfl
  | some locals => exact h locals hl "_" rfl

/-- The query `zz ^ _` on a state with no recorded result fails with the error
of `_`, whatever `zz` is: the right operand of `^` is evaluated first. -/
theorem process_zz_pow_underscore (A : Arith V) (n : Nat) (state : State V)
    (hmemo : state.has_last_result = false) :
    process_query A (n + 2) "zz ^ _" state
      = (.error (.EvalError "No previous result available for '_'"), state) := by
  have htok : tokenize A "zz ^ _" = .ok [Token.identifier "zz", Token.op .Caret,
      Token.identifier "_"] := rfl
  have hparse : parse [(Token.identifier "zz" : Token V), Token.op .Caret, Token.identifier "_"]
      = .ok (.Binary .Caret (.Variable "zz") (.Variable "_")) := rfl
  simp [process_query, htok, hparse, evaluate, eval_value, eval_binary, eval_variable,
    EvalOut.andThen, hmemo]

/-- The query `_ ^ zz` on a state without a variable `zz` fails with the error
of `zz`, recorded result or not: `_` is not read. -/
theorem process_underscore_pow_zz (A : Arith V) (n : Nat) (state : State V)
    (hzz : state.vars "zz" = none) :
    process_query A (n + 2) "_ ^ zz" state
      = (.error (.EvalError "Variable 'zz' not defined"), state) := by
  have htok : tokenize A "_ ^ zz" = .ok [Token.identifier "_", Token.op .Caret,
      Token.identifier "zz"] := rfl
  have hparse : parse [(Token.identifier "_" : Token V), Token.op .Caret, Token.identifier "zz"]
      = .ok (.Binary .Caret (.Variable "_") (.Variable "zz")) := rfl
  have hczz : find_constant A "zz" = none := rfl
  simp [process_query, htok, hparse, evaluate, eval_value, eval_binary, eval_variable,
    EvalOut.andThen, hzz, hczz]

/-- The query `_ + zz` on a state with no recorded result fails with the error
of `_`, whatever `zz` is: the left operand of `+` is evaluated first. -/
theorem process_underscore_plus_zz (A : Arith V) (n : Nat) (state : State V)
    (hmemo : state.has_last_result = false) :
    process_query A (n + 2) "_ + zz" state
      = (.error (.EvalError "No previous result available for '_'"), state) := by
  have htok : tokenize A "_ + zz" = .ok [Token.identifier "_", Token.op .Plus,
      Token.identifier "zz"] := rfl
  have hparse : parse [(Token.identifier "_" : Token V), Token.op .Plus, Token.identifier "zz"]
      = .ok (.Binary .Plus (.Variable "_") (.Variable "zz")) := rfl
  simp [process_query, htok, hparse, evaluate, eval_value, eval_binary, eval_variable,
    EvalOut.andThen, hmemo]

/-- C10. Last-result round trip. On a state with no recorded result the query
`_` fails with the EvalError `No previous result available for '_'` and
leaves the state as it was, and so does, with that error, every query in
whose evaluation `_` is read (a call of the evaluator on the variable `_`,
with budget left and no local variable of that name, is made in the course
of evaluating the parsed query); in a state reachable from the empty one no
call ever has a local variable named `_`. For every state and every query
that returns a numeric value `v`, the query `_` asked next returns `v` and
leaves the state as it is. In an arithmetic exact on small natural numbers: on a
state in which `pi` is not a variable, `pi` returns the constant, and
`_ * 2` asked next returns `pi * 2` (the value of `tau`). Which queries read
`_` follows the order in which the operands run: on a state with no recorded
result `zz ^ _` and `_ + zz` fail with the error of `_`, whatever `zz` is,
while `_ ^ zz` on a state without a variable `zz` fails with
"Variable 'zz' not defined" and does not read `_`, the right operand of `^`
being evaluated first. -/
theorem C10_last_result_round_trip (A : Arith V) :
    (∀ (fuel : Nat) (state : State V), state.has_last_result = false →
      process_query A (fuel + 1) "_" state
        = (.error (.EvalError "No previous result available for '_'"), state)) ∧
    (∀ (fuel : Nat) (input : String) (state : State V) (tokens : Tokens V)
        (expr : Expression V) (k : Call V),
      state.has_last_result = false → tokenize A input = .ok tokens →
      parse tokens = .ok expr → Evaluates A ⟨fuel, expr, state, ⟨none, true⟩⟩ k →
      k.expr = .Variable "_" → 0 < k.fuel →
      k.ctx.locals.bind (fun locals => locals "_") = none →
      (process_query A fuel input state).1
        = .error (.EvalError "No previous result available for '_'")) ∧
    (∀ (fuel : Nat) (expr : Expression V) (state : State V) (k : Call V),
      Reachable A state → Evaluates A ⟨fuel, expr, state, ⟨none, true⟩⟩ k →
      k.ctx.locals.bind (fun locals => locals "_") = none) ∧
    (∀ (fuel fuel1 : Nat) (input : String) (state state1 : State V) (v : V)
        (info : Option String),
      process_query A fuel input state = (.ok ⟨some v, info⟩, state1) →
      process_query A (fuel1 + 1) "_" state1 = (.ok ⟨some v, none⟩, state1)) ∧
    (A.ExactOnNat → ∀ (fuel fuel1 : Nat) (state : State V), state.vars "pi" = none →
      2 ≤ fuel1 →
      (process_query A (fuel + 1) "pi" state).1 = .ok ⟨some A.pi, none⟩ ∧
      (process_query A fuel1 "_ * 2" (process_query A (fuel + 1) "pi" state).2).1
        = .ok ⟨some (A.mul A.pi (A.ofNat 2)), none⟩ ∧
      find_constant A "tau" = some (A.mul A.pi (A.ofNat 2))) ∧
    (∀ (fuel : Nat) (state : State V), state.has_last_result = false →
      process_query A (fuel + 2) "zz ^ _" state
        = (.error (.EvalError "No previous result available for '_'"), state) ∧
      process_query A (fuel + 2) "_ + zz" state
        = (.error (.EvalError "No previous result available for '_'"), state)) ∧
    (∀ (fuel : Nat) (state : State V), state.vars "zz" = none →
      process_query A (fuel + 2) "_ ^ zz" state
        = (.error (.EvalError "Variable 'zz' not defined"), state)) := by
  refine ⟨process_underscore_none A, ?_, ?_, ?_, ?_,
    fun fuel state hmemo => ⟨process_zz_pow_underscore A fuel state hmemo,
      process_underscore_plus_zz A fuel state hmemo⟩,
    fun fuel state hzz => process_underscore_pow_zz A fuel state hzz⟩
  · intro fuel input state tokens expr k hmemo htok hparse hev hexpr hfuel hloc
    have h := evaluate_reads_underscore A fuel expr state k hmemo hev hexpr hfuel hloc
    simp only [process_query, htok, hparse]
    rcases hres : evaluate A fuel expr state with ⟨r, s⟩
    rw [hres] at h
    simp only at h
    subst h
    rfl
  · intro fuel expr state k hr hev
    exact reachable_no_local_underscore A fuel expr state k true hr hev
  · intro fuel fuel1 input state state1 v info h
    obtain ⟨h1, h2⟩ := process_query_records A fuel input state state1 v info h
    rw [process_underscore_some A fuel1 state1 h1, h2]
  · intro hA fuel fuel1 state hpi hfuel
    obtain ⟨n, rfl⟩ := Nat.exists_eq_add_of_le hfuel
    have d2 : A.stod ['2'] = some (A.ofNat 2) :=
      stod_nat_lit A hA _ 2 (by simp) (by decide) (by decide) (by decide)
    have q1 : process_query A (fuel + 1) "pi" state
        = (.ok ⟨some A.pi, none⟩,
            { state with last_result := A.pi, has_last_result := true }) := by
      have htok : tokenize A "pi" = .ok [Token.identifier "pi"] := rfl
      have hparse : parse [(Token.identifier "pi" : Token V)] = .ok (.Variable "pi") := rfl
      have hc : find_constant A "pi" = some A.pi := rfl
      simp [process_query, htok, hparse, evaluate, eval_value, eval_variable, hpi, hc]
    have hl : "_ * 2".length = 5 := by decide
    have ht : "_ * 2".toList = ['_', ' ', '*', ' ', '2'] := by decide
    have htok : tokenize A "_ * 2" = .ok [Token.identifier "_", Token.op .Star,
        Token.number (A.ofNat 2)] := by
      simp +decide [tokenize, hl, ht, tokenize_loop, scan_number, scan_identifier, d2]
    have hparse : parse [Token.identifier "_", Token.op .Star, Token.number (A.ofNat 2)]
        = .ok (.Binary .Star (.Variable "_") (.Number (A.ofNat 2))) := rfl
    rw [q1]
    refine ⟨rfl, ?_, rfl⟩
    rw [show 2 + n = (n + 1) + 1 by omega]
    simp [process_query, htok, hparse, evaluate, eval_value, eval_binary, eval_variable,
      EvalOut.andThen]

/-- C10 at concrete inputs, in the rational arithmetic and from a fresh
state: `_` fails; `1 + _` fails, its evaluation reading `_`, with no local
variable of that name; after `pi` the query `_` returns the constant and
changes nothing, and `_ * 2` returns `pi * 2`; the evaluation of `zz ^ _`
reads `_` first, and the query fails with the error of `_`. -/
theorem C10_last_result_round_trip_witness :
    process_query Arith.rat 1 "_" (State.init Arith.rat)
      = (.error (.EvalError "No previous result available for '_'"), State.init Arith.rat) ∧
    Evaluates Arith.rat
      ⟨2, .Binary .Plus (.Number (Arith.rat.ofNat 1)) (.Variable "_"), State.init Arith.rat,
        ⟨none, true⟩⟩
      ⟨1, .Variable "_", State.init Arith.rat, ⟨none, true⟩⟩ ∧
    (process_query Arith.rat 2 "1 + _" (State.init Arith.rat)).1
      = .error (.EvalError "No previous result available for '_'") ∧
    process_query Arith.rat 1 "_" (process_query Arith.rat 1 "pi" (State.init Arith.rat)).2
      = (.ok ⟨some Arith.rat.pi, none⟩,
          (process_query Arith.rat 1 "pi" (State.init Arith.rat)).2) ∧
    (process_query Arith.rat 2 "_ * 2" (process_query Arith.rat 1 "pi"
        (State.init Arith.rat)).2).1
      = .ok ⟨some (Arith.rat.mul Arith.rat.pi (Arith.rat.ofNat 2)), none⟩ ∧
    Evaluates Arith.rat
      ⟨2, .Binary .Caret (.Variable "zz") (.Variable "_"), State.init Arith.rat,
        ⟨none, true⟩⟩
      ⟨1, .Variable "_", State.init Arith.rat, ⟨none, true⟩⟩ ∧
    (process_query Arith.rat 2 "zz ^ _" (State.init Arith.rat)).1
      = .error (.EvalError "No previous result available for '_'") := by
  have h := C10_last_result_round_trip Arith.rat
  have hpow : Evaluates Arith.rat
      ⟨2, .Binary .Caret (.Variable "zz") (.Variable "_"), State.init Arith.rat,
        ⟨none, true⟩⟩
      ⟨1, .Variable "_", State.init Arith.rat, ⟨none, true⟩⟩ :=
    Relation.ReflTransGen.single
      (DirectCall.first_exponent 1 (.Variable "zz") (.Variable "_") (State.init Arith.rat)
        ⟨none, true⟩)
  have hev : Evaluates Arith.rat
      ⟨2, .Binary .Plus (.Number (Arith.rat.ofNat 1)) (.Variable "_"), State.init Arith.rat,
        ⟨none, true⟩⟩
      ⟨1, .Variable "_", State.init Arith.rat, ⟨none, true⟩⟩ :=
    Relation.ReflTransGen.single
      (DirectCall.then_right 1 .Plus (.Number (Arith.rat.ofNat 1)) (.Variable "_")
        (State.init Arith.rat) (State.init Arith.rat) ⟨none, true⟩ ⟨none, true⟩
        (Arith.rat.ofNat 1) rfl rfl)
  refine ⟨h.1 0 _ rfl, hev, ?_, ?_,
    (h.2.2.2.2.1 Arith.rat_exactOnNat 0 2 (State.init Arith.rat) rfl (Nat.le_refl 2)).2.1,
    hpow,
    h.2.1 2 "zz ^ _" (State.init Arith.rat) _ _
      ⟨1, .Variable "_", State.init Arith.rat, ⟨none, true⟩⟩ rfl rfl rfl hpow rfl (by decide)
      (h.2.2.1 2 _ (State.init Arith.rat) _ Reachable.init hpow)⟩
  · have d1 : Arith.rat.stod ['1'] = some (Arith.rat.ofNat 1) :=
      stod_nat_lit Arith.rat Arith.rat_exactOnNat _ 1 (by simp) (by decide) (by decide)
        (by decide)
    have hl : "1 + _".length = 5 := by decide
    have ht : "1 + _".toList = ['1', ' ', '+', ' ', '_'] := by decide
    have htok : tokenize Arith.rat "1 + _" = .ok [Token.number (Arith.rat.ofNat 1),
        Token.op .Plus, Token.identifier "_"] := by
      simp +decide [tokenize, hl, ht, tokenize_loop, scan_number, scan_identifier, d1]
    exact h.2.1 2 "1 + _" (State.init Arith.rat) _ _
      ⟨1, .Variable "_", State.init Arith.rat, ⟨none, true⟩⟩ rfl htok rfl hev rfl (by decide)
      (h.2.2.1 2 _ (State.init Arith.rat) _ Reachable.init hev)
  · exact h.2.2.2.1 1 0 "pi" (State.init Arith.rat) _ Arith.rat.pi none rfl

/-! ### C11: arity enforcement -/

/-- C11. Arity enforcement. A call `f(a1, ..., an)` to a built-in of declared
arity `k`, or (when `f` is not a built-in) to a user function with `k`
parameters, fails whenever `n ≠ k` with the EvalError
`Function 'f' expects k arguments, got n`, in every state and context, and
leaves both as they were; a call to a name that is neither a built-in nor a
user function fails with the EvalError `Function 'f' not defined`. In an
arithmetic exact on small natural numbers the query `sin(1, 2)` fails with
`Function 'sin' expects 1 arguments, got 2`. -/
theorem C11_arity_enforcement (A : Arith V) :
    (∀ (f : Identifier) (spec : BuiltinSpec V) (args : List (Expression V)) (fuel : Nat)
        (state : State V) (ctx : EvalContext V),
      find_builtin A f = some spec → args.length ≠ spec.arity →
      eval_value A (fuel + 1) (.FnCall f args) state ctx
        = ⟨.error (.EvalError ("Function '" ++ f ++ "' expects " ++ toString spec.arity
            ++ " arguments, got " ++ toString args.length)), state, ctx⟩) ∧
    (∀ (f : Identifier) (fn_obj : FnObj V) (args : List (Expression V)) (fuel : Nat)
        (state : State V) (ctx : EvalContext V),
      find_builtin A f = none → state.fns f = some fn_obj →
      args.length ≠ fn_obj.params.length →
      eval_value A (fuel + 1) (.FnCall f args) state ctx
        = ⟨.error (.EvalError ("Function '" ++ f ++ "' expects "
            ++ toString fn_obj.params.length ++ " arguments, got " ++ toString args.length)),
            state, ctx⟩) ∧
    (∀ (f : Identifier) (args : List (Expression V)) (fuel : Nat) (state : State V)
        (ctx : EvalContext V),
      find_builtin A f = none → state.fns f = none →
      eval_value A (fuel + 1) (.FnCall f args) state ctx
        = ⟨.error (.EvalError ("Function '" ++ f ++ "' not defined")), state, ctx⟩) ∧
    (A.ExactOnNat → ∀ (fuel : Nat) (state : State V),
      process_query A (fuel + 1) "sin(1, 2)" state
        = (.error (.EvalError "Function 'sin' expects 1 arguments, got 2"), state)) := by
  refine ⟨?_, ?_, ?_, ?_⟩
  · intro f spec args fuel state ctx hb hlen
    simp only [eval_value, eval_function_call, hb, hlen, ne_eq, not_false_eq_true, if_true]
  · intro f fn_obj args fuel state ctx hb hf hlen
    simp only [eval_value, eval_function_call, hb, hf, hlen, ne_eq, not_false_eq_true, if_true]
  · intro f args fuel state ctx hb hf
    simp only [eval_value, eval_function_call, hb, hf]
  · intro hA fuel state
    have d1 : A.stod ['1'] = some (A.ofNat 1) :=
      stod_nat_lit A hA _ 1 (by simp) (by decide) (by decide) (by decide)
    have d2 : A.stod ['2'] = some (A.ofNat 2) :=
      stod_nat_lit A hA _ 2 (by simp) (by decide) (by decide) (by decide)
    have hl : "sin(1, 2)".length = 9 := by decide
    have ht : "sin(1, 2)".toList = ['s', 'i', 'n', '(', '1', ',', ' ', '2', ')'] := by decide
    have htok : tokenize A "sin(1, 2)" = .ok [Token.identifier "sin", Token.op .LParen,
        Token.number (A.ofNat 1), Token.op .Comma, Token.number (A.ofNat 2),
        Token.op .RParen] := by
      simp +decide [tokenize, hl, ht, tokenize_loop, scan_number, scan_identifier, d1, d2]
    have hparse : parse [Token.identifier "sin", Token.op .LParen,
        Token.number (A.ofNat 1), Token.op .Comma, Token.number (A.ofNat 2),
        Token.op .RParen]
        = .ok (.FnCall "sin" [.Number (A.ofNat 1), .Number (A.ofNat 2)]) := rfl
    have hb : find_builtin A "sin"
        = some (BuiltinSpec.make_unary "sin" "Sine (radians)" (A.cmath1 "sin")) := rfl
    have hmsg : "Function '" ++ "sin" ++ "' expects " ++ toString (1 : Nat)
        ++ " arguments, got " ++ toString (2 : Nat)
        = "Function 'sin' expects 1 arguments, got 2" := by decide
    simp only [process_query, htok, hparse, evaluate, eval_value, eval_function_call, hb,
      BuiltinSpec.make_unary, List.length_cons, List.length_nil, Nat.reduceAdd, ne_eq,
      Nat.succ_ne_self, OfNat.ofNat_ne_one, not_false_eq_true, if_true, hmsg]

/-- C11 at concrete inputs, in the rational arithmetic: `sin` with two
arguments, the user function `g` of one parameter with none, the undefined
`nofn`, and the query `sin(1, 2)` on a fresh state. -/
theorem C11_arity_enforcement_witness :
    Arith.rat.ExactOnNat ∧
    eval_value Arith.rat 1 (.FnCall "sin" [.Number 1, .Number 2]) (State.init Arith.rat)
        ⟨none, true⟩
      = ⟨.error (.EvalError "Function 'sin' expects 1 arguments, got 2"),
          State.init Arith.rat, ⟨none, true⟩⟩ ∧
    eval_value Arith.rat 1 (.FnCall "g" [])
        { State.init Arith.rat with fns := map_set (fun _ => none) "g" ⟨["x"], .Variable "x"⟩ }
        ⟨none, true⟩
      = ⟨.error (.EvalError "Function 'g' expects 1 arguments, got 0"),
          { State.init Arith.rat with
            fns := map_set (fun _ => none) "g" ⟨["x"], .Variable "x"⟩ }, ⟨none, true⟩⟩ ∧
    eval_value Arith.rat 1 (.FnCall "nofn" [.Number 1]) (State.init Arith.rat) ⟨none, true⟩
      = ⟨.error (.EvalError "Function 'nofn' not defined"), State.init Arith.rat,
          ⟨none, true⟩⟩ ∧
    process_query Arith.rat 1 "sin(1, 2)" (State.init Arith.rat)
      = (.error (.EvalError "Function 'sin' expects 1 arguments, got 2"),
          State.init Arith.rat) :=
  ⟨Arith.rat_exactOnNat,
    (C11_arity_enforcement Arith.rat).1 "sin"
      (BuiltinSpec.make_unary "sin" "Sine (radians)" (Arith.rat.cmath1 "sin"))
      [.Number 1, .Number 2] 0 _ _ rfl (by decide),
    (C11_arity_enforcement Arith.rat).2.1 "g" ⟨["x"], .Variable "x"⟩ [] 0 _ _ rfl rfl
      (by decide),
    (C11_arity_enforcement Arith.rat).2.2.1 "nofn" [.Number 1] 0 _ _ rfl rfl,
    (C11_arity_enforcement Arith.rat).2.2.2 Arith.rat_exactOnNat 0 _⟩
/-! ### C12: malformed function definitions are rejected atomically -/

/-- Every error of the parameter loop of `define_function` is an EvalError. -/
theorem collect_params_error (A : Arith V) (args : List (Expression V)) (acc : Identifiers)
    (err : Error) (h : collect_params A args acc = .error err) : err.isEvalError = true := by
  induction args generalizing acc with
  | nil => simp [collect_params] at h
  | cons a as ih =>
    cases a with
    | Variable name =>
      simp only [collect_params] at h
      split at h
      · simp only [Except.error.injEq] at h; subst h; rfl
      · split at h
        · simp only [Except.error.injEq] at h; subst h; rfl
        · exact ih _ h
    | Number _ | Unary _ _ | Binary _ _ _ | FnCall _ _ | Ternary _ _ _ =>
      simp only [collect_params, Except.error.injEq] at h
      subst h
      rfl

/-- When the parameter loop of `define_function` succeeds, every argument is
a variable with a name that is not reserved, and the names collected after
`acc` are those of the arguments, in order and without repetition. -/
theorem collect_params_ok (A : Arith V) (args : List (Expression V)) (acc ps : Identifiers)
    (h : collect_params A args acc = .ok ps) (hacc : acc.Nodup) :
    ∃ names : Identifiers, args = names.map (fun p => Expression.Variable p) ∧
      ps = acc ++ names ∧ (acc ++ names).Nodup ∧
      ∀ p ∈ names, is_reserved_identifier A p = false := by
  induction args generalizing acc with
  | nil =>
    simp only [collect_params, Except.ok.injEq] at h
    subst h
    exact ⟨[], rfl, by simp, by simpa using hacc, by simp⟩
  | cons a as ih =>
    cases a with
    | Variable name =>
      simp only [collect_params] at h
      split at h
      · simp at h
      · rename_i hres
        split at h
        · simp at h
        · rename_i hnew
          have hnd : (acc ++ [name]).Nodup := by
            rw [List.nodup_append]
            refine ⟨hacc, by simp, ?_⟩
            intro x hx hx2
            simp only [List.mem_singleton] at hx2
            subst hx2
            exact hnew (by simpa using hx)
          obtain ⟨names, h1, h2, h3, h4⟩ := ih (acc ++ [name]) h hnd
          refine ⟨name :: names, by simp [h1], by simp [h2], by simpa using h3, ?_⟩
          intro p hp
          rcases List.mem_cons.mp hp with rfl | hp
          · simpa using hres
          · exact h4 p hp
    | Number _ | Unary _ _ | Binary _ _ _ | FnCall _ _ | Ternary _ _ _ =>
      simp [collect_params] at h

/-- C12. Malformed function definitions are rejected atomically. A top-level
`f(args) = body` fails with an EvalError and leaves the whole state (`vars`,
`fns` with any earlier definition of `f`, and the last-result memo) as it
was, for every budget, whenever `f` is a reserved name, or some argument is
not a bare variable, or some parameter name is reserved, or the same
parameter name stands at two positions. The same holds of `process_query` on
any text that tokenizes and parses to such a definition; `f(x, x) = x + x`
fails with `Duplicate parameter 'x'`. -/
theorem C12_malformed_definition_rejected (A : Arith V) (f : Identifier)
    (args : List (Expression V)) (body : Expression V) (fuel : Nat) (state : State V)
    (h : is_reserved_identifier A f = true ∨
      (∃ arg ∈ args, arg.type ≠ EType.Variable) ∨
      (∃ p, Expression.Variable p ∈ args ∧ is_reserved_identifier A p = true) ∨
      (∃ (i j : Nat) (p : Identifier), i < j ∧ args[i]? = some (.Variable p) ∧
        args[j]? = some (.Variable p))) :
    (∃ message, evaluate A fuel (.Binary .Equals (.FnCall f args) body) state
      = (.error (.EvalError message), state)) ∧
    (∀ (input : String) (tokens : Tokens V), tokenize A input = .ok tokens →
      parse tokens = .ok (.Binary .Equals (.FnCall f args) body) →
      ∃ message, process_query A fuel input state = (.error (.EvalError message), state)) ∧
    (∀ fuel1 : Nat, process_query A fuel1 "f(x, x) = x + x" state
      = (.error (.EvalError "Duplicate parameter 'x'"), state)) := by
  have hev : ∃ message, evaluate A fuel (.Binary .Equals (.FnCall f args) body) state
      = (.error (.EvalError message), state) := by
    simp only [evaluate, define_function]
    split
    · exact ⟨_, rfl⟩
    · rename_i hf
      rcases hc : collect_params A args [] with err | ps
      · have hk := collect_params_error A args [] err hc
        cases err <;> simp [Error.isEvalError] at hk
        exact ⟨_, rfl⟩
      · exfalso
        obtain ⟨names, h1, -, h3, h4⟩ := collect_params_ok A args [] ps hc List.nodup_nil
        rcases h with h | ⟨arg, harg, hty⟩ | ⟨p, hp, hres⟩ | ⟨i, j, p, hij, hi, hj⟩
        · exact hf h
        · rw [h1] at harg
          obtain ⟨q, -, rfl⟩ := List.mem_map.mp harg
          exact hty rfl
        · rw [h1] at hp
          obtain ⟨q, hq, hqe⟩ := List.mem_map.mp hp
          simp only [Expression.Variable.injEq] at hqe
          subst hqe
          rw [h4 q hq] at hres
          exact absurd hres (by simp)
        · rw [h1] at hi hj
          simp only [List.getElem?_map, Option.map_eq_some', Expression.Variable.injEq,
            exists_eq_right] at hi hj
          simp only [List.nil_append] at h3
          have hi' := List.getElem?_eq_some.mp hi
          have hj' := List.getElem?_eq_some.mp hj
          obtain ⟨hil, hie⟩ := hi'
          obtain ⟨hjl, hje⟩ := hj'
          have := (List.Nodup.getElem_inj_iff h3).mp (hie.trans hje.symm)
          omega
  refine ⟨hev, ?_, ?_⟩
  · intro input tokens htok hparse
    obtain ⟨message, hm⟩ := hev
    exact ⟨message, by simp only [process_query, htok, hparse, hm]⟩
  · intro fuel1
    have htok : tokenize A "f(x, x) = x + x" = .ok [Token.identifier "f", Token.op .LParen,
        Token.identifier "x", Token.op .Comma, Token.identifier "x", Token.op .RParen,
        Token.op .Equals, Token.identifier "x", Token.op .Plus, Token.identifier "x"] := rfl
    have hparse : parse [Token.identifier "f", Token.op .LParen,
        Token.identifier "x", Token.op .Comma, Token.identifier "x", Token.op .RParen,
        Token.op .Equals, Token.identifier "x", Token.op .Plus, (Token.identifier "x" : Token V)]
        = .ok (.Binary .Equals (.FnCall "f" [.Variable "x", .Variable "x"])
            (.Binary .Plus (.Variable "x") (.Variable "x"))) := rfl
    have hf : is_reserved_identifier A "f" = false := rfl
    have hx : is_reserved_identifier A "x" = false := rfl
    have hmsg : "Duplicate parameter '" ++ "x" ++ "'" = "Duplicate parameter 'x'" := by decide
    simp [process_query, htok, hparse, evaluate, define_function, collect_params, hf, hx, hmsg]

/-- C12 at concrete inputs, in the rational arithmetic: the four ways a
definition is malformed, on a state in which `f` is already defined. -/
theorem C12_malformed_definition_rejected_witness :
    (∃ message, evaluate Arith.rat 0 (.Binary .Equals (.FnCall "sin" [.Variable "x"])
        (.Variable "x")) (State.init Arith.rat)
      = (.error (.EvalError message), State.init Arith.rat)) ∧
    (∃ message, evaluate Arith.rat 0 (.Binary .Equals (.FnCall "f" [.Number 1])
        (.Variable "x")) (State.init Arith.rat)
      = (.error (.EvalError message), State.init Arith.rat)) ∧
    (∃ message, evaluate Arith.rat 0 (.Binary .Equals (.FnCall "f" [.Variable "pi"])
        (.Variable "x")) (State.init Arith.rat)
      = (.error (.EvalError message), State.init Arith.rat)) ∧
    (∃ message, process_query Arith.rat 0 "f(x, x) = x + x"
        (process_query Arith.rat 0 "f(x) = x" (State.init Arith.rat)).2
      = (.error (.EvalError message),
          (process_query Arith.rat 0 "f(x) = x" (State.init Arith.rat)).2)) :=
  ⟨(C12_malformed_definition_rejected Arith.rat "sin" [.Variable "x"] (.Variable "x") 0
      (State.init Arith.rat) (Or.inl rfl)).1,
    (C12_malformed_definition_rejected Arith.rat "f" [.Number 1] (.Variable "x") 0
      (State.init Arith.rat) (Or.inr (Or.inl ⟨.Number 1, by simp, by simp [Expression.type]⟩))).1,
    (C12_malformed_definition_rejected Arith.rat "f" [.Variable "pi"] (.Variable "x") 0
      (State.init Arith.rat) (Or.inr (Or.inr (Or.inl ⟨"pi", by simp, rfl⟩)))).1,
    (C12_malformed_definition_rejected Arith.rat "f" [.Variable "x", .Variable "x"]
      (.Binary .Plus (.Variable "x") (.Variable "x")) 0
      (process_query Arith.rat 0 "f(x) = x" (State.init Arith.rat)).2
      (Or.inr (Or.inr (Or.inr ⟨0, 1, "x", by decide, rfl, rfl⟩)))).2.1 "f(x, x) = x + x" _
      rfl rfl⟩

/-! ### C14: a free name in a function body is looked up at call time -/

theorem find_builtin_f (A : Arith V) : find_builtin A "f" = none := rfl

/-- The query `x = u`, as any text with the tokens `[x, =, u]`. -/
theorem process_assign_x (A : Arith V) (fuel : Nat) (state : State V) (input : String) (u : V)
    (hfuel : 2 ≤ fuel)
    (htok : tokenize A input = .ok [Token.identifier "x", Token.op .Equals, Token.number u]) :
    process_query A fuel input state
      = (.ok ⟨some u, none⟩,
          { state with vars := map_set state.vars "x" u, last_result := u,
                       has_last_result := true }) := by
  obtain ⟨n, rfl⟩ := Nat.exists_eq_add_of_le hfuel
  have hparse : parse [Token.identifier "x", Token.op .Equals, Token.number u]
      = .ok (.Binary .Equals (.Variable "x") (.Number u)) := rfl
  have hres : is_reserved_identifier A "x" = false := rfl
  rw [show 2 + n = (n + 1) + 1 by omega]
  simp [process_query, htok, hparse, evaluate, eval_value, eval_binary, EvalOut.andThen, hres]

/-- The query `f(y) = y + x`. -/
theorem process_define_f (A : Arith V) (fuel : Nat) (state : State V) :
    process_query A fuel "f(y) = y + x" state
      = (.ok ⟨none, some "Defined f(y)"⟩,
          { state with fns := (map_set state.fns "f"
              ⟨["y"], .Binary .Plus (.Variable "y") (.Variable "x")⟩) }) := by
  rfl

/-- The query `f(v)`, as any text with the tokens `[f, (, v, )]`, when `f` is
defined by `y + x` and the session variable `x` has the value `u`. -/
theorem process_call_f (A : Arith V) (fuel : Nat) (state : State V) (input : String)
    (u v : V) (hfuel : 3 ≤ fuel)
    (hf : state.fns "f" = some ⟨["y"], .Binary .Plus (.Variable "y") (.Variable "x")⟩)
    (hx : state.vars "x" = some u)
    (htok : tokenize A input = .ok [Token.identifier "f", Token.op .LParen, Token.number v,
      Token.op .RParen]) :
    process_query A fuel input state
      = (.ok ⟨some (A.add v u), none⟩,
          { state with last_result := A.add v u, has_last_result := true }) := by
  obtain ⟨n, rfl⟩ := Nat.exists_eq_add_of_le hfuel
  have hparse : parse [Token.identifier "f", Token.op .LParen, Token.number v,
      Token.op .RParen] = .ok (.FnCall "f" [.Number v]) := rfl
  rw [show 3 + n = (n + 2) + 1 by omega]
  simp [process_query, htok, hparse, evaluate, eval_value, eval_function_call,
    find_builtin_f, hf, bind_params, EvalOut.andThen, eval_binary, eval_variable, map_set, hx]

/-- C14. Dynamic global lookup. A name in a function body that is not a
parameter resolves to the session variable's value at call time. For all
numbers `u`, `w`, `v`, on any state: after `x = u` and `f(y) = y + x` the
query `f(v)` returns `v + u`, and after a further `x = w` the query `f(v)`
returns `v + w` (the queries with a number being any texts with the tokens
`[x, =, u]`, `[x, =, w]` and `[f, (, v, )]`, and budgets of at least 2 for an
assignment and 3 for a call). In an arithmetic exact on small natural
numbers, `x = 2`, `f(y) = y + x`, `f(3)` gives 5 and, after `x = 10`, `f(3)`
gives 13. -/
theorem C14_dynamic_global_lookup (A : Arith V) :
    (∀ (u w v : V) (set_u set_w call : String) (f1 f2 f3 f4 f5 : Nat) (state : State V),
      tokenize A set_u = .ok [Token.identifier "x", Token.op .Equals, Token.number u] →
      tokenize A set_w = .ok [Token.identifier "x", Token.op .Equals, Token.number w] →
      tokenize A call = .ok [Token.identifier "f", Token.op .LParen, Token.number v,
        Token.op .RParen] →
      2 ≤ f1 → 3 ≤ f3 → 2 ≤ f4 → 3 ≤ f5 →
      (process_query A f3 call
        (process_query A f2 "f(y) = y + x" (process_query A f1 set_u state).2).2).1
        = .ok ⟨some (A.add v u), none⟩ ∧
      (process_query A f5 call
        (process_query A f4 set_w
          (process_query A f3 call
            (process_query A f2 "f(y) = y + x" (process_query A f1 set_u state).2).2).2).2).1
        = .ok ⟨some (A.add v w), none⟩) ∧
    (A.ExactOnNat → ∀ (f1 f2 f3 f4 f5 : Nat) (state : State V),
      2 ≤ f1 → 3 ≤ f3 → 2 ≤ f4 → 3 ≤ f5 →
      (process_query A f3 "f(3)"
        (process_query A f2 "f(y) = y + x" (process_query A f1 "x = 2" state).2).2).1
        = .ok ⟨some (A.ofNat 5), none⟩ ∧
      (process_query A f5 "f(3)"
        (process_query A f4 "x = 10"
          (process_query A f3 "f(3)"
            (process_query A f2 "f(y) = y + x" (process_query A f1 "x = 2" state).2).2).2).2).1
        = .ok ⟨some (A.ofNat 13), none⟩) := by
  have general : ∀ (u w v : V) (set_u set_w call : String) (f1 f2 f3 f4 f5 : Nat)
      (state : State V),
      tokenize A set_u = .ok [Token.identifier "x", Token.op .Equals, Token.number u] →
      tokenize A set_w = .ok [Token.identifier "x", Token.op .Equals, Token.number w] →
      tokenize A call = .ok [Token.identifier "f", Token.op .LParen, Token.number v,
        Token.op .RParen] →
      2 ≤ f1 → 3 ≤ f3 → 2 ≤ f4 → 3 ≤ f5 →
      (process_query A f3 call
        (process_query A f2 "f(y) = y + x" (process_query A f1 set_u state).2).2).1
        = .ok ⟨some (A.add v u), none⟩ ∧
      (process_query A f5 call
        (process_query A f4 set_w
          (process_query A f3 call
            (process_query A f2 "f(y) = y + x" (process_query A f1 set_u state).2).2).2).2).1
        = .ok ⟨some (A.add v w), none⟩ := by
    intro u w v set_u set_w call f1 f2 f3 f4 f5 state hu hw hc h1 h3 h4 h5
    rw [process_assign_x A f1 state set_u u h1 hu, process_define_f,
      process_call_f A f3 _ call u v h3 (by simp [map_set]) (by simp [map_set]) hc,
      process_assign_x A f4 _ set_w w h4 hw,
      process_call_f A f5 _ call w v h5 (by simp [map_set]) (by simp [map_set]) hc]
    exact ⟨rfl, rfl⟩
  refine ⟨general, ?_⟩
  intro hA f1 f2 f3 f4 f5 state h1 h3 h4 h5
  have d2 : A.stod ['2'] = some (A.ofNat 2) :=
    stod_nat_lit A hA _ 2 (by simp) (by decide) (by decide) (by decide)
  have d3 : A.stod ['3'] = some (A.ofNat 3) :=
    stod_nat_lit A hA _ 3 (by simp) (by decide) (by decide) (by decide)
  have d10 : A.stod ['1', '0'] = some (A.ofNat 10) :=
    stod_nat_lit A hA _ 10 (by simp) (by decide) (by decide) (by decide)
  have t2 : tokenize A "x = 2" = .ok [Token.identifier "x", Token.op .Equals,
      Token.number (A.ofNat 2)] := by
    have hl : "x = 2".length = 5 := by decide
    have ht : "x = 2".toList = ['x', ' ', '=', ' ', '2'] := by decide
    simp +decide [tokenize, hl, ht, tokenize_loop, scan_number, scan_identifier, d2]
  have t10 : tokenize A "x = 10" = .ok [Token.identifier "x", Token.op .Equals,
      Token.number (A.ofNat 10)] := by
    have hl : "x = 10".length = 6 := by decide
    have ht : "x = 10".toList = ['x', ' ', '=', ' ', '1', '0'] := by decide
    simp +decide [tokenize, hl, ht, tokenize_loop, scan_number, scan_identifier, d10]
  have t3 : tokenize A "f(3)" = .ok [Token.identifier "f", Token.op .LParen,
      Token.number (A.ofNat 3), Token.op .RParen] := by
    have hl : "f(3)".length = 4 := by decide
    have ht : "f(3)".toList = ['f', '(', '3', ')'] := by decide
    simp +decide [tokenize, hl, ht, tokenize_loop, scan_number, scan_identifier, d3]
  have h := general (A.ofNat 2) (A.ofNat 10) (A.ofNat 3) "x = 2" "x = 10" "f(3)" f1 f2 f3 f4 f5
    state t2 t10 t3 h1 h3 h4 h5
  rw [hA.add_nat 3 2 (by decide), hA.add_nat 3 10 (by decide)] at h
  exact h

/-- C14 at concrete inputs, in the rational arithmetic and from a fresh
state: `f(3)` is `3 + 2` after `x = 2` and `3 + 10` after `x = 10`, which
are 5 and 13. -/
theorem C14_dynamic_global_lookup_witness :
    Arith.rat.ExactOnNat ∧
    (process_query Arith.rat 3 "f(3)"
      (process_query Arith.rat 0 "f(y) = y + x"
        (process_query Arith.rat 2 "x = 2" (State.init Arith.rat)).2).2).1
      = .ok ⟨some (Arith.rat.add (Arith.rat.ofNat 3) (Arith.rat.ofNat 2)), none⟩ ∧
    (process_query Arith.rat 3 "f(3)"
      (process_query Arith.rat 0 "f(y) = y + x"
        (process_query Arith.rat 2 "x = 2" (State.init Arith.rat)).2).2).1
      = .ok ⟨some (Arith.rat.ofNat 5), none⟩ ∧
    (process_query Arith.rat 3 "f(3)"
      (process_query Arith.rat 2 "x = 10"
        (process_query Arith.rat 3 "f(3)"
          (process_query Arith.rat 0 "f(y) = y + x"
            (process_query Arith.rat 2 "x = 2" (State.init Arith.rat)).2).2).2).2).1
      = .ok ⟨some (Arith.rat.ofNat 13), none⟩ := by
  have hA := Arith.rat_exactOnNat
  have d2 : Arith.rat.stod ['2'] = some (Arith.rat.ofNat 2) :=
    stod_nat_lit _ hA _ 2 (by simp) (by decide) (by decide) (by decide)
  have d3 : Arith.rat.stod ['3'] = some (Arith.rat.ofNat 3) :=
    stod_nat_lit _ hA _ 3 (by simp) (by decide) (by decide) (by decide)
  have d10 : Arith.rat.stod ['1', '0'] = some (Arith.rat.ofNat 10) :=
    stod_nat_lit _ hA _ 10 (by simp) (by decide) (by decide) (by decide)
  have t2 : tokenize Arith.rat "x = 2" = .ok [Token.identifier "x", Token.op .Equals,
      Token.number (Arith.rat.ofNat 2)] := by
    have hl : "x = 2".length = 5 := by decide
    have ht : "x = 2".toList = ['x', ' ', '=', ' ', '2'] := by decide
    simp +decide [tokenize, hl, ht, tokenize_loop, scan_number, scan_identifier, d2]
  have t10 : tokenize Arith.rat "x = 10" = .ok [Token.identifier "x", Token.op .Equals,
      Token.number (Arith.rat.ofNat 10)] := by
    have hl : "x = 10".length = 6 := by decide
    have ht : "x = 10".toList = ['x', ' ', '=', ' ', '1', '0'] := by decide
    simp +decide [tokenize, hl, ht, tokenize_loop, scan_number, scan_identifier, d10]
  have t3 : tokenize Arith.rat "f(3)" = .ok [Token.identifier "f", Token.op .LParen,
      Token.number (Arith.rat.ofNat 3), Token.op .RParen] := by
    have hl : "f(3)".length = 4 := by decide
    have ht : "f(3)".toList = ['f', '(', '3', ')'] := by decide
    simp +decide [tokenize, hl, ht, tokenize_loop, scan_number, scan_identifier, d3]
  have h1 := (C14_dynamic_global_lookup Arith.rat).1 (Arith.rat.ofNat 2) (Arith.rat.ofNat 10)
    (Arith.rat.ofNat 3) "x = 2" "x = 10" "f(3)" 2 0 3 2 3 (State.init Arith.rat) t2 t10 t3
    (Nat.le_refl 2) (Nat.le_refl 3) (Nat.le_refl 2) (Nat.le_refl 3)
  have h2 := (C14_dynamic_global_lookup Arith.rat).2 hA 2 0 3 2 3
    (State.init Arith.rat) (Nat.le_refl 2) (Nat.le_refl 3) (Nat.le_refl 2) (Nat.le_refl 3)
  exact ⟨hA, h1.1, h2.1, h2.2⟩

/-! ### The lexer, one iteration at a time -/

/-- A digit is no space and starts no operator. -/
theorem is_digit_class (c : Char) (hd : is_digit c = true) :
    is_space c = false ∧ c ≠ '+' ∧ c ≠ '-' ∧ c ≠ '*' ∧ c ≠ '/' ∧ c ≠ '%' ∧ c ≠ '^' ∧ c ≠ '('
      ∧ c ≠ ')' ∧ c ≠ ',' ∧ c ≠ '?' ∧ c ≠ ':' ∧ c ≠ '=' ∧ c ≠ '!' ∧ c ≠ '<' ∧ c ≠ '>' := by
  have hn : 48 ≤ c.toNat ∧ c.toNat ≤ 57 := by
    simpa [is_digit] using hd
  have key : ∀ d : Char, (d.toNat < 48 ∨ 57 < d.toNat) → c ≠ d := by
    rintro d hd' rfl
    omega
  refine ⟨?_, key _ (by decide), key _ (by decide), key _ (by decide), key _ (by decide),
    key _ (by decide), key _ (by decide), key _ (by decide), key _ (by decide),
    key _ (by decide), key _ (by decide), key _ (by decide), key _ (by decide),
    key _ (by decide), key _ (by decide), key _ (by decide)⟩
  simp only [is_space, decide_eq_false_iff_not]
  omega

/-- A letter or underscore is no space, starts no operator, and is no digit or dot. -/
theorem is_alpha_class (c : Char) (ha : is_alpha c = true ∨ c = '_') :
    is_space c = false ∧ c ≠ '+' ∧ c ≠ '-' ∧ c ≠ '*' ∧ c ≠ '/' ∧ c ≠ '%' ∧ c ≠ '^' ∧ c ≠ '('
      ∧ c ≠ ')' ∧ c ≠ ',' ∧ c ≠ '?' ∧ c ≠ ':' ∧ c ≠ '=' ∧ c ≠ '!' ∧ c ≠ '<' ∧ c ≠ '>'
      ∧ is_digit c = false ∧ c ≠ '.' := by
  have hn : (97 ≤ c.toNat ∧ c.toNat ≤ 122) ∨ (65 ≤ c.toNat ∧ c.toNat ≤ 90) ∨ c.toNat = 95 := by
    rcases ha with ha | rfl
    · have := ha
      simp only [is_alpha, decide_eq_true_eq] at this
      have e1 : 'a'.toNat = 97 := rfl
      have e2 : 'z'.toNat = 122 := rfl
      have e3 : 'A'.toNat = 65 := rfl
      have e4 : 'Z'.toNat = 90 := rfl
      omega
    · right; right; rfl
  have key : ∀ d : Char, (d.toNat < 65 ∨ d.toNat = 94) → c ≠ d := by
    rintro d hd' rfl
    omega
  refine ⟨?_, key _ (by decide), key _ (by decide), key _ (by decide), key _ (by decide),
    key _ (by decide), key _ (by decide), key _ (by decide), key _ (by decide),
    key _ (by decide), key _ (by decide), key _ (by decide), key _ (by decide),
    key _ (by decide), key _ (by decide), key _ (by decide), ?_, key _ (by decide)⟩
  · simp only [is_space, decide_eq_false_iff_not]
    omega
  · simp only [is_digit, decide_eq_false_iff_not]
    have e1 : '0'.toNat = 48 := rfl
    have e2 : '9'.toNat = 57 := rfl
    omega

/-- The iteration at the end of the input returns the tokens. -/
theorem tokenize_loop_nil (A : Arith V) (steps pos : Nat) (result : Tokens V) :
    tokenize_loop A (steps + 1) [] pos result = .ok result := rfl

/-- The iteration at a space skips it. -/
theorem tokenize_loop_space (A : Arith V) (steps pos : Nat) (c : Char) (rest : List Char)
    (result : Tokens V) (hc : is_space c = true) :
    tokenize_loop A (steps + 1) (c :: rest) pos result
      = tokenize_loop A steps rest (pos + 1) result := by
  rw [tokenize_loop, if_pos hc]

/-- The iteration at a digit scans a number. -/
theorem tokenize_loop_digit (A : Arith V) (steps pos : Nat) (c : Char) (rest : List Char)
    (result : Tokens V) (hd : is_digit c = true) :
    tokenize_loop A (steps + 1) (c :: rest) pos result
      = match A.stod (scan_number (c :: rest) false).1 with
        | none => .error .OutOfRange
        | some value =>
          tokenize_loop A steps (scan_number (c :: rest) false).2
            (pos + (scan_number (c :: rest) false).1.length) (result ++ [Token.number value]) := by
  obtain ⟨h0, h1, h2, h3, h4, h5, h6, h7, h8, h9, h10, h11, h12, h13, h14, h15⟩ :=
    is_digit_class c hd
  rw [tokenize_loop]
  simp only [h0, h1, h2, h3, h4, h5, h6, h7, h8, h9, h10, h11, h12, h13, h14, h15, hd,
    Bool.false_eq_true, if_false, Bool.true_or, if_true]

/-- The iteration at a dot followed by a digit scans a number. -/
theorem tokenize_loop_dot (A : Arith V) (steps pos : Nat) (rest : List Char)
    (result : Tokens V) (hd : next_is_digit rest = true) :
    tokenize_loop A (steps + 1) ('.' :: rest) pos result
      = match A.stod (scan_number ('.' :: rest) false).1 with
        | none => .error .OutOfRange
        | some value =>
          tokenize_loop A steps (scan_number ('.' :: rest) false).2
            (pos + (scan_number ('.' :: rest) false).1.length)
            (result ++ [Token.number value]) := by
  rw [tokenize_loop]
  simp +decide only [hd, Bool.and_true, Bool.or_true, if_true, if_false]

/-- The iteration at a letter or underscore scans an identifier. -/
theorem tokenize_loop_alpha (A : Arith V) (steps pos : Nat) (c : Char) (rest : List Char)
    (result : Tokens V) (ha : is_alpha c = true ∨ c = '_') :
    tokenize_loop A (steps + 1) (c :: rest) pos result
      = tokenize_loop A steps (scan_identifier (c :: rest)).2
          (pos + (scan_identifier (c :: rest)).1.length)
          (result ++ [Token.identifier (String.mk (scan_identifier (c :: rest)).1)]) := by
  obtain ⟨h0, h1, h2, h3, h4, h5, h6, h7, h8, h9, h10, h11, h12, h13, h14, h15, h16, h17⟩ :=
    is_alpha_class c ha
  have h18 : (is_alpha c || decide (c = '_')) = true := by
    rcases ha with ha | ha <;> simp [ha]
  rw [tokenize_loop]
  simp only [h0, h1, h2, h3, h4, h5, h6, h7, h8, h9, h10, h11, h12, h13, h14, h15, h16, h17,
    h18, Bool.false_eq_true, if_false, decide_False, Bool.false_and, Bool.or_self, if_true]

/-- The iteration at a one-character operator pushes its token. -/
theorem tokenize_loop_single (A : Arith V) (steps pos : Nat) (c : Char) (type : TType)
    (rest : List Char) (result : Tokens V)
    (h : (c, type) ∈ [('+', TType.Plus), ('-', .Minus), ('*', .Star), ('/', .Slash),
      ('%', .Percent), ('^', .Caret), ('(', .LParen), (')', .RParen), (',', .Comma),
      ('?', .Question), (':', .Colon)]) :
    tokenize_loop A (steps + 1) (c :: rest) pos result
      = tokenize_loop A steps rest (pos + 1) (result ++ [Token.op type]) := by
  simp only [List.mem_cons, Prod.mk.injEq, List.mem_singleton, List.not_mem_nil, or_false] at h
  rcases h with h | h | h | h | h | h | h | h | h | h | h <;> obtain ⟨rfl, rfl⟩ := h <;>
    rw [tokenize_loop] <;> simp +decide only [if_true, if_false]

/-- The iteration at `=`, `<` or `>` followed by `=` pushes the two-character
operator and moves two characters on. -/
theorem tokenize_loop_double (A : Arith V) (steps pos : Nat) (c : Char) (type : TType)
    (rest : List Char) (result : Tokens V)
    (h : (c, type) ∈ [('=', TType.EqualEqual), ('!', .BangEqual), ('<', .LessEqual),
      ('>', .GreaterEqual)]) :
    tokenize_loop A (steps + 1) (c :: '=' :: rest) pos result
      = tokenize_loop A steps rest (pos + 2) (result ++ [Token.op type]) := by
  simp only [List.mem_cons, Prod.mk.injEq, List.mem_singleton, List.not_mem_nil, or_false] at h
  rcases h with h | h | h | h <;> obtain ⟨rfl, rfl⟩ := h <;>
    rw [tokenize_loop] <;>
    simp +decide only [if_true, if_false, next_is_equals, List.drop_succ_cons, List.drop_zero]

/-- The iteration at `=`, `<` or `>` not followed by `=` pushes the
one-character operator. -/
theorem tokenize_loop_lone (A : Arith V) (steps pos : Nat) (c : Char) (type : TType)
    (rest : List Char) (result : Tokens V)
    (h : (c, type) ∈ [('=', TType.Equals), ('<', .Less), ('>', .Greater)])
    (hnext : next_is_equals rest = false) :
    tokenize_loop A (steps + 1) (c :: rest) pos result
      = tokenize_loop A steps rest (pos + 1) (result ++ [Token.op type]) := by
  simp only [List.mem_cons, Prod.mk.injEq, List.mem_singleton, List.not_mem_nil, or_false] at h
  rcases h with h | h | h <;> obtain ⟨rfl, rfl⟩ := h <;>
    rw [tokenize_loop] <;>
    simp +decide only [if_true, if_false, hnext, Bool.false_eq_true]

/-- The iteration at `!` not followed by `=` fails. -/
theorem tokenize_loop_bang (A : Arith V) (steps pos : Nat) (rest : List Char)
    (result : Tokens V) (hnext : next_is_equals rest = false) :
    tokenize_loop A (steps + 1) ('!' :: rest) pos result
      = .error (.ParseError
          ("Unexpected '!' at position " ++ toString pos ++ ". Did you mean '!='?")) := by
  rw [tokenize_loop]
  simp +decide only [if_true, if_false, hnext, Bool.false_eq_true]

/-- The iteration at a character no branch takes fails, naming the character
and the position. -/
theorem tokenize_loop_unclassifiable (A : Arith V) (steps pos : Nat) (c : Char)
    (rest : List Char) (result : Tokens V) (hc : unclassifiable c = true) :
    tokenize_loop A (steps + 1) (c :: rest) pos result
      = .error (.ParseError
          ("Could not parse character '" ++ String.singleton c ++ "' at position "
            ++ toString pos)) := by
  have hl : "+-*/%^(),?:=!<>".toList
      = ['+', '-', '*', '/', '%', '^', '(', ')', ',', '?', ':', '=', '!', '<', '>'] := by decide
  simp only [unclassifiable, hl, Bool.not_eq_true', Bool.or_eq_false_iff, List.contains_cons,
    List.contains_nil, decide_eq_false_iff_not, beq_eq_false_iff_ne, ne_eq, Bool.or_false] at hc
  obtain ⟨⟨⟨⟨⟨h0, h1⟩, h2⟩, h3⟩, h4⟩, h5, h6, h7, h8, h9, h10, h11, h12, h13, h14, h15, h16,
    h17, h18, h19⟩ := hc
  rw [tokenize_loop]
  simp only [h0, h1, h2, h3, h4, h5, h6, h7, h8, h9, h10, h11, h12, h13, h14, h15, h16, h17,
    h18, h19, Bool.false_eq_true, if_false, decide_False, Bool.false_and, Bool.or_self]
/-! ### C13: recursion -/

theorem find_builtin_fact (A : Arith V) : find_builtin A "fact" = none := rfl

theorem eval_value_number (A : Arith V) (fuel : Nat) (value : V) (state : State V)
    (ctx : EvalContext V) :
    eval_value A (fuel + 1) (.Number value) state ctx = ⟨.ok value, state, ctx⟩ := rfl

theorem eval_value_variable (A : Arith V) (fuel : Nat) (name : Identifier) (state : State V)
    (ctx : EvalContext V) :
    eval_value A (fuel + 1) (.Variable name) state ctx = eval_variable A name state ctx := rfl

theorem eval_value_binary (A : Arith V) (fuel : Nat) (op : TType) (left right : Expression V)
    (state : State V) (ctx : EvalContext V) :
    eval_value A (fuel + 1) (.Binary op left right) state ctx
      = eval_binary A (eval_value A fuel) op left right state ctx := rfl

theorem eval_value_fn_call (A : Arith V) (fuel : Nat) (name : Identifier)
    (args : List (Expression V)) (state : State V) (ctx : EvalContext V) :
    eval_value A (fuel + 1) (.FnCall name args) state ctx
      = eval_function_call A (eval_value A fuel) name args state ctx := rfl

theorem eval_value_ternary (A : Arith V) (fuel : Nat) (c t e : Expression V)
    (state : State V) (ctx : EvalContext V) :
    eval_value A (fuel + 1) (.Ternary c t e) state ctx
      = eval_ternary A (eval_value A fuel) c t e state ctx := rfl

/-- One round of `fact`: when the test `n <= 1` fails, the body is `n` times
the body of `fact` evaluated with `n - 1` for `n`. -/
theorem fact_body_step (A : Arith V) (one vn : V) (body : Expression V) (fuel : Nat)
    (state : State V) (locals : VariableMap V) (hloc : locals "n" = some vn)
    (hcond : A.ne (A.ofBool (A.le vn one)) (A.ofNat 0) = false)
    (hf : state.fns "fact" = some ⟨["n"], body⟩) :
    eval_value A (fuel + 5) (fact_body one) state ⟨some locals, false⟩
      = match (eval_value A (fuel + 2) body state
          ⟨some (map_set (fun _ => none) "n" (A.sub vn one)), false⟩).result with
        | .error err => ⟨.error err, (eval_value A (fuel + 2) body state
            ⟨some (map_set (fun _ => none) "n" (A.sub vn one)), false⟩).state,
            ⟨some locals, false⟩⟩
        | .ok r => ⟨.ok (A.mul vn r), (eval_value A (fuel + 2) body state
            ⟨some (map_set (fun _ => none) "n" (A.sub vn one)), false⟩).state,
            ⟨some locals, false⟩⟩ := by
  simp only [fact_body, eval_value_ternary, eval_ternary, eval_value_binary, eval_binary,
    eval_value_variable, eval_value_number, eval_variable, Option.bind, hloc, andThen_ok,
    hcond, Bool.false_eq_true, if_false, eval_value_fn_call, eval_function_call,
    find_builtin_fact, hf, List.length_cons, List.length_nil, ne_eq, not_true_eq_false,
    bind_params]
  rcases eval_value A (fuel + 2) body state
    ⟨some (map_set (fun _ => none) "n" (A.sub vn one)), false⟩ with ⟨r, s, c⟩
  cases r <;> rfl

/-- The base of `fact`: when the test `n <= 1` holds, the body is 1. -/
theorem fact_body_base (A : Arith V) (one vn : V) (fuel : Nat)
    (state : State V) (locals : VariableMap V) (hloc : locals "n" = some vn)
    (hcond : A.ne (A.ofBool (A.le vn one)) (A.ofNat 0) = true) :
    eval_value A (fuel + 3) (fact_body one) state ⟨some locals, false⟩
      = ⟨.ok one, state, ⟨some locals, false⟩⟩ := by
  simp only [fact_body, eval_value_ternary, eval_ternary, eval_value_binary, eval_binary,
    eval_value_variable, eval_value_number, eval_variable, Option.bind, hloc, andThen_ok,
    hcond, if_true]

/-- The body of `fact` computes the factorial of a number up to 18. -/
theorem fact_body_eval (A : Arith V) (hA : A.ExactOnNat) (m : Nat) (hm : m ≤ 18) :
    ∀ (fuel : Nat) (state : State V) (locals : VariableMap V), 3 * m + 3 ≤ fuel →
      state.fns "fact" = some ⟨["n"], fact_body (A.ofNat 1)⟩ →
      locals "n" = some (A.ofNat m) →
      eval_value A fuel (fact_body (A.ofNat 1)) state ⟨some locals, false⟩
        = ⟨.ok (A.ofNat m.factorial), state, ⟨some locals, false⟩⟩ := by
  have h18 : Nat.factorial 18 ≤ max_exact := by decide
  have hone : A.ne (A.ofNat 1) (A.ofNat 0) = true := by
    rw [hA.ne_nat 1 0 (by decide) (by decide)]; decide
  have hzero : A.ne (A.ofNat 0) (A.ofNat 0) = false := by
    rw [hA.ne_nat 0 0 (by decide) (by decide)]; decide
  have h18' : (18 : Nat) ≤ max_exact := by decide
  induction m with
  | zero =>
    intro fuel state locals hfuel hf hloc
    obtain ⟨g, rfl⟩ := Nat.exists_eq_add_of_le hfuel
    have hc : A.ne (A.ofBool (A.le (A.ofNat 0) (A.ofNat 1))) (A.ofNat 0) = true := by
      rw [hA.le_nat 0 1 (by decide) (by decide)]
      simpa [Arith.ofBool] using hone
    rw [show 3 * 0 + 3 + g = g + 3 by omega, fact_body_base A _ _ g state locals hloc hc]
    rfl
  | succ k ih =>
    intro fuel state locals hfuel hf hloc
    obtain ⟨g, rfl⟩ := Nat.exists_eq_add_of_le hfuel
    rcases Nat.eq_zero_or_pos k with hk | hk
    · subst hk
      have hc : A.ne (A.ofBool (A.le (A.ofNat (0 + 1)) (A.ofNat 1))) (A.ofNat 0) = true := by
        rw [hA.le_nat (0 + 1) 1 (by decide) (by decide)]
        simpa [Arith.ofBool] using hone
      rw [show 3 * (0 + 1) + 3 + g = (g + 3) + 3 by omega,
        fact_body_base A _ _ (g + 3) state locals hloc hc]
      rfl
    · have hc : A.ne (A.ofBool (A.le (A.ofNat (k + 1)) (A.ofNat 1))) (A.ofNat 0) = false := by
        rw [hA.le_nat (k + 1) 1 (le_trans hm h18') (by decide)]
        have : decide (k + 1 ≤ 1) = false := by simp; omega
        rw [this]
        simpa [Arith.ofBool] using hzero
      have hsub : A.sub (A.ofNat (k + 1)) (A.ofNat 1) = A.ofNat k := by
        rw [hA.sub_nat (k + 1) 1 (by omega) (le_trans hm h18')]
        rfl
      have hrec := ih (by omega) (3 * k + 1 + g + 2) state
        (map_set (fun _ => none) "n" (A.ofNat k)) (by omega) hf (by simp [map_set])
      have hfact : (k + 1) * k.factorial ≤ max_exact := by
        have : (k + 1).factorial ≤ Nat.factorial 18 := Nat.factorial_le hm
        rw [Nat.factorial_succ] at this
        exact le_trans this h18
      rw [show 3 * (k + 1) + 3 + g = (3 * k + 1 + g) + 5 by omega,
        fact_body_step A _ _ _ (3 * k + 1 + g) state locals hloc hc hf, hsub, hrec]
      simp only [hA.mul_nat (k + 1) k.factorial hfact, Nat.factorial_succ]

/-- The number scan takes a run of digits up to a character that is neither a
digit nor a dot. -/
theorem scan_number_digits (ds : List Char) (c : Char) (rest : List Char) (seen_dot : Bool)
    (hds : ∀ ch ∈ ds, is_digit ch = true) (hc : is_digit c = false) (hdot : c ≠ '.') :
    scan_number (ds ++ c :: rest) seen_dot = (ds, c :: rest) := by
  induction ds with
  | nil => simp [scan_number, hc, hdot]
  | cons d ds ih =>
    have hd : is_digit d = true := hds d (by simp)
    have hne : d ≠ '.' := is_digit_ne_dot d hd
    simp [scan_number, hd, hne, ih (fun ch hch => hds ch (by simp [hch]))]

/-- The tokens of `fact(<digits>)`. -/
theorem tokenize_fact_call (A : Arith V) (ds : List Char) (v : V) (steps : Nat)
    (hne : ds ≠ []) (hds : ∀ ch ∈ ds, is_digit ch = true) (hv : A.stod ds = some v)
    (hsteps : 5 ≤ steps) :
    tokenize_loop A steps ('f' :: 'a' :: 'c' :: 't' :: '(' :: (ds ++ [')'])) 0 []
      = .ok [Token.identifier "fact", Token.op .LParen, Token.number v, Token.op .RParen] := by
  obtain ⟨k, rfl⟩ := Nat.exists_eq_add_of_le hsteps
  obtain ⟨d, ds', rfl⟩ := List.exists_cons_of_ne_nil hne
  have hd : is_digit d = true := hds d (by simp)
  have hscan : scan_number (d :: (ds' ++ [')'])) false = (d :: ds', [')']) :=
    scan_number_digits (d :: ds') ')' [] false hds (by decide) (by decide)
  have hid : scan_identifier ('f' :: 'a' :: 'c' :: 't' :: '(' :: (d :: ds' ++ [')']))
      = (['f', 'a', 'c', 't'], '(' :: (d :: ds' ++ [')'])) := by
    simp +decide [scan_identifier]
  rw [show 5 + k = (((k + 1) + 1) + 1) + 1 + 1 by omega,
    tokenize_loop_alpha A _ _ _ _ _ (Or.inl (by decide)), hid]
  simp only []
  rw [tokenize_loop_single A _ _ '(' .LParen _ _ (by simp), List.cons_append,
    tokenize_loop_digit A _ _ _ _ _ hd, hscan]
  simp only [hv]
  rw [tokenize_loop_single A _ _ ')' .RParen _ _ (by simp), tokenize_loop_nil]
  rfl

/-- The decimal text of a number up to 18 is a run of digits that denotes it. -/
theorem toString_digits (n : Nat) (hn : n ≤ 18) :
    (toString n).toList ≠ [] ∧ ((toString n).toList.all is_digit) = true
      ∧ decimal_value (toString n).toList = n := by
  interval_cases n <;> decide

/-- The tokens of the text `fact(n)` for a number `n` up to 18. -/
theorem tokenize_fact_nat (A : Arith V) (hA : A.ExactOnNat) (n : Nat) (hn : n ≤ 18) :
    tokenize A ("fact(" ++ toString n ++ ")")
      = .ok [Token.identifier "fact", Token.op .LParen, Token.number (A.ofNat n),
          Token.op .RParen] := by
  obtain ⟨h1, h2, h3⟩ := toString_digits n hn
  have hv : A.stod (toString n).toList = some (A.ofNat n) :=
    stod_nat_lit A hA _ n h1 h2 h3 (le_trans hn (by decide))
  have hl : ("fact(" ++ toString n ++ ")").toList
      = 'f' :: 'a' :: 'c' :: 't' :: '(' :: ((toString n).toList ++ [')']) := by
    simp [String.toList, String.data_append]
  rw [tokenize, hl]
  exact tokenize_fact_call A _ _ _ h1 (by simpa [List.all_eq_true] using h2) hv
    (by
      have h5 : "fact(".length = 5 := by decide
      rw [String.length_append, String.length_append, h5]
      omega)

theorem process_fact_def (A : Arith V) (hA : A.ExactOnNat) (fuel : Nat) (state : State V) :
    process_query A fuel "fact(n) = n <= 1 ? 1 : n * fact(n - 1)" state
      = (.ok ⟨none, some "Defined fact(n)"⟩,
          { state with fns := map_set state.fns "fact" ⟨["n"], fact_body (A.ofNat 1)⟩ }) := by
  have hl : "fact(n) = n <= 1 ? 1 : n * fact(n - 1)".length = 38 := by decide
  have ht : "fact(n) = n <= 1 ? 1 : n * fact(n - 1)".toList
      = ['f', 'a', 'c', 't', '(', 'n', ')', ' ', '=', ' ', 'n', ' ', '<', '=', ' ', '1', ' ',
         '?', ' ', '1', ' ', ':', ' ', 'n', ' ', '*', ' ', 'f', 'a', 'c', 't', '(', 'n', ' ',
         '-', ' ', '1', ')'] := by decide
  have d1 : A.stod ['1'] = some (A.ofNat 1) :=
    stod_nat_lit A hA _ 1 (by simp) (by decide) (by decide) (by decide)
  have htok : tokenize A "fact(n) = n <= 1 ? 1 : n * fact(n - 1)"
      = .ok [Token.identifier "fact", Token.op .LParen, Token.identifier "n", Token.op .RParen,
          Token.op .Equals, Token.identifier "n", Token.op .LessEqual,
          Token.number (A.ofNat 1), Token.op .Question, Token.number (A.ofNat 1),
          Token.op .Colon, Token.identifier "n", Token.op .Star, Token.identifier "fact",
          Token.op .LParen, Token.identifier "n", Token.op .Minus, Token.number (A.ofNat 1),
          Token.op .RParen] := by
    simp +decide [tokenize, hl, ht, tokenize_loop, scan_number, scan_identifier, d1]
  have hparse : parse [Token.identifier "fact", Token.op .LParen, Token.identifier "n",
      Token.op .RParen,
      Token.op .Equals, Token.identifier "n", Token.op .LessEqual,
      Token.number (A.ofNat 1), Token.op .Question, Token.number (A.ofNat 1),
      Token.op .Colon, Token.identifier "n", Token.op .Star, Token.identifier "fact",
      Token.op .LParen, Token.identifier "n", Token.op .Minus, Token.number (A.ofNat 1),
      Token.op .RParen]
      = .ok (.Binary .Equals (.FnCall "fact" [.Variable "n"]) (fact_body (A.ofNat 1))) := rfl
  have hf : is_reserved_identifier A "fact" = false := rfl
  have hn : is_reserved_identifier A "n" = false := rfl
  have hmsg : "Defined fact(" ++ join_params ["n"] ++ ")" = "Defined fact(n)" := by
    decide
  simp [process_query, htok, hparse, evaluate, define_function, collect_params, hf, hn, hmsg]

theorem process_fact_call (A : Arith V) (hA : A.ExactOnNat) (n : Nat) (hn : n ≤ 18)
    (fuel : Nat) (hfuel : 3 * n + 4 ≤ fuel) (state : State V)
    (hf : state.fns "fact" = some ⟨["n"], fact_body (A.ofNat 1)⟩) (input : String)
    (htok : tokenize A input = .ok [Token.identifier "fact", Token.op .LParen,
      Token.number (A.ofNat n), Token.op .RParen]) :
    process_query A fuel input state
      = (.ok ⟨some (A.ofNat n.factorial), none⟩,
          { state with last_result := A.ofNat n.factorial, has_last_result := true }) := by
  obtain ⟨g, rfl⟩ := Nat.exists_eq_add_of_le hfuel
  have hparse : parse [Token.identifier "fact", Token.op .LParen,
      Token.number (A.ofNat n), Token.op .RParen]
      = .ok (.FnCall "fact" [.Number (A.ofNat n)]) := rfl
  have hbody := fact_body_eval A hA n hn (3 * n + 3 + g) state
    (map_set (fun _ => none) "n" (A.ofNat n)) (by omega) hf (by simp [map_set])
  have hcall : eval_value A (3 * n + 4 + g) (.FnCall "fact" [.Number (A.ofNat n)]) state
      ⟨none, true⟩ = ⟨.ok (A.ofNat n.factorial), state, ⟨none, true⟩⟩ := by
    rw [show 3 * n + 4 + g = (3 * n + 2 + g + 1) + 1 by omega, eval_value_fn_call]
    simp only [eval_function_call, find_builtin_fact, hf, List.length_cons, List.length_nil,
      ne_eq, not_true_eq_false, if_false, bind_params, eval_value_number, andThen_ok]
    rw [show 3 * n + 2 + g + 1 = 3 * n + 3 + g by omega, hbody]
  simp only [process_query, htok, hparse, evaluate, hcall]

/-- C13. Recursion. In an arithmetic that is exact on natural numbers up to
`2 ^ 53`, the query `fact(n) = n <= 1 ? 1 : n * fact(n - 1)` succeeds on every
state and stores `fact`; on every state that holds this definition of `fact`,
for every `n` from 0 to 18 the query `fact(n)` (the text `fact(` followed by
the decimal digits of `n` and `)`, or any text with these four tokens)
returns `n!` once the evaluation budget is at least `3 * n + 4`, so the
evaluation terminates, and records it as the last result. The value is 1 for
`n <= 1`, and `fact(5)` returns 120. -/
theorem C13_recursion (A : Arith V) (hA : A.ExactOnNat) (n : Nat) (hn : n ≤ 18)
    (fuel0 fuel : Nat) (hfuel : 3 * n + 4 ≤ fuel) (state0 : State V) :
    (process_query A fuel0 "fact(n) = n <= 1 ? 1 : n * fact(n - 1)" state0).1
        = .ok ⟨none, some "Defined fact(n)"⟩
    ∧ (process_query A fuel0 "fact(n) = n <= 1 ? 1 : n * fact(n - 1)" state0).2.fns "fact"
        = some ⟨["n"], fact_body (A.ofNat 1)⟩
    ∧ (∀ state : State V, state.fns "fact" = some ⟨["n"], fact_body (A.ofNat 1)⟩ →
        process_query A fuel ("fact(" ++ toString n ++ ")") state
          = (.ok ⟨some (A.ofNat n.factorial), none⟩,
              { state with last_result := A.ofNat n.factorial, has_last_result := true })
        ∧ (∀ input : String,
            tokenize A input = .ok [Token.identifier "fact", Token.op .LParen,
              Token.number (A.ofNat n), Token.op .RParen] →
            process_query A fuel input state
              = (.ok ⟨some (A.ofNat n.factorial), none⟩,
                  { state with last_result := A.ofNat n.factorial, has_last_result := true }))
        ∧ (n ≤ 1 → (process_query A fuel ("fact(" ++ toString n ++ ")") state).1
            = .ok ⟨some (A.ofNat 1), none⟩)
        ∧ (process_query A (fuel + 19) "fact(5)" state).1
            = .ok ⟨some (A.ofNat 120), none⟩) := by
  refine ⟨by rw [process_fact_def A hA], ?_, ?_⟩
  · rw [process_fact_def A hA]
    simp [map_set]
  · intro state hf
    have hcall := process_fact_call A hA n hn fuel hfuel state hf _ (tokenize_fact_nat A hA n hn)
    refine ⟨hcall, fun input htok => process_fact_call A hA n hn fuel hfuel state hf input htok,
      ?_, ?_⟩
    · intro h1
      rw [hcall]
      have : n.factorial = 1 := by interval_cases n <;> rfl
      rw [this]
    · have h5 := process_fact_call A hA 5 (by decide) (fuel + 19) (by omega) state hf _
        (tokenize_fact_nat A hA 5 (by decide))
      have hs : "fact(" ++ toString 5 ++ ")" = "fact(5)" := by decide
      rw [hs] at h5
      rw [h5]
      rfl

/-- C13 at a concrete input: in exact rational arithmetic, after the
definition on the empty state, `fact(5)` returns 120 and `fact(18)` returns
`18!`. -/
theorem C13_recursion_witness :
    (process_query Arith.rat 0 "fact(n) = n <= 1 ? 1 : n * fact(n - 1)" (State.init Arith.rat)).1
        = .ok ⟨none, some "Defined fact(n)"⟩
    ∧ (process_query Arith.rat 58 "fact(18)"
        (process_query Arith.rat 0 "fact(n) = n <= 1 ? 1 : n * fact(n - 1)" (State.init Arith.rat)).2).1
        = .ok ⟨some (6402373705728000 : ℚ), none⟩
    ∧ (process_query Arith.rat 77 "fact(5)"
        (process_query Arith.rat 0 "fact(n) = n <= 1 ? 1 : n * fact(n - 1)" (State.init Arith.rat)).2).1
        = .ok ⟨some (120 : ℚ), none⟩ := by
  have h := C13_recursion Arith.rat Arith.rat_exactOnNat 18 (by decide) 0 58 (by decide)
    (State.init Arith.rat)
  obtain ⟨h1, h2, h3⟩ := h
  obtain ⟨h4, -, -, h5⟩ := h3 _ h2
  have hs : "fact(" ++ toString 18 ++ ")" = "fact(18)" := by decide
  rw [hs] at h4
  refine ⟨h1, ?_, ?_⟩
  · rw [h4]
    have : (Arith.rat.ofNat (Nat.factorial 18) : ℚ) = 6402373705728000 := by
      simp [Arith.rat, Nat.factorial]
    rw [this]
  · rw [h5]
    simp [Arith.rat]

/-! ### C15: division and modulo by zero -/

/-- C15. Division and modulo by zero. In every state and context, for all
expressions `l` and `r`: when `r` evaluates to a value `v` that compares equal
to zero (`v == 0.0`, which both zeros of `double` do), evaluating `l / r`
fails with the EvalError `Division by zero` and `l % r` with the EvalError
`Modulo by zero`, in the state `r` left and without evaluating `l`. When `v`
does not compare equal to zero the operator raises neither error: the result
is what evaluating `l` after `r` gives (an exception of `l` propagating), so
`l / r` returns `a / v` and `l % r` returns `fmod(a, v)` whenever `l`
evaluates to `a`. In an arithmetic exact on small natural numbers the queries
`1 / 0` and `5 % 0` fail with these two errors on every state. -/
theorem C15_division_by_zero (A : Arith V) (fuel : Nat) (l r : Expression V)
    (state state1 : State V) (ctx ctx1 : EvalContext V) (v : V)
    (hr : eval_value A fuel r state ctx = ⟨.ok v, state1, ctx1⟩) :
    (A.eq v (A.ofNat 0) = true →
      eval_value A (fuel + 1) (.Binary .Slash l r) state ctx
          = ⟨.error (.EvalError "Division by zero"), state1, ctx1⟩
      ∧ eval_value A (fuel + 1) (.Binary .Percent l r) state ctx
          = ⟨.error (.EvalError "Modulo by zero"), state1, ctx1⟩)
    ∧ (A.eq v (A.ofNat 0) = false →
      eval_value A (fuel + 1) (.Binary .Slash l r) state ctx
          = (eval_value A fuel l state1 ctx1).andThen
              (fun a state2 ctx2 => ⟨.ok (A.div a v), state2, ctx2⟩)
      ∧ eval_value A (fuel + 1) (.Binary .Percent l r) state ctx
          = (eval_value A fuel l state1 ctx1).andThen
              (fun a state2 ctx2 => ⟨.ok (A.cmath2 "fmod" a v), state2, ctx2⟩)
      ∧ ∀ (a : V) (state2 : State V) (ctx2 : EvalContext V),
          eval_value A fuel l state1 ctx1 = ⟨.ok a, state2, ctx2⟩ →
          eval_value A (fuel + 1) (.Binary .Slash l r) state ctx
              = ⟨.ok (A.div a v), state2, ctx2⟩
          ∧ eval_value A (fuel + 1) (.Binary .Percent l r) state ctx
              = ⟨.ok (A.cmath2 "fmod" a v), state2, ctx2⟩)
    ∧ (A.ExactOnNat → ∀ (budget : Nat) (session : State V),
        process_query A (budget + 2) "1 / 0" session
            = (.error (.EvalError "Division by zero"), session)
        ∧ process_query A (budget + 2) "5 % 0" session
            = (.error (.EvalError "Modulo by zero"), session)) := by
  refine ⟨?_, ?_, ?_⟩
  · intro hz
    constructor <;>
      simp only [eval_value_binary, eval_binary, hr, andThen_ok, hz, if_true]
  · intro hz
    refine ⟨?_, ?_, ?_⟩
    · simp only [eval_value_binary, eval_binary, hr, andThen_ok, hz, Bool.false_eq_true,
        if_false]
    · simp only [eval_value_binary, eval_binary, hr, andThen_ok, hz, Bool.false_eq_true,
        if_false]
    · intro a state2 ctx2 hl
      constructor <;>
        simp only [eval_value_binary, eval_binary, hr, andThen_ok, hz, Bool.false_eq_true,
          if_false, hl]
  · intro hA budget session
    have d0 : A.stod ['0'] = some (A.ofNat 0) :=
      stod_nat_lit A hA _ 0 (by simp) (by decide) (by decide) (by decide)
    have d1 : A.stod ['1'] = some (A.ofNat 1) :=
      stod_nat_lit A hA _ 1 (by simp) (by decide) (by decide) (by decide)
    have d5 : A.stod ['5'] = some (A.ofNat 5) :=
      stod_nat_lit A hA _ 5 (by simp) (by decide) (by decide) (by decide)
    have hz : A.eq (A.ofNat 0) (A.ofNat 0) = true := by
      rw [hA.eq_nat 0 0 (by decide) (by decide)]; decide
    have t1 : tokenize A "1 / 0" = .ok [Token.number (A.ofNat 1), Token.op .Slash,
        Token.number (A.ofNat 0)] := by
      have hl : "1 / 0".length = 5 := by decide
      have ht : "1 / 0".toList = ['1', ' ', '/', ' ', '0'] := by decide
      simp +decide [tokenize, hl, ht, tokenize_loop, scan_number, scan_identifier, d0, d1]
    have t5 : tokenize A "5 % 0" = .ok [Token.number (A.ofNat 5), Token.op .Percent,
        Token.number (A.ofNat 0)] := by
      have hl : "5 % 0".length = 5 := by decide
      have ht : "5 % 0".toList = ['5', ' ', '%', ' ', '0'] := by decide
      simp +decide [tokenize, hl, ht, tokenize_loop, scan_number, scan_identifier, d0, d5]
    have p1 : parse [Token.number (A.ofNat 1), Token.op .Slash, Token.number (A.ofNat 0)]
        = .ok (.Binary .Slash (.Number (A.ofNat 1)) (.Number (A.ofNat 0))) := rfl
    have p5 : parse [Token.number (A.ofNat 5), Token.op .Percent, Token.number (A.ofNat 0)]
        = .ok (.Binary .Percent (.Number (A.ofNat 5)) (.Number (A.ofNat 0))) := rfl
    constructor
    · simp only [process_query, t1, p1, evaluate, eval_value_binary, eval_binary,
        eval_value_number, andThen_ok, hz, if_true]
    · simp only [process_query, t5, p5, evaluate, eval_value_binary, eval_binary,
        eval_value_number, andThen_ok, hz, if_true]

/-- C15 at concrete inputs, in the rational arithmetic: `1 / 0` and `5 % 0`
fail, `6 / 3` is 2, and the queries `1 / 0` and `5 % 0` fail on the empty
state. -/
theorem C15_division_by_zero_witness :
    eval_value Arith.rat 1 (.Number 0) (State.init Arith.rat) ⟨none, true⟩
        = ⟨.ok 0, State.init Arith.rat, ⟨none, true⟩⟩
    ∧ eval_value Arith.rat 2 (.Binary .Slash (.Number 1) (.Number 0)) (State.init Arith.rat)
        ⟨none, true⟩
        = ⟨.error (.EvalError "Division by zero"), State.init Arith.rat, ⟨none, true⟩⟩
    ∧ eval_value Arith.rat 2 (.Binary .Percent (.Number 1) (.Number 0)) (State.init Arith.rat)
        ⟨none, true⟩
        = ⟨.error (.EvalError "Modulo by zero"), State.init Arith.rat, ⟨none, true⟩⟩
    ∧ eval_value Arith.rat 2 (.Binary .Slash (.Number 6) (.Number 3)) (State.init Arith.rat)
        ⟨none, true⟩
        = ⟨.ok 2, State.init Arith.rat, ⟨none, true⟩⟩
    ∧ process_query Arith.rat 2 "1 / 0" (State.init Arith.rat)
        = (.error (.EvalError "Division by zero"), State.init Arith.rat)
    ∧ process_query Arith.rat 2 "5 % 0" (State.init Arith.rat)
        = (.error (.EvalError "Modulo by zero"), State.init Arith.rat) := by
  have h0 := C15_division_by_zero Arith.rat 1 (.Number 1) (.Number 0) (State.init Arith.rat)
    (State.init Arith.rat) ⟨none, true⟩ ⟨none, true⟩ 0 rfl
  have h3 := C15_division_by_zero Arith.rat 1 (.Number 6) (.Number 3) (State.init Arith.rat)
    (State.init Arith.rat) ⟨none, true⟩ ⟨none, true⟩ 3 rfl
  refine ⟨rfl, (h0.1 (by decide)).1, (h0.1 (by decide)).2, ?_,
    (h0.2.2 Arith.rat_exactOnNat 0 _).1, (h0.2.2 Arith.rat_exactOnNat 0 _).2⟩
  have h := (h3.2.1 (by decide)).2.2 6 (State.init Arith.rat) ⟨none, true⟩ rfl
  rw [h.1]
  have : Arith.rat.div 6 3 = (2 : ℚ) := by simp [Arith.rat]; norm_num
  rw [this]

/-! ### The lexer as a step function -/

/-- The loop of `tokenize` is its one-iteration step, repeated. -/
theorem tokenize_loop_step (A : Arith V) (steps pos : Nat) (c : Char) (rest : List Char)
    (result : Tokens V) :
    tokenize_loop A (steps + 1) (c :: rest) pos result
      = match lex_one A c rest pos with
        | .error err => .error err
        | .ok (token, count, rest1) =>
          tokenize_loop A steps rest1 (pos + count) (result ++ token.toList) := by
  rw [tokenize_loop, lex_one]
  by_cases h0 : is_space c = true
  · simp only [h0, if_true, Option.toList, List.append_nil]
  simp only [h0, if_false, Bool.false_eq_true]
  by_cases h1 : c = '+'
  · simp only [h1, if_true, Option.toList]
  simp only [h1, if_false, Bool.false_eq_true]
  by_cases h2 : c = '-'
  · simp only [h2, if_true, Option.toList]
  simp only [h2, if_false, Bool.false_eq_true]
  by_cases h3 : c = '*'
  · simp only [h3, if_true, Option.toList]
  simp only [h3, if_false, Bool.false_eq_true]
  by_cases h4 : c = '/'
  · simp only [h4, if_true, Option.toList]
  simp only [h4, if_false, Bool.false_eq_true]
  by_cases h5 : c = '%'
  · simp only [h5, if_true, Option.toList]
  simp only [h5, if_false, Bool.false_eq_true]
  by_cases h6 : c = '^'
  · simp only [h6, if_true, Option.toList]
  simp only [h6, if_false, Bool.false_eq_true]
  by_cases h7 : c = '('
  · simp only [h7, if_true, Option.toList]
  simp only [h7, if_false, Bool.false_eq_true]
  by_cases h8 : c = ')'
  · simp only [h8, if_true, Option.toList]
  simp only [h8, if_false, Bool.false_eq_true]
  by_cases h9 : c = ','
  · simp only [h9, if_true, Option.toList]
  simp only [h9, if_false, Bool.false_eq_true]
  by_cases h10 : c = '?'
  · simp only [h10, if_true, Option.toList]
  simp only [h10, if_false, Bool.false_eq_true]
  by_cases h11 : c = ':'
  · simp only [h11, if_true, Option.toList]
  simp only [h11, if_false, Bool.false_eq_true]
  by_cases h12 : c = '='
  · simp only [h12, if_true]
    by_cases hn : next_is_equals rest = true
    · simp only [hn, if_true, Option.toList]
    · simp only [hn, if_false, Bool.false_eq_true, Option.toList]
  simp only [h12, if_false, Bool.false_eq_true]
  by_cases h13 : c = '!'
  · simp only [h13, if_true]
    by_cases hn : next_is_equals rest = true
    · simp only [hn, if_true, Option.toList]
    · simp only [hn, if_false, Bool.false_eq_true, Option.toList]
  simp only [h13, if_false, Bool.false_eq_true]
  by_cases h14 : c = '<'
  · simp only [h14, if_true]
    by_cases hn : next_is_equals rest = true
    · simp only [hn, if_true, Option.toList]
    · simp only [hn, if_false, Bool.false_eq_true, Option.toList]
  simp only [h14, if_false, Bool.false_eq_true]
  by_cases h15 : c = '>'
  · simp only [h15, if_true]
    by_cases hn : next_is_equals rest = true
    · simp only [hn, if_true, Option.toList]
    · simp only [hn, if_false, Bool.false_eq_true, Option.toList]
  simp only [h15, if_false, Bool.false_eq_true]
  by_cases hnum : (is_digit c || (decide (c = '.') && next_is_digit rest)) = true
  · simp only [hnum, if_true]
    cases A.stod (scan_number (c :: rest) false).1 <;> simp only [Option.toList]
  simp only [hnum, if_false, Bool.false_eq_true]
  by_cases hid : (is_alpha c || decide (c = '_')) = true
  · simp only [hid, if_true, Option.toList]
  · simp only [hid, if_false, Bool.false_eq_true]

/-- The input continues with `=` exactly when it is `=` followed by something. -/
theorem next_is_equals_cons (rest : List Char) (h : next_is_equals rest = true) :
    ∃ rest1, rest = '=' :: rest1 := by
  cases rest with
  | nil => simp [next_is_equals] at h
  | cons d rest1 =>
    by_cases hd : d = '='
    · exact ⟨rest1, by rw [hd]⟩
    · exfalso
      revert h
      unfold next_is_equals
      split
      · rename_i heq
        simp only [List.cons.injEq] at heq
        exact absurd heq.1 hd
      · simp

/-- Every iteration of the lexer is one of the cases of `LexStep`. -/
theorem lex_one_step (A : Arith V) (c : Char) (rest : List Char) (pos : Nat) :
    LexStep A c rest pos (lex_one A c rest pos) := by
  rw [lex_one]
  by_cases h0 : is_space c = true
  · simp only [h0, if_true]
    exact LexStep.space h0
  simp only [h0, if_false, Bool.false_eq_true]
  by_cases h1 : c = '+'
  · simp only [h1, if_true]
    exact LexStep.single .Plus (by simp)
  simp only [h1, if_false, Bool.false_eq_true]
  by_cases h2 : c = '-'
  · simp only [h2, if_true]
    exact LexStep.single .Minus (by simp)
  simp only [h2, if_false, Bool.false_eq_true]
  by_cases h3 : c = '*'
  · simp only [h3, if_true]
    exact LexStep.single .Star (by simp)
  simp only [h3, if_false, Bool.false_eq_true]
  by_cases h4 : c = '/'
  · simp only [h4, if_true]
    exact LexStep.single .Slash (by simp)
  simp only [h4, if_false, Bool.false_eq_true]
  by_cases h5 : c = '%'
  · simp only [h5, if_true]
    exact LexStep.single .Percent (by simp)
  simp only [h5, if_false, Bool.false_eq_true]
  by_cases h6 : c = '^'
  · simp only [h6, if_true]
    exact LexStep.single .Caret (by simp)
  simp only [h6, if_false, Bool.false_eq_true]
  by_cases h7 : c = '('
  · simp only [h7, if_true]
    exact LexStep.single .LParen (by simp)
  simp only [h7, if_false, Bool.false_eq_true]
  by_cases h8 : c = ')'
  · simp only [h8, if_true]
    exact LexStep.single .RParen (by simp)
  simp only [h8, if_false, Bool.false_eq_true]
  by_cases h9 : c = ','
  · simp only [h9, if_true]
    exact LexStep.single .Comma (by simp)
  simp only [h9, if_false, Bool.false_eq_true]
  by_cases h10 : c = '?'
  · simp only [h10, if_true]
    exact LexStep.single .Question (by simp)
  simp only [h10, if_false, Bool.false_eq_true]
  by_cases h11 : c = ':'
  · simp only [h11, if_true]
    exact LexStep.single .Colon (by simp)
  simp only [h11, if_false, Bool.false_eq_true]
  by_cases h12 : c = '='
  · subst h12
    simp only [if_true]
    by_cases hn : next_is_equals rest = true
    · simp only [hn, if_true]
      obtain ⟨rest1, rfl⟩ := next_is_equals_cons rest hn
      exact LexStep.double .EqualEqual rest1 (by simp) rfl
    · simp only [hn, if_false, Bool.false_eq_true]
      exact LexStep.lone .Equals (by simp) (by simpa using hn)
  simp only [h12, if_false, Bool.false_eq_true]
  by_cases h13 : c = '!'
  · subst h13
    simp only [if_true]
    by_cases hn : next_is_equals rest = true
    · simp only [hn, if_true]
      obtain ⟨rest1, rfl⟩ := next_is_equals_cons rest hn
      exact LexStep.double .BangEqual rest1 (by simp) rfl
    · simp only [hn, if_false, Bool.false_eq_true]
      exact LexStep.bang rfl (by simpa using hn)
  simp only [h13, if_false, Bool.false_eq_true]
  by_cases h14 : c = '<'
  · subst h14
    simp only [if_true]
    by_cases hn : next_is_equals rest = true
    · simp only [hn, if_true]
      obtain ⟨rest1, rfl⟩ := next_is_equals_cons rest hn
      exact LexStep.double .LessEqual rest1 (by simp) rfl
    · simp only [hn, if_false, Bool.false_eq_true]
      exact LexStep.lone .Less (by simp) (by simpa using hn)
  simp only [h14, if_false, Bool.false_eq_true]
  by_cases h15 : c = '>'
  · subst h15
    simp only [if_true]
    by_cases hn : next_is_equals rest = true
    · simp only [hn, if_true]
      obtain ⟨rest1, rfl⟩ := next_is_equals_cons rest hn
      exact LexStep.double .GreaterEqual rest1 (by simp) rfl
    · simp only [hn, if_false, Bool.false_eq_true]
      exact LexStep.lone .Greater (by simp) (by simpa using hn)
  simp only [h15, if_false, Bool.false_eq_true]
  by_cases hnum : (is_digit c || (decide (c = '.') && next_is_digit rest)) = true
  · simp only [hnum, if_true]
    have hnum1 : is_digit c = true ∨ (c = '.' ∧ next_is_digit rest = true) := by
      simpa using hnum
    cases hs : A.stod (scan_number (c :: rest) false).1 with
    | none => exact LexStep.range hnum1 hs
    | some value => exact LexStep.number value hnum1 hs
  simp only [hnum, if_false, Bool.false_eq_true]
  by_cases hid : (is_alpha c || decide (c = '_')) = true
  · simp only [hid, if_true]
    exact LexStep.identifier (by simpa using hid)
  · simp only [hid, if_false, Bool.false_eq_true]
    refine LexStep.unknown ?_
    by_cases hdot : c = '.'
    · right
      refine ⟨hdot, ?_⟩
      have := hnum
      simp only [hdot, Bool.or_eq_true, Bool.and_eq_true, decide_True, true_and, not_or,
        Bool.not_eq_true] at this
      exact this.2
    · left
      have hl : "+-*/%^(),?:=!<>".toList
          = ['+', '-', '*', '/', '%', '^', '(', ')', ',', '?', ':', '=', '!', '<', '>'] := by
        decide
      simp only [Bool.or_eq_true, decide_eq_true_eq, not_or, Bool.and_eq_true,
        Bool.not_eq_true] at hnum hid
      simp only [Bool.not_eq_true] at h0
      simp [unclassifiable, hl, h0, hid.1, hid.2, hnum.1, hdot, h1, h2, h3, h4, h5, h6, h7,
        h8, h9, h10, h11, h12, h13, h14, h15]

/-- The cases of `LexStep` exclude one another: the outcome of an iteration
is the one its case names. -/
theorem lex_one_of_step (A : Arith V) (c : Char) (rest : List Char) (pos : Nat)
    (r : Except Error (Option (Token V) × Nat × List Char)) (h : LexStep A c rest pos r) :
    lex_one A c rest pos = r := by
  cases h with
  | space h => rw [lex_one, if_pos h]
  | single type h =>
    simp only [List.mem_cons, Prod.mk.injEq, List.mem_singleton, List.not_mem_nil,
      or_false] at h
    rcases h with h | h | h | h | h | h | h | h | h | h | h <;> obtain ⟨rfl, rfl⟩ := h <;>
      rw [lex_one] <;> simp +decide only [if_true, if_false]
  | double type rest1 h hr =>
    subst hr
    simp only [List.mem_cons, Prod.mk.injEq, List.mem_singleton, List.not_mem_nil,
      or_false] at h
    rcases h with h | h | h | h <;> obtain ⟨rfl, rfl⟩ := h <;>
      rw [lex_one] <;>
      simp +decide only [if_true, if_false, next_is_equals, List.drop_succ_cons, List.drop_zero]
  | lone type h hn =>
    simp only [List.mem_cons, Prod.mk.injEq, List.mem_singleton, List.not_mem_nil,
      or_false] at h
    rcases h with h | h | h <;> obtain ⟨rfl, rfl⟩ := h <;>
      rw [lex_one] <;> simp +decide only [if_true, if_false, hn, Bool.false_eq_true]
  | bang hc hn =>
    subst hc
    rw [lex_one]
    simp +decide only [if_true, if_false, hn, Bool.false_eq_true]
  | number value hc hs =>
    rcases hc with hd | ⟨rfl, hd⟩
    · obtain ⟨h0, h1, h2, h3, h4, h5, h6, h7, h8, h9, h10, h11, h12, h13, h14, h15⟩ :=
        is_digit_class c hd
      rw [lex_one]
      simp only [h0, h1, h2, h3, h4, h5, h6, h7, h8, h9, h10, h11, h12, h13, h14, h15, hd,
        Bool.false_eq_true, if_false, Bool.true_or, if_true, hs]
    · rw [lex_one]
      simp +decide only [hd, Bool.and_true, Bool.or_true, if_true, if_false, hs]
  | range hc hs =>
    rcases hc with hd | ⟨rfl, hd⟩
    · obtain ⟨h0, h1, h2, h3, h4, h5, h6, h7, h8, h9, h10, h11, h12, h13, h14, h15⟩ :=
        is_digit_class c hd
      rw [lex_one]
      simp only [h0, h1, h2, h3, h4, h5, h6, h7, h8, h9, h10, h11, h12, h13, h14, h15, hd,
        Bool.false_eq_true, if_false, Bool.true_or, if_true, hs]
    · rw [lex_one]
      simp +decide only [hd, Bool.and_true, Bool.or_true, if_true, if_false, hs]
  | identifier ha =>
    obtain ⟨h0, h1, h2, h3, h4, h5, h6, h7, h8, h9, h10, h11, h12, h13, h14, h15, h16, h17⟩ :=
      is_alpha_class c ha
    have h18 : (is_alpha c || decide (c = '_')) = true := by
      rcases ha with ha | ha <;> simp [ha]
    rw [lex_one]
    simp only [h0, h1, h2, h3, h4, h5, h6, h7, h8, h9, h10, h11, h12, h13, h14, h15, h16,
      h17, h18, Bool.false_eq_true, if_false, decide_False, Bool.false_and, Bool.or_self,
      if_true]
  | unknown hc =>
    rcases hc with hc | ⟨rfl, hd⟩
    · have hl : "+-*/%^(),?:=!<>".toList
          = ['+', '-', '*', '/', '%', '^', '(', ')', ',', '?', ':', '=', '!', '<', '>'] := by
        decide
      simp only [unclassifiable, hl, Bool.not_eq_true', Bool.or_eq_false_iff,
        List.contains_cons, List.contains_nil, decide_eq_false_iff_not, beq_eq_false_iff_ne,
        ne_eq, Bool.or_false] at hc
      obtain ⟨⟨⟨⟨⟨h0, h1⟩, h2⟩, h3⟩, h4⟩, h5, h6, h7, h8, h9, h10, h11, h12, h13, h14, h15,
        h16, h17, h18, h19⟩ := hc
      rw [lex_one]
      simp only [h0, h1, h2, h3, h4, h5, h6, h7, h8, h9, h10, h11, h12, h13, h14, h15, h16,
        h17, h18, h19, Bool.false_eq_true, if_false, decide_False, Bool.false_and,
        Bool.or_self]
    · rw [lex_one]
      simp +decide only [hd, Bool.and_false, Bool.or_false, if_true, if_false,
        Bool.false_eq_true]

/-- The outcome of an iteration of the lexer is `r` exactly in the case of
`LexStep` that names `r`. -/
theorem lex_one_iff (A : Arith V) (c : Char) (rest : List Char) (pos : Nat)
    (r : Except Error (Option (Token V) × Nat × List Char)) :
    lex_one A c rest pos = r ↔ LexStep A c rest pos r :=
  ⟨fun h => h ▸ lex_one_step A c rest pos, lex_one_of_step A c rest pos r⟩

/-! ### The two scans -/

theorem scan_number_split (xs : List Char) (seen_dot : Bool) :
    (scan_number xs seen_dot).1 ++ (scan_number xs seen_dot).2 = xs := by
  induction xs generalizing seen_dot with
  | nil => rfl
  | cons x xs ih =>
    rw [scan_number]
    split_ifs
    · rfl
    · simp [ih true]
    · rfl
    · simp [ih seen_dot]

theorem scan_number_chars (xs : List Char) (seen_dot : Bool) :
    ∀ x ∈ (scan_number xs seen_dot).1, is_digit x = true ∨ x = '.' := by
  induction xs generalizing seen_dot with
  | nil => simp [scan_number]
  | cons x xs ih =>
    rw [scan_number]
    split_ifs with h1 h2 h3
    · simp
    · intro y hy
      simp only [List.mem_cons] at hy
      rcases hy with rfl | hy
      · exact Or.inr h1
      · exact ih true y hy
    · simp
    · intro y hy
      simp only [List.mem_cons] at hy
      rcases hy with rfl | hy
      · left; simpa using h3
      · exact ih seen_dot y hy

/-- The number scan started at a digit, or at a dot with none seen, takes it. -/
theorem scan_number_first (c : Char) (rest : List Char)
    (h : is_digit c = true ∨ c = '.') :
    ∃ text, (scan_number (c :: rest) false).1 = c :: text := by
  by_cases h1 : c = '.'
  · exact ⟨(scan_number rest true).1, by simp [scan_number, h1]⟩
  · have hd : is_digit c = true := h.resolve_right h1
    exact ⟨(scan_number rest false).1, by simp [scan_number, h1, hd]⟩

theorem scan_number_append (xs post : List Char) (seen_dot : Bool)
    (h : (scan_number xs seen_dot).2 ≠ [] ∨ ∀ d ∈ post.head?, is_digit d = false ∧ d ≠ '.') :
    scan_number (xs ++ post) seen_dot
      = ((scan_number xs seen_dot).1, (scan_number xs seen_dot).2 ++ post) := by
  induction xs generalizing seen_dot with
  | nil =>
    rcases h with h | h
    · exact absurd rfl h
    · cases post with
      | nil => rfl
      | cons d post =>
        obtain ⟨hd, hdot⟩ := h d (by simp)
        simp [scan_number, hd, hdot]
  | cons x xs ih =>
    rw [List.cons_append, scan_number, scan_number]
    rw [scan_number] at h
    split_ifs with h1 h2 h3
    · rfl
    · rw [if_pos h1, if_neg h2] at h
      rw [ih true h]
    · rfl
    · rw [if_neg h1, if_neg h3] at h
      rw [ih seen_dot h]

theorem scan_identifier_split (xs : List Char) :
    (scan_identifier xs).1 ++ (scan_identifier xs).2 = xs := by
  induction xs with
  | nil => rfl
  | cons x xs ih =>
    rw [scan_identifier]
    split_ifs
    · simp [ih]
    · rfl

theorem scan_identifier_chars (xs : List Char) :
    ∀ x ∈ (scan_identifier xs).1, (is_alnum x || decide (x = '_')) = true := by
  induction xs with
  | nil => simp [scan_identifier]
  | cons x xs ih =>
    rw [scan_identifier]
    split_ifs with h1
    · intro y hy
      simp only [List.mem_cons] at hy
      rcases hy with rfl | hy
      · exact h1
      · exact ih y hy
    · simp

/-- The identifier scan started at a letter or underscore takes it. -/
theorem scan_identifier_first (c : Char) (rest : List Char)
    (h : is_alpha c = true ∨ c = '_') :
    ∃ text, (scan_identifier (c :: rest)).1 = c :: text := by
  rw [scan_identifier]
  split_ifs with h1
  · exact ⟨_, rfl⟩
  · exfalso
    rcases h with h | h <;> simp [is_alnum, h] at h1

theorem scan_identifier_append (xs post : List Char)
    (h : (scan_identifier xs).2 ≠ []
      ∨ ∀ d ∈ post.head?, (is_alnum d || decide (d = '_')) = false) :
    scan_identifier (xs ++ post)
      = ((scan_identifier xs).1, (scan_identifier xs).2 ++ post) := by
  induction xs with
  | nil =>
    rcases h with h | h
    · exact absurd rfl h
    · cases post with
      | nil => rfl
      | cons d post =>
        have hd := h d (by simp)
        simp [scan_identifier, hd]
  | cons x xs ih =>
    rw [List.cons_append, scan_identifier, scan_identifier]
    rw [scan_identifier] at h
    split_ifs with h1
    · rw [if_pos h1] at h
      rw [ih h]
    · rfl

/-! ### What one iteration consumes -/

/-- An iteration that succeeds consumes a non-empty run of characters, each of
which the lexer classifies, and leaves the rest of the input. -/
theorem lex_one_consumed (A : Arith V) (c : Char) (rest : List Char) (pos : Nat)
    (token : Option (Token V)) (count : Nat) (rest1 : List Char)
    (h : lex_one A c rest pos = .ok (token, count, rest1)) :
    ∃ consumed, c :: rest = consumed ++ rest1 ∧ consumed.length = count ∧ consumed ≠ []
      ∧ ∀ x ∈ consumed, unclassifiable x = false := by
  have hs := (lex_one_iff A c rest pos _).mp h
  cases hs with
  | space hc => exact ⟨[c], rfl, rfl, by simp, by simp [unclassifiable, hc]⟩
  | single type hc =>
    refine ⟨[c], rfl, rfl, by simp, ?_⟩
    simp only [List.mem_cons, Prod.mk.injEq, List.mem_singleton, List.not_mem_nil,
      or_false] at hc
    rcases hc with hc | hc | hc | hc | hc | hc | hc | hc | hc | hc | hc <;>
      obtain ⟨rfl, rfl⟩ := hc <;> simp only [List.mem_singleton, forall_eq] <;> decide
  | double type rest1 hc hr =>
    refine ⟨[c, '='], by simp [hr], rfl, by simp, ?_⟩
    simp only [List.mem_cons, Prod.mk.injEq, List.mem_singleton, List.not_mem_nil,
      or_false] at hc
    rcases hc with hc | hc | hc | hc <;>
      obtain ⟨rfl, rfl⟩ := hc <;>
      simp only [List.mem_cons, List.mem_singleton, List.not_mem_nil, or_false,
        forall_eq_or_imp, forall_eq] <;> decide
  | lone type hc hn =>
    refine ⟨[c], rfl, rfl, by simp, ?_⟩
    simp only [List.mem_cons, Prod.mk.injEq, List.mem_singleton, List.not_mem_nil,
      or_false] at hc
    rcases hc with hc | hc | hc <;>
      obtain ⟨rfl, rfl⟩ := hc <;> simp only [List.mem_singleton, forall_eq] <;> decide
  | number value hc hs =>
    refine ⟨(scan_number (c :: rest) false).1, (scan_number_split _ _).symm, rfl, ?_, ?_⟩
    · obtain ⟨text, ht⟩ := scan_number_first c rest
        (hc.elim Or.inl fun hdot => Or.inr hdot.1)
      rw [ht]
      simp
    · intro x hx
      rcases scan_number_chars _ _ x hx with hd | rfl
      · simp [unclassifiable, hd]
      · decide
  | identifier hc =>
    refine ⟨(scan_identifier (c :: rest)).1, (scan_identifier_split _).symm, rfl, ?_, ?_⟩
    · obtain ⟨text, ht⟩ := scan_identifier_first c rest hc
      rw [ht]
      simp
    · intro x hx
      have := scan_identifier_chars _ x hx
      simp only [is_alnum, Bool.or_eq_true, decide_eq_true_eq] at this
      rcases this with (ha | hd) | rfl
      · simp [unclassifiable, ha]
      · simp [unclassifiable, hd]
      · decide

/-- The position only enters the message of a failure. -/
theorem lex_one_pos (A : Arith V) (c : Char) (rest : List Char) (pos pos1 : Nat)
    (out : Option (Token V) × Nat × List Char) (h : lex_one A c rest pos = .ok out) :
    lex_one A c rest pos1 = .ok out := by
  have hs := (lex_one_iff A c rest pos _).mp h
  apply (lex_one_iff A c rest pos1 _).mpr
  cases hs with
  | space hc => exact .space hc
  | single type hc => exact .single type hc
  | double type rest1 hc hr => exact .double type rest1 hc hr
  | lone type hc hn => exact .lone type hc hn
  | number value hc hs => exact .number value hc hs
  | identifier hc => exact .identifier hc

/-- An iteration fails with a ParseError, or with the `std::out_of_range` of
`std::stod`. -/
theorem lex_one_error (A : Arith V) (c : Char) (rest : List Char) (pos : Nat) (err : Error)
    (h : lex_one A c rest pos = .error err) :
    err.isParseError = true ∨ (err = .OutOfRange ∧ ∃ text, A.stod text = none) := by
  have hs := (lex_one_iff A c rest pos _).mp h
  cases hs with
  | bang hc hn => exact Or.inl rfl
  | range hc hs => exact Or.inr ⟨rfl, _, hs⟩
  | unknown hc => exact Or.inl rfl

/-- An iteration at a character the lexer cannot classify fails at it. -/
theorem lex_one_unclassifiable (A : Arith V) (c : Char) (rest : List Char) (pos : Nat)
    (hc : unclassifiable c = true) :
    lex_one A c rest pos = .error (.ParseError
      ("Could not parse character '" ++ String.singleton c ++ "' at position "
        ++ toString pos)) :=
  (lex_one_iff A c rest pos _).mpr (.unknown (Or.inl hc))

/-! ### Text put after the input -/

theorem next_is_equals_cons_eq (x : Char) (xs : List Char) :
    next_is_equals (x :: xs) = decide (x = '=') := by
  by_cases h : x = '='
  · subst h; rfl
  · simp only [h, decide_False]
    unfold next_is_equals
    split
    · rename_i heq
      simp only [List.cons.injEq] at heq
      exact absurd heq.1 h
    · rfl

/-- An iteration that succeeds is not changed by text put after the input,
when the token does not reach the end of the input or the text does not glue
to it. -/
theorem lex_one_append (A : Arith V) (c : Char) (rest : List Char) (pos : Nat)
    (token : Option (Token V)) (count : Nat) (rest1 post : List Char)
    (h : lex_one A c rest pos = .ok (token, count, rest1))
    (hb : rest1 = [] → Boundary (c :: rest) post) :
    lex_one A c (rest ++ post) pos = .ok (token, count, rest1 ++ post) := by
  have hs := (lex_one_iff A c rest pos _).mp h
  apply (lex_one_iff A c (rest ++ post) pos _).mpr
  cases hs with
  | space hc => exact .space hc
  | single type hc => exact .single type hc
  | double type rest1 hc hr => exact .double type (rest1 ++ post) hc (by simp [hr])
  | lone type hc hn =>
    refine .lone type hc ?_
    cases rest with
    | cons x rest =>
      rw [List.cons_append, next_is_equals_cons_eq]
      rw [next_is_equals_cons_eq] at hn
      exact hn
    | nil =>
      cases post with
      | nil => rfl
      | cons d post =>
        have hg := hb rfl c (by simp) d (by simp)
        rw [List.nil_append, next_is_equals_cons_eq]
        simp only [List.mem_cons, Prod.mk.injEq, List.mem_singleton, List.not_mem_nil,
          or_false] at hc
        have hc1 : (c = '=' ∨ c = '<') ∨ c = '>' := by
          rcases hc with hc | hc | hc
          · exact Or.inl (Or.inl hc.1)
          · exact Or.inl (Or.inr hc.1)
          · exact Or.inr hc.1
        simp only [glues, Bool.or_eq_false_iff, Bool.and_eq_false_imp, Bool.or_eq_true,
          decide_eq_true_eq, decide_eq_false_iff_not] at hg
        simpa using hg.2 hc1
  | number value hc hs =>
    have hscan : scan_number (c :: (rest ++ post)) false
        = ((scan_number (c :: rest) false).1, (scan_number (c :: rest) false).2 ++ post) := by
      rw [← List.cons_append]
      apply scan_number_append
      by_cases he : (scan_number (c :: rest) false).2 = []
      · right
        intro d hd
        have hall : ∀ x ∈ c :: rest, is_digit x = true ∨ x = '.' := by
          have hsp := scan_number_split (c :: rest) false
          rw [he, List.append_nil] at hsp
          rw [← hsp]
          exact scan_number_chars _ _
        have hg := hb he
        obtain ⟨p, hp⟩ : ∃ p, (c :: rest).getLast? = some p := by
          cases hl : (c :: rest).getLast? with
          | none => simp at hl
          | some p => exact ⟨p, rfl⟩
        have hg1 := hg p hp d hd
        have hp1 := hall p (List.mem_of_mem_getLast? hp)
        have hp2 : (is_alpha p || is_digit p || decide (p = '_') || decide (p = '.')) = true := by
          rcases hp1 with hp1 | hp1 <;> simp [hp1]
        simp only [glues, is_alnum, hp2, Bool.true_and, Bool.or_eq_false_iff,
          decide_eq_false_iff_not] at hg1
        exact ⟨hg1.1.1.1.2, hg1.1.2⟩
      · exact Or.inl he
    have hc1 : is_digit c = true ∨ (c = '.' ∧ next_is_digit (rest ++ post) = true) := by
      rcases hc with hc | ⟨hc, hd⟩
      · exact Or.inl hc
      · right
        refine ⟨hc, ?_⟩
        cases rest with
        | nil => simp [next_is_digit] at hd
        | cons x rest => exact hd
    have hstep := @LexStep.number V A c (rest ++ post) pos value
      hc1 (by rw [hscan]; exact hs)
    rw [hscan] at hstep
    exact hstep
  | identifier hc =>
    have hscan : scan_identifier (c :: (rest ++ post))
        = ((scan_identifier (c :: rest)).1, (scan_identifier (c :: rest)).2 ++ post) := by
      rw [← List.cons_append]
      apply scan_identifier_append
      by_cases he : (scan_identifier (c :: rest)).2 = []
      · right
        intro d hd
        have hall : ∀ x ∈ c :: rest, (is_alnum x || decide (x = '_')) = true := by
          have hsp := scan_identifier_split (c :: rest)
          rw [he, List.append_nil] at hsp
          rw [← hsp]
          exact scan_identifier_chars _
        have hg := hb he
        obtain ⟨p, hp⟩ : ∃ p, (c :: rest).getLast? = some p := by
          cases hl : (c :: rest).getLast? with
          | none => simp at hl
          | some p => exact ⟨p, rfl⟩
        have hg1 := hg p hp d hd
        have hp1 := hall p (List.mem_of_mem_getLast? hp)
        have hp2 : (is_alnum p || decide (p = '_') || decide (p = '.')) = true := by
          rw [hp1]; rfl
        simp only [glues, hp2, Bool.true_and, Bool.or_eq_false_iff,
          decide_eq_false_iff_not] at hg1
        simp [hg1.1.1.1, hg1.1.1.2]
      · exact Or.inl he
    have hstep := @LexStep.identifier V A c (rest ++ post) pos hc
    rw [hscan] at hstep
    exact hstep

/-! ### The loop of the lexer -/

/-- The bound on the iterations does not matter once it exceeds the length of
the input that is left. -/
theorem tokenize_loop_steps (A : Arith V) (steps1 : Nat) :
    ∀ (steps2 : Nat) (rest : List Char) (pos : Nat) (result : Tokens V),
      rest.length < steps1 → rest.length < steps2 →
      tokenize_loop A steps1 rest pos result = tokenize_loop A steps2 rest pos result := by
  induction steps1 with
  | zero => intro steps2 rest pos result h1; omega
  | succ s1 ih =>
    intro steps2 rest pos result h1 h2
    obtain ⟨s2, rfl⟩ : ∃ s2, steps2 = s2 + 1 := ⟨steps2 - 1, by omega⟩
    cases rest with
    | nil => rfl
    | cons c rest =>
      rw [tokenize_loop_step, tokenize_loop_step]
      cases hl : lex_one A c rest pos with
      | error err => rfl
      | ok out =>
        obtain ⟨token, count, rest1⟩ := out
        obtain ⟨consumed, hsplit, -, hne, -⟩ := lex_one_consumed A c rest pos _ _ _ hl
        have hlen : rest1.length < (c :: rest).length := by
          rw [hsplit, List.length_append]
          have := List.length_pos.mpr hne
          omega
        simp only [List.length_cons] at hlen h1 h2
        exact ih s2 rest1 _ _ (by omega) (by omega)

/-- With enough iterations the loop fails only with a ParseError or with the
`std::out_of_range` of `std::stod`. -/
theorem tokenize_loop_error (A : Arith V) (steps : Nat) :
    ∀ (rest : List Char) (pos : Nat) (result : Tokens V) (err : Error),
      rest.length < steps → tokenize_loop A steps rest pos result = .error err →
      err.isParseError = true ∨ (err = .OutOfRange ∧ ∃ text, A.stod text = none) := by
  induction steps with
  | zero => intro rest pos result err h1; omega
  | succ s ih =>
    intro rest pos result err h1 h
    cases rest with
    | nil => simp [tokenize_loop] at h
    | cons c rest =>
      rw [tokenize_loop_step] at h
      cases hl : lex_one A c rest pos with
      | error err1 =>
        rw [hl] at h
        simp only [Except.error.injEq] at h
        subst h
        exact lex_one_error A c rest pos _ hl
      | ok out =>
        obtain ⟨token, count, rest1⟩ := out
        rw [hl] at h
        obtain ⟨consumed, hsplit, -, hne, -⟩ := lex_one_consumed A c rest pos _ _ _ hl
        have hlen : rest1.length < (c :: rest).length := by
          rw [hsplit, List.length_append]
          have := List.length_pos.mpr hne
          omega
        simp only [List.length_cons] at hlen h1
        exact ih rest1 _ _ err (by omega) h

/-- The loop fails on every input that holds a character the lexer cannot
classify. -/
theorem tokenize_loop_unclassifiable_fails (A : Arith V) (steps : Nat) :
    ∀ (rest : List Char) (pos : Nat) (result : Tokens V),
      (∃ x ∈ rest, unclassifiable x = true) →
      ∃ err, tokenize_loop A steps rest pos result = .error err := by
  induction steps with
  | zero => intro rest pos result _; exact ⟨_, rfl⟩
  | succ s ih =>
    intro rest pos result hx
    cases rest with
    | nil => simp at hx
    | cons c rest =>
      rw [tokenize_loop_step]
      cases hl : lex_one A c rest pos with
      | error err1 => exact ⟨err1, rfl⟩
      | ok out =>
        obtain ⟨token, count, rest1⟩ := out
        obtain ⟨consumed, hsplit, -, -, hcl⟩ := lex_one_consumed A c rest pos _ _ _ hl
        obtain ⟨x, hx1, hx2⟩ := hx
        rw [hsplit, List.mem_append] at hx1
        rcases hx1 with hx1 | hx1
        · rw [hcl x hx1] at hx2
          exact absurd hx2 (by simp)
        · exact ih rest1 _ _ ⟨x, hx1, hx2⟩

/-- The loop on `pre ++ post` reads `pre` as it does when `pre` stands alone and
goes on with `post` at the position after `pre`, when `post` does not glue to
`pre`. -/
theorem tokenize_loop_append (A : Arith V) (steps : Nat) :
    ∀ (pre post : List Char) (pos : Nat) (result ts : Tokens V),
      (pre ++ post).length < steps → Boundary pre post →
      tokenize_loop A steps pre pos result = .ok ts →
      tokenize_loop A steps (pre ++ post) pos result
        = tokenize_loop A steps post (pos + pre.length) ts := by
  induction steps with
  | zero => intro pre post pos result ts h1; omega
  | succ s ih =>
    intro pre post pos result ts h1 hb h
    cases pre with
    | nil =>
      simp only [tokenize_loop, Except.ok.injEq] at h
      subst h
      rfl
    | cons c rest =>
      rw [tokenize_loop_step] at h
      rw [List.cons_append, tokenize_loop_step]
      cases hl : lex_one A c rest pos with
      | error err1 => rw [hl] at h; simp at h
      | ok out =>
        obtain ⟨token, count, rest1⟩ := out
        rw [hl] at h
        simp only at h
        obtain ⟨consumed, hsplit, hcount, hne, -⟩ := lex_one_consumed A c rest pos _ _ _ hl
        have hlen : consumed.length + rest1.length = (c :: rest).length := by
          rw [hsplit, List.length_append]
        have hpos := List.length_pos.mpr hne
        rw [lex_one_append A c rest pos token count rest1 post hl (fun _ => hb)]
        simp only
        simp only [List.length_cons, List.length_append] at hlen h1
        have hb1 : Boundary rest1 post := by
          intro p hp
          apply hb p
          rw [hsplit]
          have hr1 : rest1 ≠ [] := by
            rintro rfl
            simp at hp
          rw [List.getLast?_append_of_ne_nil _ hr1]
          exact hp
        rw [ih rest1 post _ _ ts (by rw [List.length_append]; omega) hb1 h]
        rw [show pos + count + rest1.length = pos + (c :: rest).length by
          rw [List.length_cons]; omega]
        exact tokenize_loop_steps A s (s + 1) post _ _ (by omega) (by omega)

/-! ### The lexer on concatenated text -/

/-- The tokens the loop returns are the tokens it started with followed by the
tokens of the input, and the latter depend neither on the position nor on
the tokens it started with. -/
theorem tokenize_loop_shift (A : Arith V) (steps : Nat) :
    ∀ (rest : List Char) (pos : Nat) (result ts : Tokens V),
      tokenize_loop A steps rest pos result = .ok ts →
      ∃ ts1, ts = result ++ ts1 ∧ ∀ (pos1 : Nat) (result1 : Tokens V),
        tokenize_loop A steps rest pos1 result1 = .ok (result1 ++ ts1) := by
  induction steps with
  | zero => intro rest pos result ts h; simp [tokenize_loop] at h
  | succ s ih =>
    intro rest pos result ts h
    cases rest with
    | nil =>
      simp only [tokenize_loop, Except.ok.injEq] at h
      subst h
      exact ⟨[], by simp, fun pos1 result1 => by simp [tokenize_loop]⟩
    | cons c rest =>
      rw [tokenize_loop_step] at h
      cases hl : lex_one A c rest pos with
      | error err1 => rw [hl] at h; simp at h
      | ok out =>
        obtain ⟨token, count, rest1⟩ := out
        rw [hl] at h
        simp only at h
        obtain ⟨ts1, h1, h2⟩ := ih rest1 _ _ ts h
        refine ⟨token.toList ++ ts1, by rw [h1, List.append_assoc], fun pos1 result1 => ?_⟩
        rw [tokenize_loop_step, lex_one_pos A c rest pos pos1 _ hl]
        simp only
        rw [h2, List.append_assoc]

theorem tokenize_mk (A : Arith V) (text : List Char) :
    tokenize A (String.mk text) = tokenize_loop A (text.length + 1) text 0 [] := rfl

theorem tokenize_eq (A : Arith V) (input : String) :
    tokenize A input = tokenize_loop A (input.toList.length + 1) input.toList 0 [] := rfl

theorem toList_append (pre post : String) :
    (pre ++ post).toList = pre.toList ++ post.toList := by
  simp [String.toList, String.data_append]

/-- The lexer on `pre ++ post` reads `pre` as it does when `pre` stands alone and
goes on with `post` at the offset `pre.length`, when `post` does not glue to
`pre`. -/
theorem tokenize_append (A : Arith V) (pre post : String) (ts : Tokens V)
    (h : tokenize A pre = .ok ts) (hb : Boundary pre.toList post.toList) :
    tokenize A (pre ++ post)
      = tokenize_loop A (post.toList.length + 1) post.toList pre.toList.length ts := by
  rw [tokenize_eq] at h
  rw [tokenize_eq, toList_append]
  have h1 : tokenize_loop A ((pre.toList ++ post.toList).length + 1) pre.toList 0 [] = .ok ts := by
    rw [← h]
    exact tokenize_loop_steps A _ _ _ _ _ (by simp; omega) (by omega)
  rw [tokenize_loop_append A _ pre.toList post.toList 0 [] ts (by omega) hb h1, Nat.zero_add]
  exact tokenize_loop_steps A _ _ _ _ _ (by simp; omega) (by omega)

/-- The tokens of `pre ++ post` are those of `pre` followed by those of `post`,
when both are read without failure and `post` does not glue to `pre`. -/
theorem tokenize_concat (A : Arith V) (pre post : String) (ts ts1 : Tokens V)
    (h : tokenize A pre = .ok ts) (h1 : tokenize A post = .ok ts1)
    (hb : Boundary pre.toList post.toList) :
    tokenize A (pre ++ post) = .ok (ts ++ ts1) := by
  rw [tokenize_append A pre post ts h hb]
  rw [tokenize_eq] at h1
  obtain ⟨ts2, h2, h3⟩ := tokenize_loop_shift A _ _ _ _ _ h1
  rw [List.nil_append] at h2
  subst h2
  exact h3 _ _

/-- The loop on the text of an input that the lexer reads to `ts1`. -/
theorem tokenize_loop_of_tokenize (A : Arith V) (post : String) (ts1 : Tokens V)
    (h : tokenize A post = .ok ts1) (steps : Nat) (hs : post.toList.length < steps)
    (pos : Nat) (result : Tokens V) :
    tokenize_loop A steps post.toList pos result = .ok (result ++ ts1) := by
  rw [tokenize_eq] at h
  obtain ⟨ts2, h2, h3⟩ := tokenize_loop_shift A _ _ _ _ _ h
  rw [List.nil_append] at h2
  subst h2
  rw [← h3 pos result]
  exact tokenize_loop_steps A _ _ _ _ _ hs (by omega)

/-- A character that is no letter, digit, `_`, `.` or `=` glues to nothing. -/
theorem boundary_of_head (pre : List Char) (c : Char) (post : List Char)
    (hc : (is_alnum c || decide (c = '_') || decide (c = '.') || decide (c = '=')) = false) :
    Boundary pre (c :: post) := by
  intro p _ d hd
  simp only [List.head?_cons, Option.mem_def, Option.some.injEq] at hd
  subst hd
  simp only [Bool.or_eq_false_iff, decide_eq_false_iff_not] at hc
  simp [glues, hc.1.1.1, hc.1.1.2, hc.1.2, hc.2]

/-! ### C20: two-character operators -/

/-- C20. Two-character operator disambiguation with one character of
lookahead. At every iteration of the lexer's loop, that is at every token
start, with `pos` the position reached and `result` the tokens so far:
`==`, `!=`, `<=`, `>=` push the single token EqualEqual, BangEqual, LessEqual,
GreaterEqual and move two characters on; `=`, `<`, `>` not immediately
followed by `=` push Equals, Less, Greater and move one character on; `!` not
immediately followed by `=` fails with the ParseError
`Unexpected '!' at position pos. Did you mean '!='?`. On whole inputs: when
`pre` and `post` are read to `ts` and `ts1`, `post` does not start with `=`,
and the operator does not glue to `pre` (`pre` does not end in `=`, `<` or `>`
when the operator starts with `=`), the input `pre op post` is read to `ts`,
the one token of `op`, `ts1`; and `pre ! post` fails with the ParseError that
names the offset of the `!`, the length of `pre`. The input
`a==b!=c<=d>=e<f>g` yields 13 tokens, with EqualEqual, BangEqual, LessEqual,
GreaterEqual, Less, Greater at the odd indices. -/
theorem C20_two_character_operators (A : Arith V) :
    (∀ (c : Char) (type : TType),
        (c, type) ∈ [('=', TType.EqualEqual), ('!', .BangEqual), ('<', .LessEqual),
          ('>', .GreaterEqual)] →
        ∀ (steps pos : Nat) (rest : List Char) (result : Tokens V),
          tokenize_loop A (steps + 1) (c :: '=' :: rest) pos result
            = tokenize_loop A steps rest (pos + 2) (result ++ [Token.op type]))
    ∧ (∀ (c : Char) (type : TType),
        (c, type) ∈ [('=', TType.Equals), ('<', .Less), ('>', .Greater)] →
        ∀ (steps pos : Nat) (rest : List Char) (result : Tokens V),
          next_is_equals rest = false →
          tokenize_loop A (steps + 1) (c :: rest) pos result
            = tokenize_loop A steps rest (pos + 1) (result ++ [Token.op type]))
    ∧ (∀ (steps pos : Nat) (rest : List Char) (result : Tokens V),
        next_is_equals rest = false →
        tokenize_loop A (steps + 1) ('!' :: rest) pos result
          = .error (.ParseError
              ("Unexpected '!' at position " ++ toString pos ++ ". Did you mean '!='?")))
    ∧ (∀ (op : String) (type : TType),
        (op, type) ∈ [("==", TType.EqualEqual), ("!=", .BangEqual), ("<=", .LessEqual),
          (">=", .GreaterEqual), ("=", .Equals), ("<", .Less), (">", .Greater)] →
        ∀ (pre post : String) (ts ts1 : Tokens V),
          tokenize A pre = .ok ts → tokenize A post = .ok ts1 →
          Boundary pre.toList op.toList → next_is_equals post.toList = false →
          tokenize A (pre ++ op ++ post) = .ok (ts ++ [Token.op type] ++ ts1))
    ∧ (∀ (pre post : String) (ts : Tokens V),
        tokenize A pre = .ok ts → next_is_equals post.toList = false →
        tokenize A (pre ++ "!" ++ post)
          = .error (.ParseError
              ("Unexpected '!' at position " ++ toString pre.length
                ++ ". Did you mean '!='?")))
    ∧ tokenize A "a==b!=c<=d>=e<f>g"
        = .ok [Token.identifier "a", Token.op .EqualEqual, Token.identifier "b",
            Token.op .BangEqual, Token.identifier "c", Token.op .LessEqual,
            Token.identifier "d", Token.op .GreaterEqual, Token.identifier "e",
            Token.op .Less, Token.identifier "f", Token.op .Greater,
            Token.identifier "g"] := by
  refine ⟨fun c type h steps pos rest result => tokenize_loop_double A steps pos c type rest
      result h,
    fun c type h steps pos rest result hn => tokenize_loop_lone A steps pos c type rest
      result h hn,
    fun steps pos rest result hn => tokenize_loop_bang A steps pos rest result hn, ?_, ?_, ?_⟩
  · intro op type hop pre post ts ts1 h h1 hb hn
    have hop1 : tokenize A (op ++ post) = .ok ([Token.op type] ++ ts1) := by
      have hpost := fun steps hs pos result =>
        tokenize_loop_of_tokenize A post ts1 h1 steps hs pos result
      simp only [List.mem_cons, Prod.mk.injEq, List.mem_singleton, List.not_mem_nil,
        or_false] at hop
      rcases hop with hop | hop | hop | hop | hop | hop | hop <;> obtain ⟨rfl, rfl⟩ := hop
      · rw [tokenize_eq, toList_append,
          show "==".toList ++ post.toList = '=' :: '=' :: post.toList from rfl,
          tokenize_loop_double A _ _ '=' .EqualEqual _ _ (by simp)]
        exact hpost _ (by simp only [List.length_cons]; omega) _ _
      · rw [tokenize_eq, toList_append,
          show "!=".toList ++ post.toList = '!' :: '=' :: post.toList from rfl,
          tokenize_loop_double A _ _ '!' .BangEqual _ _ (by simp)]
        exact hpost _ (by simp only [List.length_cons]; omega) _ _
      · rw [tokenize_eq, toList_append,
          show "<=".toList ++ post.toList = '<' :: '=' :: post.toList from rfl,
          tokenize_loop_double A _ _ '<' .LessEqual _ _ (by simp)]
        exact hpost _ (by simp only [List.length_cons]; omega) _ _
      · rw [tokenize_eq, toList_append,
          show ">=".toList ++ post.toList = '>' :: '=' :: post.toList from rfl,
          tokenize_loop_double A _ _ '>' .GreaterEqual _ _ (by simp)]
        exact hpost _ (by simp only [List.length_cons]; omega) _ _
      · rw [tokenize_eq, toList_append,
          show "=".toList ++ post.toList = '=' :: post.toList from rfl,
          tokenize_loop_lone A _ _ '=' .Equals _ _ (by simp) hn]
        exact hpost _ (by simp only [List.length_cons]; omega) _ _
      · rw [tokenize_eq, toList_append,
          show "<".toList ++ post.toList = '<' :: post.toList from rfl,
          tokenize_loop_lone A _ _ '<' .Less _ _ (by simp) hn]
        exact hpost _ (by simp only [List.length_cons]; omega) _ _
      · rw [tokenize_eq, toList_append,
          show ">".toList ++ post.toList = '>' :: post.toList from rfl,
          tokenize_loop_lone A _ _ '>' .Greater _ _ (by simp) hn]
        exact hpost _ (by simp only [List.length_cons]; omega) _ _
    have hb1 : Boundary pre.toList (op ++ post).toList := by
      intro p hp d hd
      apply hb p hp d
      rw [toList_append] at hd
      have hne : op.toList ≠ [] := by
        simp only [List.mem_cons, Prod.mk.injEq, List.mem_singleton, List.not_mem_nil,
          or_false] at hop
        rcases hop with hop | hop | hop | hop | hop | hop | hop <;> obtain ⟨rfl, rfl⟩ := hop <;>
          decide
      rw [List.head?_append_of_ne_nil _ hne] at hd
      exact hd
    rw [String.append_assoc, tokenize_concat A pre (op ++ post) ts _ h hop1 hb1,
      List.append_assoc]
  · intro pre post ts h hn
    have hb : Boundary pre.toList ("!" ++ post).toList := by
      rw [toList_append]
      exact boundary_of_head _ '!' _ (by decide)
    rw [String.append_assoc, tokenize_append A pre ("!" ++ post) ts h hb, toList_append,
      show "!".toList ++ post.toList = '!' :: post.toList from rfl, List.length_cons,
      tokenize_loop_bang A _ _ _ _ hn]
    rfl
  · have hl : "a==b!=c<=d>=e<f>g".length = 17 := by decide
    have ht : "a==b!=c<=d>=e<f>g".toList
        = ['a', '=', '=', 'b', '!', '=', 'c', '<', '=', 'd', '>', '=', 'e', '<', 'f', '>',
            'g'] := by decide
    simp +decide [tokenize, hl, ht, tokenize_loop, scan_identifier, next_is_equals]

/-- C20 at concrete inputs: `a==b` is read to three tokens, `a !b` fails at
offset 2, and a lone `<` before `3` is Less. -/
theorem C20_two_character_operators_witness :
    tokenize Arith.rat ("a" ++ "==" ++ "b")
        = .ok ([Token.identifier "a"] ++ [Token.op .EqualEqual] ++ [Token.identifier "b"])
    ∧ tokenize Arith.rat ("a " ++ "!" ++ "b")
        = .error (.ParseError "Unexpected '!' at position 2. Did you mean '!='?")
    ∧ tokenize_loop Arith.rat 3 ['<', '3'] 0 []
        = tokenize_loop Arith.rat 2 ['3'] 1 ([] ++ [Token.op .Less])
    ∧ tokenize_loop Arith.rat 3 ['<', '=', '3'] 0 []
        = tokenize_loop Arith.rat 2 ['3'] 2 ([] ++ [Token.op .LessEqual]) :=
  ⟨(C20_two_character_operators Arith.rat).2.2.2.1 "==" .EqualEqual (by simp) "a" "b" _ _
      rfl rfl
      (by
        intro p hp d hd
        simp only [String.toList, List.getLast?_singleton, Option.mem_def,
          Option.some.injEq, List.head?_cons] at hp hd
        subst hp
        subst hd
        decide)
      rfl,
    (C20_two_character_operators Arith.rat).2.2.2.2.1 "a " "b" _ rfl rfl,
    (C20_two_character_operators Arith.rat).2.1 '<' .Less (by simp) 2 0 ['3'] [] rfl,
    (C20_two_character_operators Arith.rat).1 '<' .LessEqual (by simp) 2 0 ['3'] []⟩

/-! ### C19: characters the lexer cannot classify -/

theorem decimal_value_append_zeros (text : List Char) (n : Nat) :
    decimal_value (text ++ List.replicate n '0') = decimal_value text * 10 ^ n := by
  induction n with
  | zero => simp
  | succ k ih =>
    rw [List.replicate_succ', ← List.append_assoc]
    simp only [decimal_value, List.foldl_append, List.foldl_cons, List.foldl_nil] at ih ⊢
    rw [ih, pow_succ]
    simp
    ring

set_option exponentiation.threshold 2048 in
/-- The arithmetic with the range of `double` is exact on small natural
numbers. -/
theorem Arith.rat_range_exactOnNat : Arith.rat_range.ExactOnNat where
  stod_digits text _ h hle := by
    have hlt : (decimal_value text : ℚ) < 2 ^ 1024 := by
      have h1 : decimal_value text < 2 ^ 1024 :=
        lt_of_le_of_lt hle (by unfold max_exact; exact Nat.pow_lt_pow_right (by decide) (by decide))
      exact_mod_cast h1
    simp only [Arith.rat_range, rat_stod_digits text h, hlt, if_true]
    rfl
  add_nat a b _ := by simp [Arith.rat_range, Arith.rat]
  sub_nat a b h _ := by simp [Arith.rat_range, Arith.rat, Nat.cast_sub h]
  mul_nat a b _ := by simp [Arith.rat_range, Arith.rat]
  pow_nat a b _ := by simp [Arith.rat_range, Arith.rat]
  lt_nat a b _ _ := by simp [Arith.rat_range, Arith.rat]
  le_nat a b _ _ := by simp [Arith.rat_range, Arith.rat]
  gt_nat a b _ _ := by simp [Arith.rat_range, Arith.rat]
  ge_nat a b _ _ := by simp [Arith.rat_range, Arith.rat]
  eq_nat a b _ _ := by simp [Arith.rat_range, Arith.rat]
  ne_nat a b _ _ := by simp [Arith.rat_range, Arith.rat]

set_option exponentiation.threshold 2048 in
/-- The arithmetic with the range of `double` rejects the literal of `10 ^ 309`:
a `1` followed by 309 zeros. -/
theorem rat_range_overflow :
    Arith.rat_range.stod ('1' :: List.replicate 309 '0') = none := by
  have hd : ∀ ch ∈ '1' :: List.replicate 309 '0', is_digit ch = true := by
    intro ch hch
    simp only [List.mem_cons, List.mem_replicate] at hch
    rcases hch with rfl | ⟨-, rfl⟩ <;> decide
  have hv : decimal_value ('1' :: List.replicate 309 '0') = 10 ^ 309 := by
    have := decimal_value_append_zeros ['1'] 309
    rw [List.singleton_append] at this
    rw [this]
    have h1 : decimal_value ['1'] = 1 := by decide
    rw [h1, one_mul]
  have hge : ¬ ((10 ^ 309 : ℕ) : ℚ) < 2 ^ 1024 := by
    have h1 : (2 : ℕ) ^ 1024 ≤ 10 ^ 309 := by norm_num
    have h2 : ((2 ^ 1024 : ℕ) : ℚ) ≤ ((10 ^ 309 : ℕ) : ℚ) := Nat.cast_le.mpr h1
    rw [Nat.cast_pow 2 1024, Nat.cast_ofNat] at h2
    exact not_lt.mpr h2
  simp only [Arith.rat_range, rat_stod_digits _ hd, hv, hge, if_false]

/-- What it means for a character to be one the lexer cannot classify. -/
theorem unclassifiable_iff (c : Char) :
    unclassifiable c = true ↔
      is_space c = false ∧ is_alpha c = false ∧ is_digit c = false ∧ c ≠ '_' ∧ c ≠ '.'
        ∧ c ∉ ['+', '-', '*', '/', '%', '^', '(', ')', ',', '?', ':', '=', '!', '<', '>'] := by
  have hl : "+-*/%^(),?:=!<>".toList
      = ['+', '-', '*', '/', '%', '^', '(', ')', ',', '?', ':', '=', '!', '<', '>'] := by
    decide
  simp only [unclassifiable, hl, Bool.not_eq_true', Bool.or_eq_false_iff,
    decide_eq_false_iff_not, List.contains_eq_any_beq, List.any_eq_false, beq_iff_eq, ne_eq]
  constructor
  · rintro ⟨⟨⟨⟨⟨h0, h1⟩, h2⟩, h3⟩, h4⟩, h5⟩
    exact ⟨h0, h1, h2, h3, h4, fun hm => h5 c hm rfl⟩
  · rintro ⟨h0, h1, h2, h3, h4, h5⟩
    exact ⟨⟨⟨⟨⟨h0, h1⟩, h2⟩, h3⟩, h4⟩, fun x hx hxc => h5 (hxc ▸ hx)⟩

/-- The lexer fails on every input that holds a character it cannot classify,
with a ParseError or with the `std::out_of_range` of a number literal that
`std::stod` rejects. -/
theorem tokenize_unclassifiable (A : Arith V) (input : String)
    (h : ∃ c ∈ input.toList, unclassifiable c = true) :
    ∃ err, tokenize A input = .error err
      ∧ (err.isParseError = true ∨ (err = .OutOfRange ∧ ∃ text, A.stod text = none)) := by
  obtain ⟨err, herr⟩ := tokenize_loop_unclassifiable_fails A (input.toList.length + 1)
    input.toList 0 [] h
  exact ⟨err, herr, tokenize_loop_error A _ _ _ _ err (by omega) herr⟩

/-- The lexer fails at the first character it cannot classify, naming it and
its offset, when the text before it is read without failure. -/
theorem tokenize_first_unclassifiable (A : Arith V) (pre post : String) (c : Char)
    (ts : Tokens V) (h : tokenize A pre = .ok ts) (hc : unclassifiable c = true) :
    tokenize A (pre ++ String.singleton c ++ post)
      = .error (.ParseError
          ("Could not parse character '" ++ String.singleton c ++ "' at position "
            ++ toString pre.length)) := by
  obtain ⟨-, h1, h2, h3, h4, h5⟩ := (unclassifiable_iff c).mp hc
  have h6 : c ≠ '=' := fun he => h5 (by simp [he])
  have hb : Boundary pre.toList (String.singleton c ++ post).toList := by
    rw [toList_append]
    exact boundary_of_head _ c _ (by simp [is_alnum, h1, h2, h3, h4, h6])
  rw [String.append_assoc, tokenize_append A pre _ ts h hb, toList_append,
    show (String.singleton c).toList ++ post.toList = c :: post.toList from rfl,
    List.length_cons, tokenize_loop_unclassifiable A _ _ _ _ _ hc]
  rfl

/-- The lexer fails with the `std::out_of_range` of `std::stod`, not with a
ParseError, on a number literal that `std::stod` rejects, whatever follows
the literal. -/
theorem tokenize_out_of_range (A : Arith V) (digits post : List Char) (c : Char)
    (hne : digits ≠ []) (hd : ∀ ch ∈ digits, is_digit ch = true)
    (hs : A.stod digits = none) (hc : is_digit c = false) (hdot : c ≠ '.') :
    tokenize A (String.mk (digits ++ c :: post)) = .error .OutOfRange := by
  obtain ⟨d, ds, rfl⟩ := List.exists_cons_of_ne_nil hne
  rw [tokenize_mk, List.cons_append, tokenize_loop_digit A _ _ _ _ _ (hd d (by simp)),
    ← List.cons_append, scan_number_digits (d :: ds) c post false hd hc hdot]
  simp only [hs]

/-- C19. Characters the lexer cannot classify. A character is unclassifiable
when it is no whitespace, letter, digit, `_`, `.` or one of
`+ - * / % ^ ( ) , ? : = ! < >`. Every input that holds such a character makes
`tokenize` fail, and when the text before the first such character `c` is read
without failure the failure is the ParseError
`Could not parse character 'c' at position i` with `i` the offset of `c`; in
an arithmetic exact on small natural numbers `2 @ 3` fails naming `@` at
position 2. The failure is not always a ParseError: it is a ParseError or the
`std::out_of_range` that `std::stod` throws on a number literal out of the
range of `double`, and an input that starts with a run of digits that
`std::stod` rejects fails with `std::out_of_range` whatever character follows
the run, an unclassifiable one included. -/
theorem C19_unclassifiable_character (A : Arith V) :
    (∀ input : String, (∃ c ∈ input.toList, unclassifiable c = true) →
      ∃ err, tokenize A input = .error err
        ∧ (err.isParseError = true ∨ (err = .OutOfRange ∧ ∃ text, A.stod text = none)))
    ∧ (∀ (pre post : String) (c : Char) (ts : Tokens V),
        tokenize A pre = .ok ts → unclassifiable c = true →
        tokenize A (pre ++ String.singleton c ++ post)
          = .error (.ParseError
              ("Could not parse character '" ++ String.singleton c ++ "' at position "
                ++ toString pre.length)))
    ∧ (A.ExactOnNat →
        tokenize A "2 @ 3"
          = .error (.ParseError "Could not parse character '@' at position 2"))
    ∧ (∀ (digits post : List Char) (c : Char),
        digits ≠ [] → (∀ ch ∈ digits, is_digit ch = true) → A.stod digits = none →
        unclassifiable c = true →
        tokenize A (String.mk (digits ++ c :: post)) = .error .OutOfRange
          ∧ Error.isParseError .OutOfRange = false) := by
  refine ⟨tokenize_unclassifiable A, fun pre post c ts h hc =>
    tokenize_first_unclassifiable A pre post c ts h hc, ?_, ?_⟩
  · intro hA
    have d2 : A.stod ['2'] = some (A.ofNat 2) :=
      stod_nat_lit A hA _ 2 (by simp) (by decide) (by decide) (by decide)
    have hpre : tokenize A "2 " = .ok [Token.number (A.ofNat 2)] := by
      have hl : "2 ".length = 2 := by decide
      have ht : "2 ".toList = ['2', ' '] := by decide
      simp +decide [tokenize, hl, ht, tokenize_loop, scan_number, d2]
    have h := tokenize_first_unclassifiable A "2 " " 3" '@' _ hpre (by decide)
    have hs : "2 " ++ String.singleton '@' ++ " 3" = "2 @ 3" := by decide
    have hm : "Could not parse character '" ++ String.singleton '@' ++ "' at position "
        ++ toString "2 ".length = "Could not parse character '@' at position 2" := by decide
    rw [hs, hm] at h
    exact h
  · intro digits post c hne hd hs hc
    obtain ⟨-, -, h2, -, h4, -⟩ := (unclassifiable_iff c).mp hc
    exact ⟨tokenize_out_of_range A digits post c hne hd hs h2 h4, rfl⟩

/-- C19 at concrete inputs: in the rational arithmetic `2 @ 3` fails naming
`@` at position 2; in the arithmetic with the range of `double`, the input
made of `1`, 309 zeros and `@` fails with `std::out_of_range`, which is no
ParseError. -/
theorem C19_unclassifiable_character_witness :
    tokenize Arith.rat "2 @ 3"
        = .error (.ParseError "Could not parse character '@' at position 2")
    ∧ '@' ∈ (String.mk ('1' :: List.replicate 309 '0' ++ '@' :: [])).toList
    ∧ unclassifiable '@' = true
    ∧ tokenize Arith.rat_range (String.mk ('1' :: List.replicate 309 '0' ++ '@' :: []))
        = .error .OutOfRange
    ∧ Error.isParseError .OutOfRange = false :=
  ⟨(C19_unclassifiable_character Arith.rat).2.2.1 Arith.rat_exactOnNat,
    List.mem_append_right _ (List.mem_cons_self _ _), by decide,
    (C19_unclassifiable_character Arith.rat_range).2.2.2 ('1' :: List.replicate 309 '0') []
      '@' (List.cons_ne_nil _ _)
      (by
        intro ch hch
        simp only [List.mem_cons, List.mem_replicate] at hch
        rcases hch with rfl | ⟨-, rfl⟩ <;> decide)
      rat_range_overflow (by decide)⟩

/-! ### The token stream, seen through the tokens that are left -/

theorem rest_mk_stream (tokens : Tokens V) : (TokenStream.mk_stream tokens).rest = tokens := rfl

theorem remaining_eq_length (s : TokenStream V) : s.remaining = s.rest.length := by
  simp [TokenStream.remaining, TokenStream.rest]

theorem empty_iff_rest (s : TokenStream V) : s.empty = true ↔ s.rest = [] := by
  simp [TokenStream.empty, remaining_eq_length]

theorem empty_of_rest_nil (s : TokenStream V) (h : s.rest = []) : s.empty = true :=
  (empty_iff_rest s).mpr h

theorem empty_of_rest_cons (s : TokenStream V) (t : Token V) (r : Tokens V)
    (h : s.rest = t :: r) : s.empty = false := by
  cases he : s.empty with
  | false => rfl
  | true => rw [(empty_iff_rest s).mp he] at h; exact absurd h (by simp)

theorem current_of_rest_cons (s : TokenStream V) (t : Token V) (r : Tokens V)
    (h : s.rest = t :: r) (he : s.empty = false) : s.current he = t := by
  unfold TokenStream.current
  unfold TokenStream.rest at h
  have hlt : s.pos_ < s.tokens_.length := by
    by_contra hge
    rw [List.drop_eq_nil_of_le (by omega)] at h
    exact absurd h (by simp)
  have := List.drop_eq_getElem_cons hlt
  rw [this] at h
  simp only [List.cons.injEq] at h
  simpa using h.1

theorem peek_of_rest_cons (s : TokenStream V) (t : Token V) (r : Tokens V)
    (h : s.rest = t :: r) : s.peek = (.ok t, s) := by
  have he := empty_of_rest_cons s t r h
  simp only [TokenStream.peek, he, dif_pos, current_of_rest_cons s t r h he]

theorem peek_type_of_rest_cons (s : TokenStream V) (t : Token V) (r : Tokens V)
    (h : s.rest = t :: r) : s.peek_type = some t.type := by
  simp only [TokenStream.peek_type, peek_of_rest_cons s t r h]

theorem get_of_rest_cons (s : TokenStream V) (t : Token V) (r : Tokens V)
    (h : s.rest = t :: r) :
    s.get = (.ok t, s.next) ∧ s.next.rest = r := by
  have he := empty_of_rest_cons s t r h
  refine ⟨by
    simp only [TokenStream.get, he, dif_pos, current_of_rest_cons s t r h he]
    rfl, ?_⟩
  unfold TokenStream.rest at h
  unfold TokenStream.rest TokenStream.next
  simp only
  rw [← List.drop_drop, h]
  rfl

theorem expect_of_rest_cons (s : TokenStream V) (t : Token V) (r : Tokens V) (type : TType)
    (h : s.rest = t :: r) :
    s.expect type
      = if t.type ≠ type then
          (.error (.ParseError ("Expected token " ++ to_string type ++ " but found "
            ++ to_string t.type)), s)
        else (.ok t, s.next) := by
  have he := empty_of_rest_cons s t r h
  simp only [TokenStream.expect, he, dif_pos, current_of_rest_cons s t r h he,
    (get_of_rest_cons s t r h).1]

theorem well_formed_next (s : TokenStream V) (t : Token V) (r : Tokens V)
    (h : s.rest = t :: r) (hwf : s.well_formed) : t.well_formed = true ∧ s.next.well_formed := by
  have hn := (get_of_rest_cons s t r h).2
  refine ⟨hwf t (by rw [h]; simp), fun x hx => hwf x ?_⟩
  rw [hn] at hx
  rw [h]
  exact List.mem_cons_of_mem _ hx

/-! ### Question tokens and Colon tokens -/

theorem qhc_nil : question_has_colon ([] : Tokens V) := by
  rintro ⟨t, ht, -⟩
  simp at ht

theorem qhc_append (a b : Tokens V) (ha : question_has_colon a) (hb : question_has_colon b) :
    question_has_colon (a ++ b) := by
  rintro ⟨t, ht, hq⟩
  rcases List.mem_append.mp ht with h | h
  · obtain ⟨c, hc, hcc⟩ := ha ⟨t, h, hq⟩
    exact ⟨c, List.mem_append_left _ hc, hcc⟩
  · obtain ⟨c, hc, hcc⟩ := hb ⟨t, h, hq⟩
    exact ⟨c, List.mem_append_right _ hc, hcc⟩

theorem qhc_singleton (t : Token V) (ht : t.type ≠ TType.Question) :
    question_has_colon [t] := by
  rintro ⟨x, hx, hq⟩
  simp only [List.mem_singleton] at hx
  subst hx
  exact absurd hq ht

theorem qhc_cons (t : Token V) (a : Tokens V) (ht : t.type ≠ TType.Question)
    (ha : question_has_colon a) : question_has_colon (t :: a) :=
  qhc_append [t] a (qhc_singleton t ht) ha

theorem qhc_of_colon (a : Tokens V) (h : ∃ t ∈ a, t.type = TType.Colon) :
    question_has_colon a := fun _ => h

/-! ### Composition of consumption -/

theorem consumes_of_get (s : TokenStream V) (t : Token V) (r : Tokens V)
    (h : s.rest = t :: r) (ht : t.type ≠ TType.Question) : Consumes s s.next :=
  ⟨[t], by simp, by rw [(get_of_rest_cons s t r h).2, h]; rfl, qhc_singleton t ht⟩

theorem Consumes.to_consumes0 {s s1 : TokenStream V} (h : Consumes s s1) : Consumes0 s s1 := by
  obtain ⟨c, -, h1, h2⟩ := h
  exact ⟨c, h1, h2⟩

theorem Consumes0.consumes0_refl (s : TokenStream V) : Consumes0 s s := ⟨[], rfl, qhc_nil⟩

theorem Consumes.consumes_trans0 {s s1 s2 : TokenStream V} (h : Consumes s s1) (h1 : Consumes0 s1 s2) :
    Consumes s s2 := by
  obtain ⟨c, hc, he, hq⟩ := h
  obtain ⟨c1, he1, hq1⟩ := h1
  exact ⟨c ++ c1, by simp [hc], by rw [he, he1, List.append_assoc], qhc_append _ _ hq hq1⟩

theorem Consumes0.consumes0_trans {s s1 s2 : TokenStream V} (h : Consumes0 s s1) (h1 : Consumes s1 s2) :
    Consumes s s2 := by
  obtain ⟨c, he, hq⟩ := h
  obtain ⟨c1, hc1, he1, hq1⟩ := h1
  exact ⟨c ++ c1, by simp [hc1], by rw [he, he1, List.append_assoc], qhc_append _ _ hq hq1⟩

theorem Consumes.consumes_trans {s s1 s2 : TokenStream V} (h : Consumes s s1) (h1 : Consumes s1 s2) :
    Consumes s s2 := h.consumes_trans0 h1.to_consumes0

theorem Consumes.consumes_length_lt {s s1 : TokenStream V} (h : Consumes s s1) :
    s1.rest.length < s.rest.length := by
  obtain ⟨c, hc, he, -⟩ := h
  rw [he, List.length_append]
  have := List.length_pos.mpr hc
  omega

theorem Consumes0.consumes0_length_le {s s1 : TokenStream V} (h : Consumes0 s s1) :
    s1.rest.length ≤ s.rest.length := by
  obtain ⟨c, he, -⟩ := h
  rw [he, List.length_append]
  omega

theorem Consumes0.consumes0_well_formed {s s1 : TokenStream V} (h : Consumes0 s s1)
    (hwf : s.well_formed) : s1.well_formed := by
  obtain ⟨c, he, -⟩ := h
  intro t ht
  exact hwf t (by rw [he]; exact List.mem_append_right _ ht)

/-! ### The argument scan of `parse_fn_args` -/

theorem push_back_last_flatten (sets : List (Tokens V)) (t : Token V) (h : sets ≠ []) :
    (push_back_last sets t).flatten = sets.flatten ++ [t] ∧ push_back_last sets t ≠ [] := by
  obtain ⟨init, last, rfl⟩ : ∃ init last, sets = init ++ [last] :=
    ⟨sets.dropLast, sets.getLast h, (List.dropLast_append_getLast h).symm⟩
  simp [push_back_last]

/-- The argument scan: what it consumes is split into the token sets at
commas, it fails only with a ParseError, and it stops at the end of the
stream or in front of a `)`. -/
theorem scan_fn_args_spec (steps : Nat) :
    ∀ (s : TokenStream V) (sets : List (Tokens V)) (depth : Int),
      sets ≠ [] → s.rest.length < steps →
      (∀ sets1 s1, scan_fn_args steps s sets depth = .ok (sets1, s1) →
        ∃ consumed, s.rest = consumed ++ s1.rest ∧ sets1 ≠ []
          ∧ (∀ t ∈ consumed, t.type = TType.Comma ∨ t ∈ sets1.flatten)
          ∧ (∀ t ∈ sets1.flatten, t ∈ sets.flatten ∨ t ∈ consumed)
          ∧ (∀ t ∈ sets.flatten, t ∈ sets1.flatten)
          ∧ sets1.flatten.length ≤ sets.flatten.length + consumed.length
          ∧ (∀ c r, s1.rest = c :: r → c.type = TType.RParen))
      ∧ (∀ err, scan_fn_args steps s sets depth = .error err → err.isParseError = true) := by
  induction steps with
  | zero => intro s sets depth _ h; omega
  | succ n ih =>
    intro s sets depth hne hlen
    rw [scan_fn_args]
    rcases hs : s.rest with _ | ⟨t, r⟩
    · rw [if_pos (empty_of_rest_nil s hs)]
      refine ⟨?_, fun err h => by simp at h⟩
      intro sets1 s1 h
      simp only [Except.ok.injEq, Prod.mk.injEq] at h
      obtain ⟨rfl, rfl⟩ := h
      exact ⟨[], by simp [hs], hne, by simp, fun t ht => Or.inl ht, fun t ht => ht, by simp,
        fun c r h => by rw [hs] at h; simp at h⟩
    · rw [if_neg (by simp [empty_of_rest_cons s t r hs]), peek_type_of_rest_cons s t r hs]
      by_cases hstop : some t.type = some TType.RParen ∧ depth = 0
      · rw [if_pos hstop]
        refine ⟨?_, fun err h => by simp at h⟩
        intro sets1 s1 h
        simp only [Except.ok.injEq, Prod.mk.injEq] at h
        obtain ⟨rfl, rfl⟩ := h
        refine ⟨[], by simp [hs], hne, by simp, fun t ht => Or.inl ht, fun t ht => ht, by simp,
          fun c r1 h => ?_⟩
        rw [hs] at h
        simp only [List.cons.injEq] at h
        rw [← h.1]
        simpa using hstop.1
      · rw [if_neg hstop]
        obtain ⟨hget, hnext⟩ := get_of_rest_cons s t r hs
        rw [hget]
        simp only
        have hlen1 : s.next.rest.length < n := by
          rw [hnext]; rw [hs] at hlen; simpa using hlen
        have hstep : ∀ (sets0 : List (Tokens V)) (d : Int), sets0 ≠ [] →
            (∀ x ∈ sets.flatten, x ∈ sets0.flatten) →
            (∀ x ∈ sets0.flatten, x ∈ sets.flatten ∨ x = t) →
            (t.type = TType.Comma ∨ t ∈ sets0.flatten) →
            sets0.flatten.length ≤ sets.flatten.length + 1 →
            (∀ sets1 s1, scan_fn_args n s.next sets0 d = .ok (sets1, s1) →
              ∃ consumed, t :: r = consumed ++ s1.rest ∧ sets1 ≠ []
                ∧ (∀ x ∈ consumed, x.type = TType.Comma ∨ x ∈ sets1.flatten)
                ∧ (∀ x ∈ sets1.flatten, x ∈ sets.flatten ∨ x ∈ consumed)
                ∧ (∀ x ∈ sets.flatten, x ∈ sets1.flatten)
                ∧ sets1.flatten.length ≤ sets.flatten.length + consumed.length
                ∧ (∀ c r, s1.rest = c :: r → c.type = TType.RParen))
            ∧ (∀ err, scan_fn_args n s.next sets0 d = .error err →
                err.isParseError = true) := by
          intro sets0 d hne0 hsub hsup ht hl
          obtain ⟨hok, herr⟩ := ih s.next sets0 d hne0 hlen1
          refine ⟨?_, herr⟩
          intro sets1 s1 h
          obtain ⟨consumed, h1, h2, h3, h4, h5, h6, h7⟩ := hok sets1 s1 h
          refine ⟨t :: consumed, by rw [← hnext, h1]; rfl, h2, ?_, ?_, ?_, ?_, h7⟩
          · intro x hx
            rcases List.mem_cons.mp hx with rfl | hx
            · rcases ht with ht | ht
              · exact Or.inl ht
              · exact Or.inr (h5 _ ht)
            · exact h3 x hx
          · intro x hx
            rcases h4 x hx with hx | hx
            · rcases hsup x hx with hx | rfl
              · exact Or.inl hx
              · exact Or.inr (List.mem_cons_self _ _)
            · exact Or.inr (List.mem_cons_of_mem _ hx)
          · exact fun x hx => h5 x (hsub x hx)
          · simp only [List.length_cons]
            omega
        have hcomma := fun d => hstep (sets ++ [[]]) d (by simp) (by simp)
          (fun x hx => Or.inl (by simpa using hx))
        have hpush := fun d => hstep (push_back_last sets t) d (push_back_last_flatten sets t hne).2
          (fun x hx => by rw [(push_back_last_flatten sets t hne).1]; simp [hx])
          (fun x hx => by
            rw [(push_back_last_flatten sets t hne).1] at hx
            simpa using hx)
          (Or.inr (by rw [(push_back_last_flatten sets t hne).1]; simp))
          (by rw [(push_back_last_flatten sets t hne).1]; simp)
        by_cases hl : t.type = TType.LParen
        · rw [if_pos hl]
          simp only
          split_ifs with hc
          · exact hcomma _ (Or.inl hc.1) (by simp)
          · exact hpush _
        · rw [if_neg hl]
          by_cases hr : t.type = TType.RParen
          · rw [if_pos hr]
            by_cases hd : depth = 0
            · rw [if_pos hd]
              exact ⟨fun _ _ h => by simp at h, fun err h => by
                simp only [Except.error.injEq] at h
                subst h
                rfl⟩
            · rw [if_neg hd]
              simp only
              split_ifs with hc
              · exact hcomma _ (Or.inl hc.1) (by simp)
              · exact hpush _
          · rw [if_neg hr]
            simp only
            split_ifs with hc
            · exact hcomma _ (Or.inl hc.1) (by simp)
            · exact hpush _

/-! ### Parsing functions consume tokens and fail with a ParseError -/

theorem length_le_flatten (sets : List (Tokens V)) (set : Tokens V) (h : set ∈ sets) :
    set.length ≤ sets.flatten.length := by
  induction sets with
  | nil => simp at h
  | cons a sets ih =>
    simp only [List.flatten_cons, List.length_append]
    rcases List.mem_cons.mp h with rfl | h
    · omega
    · have := ih h
      omega

theorem ParseFailure.of_parse_error (message : String) (depth : Nat) (s : TokenStream V) :
    ParseFailure (.ParseError message) depth s := Or.inl rfl

/-- A failure on a part of the stream is a failure on the stream, with the
nesting bound raised by the number of tokens in front of the part. -/
theorem ParseFailure.failure_mono {err : Error} {d d1 : Nat} {s s1 : TokenStream V}
    (h : ParseFailure err d s1) (hsub : ∀ t ∈ s1.rest, t ∈ s.rest)
    (hd : d1 + s1.rest.length ≤ d + s.rest.length) : ParseFailure err d1 s := by
  rcases h with h | ⟨h, hbad⟩ | ⟨h, hlen⟩
  · exact Or.inl h
  · exact Or.inr (Or.inl ⟨h, fun hwf => hbad fun t ht => hwf t (hsub t ht)⟩)
  · exact Or.inr (Or.inr ⟨h, by omega⟩)

theorem Consumes0.consumes0_subset {s s1 : TokenStream V} (h : Consumes0 s s1) :
    ∀ t ∈ s1.rest, t ∈ s.rest := by
  obtain ⟨c, he, -⟩ := h
  intro t ht
  rw [he]
  exact List.mem_append_right _ ht

theorem get_double_cases (t : Token V) (ht : t.type = TType.Number) :
    (∃ value, t.get_double = .ok value)
      ∨ (t.get_double = .error .BadVariantAccess ∧ t.well_formed = false) := by
  obtain ⟨type, data⟩ := t
  simp only at ht
  subst ht
  cases data with
  | number value => exact Or.inl ⟨value, rfl⟩
  | monostate => exact Or.inr ⟨rfl, rfl⟩
  | identifier name => exact Or.inr ⟨rfl, rfl⟩

theorem get_identifier_cases (t : Token V) (ht : t.type = TType.Identifier) :
    (∃ name, t.get_identifier = .ok name)
      ∨ (t.get_identifier = .error .BadVariantAccess ∧ t.well_formed = false) := by
  obtain ⟨type, data⟩ := t
  simp only at ht
  subst ht
  cases data with
  | identifier name => exact Or.inl ⟨name, rfl⟩
  | monostate => exact Or.inr ⟨rfl, rfl⟩
  | number value => exact Or.inr ⟨rfl, rfl⟩

/-- The parse of a whole token list, over a good parsing function. -/
theorem parse_all_good (pa : Parser V) (d : Nat) (hpa : Parser.Good pa d) (tokens : Tokens V) :
    (∀ e, parse_all pa tokens = .ok e → tokens ≠ [] ∧ question_has_colon tokens)
    ∧ (∀ err, parse_all pa tokens = .error err →
        ParseFailure err d (TokenStream.mk_stream tokens)) := by
  obtain ⟨hok, herr⟩ := hpa (TokenStream.mk_stream tokens)
  unfold parse_all
  cases hp : pa (TokenStream.mk_stream tokens) with
  | error err =>
    refine ⟨fun e h => by simp at h, fun err1 h => ?_⟩
    simp only [Except.error.injEq] at h
    subst h
    exact herr err hp
  | ok out =>
    obtain ⟨e, s1⟩ := out
    obtain ⟨consumed, hne, hsplit, hq⟩ := hok e s1 hp
    simp only
    rcases hs : s1.rest with _ | ⟨t, r⟩
    · rw [empty_of_rest_nil s1 hs]
      simp only [Bool.not_true, Bool.false_eq_true, if_false]
      refine ⟨fun e1 _ => ?_, fun err h => by simp at h⟩
      rw [hs, List.append_nil, rest_mk_stream] at hsplit
      rw [hsplit]
      exact ⟨hne, hq⟩
    · rw [empty_of_rest_cons s1 t r hs, peek_of_rest_cons s1 t r hs]
      simp only [Bool.not_false, if_true]
      refine ⟨fun e1 h => by simp at h, fun err h => ?_⟩
      simp only [Except.error.injEq] at h
      subst h
      exact Or.inl rfl

/-- The parse of the token sets of a call, over a good parse of each. -/
theorem parse_token_sets_good (parse : Tokens V → Except Error (Expression V)) (d : Nat)
    (sets : List (Tokens V))
    (hparse : ∀ set ∈ sets, (∀ e, parse set = .ok e → question_has_colon set)
      ∧ (∀ err, parse set = .error err → ParseFailure err d (TokenStream.mk_stream set))) :
    (∀ args, parse_token_sets parse sets = .ok args → ∀ set ∈ sets, question_has_colon set)
    ∧ (∀ err, parse_token_sets parse sets = .error err →
        ∃ set ∈ sets, ParseFailure err d (TokenStream.mk_stream set)) := by
  induction sets with
  | nil => exact ⟨fun _ _ set h => by simp at h, fun err h => by simp [parse_token_sets] at h⟩
  | cons a sets ih =>
    obtain ⟨ihok, iherr⟩ := ih (fun set h => hparse set (List.mem_cons_of_mem _ h))
    obtain ⟨haok, haerr⟩ := hparse a (List.mem_cons_self _ _)
    rw [parse_token_sets]
    split_ifs with hempty
    · refine ⟨fun _ h => by simp at h, fun err h => ?_⟩
      simp only [Except.error.injEq] at h
      subst h
      exact ⟨a, List.mem_cons_self _ _, Or.inl rfl⟩
    · cases hp : parse a with
      | error err =>
        refine ⟨fun _ h => by simp at h, fun err1 h => ?_⟩
        simp only [Except.error.injEq] at h
        subst h
        exact ⟨a, List.mem_cons_self _ _, haerr err hp⟩
      | ok arg =>
        simp only
        cases hrest : parse_token_sets parse sets with
        | error err =>
          refine ⟨fun _ h => by simp at h, fun err1 h => ?_⟩
          simp only [Except.error.injEq] at h
          subst h
          obtain ⟨set, hset, hf⟩ := iherr err hrest
          exact ⟨set, List.mem_cons_of_mem _ hset, hf⟩
        | ok args =>
          refine ⟨fun _ _ set hset => ?_, fun err h => by simp at h⟩
          rcases List.mem_cons.mp hset with rfl | hset
          · exact haok arg hp
          · exact ihok args hrest set hset

/-- The parse of a call's argument list, over a good parsing function: on a
stream that starts with a token, it consumes tokens or fails as `ParseFailure`
describes, one level deeper. -/
theorem parse_fn_args_good (pa : Parser V) (d : Nat) (hpa : Parser.Good pa d)
    (s : TokenStream V) (lp : Token V) (r : Tokens V) (hs : s.rest = lp :: r) :
    (∀ args s1, parse_fn_args (parse_all pa) s = .ok (args, s1) → Consumes s s1)
    ∧ (∀ err, parse_fn_args (parse_all pa) s = .error err → ParseFailure err (d + 1) s) := by
  unfold parse_fn_args
  rw [expect_of_rest_cons s lp r _ hs]
  by_cases hlp : lp.type = TType.LParen
  · rw [if_neg (by simp [hlp])]
    simp only
    obtain ⟨-, hnext⟩ := get_of_rest_cons s lp r hs
    obtain ⟨hsok, hserr⟩ := scan_fn_args_spec (s.next.remaining + 1) s.next [[]] 0 (by simp)
      (by rw [remaining_eq_length]; omega)
    cases hscan : scan_fn_args (s.next.remaining + 1) s.next [[]] 0 with
    | error err =>
      refine ⟨fun _ _ h => by simp at h, fun err1 h => ?_⟩
      simp only [Except.error.injEq] at h
      subst h
      exact Or.inl (hserr err hscan)
    | ok out =>
      obtain ⟨sets, s2⟩ := out
      obtain ⟨consumed, hsplit, hsne, hin, hfrom, -, hlen, hstop⟩ := hsok sets s2 hscan
      simp only
      rcases hs2 : s2.rest with _ | ⟨c, r2⟩
      · rw [if_pos (empty_of_rest_nil s2 hs2)]
        refine ⟨fun _ _ h => by simp at h, fun err1 h => ?_⟩
        simp only [Except.error.injEq] at h
        subst h
        exact Or.inl rfl
      · rw [if_neg (by simp [empty_of_rest_cons s2 c r2 hs2])]
        obtain ⟨hget2, hnext2⟩ := get_of_rest_cons s2 c r2 hs2
        rw [hget2]
        simp only
        have hc : c.type = TType.RParen := hstop c r2 hs2
        have hrest : s.rest = (lp :: consumed ++ [c]) ++ s2.next.rest := by
          rw [hs, ← hnext, hsplit, hs2, hnext2]
          simp
        have hsub : ∀ t ∈ sets.flatten, t ∈ consumed := by
          intro t ht
          rcases hfrom t ht with h | h
          · simp at h
          · exact h
        have hcons : (∀ set ∈ sets, question_has_colon set) → Consumes s s2.next := by
          intro hq
          refine ⟨lp :: consumed ++ [c], by simp, hrest, ?_⟩
          rintro ⟨t, ht, htq⟩
          simp only [List.cons_append, List.mem_cons, List.mem_append, List.mem_singleton,
            List.not_mem_nil, or_false] at ht
          rcases ht with rfl | ht | rfl
          · rw [hlp] at htq; exact absurd htq (by decide)
          · rcases hin t ht with h | h
            · rw [h] at htq; exact absurd htq (by decide)
            · obtain ⟨set, hset, htset⟩ := List.mem_flatten.mp h
              obtain ⟨x, hx, hxc⟩ := hq set hset ⟨t, htset, htq⟩
              refine ⟨x, ?_, hxc⟩
              simp only [List.cons_append, List.mem_cons, List.mem_append]
              exact Or.inr (Or.inl (hsub x (List.mem_flatten.mpr ⟨set, hset, hx⟩)))
          · rw [hc] at htq; exact absurd htq (by decide)
        split_ifs with hbare
        · refine ⟨fun args s1 h => ?_, fun err h => by simp at h⟩
          simp only [Except.ok.injEq, Prod.mk.injEq] at h
          obtain ⟨-, rfl⟩ := h
          apply hcons
          intro set hset
          obtain ⟨hl1, hl2⟩ := hbare
          have : sets = [[]] := by
            match sets, hl1, hl2 with
            | [a], _, h2 =>
              simp only [List.head?_cons, Option.getD_some, List.isEmpty_eq_true] at h2
              rw [h2]
          rw [this] at hset
          simp only [List.mem_singleton] at hset
          rw [hset]
          exact qhc_nil
        · obtain ⟨htok, hterr⟩ := parse_token_sets_good (parse_all pa) d sets (by
            intro set _
            obtain ⟨h1, h2⟩ := parse_all_good pa d hpa set
            exact ⟨fun e he => (h1 e he).2, h2⟩)
          cases hpts : parse_token_sets (parse_all pa) sets with
          | error err =>
            refine ⟨fun _ _ h => by simp at h, fun err1 h => ?_⟩
            simp only [Except.error.injEq] at h
            subst h
            obtain ⟨set, hset, hf⟩ := hterr err hpts
            refine hf.failure_mono ?_ ?_
            · intro t ht
              rw [rest_mk_stream] at ht
              rw [hrest]
              have := hsub t (List.mem_flatten.mpr ⟨set, hset, ht⟩)
              simp [this]
            · have h1 := length_le_flatten sets set hset
              simp only [List.flatten_cons, List.flatten_nil, List.append_nil, List.length_nil,
                Nat.zero_add] at hlen
              rw [hrest, rest_mk_stream]
              simp only [List.cons_append, List.length_cons, List.length_append]
              omega
          | ok args =>
            refine ⟨fun args1 s1 h => ?_, fun err h => by simp at h⟩
            simp only [Except.ok.injEq, Prod.mk.injEq] at h
            obtain ⟨-, rfl⟩ := h
            exact hcons (htok args hpts)
  · rw [if_pos (by simpa using hlp)]
    refine ⟨fun _ _ h => by simp at h, fun err1 h => ?_⟩
    simp only [Except.error.injEq] at h
    subst h
    exact Or.inl rfl

theorem next_subset (s : TokenStream V) (t : Token V) (r : Tokens V) (h : s.rest = t :: r) :
    (∀ x ∈ s.next.rest, x ∈ s.rest) ∧ s.next.rest.length + 1 = s.rest.length := by
  rw [(get_of_rest_cons s t r h).2, h]
  exact ⟨fun x hx => List.mem_cons_of_mem _ hx, rfl⟩

/-- `parse_primary` over a good parsing function is good, one level deeper. -/
theorem parse_primary_good (pa : Parser V) (d : Nat) (hpa : Parser.Good pa d) :
    Parser.Good (parse_primary pa) (d + 1) := by
  intro s
  unfold parse_primary
  rcases hs : s.rest with _ | ⟨t, r⟩
  · rw [if_pos (empty_of_rest_nil s hs)]
    refine ⟨fun _ _ h => by simp at h, fun err1 h => ?_⟩
    simp only [Except.error.injEq] at h
    subst h
    exact Or.inl rfl
  · rw [if_neg (by simp [empty_of_rest_cons s t r hs])]
    obtain ⟨hget, hnext⟩ := get_of_rest_cons s t r hs
    obtain ⟨hsub, hlen⟩ := next_subset s t r hs
    rw [hget]
    simp only
    have hbad : t.well_formed = false → ¬ s.well_formed := fun hf hwf => by
      have := hwf t (by rw [hs]; simp)
      rw [hf] at this
      exact absurd this (by simp)
    cases htype : t.type with
    | Number =>
      simp only
      rcases get_double_cases t htype with ⟨value, hv⟩ | ⟨hv, hf⟩
      · rw [hv]
        refine ⟨fun e s1 h => ?_, fun err h => by simp at h⟩
        simp only [Except.ok.injEq, Prod.mk.injEq] at h
        obtain ⟨-, rfl⟩ := h
        exact consumes_of_get s t r hs (by rw [htype]; decide)
      · rw [hv]
        refine ⟨fun _ _ h => by simp at h, fun err1 h => ?_⟩
        simp only [Except.error.injEq] at h
        subst h
        exact Or.inr (Or.inl ⟨rfl, hbad hf⟩)
    | Identifier =>
      simp only
      have hfirst : Consumes s s.next := consumes_of_get s t r hs (by rw [htype]; decide)
      rcases get_identifier_cases t htype with ⟨name, hv⟩ | ⟨hv, hf⟩
      · rw [hv]
        simp only
        split_ifs with hcall
        · obtain ⟨hne, -⟩ := hcall
          rcases hs1 : s.next.rest with _ | ⟨lp, r1⟩
          · rw [empty_of_rest_nil _ hs1] at hne
            simp at hne
          · obtain ⟨hok, herr⟩ := parse_fn_args_good pa d hpa s.next lp r1 hs1
            cases hp : parse_fn_args (parse_all pa) s.next with
            | error err =>
              refine ⟨fun _ _ h => by simp at h, fun err1 h => ?_⟩
              simp only [Except.error.injEq] at h
              subst h
              exact (herr err hp).failure_mono hsub (by omega)
            | ok out =>
              obtain ⟨args, s2⟩ := out
              refine ⟨fun e s1 h => ?_, fun err h => by simp at h⟩
              simp only [Except.ok.injEq, Prod.mk.injEq] at h
              obtain ⟨-, rfl⟩ := h
              exact hfirst.consumes_trans (hok args s2 hp)
        · refine ⟨fun e s1 h => ?_, fun err h => by simp at h⟩
          simp only [Except.ok.injEq, Prod.mk.injEq] at h
          obtain ⟨-, rfl⟩ := h
          exact hfirst
      · rw [hv]
        refine ⟨fun _ _ h => by simp at h, fun err1 h => ?_⟩
        simp only [Except.error.injEq] at h
        subst h
        exact Or.inr (Or.inl ⟨rfl, hbad hf⟩)
    | LParen =>
      simp only
      have hfirst : Consumes s s.next := consumes_of_get s t r hs (by rw [htype]; decide)
      obtain ⟨hok, herr⟩ := hpa s.next
      cases hp : pa s.next with
      | error err =>
        refine ⟨fun _ _ h => by simp at h, fun err1 h => ?_⟩
        simp only [Except.error.injEq] at h
        subst h
        exact (herr err hp).failure_mono hsub (by omega)
      | ok out =>
        obtain ⟨result, s2⟩ := out
        have hinner := hok result s2 hp
        simp only
        rcases hs2 : s2.rest with _ | ⟨c, r2⟩
        · rw [if_pos (empty_of_rest_nil s2 hs2)]
          refine ⟨fun _ _ h => by simp at h, fun err1 h => ?_⟩
          simp only [Except.error.injEq] at h
          subst h
          exact Or.inl rfl
        · rw [if_neg (by simp [empty_of_rest_cons s2 c r2 hs2])]
          obtain ⟨hget2, hnext2⟩ := get_of_rest_cons s2 c r2 hs2
          rw [hget2]
          simp only
          split_ifs with hclose
          · refine ⟨fun _ _ h => by simp at h, fun err1 h => ?_⟩
            simp only [Except.error.injEq] at h
            subst h
            exact Or.inl rfl
          · refine ⟨fun e s1 h => ?_, fun err h => by simp at h⟩
            simp only [Except.ok.injEq, Prod.mk.injEq] at h
            obtain ⟨-, rfl⟩ := h
            have hc : c.type = TType.RParen := by simpa using hclose
            exact (hfirst.consumes_trans hinner).consumes_trans
              (consumes_of_get s2 c r2 hs2 (by rw [hc]; decide))
    | _ =>
      simp only
      refine ⟨fun _ _ h => by simp at h, fun err1 h => ?_⟩
      simp only [Except.error.injEq] at h
      subst h
      exact Or.inl rfl

/-- `parse_unary` with enough steps, over a good parsing function. -/
theorem parse_unary_steps_good (pa : Parser V) (d : Nat) (hpa : Parser.Good pa d) (n : Nat) :
    ∀ s : TokenStream V, s.rest.length < n →
      (∀ e s1, parse_unary_steps pa n s = .ok (e, s1) → Consumes s s1)
      ∧ (∀ err, parse_unary_steps pa n s = .error err → ParseFailure err (d + 1) s) := by
  induction n with
  | zero => intro s h; omega
  | succ n ih =>
    intro s hlen
    rw [parse_unary_steps]
    rcases hs : s.rest with _ | ⟨t, r⟩
    · rw [if_pos (empty_of_rest_nil s hs)]
      refine ⟨fun _ _ h => by simp at h, fun err1 h => ?_⟩
      simp only [Except.error.injEq] at h
      subst h
      exact Or.inl rfl
    · rw [if_neg (by simp [empty_of_rest_cons s t r hs]), peek_type_of_rest_cons s t r hs]
      split_ifs with hsign
      · obtain ⟨hget, hnext⟩ := get_of_rest_cons s t r hs
        obtain ⟨hsub, hlen1⟩ := next_subset s t r hs
        rw [hget]
        simp only
        have hfirst : Consumes s s.next := consumes_of_get s t r hs (by
          rcases hsign with h | h <;> simp only [Option.some.injEq] at h <;> rw [h] <;> decide)
        obtain ⟨hok, herr⟩ := ih s.next (by omega)
        cases hp : parse_unary_steps pa n s.next with
        | error err =>
          refine ⟨fun _ _ h => by simp at h, fun err1 h => ?_⟩
          simp only [Except.error.injEq] at h
          subst h
          exact (herr err hp).failure_mono hsub (by omega)
        | ok out =>
          obtain ⟨right, s2⟩ := out
          refine ⟨fun e s1 h => ?_, fun err h => by simp at h⟩
          simp only [Except.ok.injEq, Prod.mk.injEq] at h
          obtain ⟨-, rfl⟩ := h
          exact hfirst.consumes_trans (hok right s2 hp)
      · exact parse_primary_good pa d hpa s

/-- `parse_unary` over a good parsing function is good, one level deeper. -/
theorem parse_unary_good (pa : Parser V) (d : Nat) (hpa : Parser.Good pa d) :
    Parser.Good (parse_unary pa) (d + 1) := fun s =>
  parse_unary_steps_good pa d hpa (s.remaining + 1) s (by rw [remaining_eq_length]; omega)

theorem valid_operator_type (operators : List TType) (token : Token V)
    (h : valid_operator operators token = true) : token.type ∈ operators := by
  simp only [valid_operator, List.any_eq_true, decide_eq_true_eq] at h
  obtain ⟨op, hop, he⟩ := h
  rw [he]
  exact hop

theorem abstract_parse_steps_succ (parser : Parser V) (is_operator : Token V → Bool)
    (assoc : Associativity) (n : Nat) (s : TokenStream V) (left : Option (Expression V)) :
    abstract_parse_steps parser is_operator assoc (n + 1) s left
      = match left with
        | some l => abstract_parse_tail parser is_operator assoc n l s
        | none =>
          match parser s with
          | .error err => .error err
          | .ok (l, s0) => abstract_parse_tail parser is_operator assoc n l s0 := by
  cases left with
  | some l => rfl
  | none =>
    rw [abstract_parse_steps.eq_def]
    simp only
    cases parser s with
    | error err => rfl
    | ok out => rfl

/-- The loop of `abstract_parse` with enough steps, over a good operand
parser and operators other than `?`. -/
theorem abstract_parse_steps_good (parser : Parser V) (k : Nat) (hp : Parser.Good parser k)
    (is_operator : Token V → Bool) (assoc : Associativity)
    (hop : ∀ t, is_operator t = true → t.type ≠ TType.Question) (n : Nat) :
    ∀ (s : TokenStream V) (left : Option (Expression V)), s.rest.length < n →
      (∀ e s1, abstract_parse_steps parser is_operator assoc n s left = .ok (e, s1) →
        (left = none → Consumes s s1) ∧ Consumes0 s s1)
      ∧ (∀ err, abstract_parse_steps parser is_operator assoc n s left = .error err →
          ParseFailure err k s) := by
  induction n with
  | zero => intro s _ h; omega
  | succ n ih =>
    intro s left hlen
    rw [abstract_parse_steps_succ]
    -- the operand the iteration starts with
    have hfirst : ∀ (l : Expression V) (s0 : TokenStream V), Consumes0 s s0 →
        (left = none → Consumes s s0) →
        (∀ e s1, abstract_parse_tail parser is_operator assoc n l s0 = .ok (e, s1) →
          (left = none → Consumes s s1) ∧ Consumes0 s s1)
        ∧ (∀ err, abstract_parse_tail parser is_operator assoc n l s0 = .error err →
          ParseFailure err k s) := by
      intro l s0 h0 h1
      unfold abstract_parse_tail
      have hle0 := h0.consumes0_length_le
      rcases hs0 : s0.rest with _ | ⟨t, r⟩
      · rw [if_pos (empty_of_rest_nil s0 hs0)]
        refine ⟨fun e s1 h => ?_, fun err h => by simp at h⟩
        simp only [Except.ok.injEq, Prod.mk.injEq] at h
        obtain ⟨-, rfl⟩ := h
        exact ⟨h1, h0⟩
      · rw [if_neg (by simp [empty_of_rest_cons s0 t r hs0]), peek_of_rest_cons s0 t r hs0]
        simp only
        obtain ⟨hget, hnext⟩ := get_of_rest_cons s0 t r hs0
        obtain ⟨hsub, hlen1⟩ := next_subset s0 t r hs0
        split_ifs with hisop hright
        · -- right-associative: the rest is one recursive call
          have hstep : Consumes s0 s0.next := consumes_of_get s0 t r hs0 (hop t hisop)
          rw [hget]
          simp only
          obtain ⟨hok, herr⟩ := ih s0.next none (by omega)
          cases hrec : abstract_parse_steps parser is_operator assoc n s0.next none with
          | error err =>
            refine ⟨fun _ _ h => by simp at h, fun err1 h => ?_⟩
            simp only [Except.error.injEq] at h
            subst h
            exact (herr err hrec).failure_mono (fun x hx => h0.consumes0_subset x (hsub x hx)) (by omega)
          | ok out =>
            obtain ⟨right, s2⟩ := out
            refine ⟨fun e s1 h => ?_, fun err h => by simp at h⟩
            simp only [Except.ok.injEq, Prod.mk.injEq] at h
            obtain ⟨-, rfl⟩ := h
            have hall : Consumes s s2 := h0.consumes0_trans (hstep.consumes_trans ((hok right s2 hrec).1 rfl))
            exact ⟨fun _ => hall, hall.to_consumes0⟩
        · -- left-associative: an operand, then the next iteration
          have hstep : Consumes s0 s0.next := consumes_of_get s0 t r hs0 (hop t hisop)
          rw [hget]
          simp only
          obtain ⟨hpok, hperr⟩ := hp s0.next
          cases hpar : parser s0.next with
          | error err =>
            refine ⟨fun _ _ h => by simp at h, fun err1 h => ?_⟩
            simp only [Except.error.injEq] at h
            subst h
            exact (hperr err hpar).failure_mono (fun x hx => h0.consumes0_subset x (hsub x hx)) (by omega)
          | ok out =>
            obtain ⟨right, s2⟩ := out
            have hoperand : Consumes s0.next s2 := hpok right s2 hpar
            have hto : Consumes s s2 := h0.consumes0_trans (hstep.consumes_trans hoperand)
            have hl := hto.consumes_length_lt
            simp only
            obtain ⟨hok, herr⟩ := ih s2 (some (.Binary t.type l right)) (by omega)
            refine ⟨fun e s1 h => ?_, fun err h => ?_⟩
            · have hall : Consumes s s1 := hto.consumes_trans0 (hok e s1 h).2
              exact ⟨fun _ => hall, hall.to_consumes0⟩
            · exact (herr err h).failure_mono hto.to_consumes0.consumes0_subset (by omega)
        · refine ⟨fun e s1 h => ?_, fun err h => by simp at h⟩
          simp only [Except.ok.injEq, Prod.mk.injEq] at h
          obtain ⟨-, rfl⟩ := h
          exact ⟨h1, h0⟩
    cases left with
    | some l =>
      simp only
      have := hfirst l s (Consumes0.consumes0_refl s) (fun h => by simp at h)
      exact this
    | none =>
      obtain ⟨hpok, hperr⟩ := hp s
      cases hpar : parser s with
      | error err =>
        refine ⟨fun _ _ h => by simp at h, fun err1 h => ?_⟩
        simp only [Except.error.injEq] at h
        subst h
        exact hperr err hpar
      | ok out =>
        obtain ⟨l, s0⟩ := out
        exact hfirst l s0 (hpok l s0 hpar).to_consumes0 (fun _ => hpok l s0 hpar)

/-- `abstract_parse` over a good operand parser and operators other than `?`
is good. -/
theorem abstract_parse_good (parser : Parser V) (k : Nat) (hp : Parser.Good parser k)
    (operators : List TType) (assoc : Associativity) (hq : TType.Question ∉ operators) :
    Parser.Good (fun s => abstract_parse s parser operators assoc) k := by
  intro s
  obtain ⟨hok, herr⟩ := abstract_parse_steps_good parser k hp (valid_operator operators) assoc
    (fun t ht hqt => hq (hqt ▸ valid_operator_type operators t ht)) (s.remaining + 1) s none
    (by rw [remaining_eq_length]; omega)
  exact ⟨fun e s1 h => (hok e s1 h).1 rfl, herr⟩

theorem parse_power_good (pa : Parser V) (d : Nat) (hpa : Parser.Good pa d) :
    Parser.Good (parse_power pa) (d + 1) :=
  abstract_parse_good _ _ (parse_unary_good pa d hpa) _ _ (by decide)

theorem parse_term_good (pa : Parser V) (d : Nat) (hpa : Parser.Good pa d) :
    Parser.Good (parse_term pa) (d + 1) :=
  abstract_parse_good _ _ (parse_power_good pa d hpa) _ _ (by decide)

theorem parse_additive_good (pa : Parser V) (d : Nat) (hpa : Parser.Good pa d) :
    Parser.Good (parse_additive pa) (d + 1) :=
  abstract_parse_good _ _ (parse_term_good pa d hpa) _ _ (by decide)

theorem parse_relational_good (pa : Parser V) (d : Nat) (hpa : Parser.Good pa d) :
    Parser.Good (parse_relational pa) (d + 1) :=
  abstract_parse_good _ _ (parse_additive_good pa d hpa) _ _ (by decide)

theorem parse_equality_good (pa : Parser V) (d : Nat) (hpa : Parser.Good pa d) :
    Parser.Good (parse_equality pa) (d + 1) :=
  abstract_parse_good _ _ (parse_relational_good pa d hpa) _ _ (by decide)

/-- The tokens of a ternary: condition, `?`, branch, `:`, branch. -/
theorem consumes_ternary {s s1 s2 s3 : TokenStream V} (q c : Token V) (r1 r2 : Tokens V)
    (h1 : Consumes s s1) (hq : s1.rest = q :: r1) (h2 : Consumes s1.next s2)
    (hc : s2.rest = c :: r2) (hcolon : c.type = TType.Colon) (h3 : Consumes s2.next s3) :
    Consumes s s3 := by
  obtain ⟨c1, hne1, he1, -⟩ := h1
  obtain ⟨c2, -, he2, -⟩ := h2
  obtain ⟨c3, -, he3, -⟩ := h3
  rw [(get_of_rest_cons s1 q r1 hq).2] at he2
  rw [(get_of_rest_cons s2 c r2 hc).2] at he3
  refine ⟨c1 ++ q :: c2 ++ c :: c3, by simp [hne1], ?_, qhc_of_colon _ ⟨c, by simp, hcolon⟩⟩
  rw [he1, hq, he2, hc, he3]
  simp

/-- `parse_ternary` with enough steps, over a good parsing function. -/
theorem parse_ternary_steps_good (pa : Parser V) (d : Nat) (hpa : Parser.Good pa d) (n : Nat) :
    ∀ s : TokenStream V, s.rest.length < n →
      (∀ e s1, parse_ternary_steps pa n s = .ok (e, s1) → Consumes s s1)
      ∧ (∀ err, parse_ternary_steps pa n s = .error err → ParseFailure err (d + 1) s) := by
  induction n with
  | zero => intro s h; omega
  | succ n ih =>
    intro s hlen
    rw [parse_ternary_steps]
    obtain ⟨heok, heerr⟩ := parse_equality_good pa d hpa s
    cases hcond : parse_equality pa s with
    | error err =>
      refine ⟨fun _ _ h => by simp at h, fun err1 h => ?_⟩
      simp only [Except.error.injEq] at h
      subst h
      exact heerr err hcond
    | ok out =>
      obtain ⟨condition, s1⟩ := out
      have h1 : Consumes s s1 := heok condition s1 hcond
      have hl1 := h1.consumes_length_lt
      simp only
      split_ifs with hquestion
      · obtain ⟨hne, hqt⟩ := hquestion
        rcases hs1 : s1.rest with _ | ⟨q, r1⟩
        · rw [empty_of_rest_nil s1 hs1] at hne
          simp at hne
        · obtain ⟨hget, hnext⟩ := get_of_rest_cons s1 q r1 hs1
          obtain ⟨hsub1, hlen1⟩ := next_subset s1 q r1 hs1
          rw [hget]
          simp only
          obtain ⟨hok2, herr2⟩ := ih s1.next (by omega)
          cases hthen : parse_ternary_steps pa n s1.next with
          | error err =>
            refine ⟨fun _ _ h => by simp at h, fun err1 h => ?_⟩
            simp only [Except.error.injEq] at h
            subst h
            exact (herr2 err hthen).failure_mono (fun x hx => h1.to_consumes0.consumes0_subset x (hsub1 x hx)) (by omega)
          | ok out2 =>
            obtain ⟨then_branch, s2⟩ := out2
            have h2 : Consumes s1.next s2 := hok2 then_branch s2 hthen
            have hl2 := h2.consumes_length_lt
            simp only
            rcases hs2 : s2.rest with _ | ⟨c, r2⟩
            · rw [if_pos (empty_of_rest_nil s2 hs2)]
              refine ⟨fun _ _ h => by simp at h, fun err1 h => ?_⟩
              simp only [Except.error.injEq] at h
              subst h
              exact Or.inl rfl
            · rw [if_neg (by simp [empty_of_rest_cons s2 c r2 hs2])]
              obtain ⟨hget2, hnext2⟩ := get_of_rest_cons s2 c r2 hs2
              obtain ⟨hsub2, hlen2⟩ := next_subset s2 c r2 hs2
              rw [hget2]
              simp only
              split_ifs with hcolon
              · refine ⟨fun _ _ h => by simp at h, fun err1 h => ?_⟩
                simp only [Except.error.injEq] at h
                subst h
                exact Or.inl rfl
              · have hc : c.type = TType.Colon := by simpa using hcolon
                obtain ⟨hok3, herr3⟩ := ih s2.next (by omega)
                cases helse : parse_ternary_steps pa n s2.next with
                | error err =>
                  refine ⟨fun _ _ h => by simp at h, fun err1 h => ?_⟩
                  simp only [Except.error.injEq] at h
                  subst h
                  exact (herr3 err helse).failure_mono
                    (fun x hx => h1.to_consumes0.consumes0_subset x
                      (hsub1 x (h2.to_consumes0.consumes0_subset x (hsub2 x hx))))
                    (by omega)
                | ok out3 =>
                  obtain ⟨else_branch, s3⟩ := out3
                  refine ⟨fun e s4 h => ?_, fun err h => by simp at h⟩
                  simp only [Except.ok.injEq, Prod.mk.injEq] at h
                  obtain ⟨-, rfl⟩ := h
                  exact consumes_ternary q c r1 r2 h1 hs1 h2 hs2 hc
                    (hok3 else_branch s3 helse)
      · refine ⟨fun e s2 h => ?_, fun err h => by simp at h⟩
        simp only [Except.ok.injEq, Prod.mk.injEq] at h
        obtain ⟨-, rfl⟩ := h
        exact h1

/-- `parse_ternary` over a good parsing function is good, one level deeper. -/
theorem parse_ternary_good (pa : Parser V) (d : Nat) (hpa : Parser.Good pa d) :
    Parser.Good (parse_ternary pa) (d + 1) := fun s =>
  parse_ternary_steps_good pa d hpa (s.remaining + 1) s (by rw [remaining_eq_length]; omega)

/-- `parse_assignment` with the nesting bound `depth` is good. -/
theorem parse_assignment_good (depth : Nat) :
    Parser.Good (parse_assignment depth : Parser V) depth := by
  induction depth with
  | zero =>
    intro s
    refine ⟨fun _ _ h => by simp [parse_assignment] at h, fun err h => ?_⟩
    simp only [parse_assignment, Except.error.injEq] at h
    subst h
    exact Or.inr (Or.inr ⟨rfl, by omega⟩)
  | succ d ih =>
    have := abstract_parse_good _ _ (parse_ternary_good (parse_assignment d) d ih)
      [TType.Equals] .Right (by decide)
    exact this

/-- What `parse` does on every token list: it returns a tree only for a token
list that is not empty and in which a Question token is never without a Colon
token, and it fails with a ParseError or, on a list that holds a token that is
not well formed, with the `std::bad_variant_access` of `Token::get`. -/
theorem parse_good (tokens : Tokens V) :
    (∀ e, parse tokens = .ok e → tokens ≠ [] ∧ question_has_colon tokens)
    ∧ (∀ err, parse tokens = .error err →
        err.isParseError = true
          ∨ (err = .BadVariantAccess ∧ ∃ t ∈ tokens, t.well_formed = false)) := by
  obtain ⟨hok, herr⟩ := parse_all_good (parse_stream (tokens.length + 1)) (tokens.length + 1)
    (parse_assignment_good (tokens.length + 1)) tokens
  refine ⟨hok, fun err h => ?_⟩
  rcases herr err h with h1 | ⟨h1, h2⟩ | ⟨-, h2⟩
  · exact Or.inl h1
  · refine Or.inr ⟨h1, ?_⟩
    by_contra hall
    apply h2
    intro t ht
    rw [rest_mk_stream] at ht
    by_contra hf
    exact hall ⟨t, ht, by simpa using hf⟩
  · rw [rest_mk_stream] at h2
    omega

/-! ### The lexer builds well-formed tokens -/

/-- The token an iteration of the lexer pushes is well formed. -/
theorem lex_one_well_formed (A : Arith V) (c : Char) (rest : List Char) (pos : Nat)
    (token : Token V) (count : Nat) (rest1 : List Char)
    (h : lex_one A c rest pos = .ok (some token, count, rest1)) : token.well_formed = true := by
  have hs := (lex_one_iff A c rest pos _).mp h
  cases hs with
  | single type hc =>
    simp only [List.mem_cons, Prod.mk.injEq, List.mem_singleton, List.not_mem_nil,
      or_false] at hc
    rcases hc with hc | hc | hc | hc | hc | hc | hc | hc | hc | hc | hc <;>
      obtain ⟨-, rfl⟩ := hc <;> rfl
  | double type rest1 hc hr =>
    simp only [List.mem_cons, Prod.mk.injEq, List.mem_singleton, List.not_mem_nil,
      or_false] at hc
    rcases hc with hc | hc | hc | hc <;> obtain ⟨-, rfl⟩ := hc <;> rfl
  | lone type hc hn =>
    simp only [List.mem_cons, Prod.mk.injEq, List.mem_singleton, List.not_mem_nil,
      or_false] at hc
    rcases hc with hc | hc | hc <;> obtain ⟨-, rfl⟩ := hc <;> rfl
  | number value hc hs => rfl
  | identifier hc => rfl

/-- The loop of the lexer adds only well-formed tokens. -/
theorem tokenize_loop_well_formed (A : Arith V) (steps : Nat) :
    ∀ (rest : List Char) (pos : Nat) (result ts : Tokens V),
      (∀ t ∈ result, t.well_formed = true) →
      tokenize_loop A steps rest pos result = .ok ts → ∀ t ∈ ts, t.well_formed = true := by
  induction steps with
  | zero => intro rest pos result ts _ h; simp [tokenize_loop] at h
  | succ n ih =>
    intro rest pos result ts hres h
    cases rest with
    | nil =>
      simp only [tokenize_loop, Except.ok.injEq] at h
      subst h
      exact hres
    | cons c rest =>
      rw [tokenize_loop_step] at h
      cases hl : lex_one A c rest pos with
      | error err => rw [hl] at h; simp at h
      | ok out =>
        obtain ⟨token, count, rest1⟩ := out
        rw [hl] at h
        simp only at h
        refine ih rest1 _ _ ts ?_ h
        intro t ht
        rcases List.mem_append.mp ht with ht | ht
        · exact hres t ht
        · cases token with
          | none => simp at ht
          | some token =>
            simp only [Option.toList, List.mem_singleton] at ht
            rw [ht]
            exact lex_one_well_formed A c rest pos token count rest1 hl

/-- Every token the lexer returns is well formed. -/
theorem tokenize_well_formed (A : Arith V) (input : String) (ts : Tokens V)
    (h : tokenize A input = .ok ts) : ∀ t ∈ ts, t.well_formed = true :=
  tokenize_loop_well_formed A _ _ _ _ ts (fun t ht => by simp at ht) h

/-! ### C16: a ternary without its colon -/

/-- C16. A ternary without its colon is rejected. Every token sequence that
holds a Question token and no Colon token is rejected by `parse`: no tree is
returned, and for tokens as the specification defines them (a Number token
carries a number, an Identifier token a name), which the tokens of every
text are, the failure is a ParseError (the one other failure, for any token
sequence, being the `std::bad_variant_access` of a Number or Identifier
token without its payload). For all single-token operands `x`, `y` the
sequence `[x, ?, y]` fails with `Expected ':' in ternary expression`, while
for all single-token operands `c`, `t`, `e` the sequence `[c, ?, t, :, e]`
parses to `Ternary(c, t, e)`. In an arithmetic exact on small natural numbers
the text `1 ? 2` is read to three tokens on which `parse` fails so. -/
theorem C16_ternary_without_colon (A : Arith V) (tokens : Tokens V)
    (hquestion : ∃ t ∈ tokens, t.type = TType.Question)
    (hcolon : ∀ t ∈ tokens, t.type ≠ TType.Colon) :
    ((∀ t ∈ tokens, t.well_formed = true) →
      ∃ message, parse tokens = .error (.ParseError message))
    ∧ (∀ input : String, tokenize A input = .ok tokens →
        ∃ message, parse tokens = .error (.ParseError message))
    ∧ (∀ e, parse tokens ≠ .ok e)
    ∧ ((∃ message, parse tokens = .error (.ParseError message))
        ∨ (parse tokens = .error .BadVariantAccess ∧ ∃ t ∈ tokens, t.well_formed = false))
    ∧ (∀ x y : Operand V,
        parse [x.token, Token.op .Question, y.token]
          = .error (.ParseError "Expected ':' in ternary expression"))
    ∧ (∀ c t e : Operand V,
        parse [c.token, Token.op .Question, t.token, Token.op .Colon, e.token]
          = .ok (.Ternary c.expr t.expr e.expr))
    ∧ (A.ExactOnNat →
        (tokenize A "1 ? 2").bind parse
          = .error (.ParseError "Expected ':' in ternary expression")) := by
  obtain ⟨hok, herr⟩ := parse_good tokens
  have hno : ∀ e, parse tokens ≠ .ok e := by
    intro e he
    obtain ⟨c, hc, hct⟩ := (hok e he).2 hquestion
    exact hcolon c hc hct
  have hcases : (∃ message, parse tokens = .error (.ParseError message))
      ∨ (parse tokens = .error .BadVariantAccess ∧ ∃ t ∈ tokens, t.well_formed = false) := by
    cases hp : parse tokens with
    | ok e => exact absurd hp (hno e)
    | error err =>
      rcases herr err hp with h | ⟨h, hbad⟩
      · cases err with
        | ParseError message => exact Or.inl ⟨message, rfl⟩
        | _ => simp [Error.isParseError] at h
      · subst h
        exact Or.inr ⟨rfl, hbad⟩
  have hspec : (∀ t ∈ tokens, t.well_formed = true) →
      ∃ message, parse tokens = .error (.ParseError message) := by
    intro hwf
    rcases hcases with h | ⟨-, t, ht, hf⟩
    · exact h
    · rw [hwf t ht] at hf
      exact absurd hf (by simp)
  refine ⟨hspec, fun input ht => hspec (tokenize_well_formed A input tokens ht), hno, hcases,
    ?_, ?_, ?_⟩
  · intro x y
    cases x <;> cases y <;> rfl
  · intro c t e
    cases c <;> cases t <;> cases e <;> rfl
  · intro hA
    have d1 : A.stod ['1'] = some (A.ofNat 1) :=
      stod_nat_lit A hA _ 1 (by simp) (by decide) (by decide) (by decide)
    have d2 : A.stod ['2'] = some (A.ofNat 2) :=
      stod_nat_lit A hA _ 2 (by simp) (by decide) (by decide) (by decide)
    have htok : tokenize A "1 ? 2"
        = .ok [Token.number (A.ofNat 1), Token.op .Question, Token.number (A.ofNat 2)] := by
      have hl : "1 ? 2".length = 5 := by decide
      have ht : "1 ? 2".toList = ['1', ' ', '?', ' ', '2'] := by decide
      simp +decide [tokenize, hl, ht, tokenize_loop, scan_number, d1, d2]
    rw [htok]
    rfl

/-- C16 at a concrete input: the tokens of `1 ? 2` hold a Question token and
no Colon token, and `parse` fails on them with a ParseError. -/
theorem C16_ternary_without_colon_witness :
    (∃ t ∈ [Token.number (1 : ℚ), Token.op .Question, Token.number 2],
        t.type = TType.Question)
    ∧ (∀ t ∈ [Token.number (1 : ℚ), Token.op .Question, Token.number 2],
        t.type ≠ TType.Colon)
    ∧ (∃ message, parse [Token.number (1 : ℚ), Token.op .Question, Token.number 2]
        = .error (.ParseError message))
    ∧ parse [Token.number (1 : ℚ), Token.op .Question, Token.number 2]
        = .error (.ParseError "Expected ':' in ternary expression")
    ∧ (tokenize Arith.rat "1 ? 2").bind parse
        = .error (.ParseError "Expected ':' in ternary expression") :=
  ⟨⟨Token.op .Question, by simp, rfl⟩, by decide,
    (C16_ternary_without_colon Arith.rat
      [Token.number (1 : ℚ), Token.op .Question, Token.number 2]
      ⟨Token.op .Question, by simp, rfl⟩ (by decide)).1 (by decide),
    rfl,
    (C16_ternary_without_colon Arith.rat
      [Token.number (1 : ℚ), Token.op .Question, Token.number 2]
      ⟨Token.op .Question, by simp, rfl⟩ (by decide)).2.2.2.2.2.2 Arith.rat_exactOnNat⟩
/-! ### C18: parser failures are ParseErrors -/

/-- C18. Parser failures are always ParseError. For every sequence of tokens
as the specification defines them (a Number token carries a number, an
Identifier token a name), the empty sequence included, and so for the tokens
of every text, `parse` returns a tree or fails with a ParseError. For every
token sequence whatsoever `parse` returns (the bounds of the embedding are
never reached) and never fails with the `std::underflow_error` of
`TokenStream::peek`, `get` and `expect`: these raise it exactly on an
exhausted stream, and succeed on every stream that is not exhausted; the one
other failure is the `std::bad_variant_access` of `Token::get`, on a sequence
that holds a Number or Identifier token without its payload. The empty
sequence fails with `Unexpected end of input while parsing unary expression`. -/
theorem C18_parser_failures (A : Arith V) (tokens : Tokens V) :
    ((∀ t ∈ tokens, t.well_formed = true) →
      (∃ e, parse tokens = .ok e) ∨ (∃ message, parse tokens = .error (.ParseError message)))
    ∧ (∀ input : String, tokenize A input = .ok tokens →
        (∃ e, parse tokens = .ok e) ∨ (∃ message, parse tokens = .error (.ParseError message)))
    ∧ ((∃ e, parse tokens = .ok e) ∨ (∃ message, parse tokens = .error (.ParseError message))
        ∨ (parse tokens = .error .BadVariantAccess ∧ ∃ t ∈ tokens, t.well_formed = false))
    ∧ (∀ message, parse tokens ≠ .error (.UnderflowError message))
    ∧ parse tokens ≠ .error .OutOfFuel
    ∧ parse ([] : Tokens V)
        = .error (.ParseError "Unexpected end of input while parsing unary expression")
    ∧ (∀ s : TokenStream V, s.empty = false →
        ∃ t, s.peek = (.ok t, s) ∧ s.get = (.ok t, s.next) ∧ s.peek_type = some t.type
          ∧ ∀ type, s.expect type ≠ (.error (.UnderflowError
              "Cannot read from empty token stream"), s))
    ∧ (∀ s : TokenStream V, s.empty = true →
        s.peek = (.error (.UnderflowError "Cannot peek empty token stream"), s)
        ∧ s.get = (.error (.UnderflowError "Cannot get from empty token stream"), s)
        ∧ ∀ type, s.expect type
            = (.error (.UnderflowError "Cannot read from empty token stream"), s)) := by
  obtain ⟨-, herr⟩ := parse_good tokens
  have hcases : (∃ e, parse tokens = .ok e)
      ∨ (∃ message, parse tokens = .error (.ParseError message))
      ∨ (parse tokens = .error .BadVariantAccess ∧ ∃ t ∈ tokens, t.well_formed = false) := by
    cases hp : parse tokens with
    | ok e => exact Or.inl ⟨e, rfl⟩
    | error err =>
      rcases herr err hp with h | ⟨h, hbad⟩
      · cases err with
        | ParseError message => exact Or.inr (Or.inl ⟨message, rfl⟩)
        | _ => simp [Error.isParseError] at h
      · subst h
        exact Or.inr (Or.inr ⟨rfl, hbad⟩)
  have hspec : (∀ t ∈ tokens, t.well_formed = true) →
      (∃ e, parse tokens = .ok e)
        ∨ (∃ message, parse tokens = .error (.ParseError message)) := by
    intro hwf
    rcases hcases with h | h | ⟨-, t, ht, hf⟩
    · exact Or.inl h
    · exact Or.inr h
    · rw [hwf t ht] at hf
      exact absurd hf (by simp)
  refine ⟨hspec, fun input ht => hspec (tokenize_well_formed A input tokens ht), hcases,
    ?_, ?_, rfl, ?_, ?_⟩
  · intro message hp
    rcases herr _ hp with h | ⟨h, -⟩
    · simp [Error.isParseError] at h
    · simp at h
  · intro hp
    rcases herr _ hp with h | ⟨h, -⟩
    · simp [Error.isParseError] at h
    · simp at h
  · intro s hs
    rcases hr : s.rest with _ | ⟨t, r⟩
    · rw [empty_of_rest_nil s hr] at hs
      simp at hs
    · refine ⟨t, peek_of_rest_cons s t r hr, (get_of_rest_cons s t r hr).1,
        peek_type_of_rest_cons s t r hr, fun type => ?_⟩
      rw [expect_of_rest_cons s t r type hr]
      split_ifs <;> simp
  · intro s hs
    simp [TokenStream.peek, TokenStream.get, TokenStream.expect, hs]

/-- C18 at concrete inputs: `1 +` and `)` fail with a ParseError, `1 + 2`
parses; a Number token without its payload fails with
`std::bad_variant_access`. -/
theorem C18_parser_failures_witness :
    (∀ t ∈ [Token.number (1 : ℚ), Token.op .Plus], t.well_formed = true)
    ∧ ((∃ e, parse [Token.number (1 : ℚ), Token.op .Plus] = .ok e)
        ∨ (∃ message, parse [Token.number (1 : ℚ), Token.op .Plus]
            = .error (.ParseError message)))
    ∧ parse [Token.number (1 : ℚ), Token.op .Plus]
        = .error (.ParseError "Unexpected end of input while parsing unary expression")
    ∧ parse [(Token.op .RParen : Token ℚ)]
        = .error (.ParseError "Could not parse expression starting with token 'RParen'")
    ∧ parse [Token.number (1 : ℚ), Token.op .Plus, Token.number 2]
        = .ok (.Binary .Plus (.Number 1) (.Number 2))
    ∧ parse [(⟨.Number, .monostate⟩ : Token ℚ)] = .error .BadVariantAccess :=
  ⟨by decide,
    (C18_parser_failures Arith.rat [Token.number (1 : ℚ), Token.op .Plus]).1 (by decide),
    rfl, rfl, rfl, rfl⟩

/-! ### Parsing a stream that is followed by further tokens -/

theorem ext_cons (s s2 : TokenStream V) (suffix : Tokens V) (t : Token V) (r : Tokens V)
    (hs : s.rest = t :: r) (h2 : s2.rest = s.rest ++ suffix) :
    s2.rest = t :: (r ++ suffix) ∧ s2.next.rest = s.next.rest ++ suffix := by
  have h3 : s2.rest = t :: (r ++ suffix) := by rw [h2, hs]; rfl
  exact ⟨h3, by rw [(get_of_rest_cons s2 t _ h3).2, (get_of_rest_cons s t r hs).2]⟩

theorem stops_head (suffix : Tokens V) (t : Token V) (r : Tokens V) (h : Stops (t :: r ++ suffix))
    : stopper t.type = true := h t (by simp)

/-- On a stream where `p` has consumed everything, what follows is the suffix:
either nothing or a stopper token. -/
theorem ext_nil (s s2 : TokenStream V) (suffix : Tokens V) (hs : s.rest = [])
    (h2 : s2.rest = s.rest ++ suffix) (hstop : Stops suffix) :
    s2.rest = [] ∨ ∃ t r, s2.rest = t :: r ∧ stopper t.type = true := by
  rw [hs, List.nil_append] at h2
  cases suffix with
  | nil => exact Or.inl h2
  | cons t r => exact Or.inr ⟨t, r, h2, hstop t (by simp)⟩

/-- The argument scan of a call that stops in front of a token does the same
on a stream with further tokens at its end, with any larger bound. -/
theorem scan_fn_args_extends (n : Nat) :
    ∀ (m : Nat) (s s2 : TokenStream V) (suffix : Tokens V) (sets : List (Tokens V))
      (depth : Int) (sets1 : List (Tokens V)) (s1 : TokenStream V),
      n ≤ m → s2.rest = s.rest ++ suffix →
      scan_fn_args n s sets depth = .ok (sets1, s1) → s1.rest ≠ [] →
      ∃ s3, scan_fn_args m s2 sets depth = .ok (sets1, s3) ∧ s3.rest = s1.rest ++ suffix := by
  induction n with
  | zero => intro m s s2 suffix sets depth sets1 s1 _ _ h; simp [scan_fn_args] at h
  | succ n ih =>
    intro m s s2 suffix sets depth sets1 s1 hnm h2 h hne
    obtain ⟨m, rfl⟩ : ∃ k, m = k + 1 := ⟨m - 1, by omega⟩
    rw [scan_fn_args] at h ⊢
    rcases hs : s.rest with _ | ⟨t, r⟩
    · rw [if_pos (empty_of_rest_nil s hs)] at h
      simp only [Except.ok.injEq, Prod.mk.injEq] at h
      obtain ⟨-, rfl⟩ := h
      exact absurd hs hne
    · obtain ⟨h3, hnext2⟩ := ext_cons s s2 suffix t r hs h2
      rw [if_neg (by simp [empty_of_rest_cons s t r hs]), peek_type_of_rest_cons s t r hs] at h
      rw [if_neg (by simp [empty_of_rest_cons s2 t _ h3]), peek_type_of_rest_cons s2 t _ h3]
      by_cases hstop : some t.type = some TType.RParen ∧ depth = 0
      · rw [if_pos hstop] at h
        rw [if_pos hstop]
        simp only [Except.ok.injEq, Prod.mk.injEq] at h
        obtain ⟨rfl, rfl⟩ := h
        exact ⟨s2, rfl, h2⟩
      · rw [if_neg hstop] at h
        rw [if_neg hstop]
        rw [(get_of_rest_cons s t r hs).1] at h
        rw [(get_of_rest_cons s2 t _ h3).1]
        simp only at h ⊢
        have hrec := fun sets0 d hh => ih m s.next s2.next suffix sets0 d sets1 s1 (by omega)
          hnext2 hh hne
        by_cases hl : t.type = TType.LParen
        · rw [if_pos hl] at h ⊢
          simp only at h ⊢
          split_ifs at h ⊢ with hc
          · exact hrec _ _ h
          · exact hrec _ _ h
        · rw [if_neg hl] at h ⊢
          by_cases hr : t.type = TType.RParen
          · rw [if_pos hr] at h ⊢
            by_cases hd : depth = 0
            · rw [if_pos hd] at h
              simp at h
            · rw [if_neg hd] at h ⊢
              simp only at h ⊢
              split_ifs at h ⊢ with hc
              · exact hrec _ _ h
              · exact hrec _ _ h
          · rw [if_neg hr] at h ⊢
            simp only at h ⊢
            split_ifs at h ⊢ with hc
            · exact hrec _ _ h
            · exact hrec _ _ h

/-- The parse of a whole token list over `q` returns what it returns over `p`,
when `q` extends `p`. -/
theorem parse_all_extends (p q : Parser V) (hpq : Parser.Extends p q) (tokens : Tokens V)
    (e : Expression V) (h : parse_all p tokens = .ok e) : parse_all q tokens = .ok e := by
  unfold parse_all at h ⊢
  cases hp : p (TokenStream.mk_stream tokens) with
  | error err => rw [hp] at h; simp at h
  | ok out =>
    obtain ⟨e1, s1⟩ := out
    rw [hp] at h
    simp only at h
    obtain ⟨s3, hq, hrest⟩ := hpq (TokenStream.mk_stream tokens) (TokenStream.mk_stream tokens)
      [] e1 s1 (by simp) (fun t ht => by simp at ht) hp
    rw [hq]
    simp only
    rw [List.append_nil] at hrest
    rcases hs1 : s1.rest with _ | ⟨t, r⟩
    · rw [empty_of_rest_nil s1 hs1] at h
      rw [empty_of_rest_nil s3 (hrest.trans hs1)]
      exact h
    · rw [empty_of_rest_cons s1 t r hs1, peek_of_rest_cons s1 t r hs1] at h
      simp at h

theorem parse_token_sets_extends (parse parse1 : Tokens V → Except Error (Expression V))
    (hp : ∀ tokens e, parse tokens = .ok e → parse1 tokens = .ok e) (sets : List (Tokens V)) :
    ∀ args, parse_token_sets parse sets = .ok args →
      parse_token_sets parse1 sets = .ok args := by
  induction sets with
  | nil => intro args h; exact h
  | cons a sets ih =>
    intro args h
    rw [parse_token_sets] at h ⊢
    split_ifs at h ⊢ with hempty
    cases hpa : parse a with
    | error err => rw [hpa] at h; simp at h
    | ok arg =>
      rw [hpa] at h
      rw [hp a arg hpa]
      simp only at h ⊢
      cases hrest : parse_token_sets parse sets with
      | error err => rw [hrest] at h; simp at h
      | ok args1 =>
        rw [hrest] at h
        rw [ih args1 hrest]
        exact h

/-- The argument list of a call is parsed the same on a stream with further
tokens at its end. -/
theorem parse_fn_args_extends (p q : Parser V) (hpq : Parser.Extends p q)
    (s s2 : TokenStream V) (suffix : Tokens V) (args : ExpressionList V) (s1 : TokenStream V)
    (h2 : s2.rest = s.rest ++ suffix)
    (h : parse_fn_args (parse_all p) s = .ok (args, s1)) :
    ∃ s3, parse_fn_args (parse_all q) s2 = .ok (args, s3) ∧ s3.rest = s1.rest ++ suffix := by
  unfold parse_fn_args at h ⊢
  rcases hs : s.rest with _ | ⟨lp, r⟩
  · simp [TokenStream.expect, empty_of_rest_nil s hs] at h
  · obtain ⟨h3, hnext2⟩ := ext_cons s s2 suffix lp r hs h2
    rw [expect_of_rest_cons s lp r _ hs] at h
    rw [expect_of_rest_cons s2 lp _ _ h3]
    by_cases hlp : lp.type = TType.LParen
    · rw [if_neg (by simp [hlp])] at h ⊢
      simp only at h ⊢
      cases hscan : scan_fn_args (s.next.remaining + 1) s.next [[]] 0 with
      | error err => rw [hscan] at h; simp at h
      | ok out =>
        obtain ⟨sets, s4⟩ := out
        rw [hscan] at h
        simp only at h
        rcases hs4 : s4.rest with _ | ⟨c, r4⟩
        · rw [if_pos (empty_of_rest_nil s4 hs4)] at h
          simp at h
        · rw [if_neg (by simp [empty_of_rest_cons s4 c r4 hs4]),
            (get_of_rest_cons s4 c r4 hs4).1] at h
          simp only at h
          obtain ⟨s5, hscan2, hrest5⟩ := scan_fn_args_extends (s.next.remaining + 1)
            (s2.next.remaining + 1) s.next s2.next suffix [[]] 0 sets s4
            (by rw [remaining_eq_length, remaining_eq_length, hnext2, List.length_append]; omega)
            hnext2 hscan (by rw [hs4]; simp)
          obtain ⟨h5, hnext5⟩ := ext_cons s4 s5 suffix c r4 hs4 hrest5
          rw [hscan2]
          simp only
          rw [if_neg (by simp [empty_of_rest_cons s5 c _ h5]), (get_of_rest_cons s5 c _ h5).1]
          simp only
          split_ifs at h ⊢ with hbare
          · simp only [Except.ok.injEq, Prod.mk.injEq] at h
            obtain ⟨rfl, rfl⟩ := h
            exact ⟨s5.next, rfl, hnext5⟩
          · cases hpts : parse_token_sets (parse_all p) sets with
            | error err => rw [hpts] at h; simp at h
            | ok args1 =>
              rw [hpts] at h
              simp only [Except.ok.injEq, Prod.mk.injEq] at h
              obtain ⟨rfl, rfl⟩ := h
              rw [parse_token_sets_extends (parse_all p) (parse_all q)
                (fun tokens e he => parse_all_extends p q hpq tokens e he) sets args1 hpts]
              exact ⟨s5.next, rfl, hnext5⟩
    · rw [if_pos (by simpa using hlp)] at h
      simp at h

theorem stopper_not (t : Token V) (h : stopper t.type = true) :
    t.type ≠ TType.LParen ∧ t.type ≠ TType.Question ∧ t.type ≠ TType.Plus
      ∧ t.type ≠ TType.Minus := by
  revert h
  cases t.type <;> simp [stopper]

/-- `parse_primary` over `q` extends `parse_primary` over `p`, when `q` extends
`p`. -/
theorem parse_primary_extends (p q : Parser V) (hpq : Parser.Extends p q) :
    Parser.Extends (parse_primary p) (parse_primary q) := by
  intro s s2 suffix e s1 h2 hstop h
  unfold parse_primary at h ⊢
  rcases hs : s.rest with _ | ⟨t, r⟩
  · rw [if_pos (empty_of_rest_nil s hs)] at h
    simp at h
  · obtain ⟨h3, hnext2⟩ := ext_cons s s2 suffix t r hs h2
    rw [if_neg (by simp [empty_of_rest_cons s t r hs]), (get_of_rest_cons s t r hs).1] at h
    rw [if_neg (by simp [empty_of_rest_cons s2 t _ h3]), (get_of_rest_cons s2 t _ h3).1]
    simp only at h ⊢
    cases htype : t.type with
    | Number =>
      rw [htype] at h
      simp only at h ⊢
      cases hv : t.get_double with
      | error err => rw [hv] at h; simp at h
      | ok value =>
        rw [hv] at h
        simp only [Except.ok.injEq, Prod.mk.injEq] at h
        obtain ⟨rfl, rfl⟩ := h
        exact ⟨s2.next, rfl, hnext2⟩
    | Identifier =>
      rw [htype] at h
      simp only at h ⊢
      cases hv : t.get_identifier with
      | error err => rw [hv] at h; simp at h
      | ok name =>
        rw [hv] at h
        simp only at h ⊢
        by_cases hcall : (!s.next.empty) = true ∧ s.next.peek_type = some TType.LParen
        · rw [if_pos hcall] at h
          have hcall2 : (!s2.next.empty) = true ∧ s2.next.peek_type = some TType.LParen := by
            rcases hn : s.next.rest with _ | ⟨x, r1⟩
            · rw [empty_of_rest_nil _ hn] at hcall
              simp at hcall
            · have hn2 : s2.next.rest = x :: (r1 ++ suffix) := by rw [hnext2, hn]; rfl
              rw [peek_type_of_rest_cons _ x r1 hn] at hcall
              rw [peek_type_of_rest_cons _ x _ hn2, empty_of_rest_cons _ x _ hn2]
              exact ⟨rfl, hcall.2⟩
          rw [if_pos hcall2]
          cases hp : parse_fn_args (parse_all p) s.next with
          | error err => rw [hp] at h; simp at h
          | ok out =>
            obtain ⟨args, s4⟩ := out
            rw [hp] at h
            simp only [Except.ok.injEq, Prod.mk.injEq] at h
            obtain ⟨rfl, rfl⟩ := h
            obtain ⟨s5, hq, hrest⟩ := parse_fn_args_extends p q hpq s.next s2.next suffix args
              s4 hnext2 hp
            rw [hq]
            exact ⟨s5, rfl, hrest⟩
        · rw [if_neg hcall] at h
          simp only [Except.ok.injEq, Prod.mk.injEq] at h
          obtain ⟨rfl, rfl⟩ := h
          have hcall2 : ¬ ((!s2.next.empty) = true ∧ s2.next.peek_type = some TType.LParen) := by
            rcases hn : s.next.rest with _ | ⟨x, r1⟩
            · rcases ext_nil s.next s2.next suffix hn hnext2 hstop with he | ⟨x, r2, he, hx⟩
              · rw [empty_of_rest_nil _ he]
                simp
              · rw [peek_type_of_rest_cons _ x r2 he]
                intro hc
                simp only [Option.some.injEq] at hc
                exact (stopper_not x hx).1 hc.2
            · have hn2 : s2.next.rest = x :: (r1 ++ suffix) := by rw [hnext2, hn]; rfl
              rw [peek_type_of_rest_cons _ x r1 hn, empty_of_rest_cons _ x r1 hn] at hcall
              rw [peek_type_of_rest_cons _ x _ hn2, empty_of_rest_cons _ x _ hn2]
              exact hcall
          rw [if_neg hcall2]
          exact ⟨s2.next, rfl, hnext2⟩
    | LParen =>
      rw [htype] at h
      simp only at h ⊢
      cases hp : p s.next with
      | error err => rw [hp] at h; simp at h
      | ok out =>
        obtain ⟨result, s4⟩ := out
        rw [hp] at h
        simp only at h
        obtain ⟨s5, hq, hrest⟩ := hpq s.next s2.next suffix result s4 hnext2 hstop hp
        rw [hq]
        simp only
        rcases hs4 : s4.rest with _ | ⟨c, r4⟩
        · rw [if_pos (empty_of_rest_nil s4 hs4)] at h
          simp at h
        · obtain ⟨h5, hnext5⟩ := ext_cons s4 s5 suffix c r4 hs4 hrest
          rw [if_neg (by simp [empty_of_rest_cons s4 c r4 hs4]),
            (get_of_rest_cons s4 c r4 hs4).1] at h
          rw [if_neg (by simp [empty_of_rest_cons s5 c _ h5]), (get_of_rest_cons s5 c _ h5).1]
          simp only at h ⊢
          split_ifs at h ⊢ with hclose
          simp only [Except.ok.injEq, Prod.mk.injEq] at h
          obtain ⟨rfl, rfl⟩ := h
          exact ⟨s5.next, rfl, hnext5⟩
    | _ =>
      rw [htype] at h
      simp at h

/-- `parse_unary` with a larger bound over `q` extends `parse_unary` over `p`. -/
theorem parse_unary_steps_extends (p q : Parser V) (hpq : Parser.Extends p q) (n : Nat) :
    ∀ m, n ≤ m → Parser.Extends (parse_unary_steps p n) (parse_unary_steps q m) := by
  induction n with
  | zero => intro m _ s s2 suffix e s1 _ _ h; simp [parse_unary_steps] at h
  | succ n ih =>
    intro m hnm s s2 suffix e s1 h2 hstop h
    obtain ⟨m, rfl⟩ : ∃ k, m = k + 1 := ⟨m - 1, by omega⟩
    rw [parse_unary_steps] at h ⊢
    rcases hs : s.rest with _ | ⟨t, r⟩
    · rw [if_pos (empty_of_rest_nil s hs)] at h
      simp at h
    · obtain ⟨h3, hnext2⟩ := ext_cons s s2 suffix t r hs h2
      rw [if_neg (by simp [empty_of_rest_cons s t r hs]), peek_type_of_rest_cons s t r hs] at h
      rw [if_neg (by simp [empty_of_rest_cons s2 t _ h3]), peek_type_of_rest_cons s2 t _ h3]
      split_ifs at h ⊢ with hsign
      · rw [(get_of_rest_cons s t r hs).1] at h
        rw [(get_of_rest_cons s2 t _ h3).1]
        simp only at h ⊢
        cases hp : parse_unary_steps p n s.next with
        | error err => rw [hp] at h; simp at h
        | ok out =>
          obtain ⟨right, s4⟩ := out
          rw [hp] at h
          simp only [Except.ok.injEq, Prod.mk.injEq] at h
          obtain ⟨rfl, rfl⟩ := h
          obtain ⟨s5, hq, hrest⟩ := ih m (by omega) s.next s2.next suffix right s4 hnext2
            hstop hp
          rw [hq]
          exact ⟨s5, rfl, hrest⟩
      · exact parse_primary_extends p q hpq s s2 suffix e s1 h2 hstop h

theorem parse_unary_extends (p q : Parser V) (hpq : Parser.Extends p q) :
    Parser.Extends (parse_unary p) (parse_unary q) := by
  intro s s2 suffix e s1 h2 hstop h
  exact parse_unary_steps_extends p q hpq (s.remaining + 1) (s2.remaining + 1)
    (by rw [remaining_eq_length, remaining_eq_length, h2, List.length_append]; omega)
    s s2 suffix e s1 h2 hstop h

/-- The loop of `abstract_parse` with a larger bound over `q` extends the loop
over `p`, for operators that are no stopper tokens. -/
theorem abstract_parse_steps_extends (p q : Parser V) (hpq : Parser.Extends p q)
    (is_operator : Token V → Bool) (assoc : Associativity)
    (hop : ∀ t, stopper t.type = true → is_operator t = false) (n : Nat) :
    ∀ (m : Nat) (s s2 : TokenStream V) (suffix : Tokens V) (left : Option (Expression V))
      (e : Expression V) (s1 : TokenStream V),
      n ≤ m → s2.rest = s.rest ++ suffix → Stops suffix →
      abstract_parse_steps p is_operator assoc n s left = .ok (e, s1) →
      ∃ s3, abstract_parse_steps q is_operator assoc m s2 left = .ok (e, s3)
        ∧ s3.rest = s1.rest ++ suffix := by
  induction n with
  | zero => intro m s s2 suffix left e s1 _ _ _ h; simp [abstract_parse_steps] at h
  | succ n ih =>
    intro m s s2 suffix left e s1 hnm h2 hstop h
    obtain ⟨m, rfl⟩ : ∃ k, m = k + 1 := ⟨m - 1, by omega⟩
    rw [abstract_parse_steps_succ] at h ⊢
    have htail : ∀ (l : Expression V) (s0 s02 : TokenStream V),
        s02.rest = s0.rest ++ suffix →
        abstract_parse_tail p is_operator assoc n l s0 = .ok (e, s1) →
        ∃ s3, abstract_parse_tail q is_operator assoc m l s02 = .ok (e, s3)
          ∧ s3.rest = s1.rest ++ suffix := by
      intro l s0 s02 h02 ht
      unfold abstract_parse_tail at ht ⊢
      rcases hs0 : s0.rest with _ | ⟨t, r⟩
      · rw [if_pos (empty_of_rest_nil s0 hs0)] at ht
        simp only [Except.ok.injEq, Prod.mk.injEq] at ht
        obtain ⟨rfl, rfl⟩ := ht
        rcases ext_nil s0 s02 suffix hs0 h02 hstop with he | ⟨x, r2, he, hx⟩
        · rw [if_pos (empty_of_rest_nil s02 he)]
          exact ⟨s02, rfl, h02⟩
        · rw [if_neg (by simp [empty_of_rest_cons s02 x r2 he]), peek_of_rest_cons s02 x r2 he]
          simp only
          rw [if_neg (by simp [hop x hx])]
          exact ⟨s02, rfl, h02⟩
      · obtain ⟨h3, hnext2⟩ := ext_cons s0 s02 suffix t r hs0 h02
        rw [if_neg (by simp [empty_of_rest_cons s0 t r hs0]), peek_of_rest_cons s0 t r hs0] at ht
        rw [if_neg (by simp [empty_of_rest_cons s02 t _ h3]), peek_of_rest_cons s02 t _ h3]
        simp only at ht ⊢
        by_cases hisop : is_operator t = true
        · rw [if_pos hisop, (get_of_rest_cons s0 t r hs0).1] at ht
          rw [if_pos hisop, (get_of_rest_cons s02 t _ h3).1]
          simp only at ht ⊢
          by_cases hright : assoc = Associativity.Right
          · rw [if_pos hright] at ht ⊢
            cases hrec : abstract_parse_steps p is_operator assoc n s0.next none with
            | error err => rw [hrec] at ht; simp at ht
            | ok out =>
              obtain ⟨right, s4⟩ := out
              rw [hrec] at ht
              simp only [Except.ok.injEq, Prod.mk.injEq] at ht
              obtain ⟨rfl, rfl⟩ := ht
              obtain ⟨s5, hq, hrest⟩ := ih m s0.next s02.next suffix none right s4 (by omega)
                hnext2 hstop hrec
              rw [hq]
              exact ⟨s5, rfl, hrest⟩
          · rw [if_neg hright] at ht ⊢
            cases hpar : p s0.next with
            | error err => rw [hpar] at ht; simp at ht
            | ok out =>
              obtain ⟨right, s4⟩ := out
              rw [hpar] at ht
              simp only at ht
              obtain ⟨s5, hq, hrest⟩ := hpq s0.next s02.next suffix right s4 hnext2 hstop hpar
              rw [hq]
              simp only
              exact ih m s4 s5 suffix _ e s1 (by omega) hrest hstop ht
        · rw [if_neg hisop] at ht ⊢
          simp only [Except.ok.injEq, Prod.mk.injEq] at ht
          obtain ⟨rfl, rfl⟩ := ht
          exact ⟨s02, rfl, h02⟩
    cases left with
    | some l =>
      simp only at h ⊢
      exact htail l s s2 h2 h
    | none =>
      simp only at h ⊢
      cases hpar : p s with
      | error err => rw [hpar] at h; simp at h
      | ok out =>
        obtain ⟨l, s0⟩ := out
        rw [hpar] at h
        simp only at h
        obtain ⟨s02, hq, hrest⟩ := hpq s s2 suffix l s0 h2 hstop hpar
        rw [hq]
        simp only
        exact htail l s0 s02 hrest h

/-- `abstract_parse` over `q` extends `abstract_parse` over `p`, for operators
that are no stopper tokens. -/
theorem abstract_parse_extends (p q : Parser V) (hpq : Parser.Extends p q)
    (operators : List TType) (assoc : Associativity)
    (hop : ∀ type ∈ operators, stopper type = false) :
    Parser.Extends (fun s => abstract_parse s p operators assoc)
      (fun s => abstract_parse s q operators assoc) := by
  intro s s2 suffix e s1 h2 hstop h
  refine abstract_parse_steps_extends p q hpq (valid_operator operators) assoc ?_
    (s.remaining + 1) (s2.remaining + 1) s s2 suffix none e s1
    (by rw [remaining_eq_length, remaining_eq_length, h2, List.length_append]; omega)
    h2 hstop h
  intro t ht
  cases hv : valid_operator operators t with
  | false => rfl
  | true =>
    have := hop t.type (valid_operator_type operators t hv)
    rw [ht] at this
    exact absurd this (by simp)

theorem parse_power_extends (p q : Parser V) (hpq : Parser.Extends p q) :
    Parser.Extends (parse_power p) (parse_power q) :=
  abstract_parse_extends _ _ (parse_unary_extends p q hpq) _ _ (by decide)

theorem parse_term_extends (p q : Parser V) (hpq : Parser.Extends p q) :
    Parser.Extends (parse_term p) (parse_term q) :=
  abstract_parse_extends _ _ (parse_power_extends p q hpq) _ _ (by decide)

theorem parse_additive_extends (p q : Parser V) (hpq : Parser.Extends p q) :
    Parser.Extends (parse_additive p) (parse_additive q) :=
  abstract_parse_extends _ _ (parse_term_extends p q hpq) _ _ (by decide)

theorem parse_relational_extends (p q : Parser V) (hpq : Parser.Extends p q) :
    Parser.Extends (parse_relational p) (parse_relational q) :=
  abstract_parse_extends _ _ (parse_additive_extends p q hpq) _ _ (by decide)

theorem parse_equality_extends (p q : Parser V) (hpq : Parser.Extends p q) :
    Parser.Extends (parse_equality p) (parse_equality q) :=
  abstract_parse_extends _ _ (parse_relational_extends p q hpq) _ _ (by decide)

/-- `parse_ternary` with a larger bound over `q` extends `parse_ternary` over
`p`. -/
theorem parse_ternary_steps_extends (p q : Parser V) (hpq : Parser.Extends p q) (n : Nat) :
    ∀ m, n ≤ m → Parser.Extends (parse_ternary_steps p n) (parse_ternary_steps q m) := by
  induction n with
  | zero => intro m _ s s2 suffix e s1 _ _ h; simp [parse_ternary_steps] at h
  | succ n ih =>
    intro m hnm s s2 suffix e s1 h2 hstop h
    obtain ⟨m, rfl⟩ : ∃ k, m = k + 1 := ⟨m - 1, by omega⟩
    rw [parse_ternary_steps] at h ⊢
    cases hcond : parse_equality p s with
    | error err => rw [hcond] at h; simp at h
    | ok out =>
      obtain ⟨condition, s4⟩ := out
      rw [hcond] at h
      simp only at h
      obtain ⟨s5, hq, hrest⟩ := parse_equality_extends p q hpq s s2 suffix condition s4 h2
        hstop hcond
      rw [hq]
      simp only
      by_cases hquestion : (!s4.empty) = true ∧ s4.peek_type = some TType.Question
      · rw [if_pos hquestion] at h
        rcases hs4 : s4.rest with _ | ⟨qt, r4⟩
        · rw [empty_of_rest_nil _ hs4] at hquestion
          simp at hquestion
        · obtain ⟨h5, hnext5⟩ := ext_cons s4 s5 suffix qt r4 hs4 hrest
          rw [peek_type_of_rest_cons _ qt r4 hs4] at hquestion
          rw [if_pos (by
            rw [peek_type_of_rest_cons _ qt _ h5, empty_of_rest_cons _ qt _ h5]
            exact ⟨rfl, hquestion.2⟩)]
          rw [(get_of_rest_cons s4 qt r4 hs4).1] at h
          rw [(get_of_rest_cons s5 qt _ h5).1]
          simp only at h ⊢
          cases hthen : parse_ternary_steps p n s4.next with
          | error err => rw [hthen] at h; simp at h
          | ok out2 =>
            obtain ⟨then_branch, s6⟩ := out2
            rw [hthen] at h
            simp only at h
            obtain ⟨s7, hq2, hrest7⟩ := ih m (by omega) s4.next s5.next suffix then_branch s6
              hnext5 hstop hthen
            rw [hq2]
            simp only
            rcases hs6 : s6.rest with _ | ⟨c, r6⟩
            · rw [if_pos (empty_of_rest_nil s6 hs6)] at h
              simp at h
            · obtain ⟨h7, hnext7⟩ := ext_cons s6 s7 suffix c r6 hs6 hrest7
              rw [if_neg (by simp [empty_of_rest_cons s6 c r6 hs6]),
                (get_of_rest_cons s6 c r6 hs6).1] at h
              rw [if_neg (by simp [empty_of_rest_cons s7 c _ h7]),
                (get_of_rest_cons s7 c _ h7).1]
              simp only at h ⊢
              split_ifs at h ⊢ with hcolon
              cases helse : parse_ternary_steps p n s6.next with
              | error err => rw [helse] at h; simp at h
              | ok out3 =>
                obtain ⟨else_branch, s8⟩ := out3
                rw [helse] at h
                simp only [Except.ok.injEq, Prod.mk.injEq] at h
                obtain ⟨rfl, rfl⟩ := h
                obtain ⟨s9, hq3, hrest9⟩ := ih m (by omega) s6.next s7.next suffix else_branch
                  s8 hnext7 hstop helse
                rw [hq3]
                exact ⟨s9, rfl, hrest9⟩
      · rw [if_neg hquestion] at h
        simp only [Except.ok.injEq, Prod.mk.injEq] at h
        obtain ⟨rfl, rfl⟩ := h
        have hquestion2 : ¬ ((!s5.empty) = true ∧ s5.peek_type = some TType.Question) := by
          rcases hs4 : s4.rest with _ | ⟨x, r4⟩
          · rcases ext_nil s4 s5 suffix hs4 hrest hstop with he | ⟨x, r2, he, hx⟩
            · rw [empty_of_rest_nil _ he]
              simp
            · rw [peek_type_of_rest_cons _ x r2 he]
              intro hc
              simp only [Option.some.injEq] at hc
              exact (stopper_not x hx).2.1 hc.2
          · obtain ⟨h5, -⟩ := ext_cons s4 s5 suffix x r4 hs4 hrest
            rw [peek_type_of_rest_cons _ x r4 hs4, empty_of_rest_cons _ x r4 hs4] at hquestion
            rw [peek_type_of_rest_cons _ x _ h5, empty_of_rest_cons _ x _ h5]
            exact hquestion
        rw [if_neg hquestion2]
        exact ⟨s5, rfl, hrest⟩

theorem parse_ternary_extends (p q : Parser V) (hpq : Parser.Extends p q) :
    Parser.Extends (parse_ternary p) (parse_ternary q) := by
  intro s s2 suffix e s1 h2 hstop h
  exact parse_ternary_steps_extends p q hpq (s.remaining + 1) (s2.remaining + 1)
    (by rw [remaining_eq_length, remaining_eq_length, h2, List.length_append]; omega)
    s s2 suffix e s1 h2 hstop h

/-- `parse_assignment` with a larger nesting bound extends `parse_assignment`. -/
theorem parse_assignment_extends (n : Nat) :
    ∀ m, n ≤ m → Parser.Extends (parse_assignment n : Parser V) (parse_assignment m) := by
  induction n with
  | zero => intro m _ s s2 suffix e s1 _ _ h; simp [parse_assignment] at h
  | succ n ih =>
    intro m hnm
    obtain ⟨m, rfl⟩ : ∃ k, m = k + 1 := ⟨m - 1, by omega⟩
    have := abstract_parse_extends _ _
      (parse_ternary_extends (parse_assignment n) (parse_assignment m) (ih m (by omega)))
      [TType.Equals] .Right (by decide)
    exact this

/-! ### C17: leftover tokens -/

/-- What `parse` returns is what `parse(TokenStream&)` returns on a stream it
leaves exhausted; on a stream it leaves with a token, `parse` fails naming
the type of that token. -/
theorem parse_all_cases (p : Parser V) (tokens : Tokens V) :
    (∀ e, parse_all p tokens = .ok e ↔
      ∃ s1, p (TokenStream.mk_stream tokens) = .ok (e, s1) ∧ s1.rest = [])
    ∧ (∀ e s1 t r, p (TokenStream.mk_stream tokens) = .ok (e, s1) → s1.rest = t :: r →
        parse_all p tokens
          = .error (.ParseError ("Unexpected token '" ++ to_string t.type ++ "'"))) := by
  constructor
  · intro e
    unfold parse_all
    cases hp : p (TokenStream.mk_stream tokens) with
    | error err => simp
    | ok out =>
      obtain ⟨e1, s1⟩ := out
      simp only
      rcases hs1 : s1.rest with _ | ⟨t, r⟩
      · rw [empty_of_rest_nil s1 hs1]
        simp only [Bool.not_true, Bool.false_eq_true, if_false, Except.ok.injEq, Prod.mk.injEq]
        constructor
        · rintro rfl
          exact ⟨s1, ⟨rfl, rfl⟩, hs1⟩
        · rintro ⟨s2, ⟨he, -⟩, -⟩
          exact he
      · rw [empty_of_rest_cons s1 t r hs1, peek_of_rest_cons s1 t r hs1]
        simp only [Bool.not_false, if_true, Except.ok.injEq, Prod.mk.injEq]
        constructor
        · intro hh
          simp at hh
        · rintro ⟨s2, ⟨-, rfl⟩, hr⟩
          rw [hs1] at hr
          simp at hr
  · intro e s1 t r hp hs1
    unfold parse_all
    rw [hp]
    simp only
    rw [empty_of_rest_cons s1 t r hs1, peek_of_rest_cons s1 t r hs1]
    rfl

/-- C17. Leftover tokens are rejected. For every token sequence `ts` that
`parse` accepts and every extra token of type Number, Identifier or RParen
(and likewise Colon or Comma), `parse` of `ts` followed by the extra token
fails with the ParseError `Unexpected token '<display name of the type of the
extra token>'`. `parse` returns a tree only when every token has been
consumed: the tree is the one `parse(TokenStream&)` returns, and the stream
is exhausted after it; whenever `parse(TokenStream&)` returns and leaves a
token, `parse` fails with `Unexpected token` naming the type of the first
token left. The tokens of `1 2` give `Unexpected token 'Number'`. -/
theorem C17_leftover_tokens (A : Arith V) (ts : Tokens V) (e : Expression V)
    (h : parse ts = .ok e) :
    (∀ extra : Token V,
        extra.type = TType.Number ∨ extra.type = TType.Identifier
          ∨ extra.type = TType.RParen →
        parse (ts ++ [extra])
          = .error (.ParseError ("Unexpected token '" ++ to_string extra.type ++ "'")))
    ∧ (∀ extra : Token V, extra.type = TType.Colon ∨ extra.type = TType.Comma →
        parse (ts ++ [extra])
          = .error (.ParseError ("Unexpected token '" ++ to_string extra.type ++ "'")))
    ∧ (∃ s1, parse_stream (ts.length + 1) (TokenStream.mk_stream ts) = .ok (e, s1)
        ∧ s1.empty = true ∧ s1.remaining = 0)
    ∧ (∀ (tokens : Tokens V) (e1 : Expression V) (s1 : TokenStream V) (t : Token V)
        (r : Tokens V),
        parse_stream (tokens.length + 1) (TokenStream.mk_stream tokens) = .ok (e1, s1) →
        s1.rest = t :: r →
        parse tokens
          = .error (.ParseError ("Unexpected token '" ++ to_string t.type ++ "'")))
    ∧ (∀ x y : V, parse [Token.number x, Token.number y]
        = .error (.ParseError "Unexpected token 'Number'"))
    ∧ (A.ExactOnNat →
        (tokenize A "1 2").bind parse = .error (.ParseError "Unexpected token 'Number'")) := by
  obtain ⟨s1, hp, hs1⟩ := ((parse_all_cases (parse_stream (ts.length + 1)) ts).1 e).mp h
  have hstop : ∀ extra : Token V, stopper extra.type = true →
      parse (ts ++ [extra])
        = .error (.ParseError ("Unexpected token '" ++ to_string extra.type ++ "'")) := by
    intro extra hx
    obtain ⟨s3, hq, hrest⟩ := parse_assignment_extends (ts.length + 1) ((ts ++ [extra]).length + 1)
      (by simp) (TokenStream.mk_stream ts) (TokenStream.mk_stream (ts ++ [extra])) [extra] e s1
      (by simp [rest_mk_stream]) (fun t ht => by
        simp only [List.head?_cons, Option.mem_def, Option.some.injEq] at ht
        rw [← ht]
        exact hx) hp
    rw [hs1, List.nil_append] at hrest
    exact (parse_all_cases (parse_stream ((ts ++ [extra]).length + 1)) (ts ++ [extra])).2
      e s3 extra [] hq hrest
  refine ⟨?_, ?_, ⟨s1, hp, empty_of_rest_nil s1 hs1, ?_⟩, ?_, ?_, ?_⟩
  · intro extra hx
    apply hstop
    rcases hx with hx | hx | hx <;> rw [hx] <;> rfl
  · intro extra hx
    apply hstop
    rcases hx with hx | hx <;> rw [hx] <;> rfl
  · rw [remaining_eq_length, hs1]
    rfl
  · intro tokens e1 s2 t r hp2 hs2
    exact (parse_all_cases (parse_stream (tokens.length + 1)) tokens).2 e1 s2 t r hp2 hs2
  · intro x y
    rfl
  · intro hA
    have d1 : A.stod ['1'] = some (A.ofNat 1) :=
      stod_nat_lit A hA _ 1 (by simp) (by decide) (by decide) (by decide)
    have d2 : A.stod ['2'] = some (A.ofNat 2) :=
      stod_nat_lit A hA _ 2 (by simp) (by decide) (by decide) (by decide)
    have htok : tokenize A "1 2" = .ok [Token.number (A.ofNat 1), Token.number (A.ofNat 2)] := by
      have hl : "1 2".length = 3 := by decide
      have ht : "1 2".toList = ['1', ' ', '2'] := by decide
      simp +decide [tokenize, hl, ht, tokenize_loop, scan_number, d1, d2]
    rw [htok]
    rfl

/-- C17 at concrete inputs: `parse` accepts the tokens of `(1)`, and rejects
them followed by a Number, an Identifier or an RParen token, naming the type
of the extra token. -/
theorem C17_leftover_tokens_witness :
    parse [Token.op .LParen, Token.number (1 : ℚ), Token.op .RParen] = .ok (.Number 1)
    ∧ parse ([Token.op .LParen, Token.number (1 : ℚ), Token.op .RParen] ++ [Token.number 2])
        = .error (.ParseError ("Unexpected token '" ++ to_string TType.Number ++ "'"))
    ∧ parse ([Token.op .LParen, Token.number (1 : ℚ), Token.op .RParen]
          ++ [Token.identifier "x"])
        = .error (.ParseError ("Unexpected token '" ++ to_string TType.Identifier ++ "'"))
    ∧ parse ([Token.op .LParen, Token.number (1 : ℚ), Token.op .RParen] ++ [Token.op .RParen])
        = .error (.ParseError ("Unexpected token '" ++ to_string TType.RParen ++ "'"))
    ∧ "Unexpected token '" ++ to_string TType.Number ++ "'" = "Unexpected token 'Number'" :=
  ⟨rfl,
    (C17_leftover_tokens Arith.rat [Token.op .LParen, Token.number (1 : ℚ), Token.op .RParen]
      (.Number 1) rfl).1 (Token.number 2) (Or.inl rfl),
    (C17_leftover_tokens Arith.rat [Token.op .LParen, Token.number (1 : ℚ), Token.op .RParen]
      (.Number 1) rfl).1 (Token.identifier "x") (Or.inr (Or.inl rfl)),
    (C17_leftover_tokens Arith.rat [Token.op .LParen, Token.number (1 : ℚ), Token.op .RParen]
      (.Number 1) rfl).1 (Token.op .RParen) (Or.inr (Or.inr rfl)),
    by decide⟩

/-! ### C21: a second dot in a number -/

/-- The number scan takes leading digits and goes on with what follows. -/
theorem scan_number_digits_then (ds xs : List Char) (seen_dot : Bool)
    (hds : ∀ ch ∈ ds, is_digit ch = true) :
    scan_number (ds ++ xs) seen_dot
      = (ds ++ (scan_number xs seen_dot).1, (scan_number xs seen_dot).2) := by
  induction ds with
  | nil => rfl
  | cons d ds ih =>
    have hd : is_digit d = true := hds d (by simp)
    have hne : d ≠ '.' := is_digit_ne_dot d hd
    simp [scan_number, hd, hne, ih (fun ch hch => hds ch (by simp [hch]))]

/-- The number scan of a text with two dots stops before the second dot. -/
theorem scan_number_two_dots (d1 d2 rest : List Char)
    (hd1 : ∀ ch ∈ d1, is_digit ch = true) (hd2 : ∀ ch ∈ d2, is_digit ch = true) :
    scan_number (d1 ++ '.' :: (d2 ++ '.' :: rest)) false
      = (d1 ++ '.' :: d2, '.' :: rest) := by
  rw [scan_number_digits_then d1 _ false hd1, scan_number]
  simp only [if_true, Bool.false_eq_true, if_false]
  rw [scan_number_digits_then d2 _ true hd2, scan_number]
  simp

/-- The number scan of a dot followed by digits and nothing else takes all. -/
theorem scan_number_dot_digits (ds : List Char) (hds : ∀ ch ∈ ds, is_digit ch = true) :
    scan_number ('.' :: ds) false = ('.' :: ds, []) := by
  have := scan_number_digits_then ds [] true hds
  rw [List.append_nil] at this
  rw [scan_number]
  simp only [if_true, Bool.false_eq_true, if_false, this]
  simp [scan_number]

/-- The iteration at a dot that no digit follows fails, naming the dot and
the position. -/
theorem tokenize_loop_lone_dot (A : Arith V) (steps pos : Nat) (rest : List Char)
    (result : Tokens V) (h : next_is_digit rest = false) :
    tokenize_loop A (steps + 1) ('.' :: rest) pos result
      = .error (.ParseError
          ("Could not parse character '.' at position " ++ toString pos)) := by
  rw [tokenize_loop_step,
    lex_one_of_step A '.' rest pos _ (LexStep.unknown (Or.inr ⟨rfl, h⟩))]
  rfl

/-- The lexer on a number text with a second dot: the number ends before the
second dot, and the loop goes on at that dot. -/
theorem tokenize_second_dot (A : Arith V) (d1 d2 rest : List Char) (v1 : V)
    (h1 : d1 ≠ []) (hd1 : ∀ ch ∈ d1, is_digit ch = true)
    (hd2 : ∀ ch ∈ d2, is_digit ch = true)
    (hv1 : A.stod (d1 ++ '.' :: d2) = some v1) :
    tokenize A (String.mk (d1 ++ '.' :: (d2 ++ '.' :: rest)))
      = tokenize_loop A (d1.length + d2.length + rest.length + 1 + 1) ('.' :: rest)
          (d1.length + 1 + d2.length) [Token.number v1] := by
  obtain ⟨c, d1, rfl⟩ := List.exists_cons_of_ne_nil h1
  have hc : is_digit c = true := hd1 c (by simp)
  have hs := scan_number_two_dots (c :: d1) d2 rest hd1 hd2
  rw [List.cons_append] at hs
  rw [tokenize_mk, List.cons_append, tokenize_loop_digit A _ 0 c _ [] hc, hs]
  simp only [hv1, List.nil_append, List.length_cons, List.length_append, Nat.zero_add]
  have e1 : d1.length + (d2.length + (rest.length + 1) + 1) + 1
      = d1.length + 1 + d2.length + rest.length + 1 + 1 := by omega
  have e2 : d1.length + 1 + (d2.length + 1) = d1.length + 1 + 1 + d2.length := by omega
  rw [e1, e2]

/-- C21, as the code has it. A second `.` in a number ends the number token
without error; the `.` that follows is rejected as an unparseable character
only when no digit follows it. For every non-empty digit string `d1` and
every digit string `d2` (non-empty or not) such that `std::stod` converts
`d1.d2` to `v1`: for every non-empty digit
string `d3` such that `std::stod` converts `.d3` to `v2`, `tokenize` of
`d1.d2.d3` returns the two Number tokens `v1` and `v2`, the second dot
starting the number `.d3`; and for every text `rest` that does not start
with a digit (the empty text included), `tokenize` of `d1.d2.` followed by
`rest` fails with the ParseError "Could not parse character '.' at position
p", where `p` is the position of the second dot. -/
theorem C21_second_dot (A : Arith V) (d1 d2 : List Char) (v1 : V)
    (h1 : d1 ≠ []) (hd1 : ∀ ch ∈ d1, is_digit ch = true)
    (hd2 : ∀ ch ∈ d2, is_digit ch = true)
    (hv1 : A.stod (d1 ++ '.' :: d2) = some v1) :
    (∀ (d3 : List Char) (v2 : V), d3 ≠ [] → (∀ ch ∈ d3, is_digit ch = true) →
        A.stod ('.' :: d3) = some v2 →
        tokenize A (String.mk (d1 ++ '.' :: (d2 ++ '.' :: d3)))
          = .ok [Token.number v1, Token.number v2])
    ∧ (∀ rest : List Char, next_is_digit rest = false →
        tokenize A (String.mk (d1 ++ '.' :: (d2 ++ '.' :: rest)))
          = .error (.ParseError ("Could not parse character '.' at position "
              ++ toString (d1.length + 1 + d2.length)))) := by
  constructor
  · intro d3 v2 h3 hd3 hv2
    obtain ⟨c, d3, rfl⟩ := List.exists_cons_of_ne_nil h3
    have hnext : next_is_digit (c :: d3) = true := hd3 c (by simp)
    rw [tokenize_second_dot A d1 d2 _ v1 h1 hd1 hd2 hv1,
      tokenize_loop_dot A _ _ _ _ hnext, scan_number_dot_digits _ hd3]
    simp only [hv2]
    rfl
  · intro rest hrest
    rw [tokenize_second_dot A d1 d2 rest v1 h1 hd1 hd2 hv1]
    exact tokenize_loop_lone_dot A _ _ rest _ hrest

/-- C21, on concrete texts in rational arithmetic: `1.2.3` gives the Number
tokens 6/5 and 3/10, while `1.2.` and `1.2.x` fail at position 3. -/
theorem C21_second_dot_witness :
    tokenize Arith.rat (String.mk (['1'] ++ '.' :: (['2'] ++ '.' :: ['3'])))
        = .ok [Token.number (6 / 5 : ℚ), Token.number (3 / 10 : ℚ)]
      ∧ tokenize Arith.rat (String.mk (['1'] ++ '.' :: (['2'] ++ '.' :: [])))
        = .error (.ParseError "Could not parse character '.' at position 3")
      ∧ tokenize Arith.rat (String.mk (['1'] ++ '.' :: (['2'] ++ '.' :: ['x'])))
        = .error (.ParseError "Could not parse character '.' at position 3") := by
  have h := C21_second_dot Arith.rat ['1'] ['2'] (6 / 5 : ℚ) (by simp) (by decide)
    (by decide) (by simp [Arith.rat, rat_stod, decimal_value]; norm_num)
  exact ⟨h.1 ['3'] (3 / 10 : ℚ) (by simp) (by decide)
      (by simp [Arith.rat, rat_stod, decimal_value]),
    h.2 [] rfl, h.2 ['x'] (by decide)⟩

/-- C21, the claim as stated fails: `tokenize` of `1.2.3` does not fail with
a ParseError at the second dot. It returns two Number tokens, `1.2` and
`.3`, because a dot that a digit follows starts a number. -/
theorem C21_second_dot_counterexample :
    tokenize Arith.rat "1.2.3" = .ok [Token.number (6 / 5 : ℚ), Token.number (3 / 10 : ℚ)]
      ∧ ¬ ∃ message, tokenize Arith.rat "1.2.3" = .error (.ParseError message) := by
  have h : tokenize Arith.rat "1.2.3"
      = .ok [Token.number (6 / 5 : ℚ), Token.number (3 / 10 : ℚ)] := by
    have e : "1.2.3" = String.mk (['1'] ++ '.' :: (['2'] ++ '.' :: ['3'])) := by decide
    rw [e, tokenize_second_dot Arith.rat ['1'] ['2'] ['3'] (6 / 5 : ℚ) (by simp) (by decide)
      (by decide) (by simp [Arith.rat, rat_stod, decimal_value]; norm_num),
      tokenize_loop_dot Arith.rat _ _ _ _ (by decide), scan_number_dot_digits _ (by decide)]
    have hv : Arith.rat.stod ['.', '3'] = some (3 / 10 : ℚ) := by
      simp [Arith.rat, rat_stod, decimal_value]
    simp only [hv]
    rfl
  refine ⟨h, ?_⟩
  rintro ⟨message, hm⟩
  rw [h] at hm
  cases hm

/-! ### C22: identifier and number tokens are maximal runs -/

/-- No prefix of the input made of letters, digits and underscores is longer
than what the identifier scan takes. -/
theorem scan_identifier_longest (xs : List Char) :
    ∀ p : List Char, p <+: xs → (∀ ch ∈ p, is_alnum ch = true ∨ ch = '_') →
      p.length ≤ (scan_identifier xs).1.length := by
  induction xs with
  | nil =>
    intro p hp _
    rw [List.prefix_nil] at hp
    subst hp
    exact Nat.zero_le _
  | cons x xs ih =>
    intro p hp h
    cases p with
    | nil => exact Nat.zero_le _
    | cons a p =>
      obtain ⟨rfl, hp1⟩ := List.cons_prefix_cons.mp hp
      have ha : (is_alnum a || decide (a = '_')) = true := by
        rcases h a (by simp) with ha | ha <;> simp [ha]
      rw [scan_identifier, if_pos ha]
      simp only [List.length_cons]
      exact Nat.succ_le_succ (ih p hp1 (fun ch hch => h ch (by simp [hch])))

/-- The number scan takes at most one dot, none if one was seen before. -/
theorem scan_number_count (xs : List Char) (seen_dot : Bool) :
    (scan_number xs seen_dot).1.count '.' + (if seen_dot then 1 else 0) ≤ 1 := by
  induction xs generalizing seen_dot with
  | nil => cases seen_dot <;> simp [scan_number]
  | cons x xs ih =>
    rw [scan_number]
    by_cases h1 : x = '.'
    · subst h1
      cases seen_dot
      · have := ih true
        simp only [if_true, Bool.false_eq_true, if_false, List.count_cons_self] at this ⊢
        omega
      · simp
    · by_cases h3 : is_digit x = true
      · have := ih seen_dot
        simp only [h1, if_false, h3, Bool.not_true, Bool.false_eq_true]
        rw [List.count_cons_of_ne (Ne.symm h1)]
        exact this
      · simp only [Bool.not_eq_true] at h3
        simp only [h1, if_false, h3, Bool.not_false, if_true]
        cases seen_dot <;> simp

/-- No prefix of the input made of digits and at most one dot (no dot, if one
was seen before) is longer than what the number scan takes. -/
theorem scan_number_longest (xs : List Char) :
    ∀ (seen_dot : Bool) (p : List Char), p <+: xs →
      (∀ ch ∈ p, is_digit ch = true ∨ ch = '.') →
      p.count '.' + (if seen_dot then 1 else 0) ≤ 1 →
      p.length ≤ (scan_number xs seen_dot).1.length := by
  induction xs with
  | nil =>
    intro seen_dot p hp _ _
    rw [List.prefix_nil] at hp
    subst hp
    exact Nat.zero_le _
  | cons x xs ih =>
    intro seen_dot p hp h hc
    cases p with
    | nil => exact Nat.zero_le _
    | cons a p =>
      obtain ⟨rfl, hp1⟩ := List.cons_prefix_cons.mp hp
      have hrest : ∀ ch ∈ p, is_digit ch = true ∨ ch = '.' := fun ch hch => h ch (by simp [hch])
      rw [scan_number]
      by_cases h1 : a = '.'
      · subst h1
        simp only [List.count_cons_self] at hc
        have hs : seen_dot = false := by
          cases seen_dot
          · rfl
          · simp at hc
        subst hs
        simp only [if_true, Bool.false_eq_true, if_false, List.length_cons]
        exact Nat.succ_le_succ (ih true p hp1 hrest (by simp at hc ⊢; omega))
      · have hd : is_digit a = true := (h a (by simp)).resolve_right h1
        simp only [h1, if_false, hd, Bool.not_true, Bool.false_eq_true, List.length_cons]
        refine Nat.succ_le_succ (ih seen_dot p hp1 hrest ?_)
        have hx : ('.' == a) = false := by
          simp only [beq_eq_false_iff_ne, ne_eq]
          exact fun h => h1 h.symm
        simpa [List.count_cons, h1] using hc
/-- C22. Identifier and Number tokens are maximal runs, and whitespace
produces no token. (1) At a letter or underscore the lexer pushes one
Identifier token whose name `run` is a prefix of the input from there on,
made of letters, digits and underscores only, such that no prefix of the
input made of such characters is longer, and goes on right after `run`.
(2) At a digit, or at a `.` immediately followed by a digit, the text `run`
of the number is a prefix of the input from there on, made of digits and at
most one `.`, such that no prefix of the input made of digits and at most one
`.` is longer; when `std::stod` converts `run` to `value`, the lexer pushes
the one Number token `value` and goes on right after `run`. (3) At a
whitespace character the lexer pushes nothing and goes on at the next
character. (4) `_` and `y_1` are each one Identifier token; `1.5` and `.25`
are each one Number token, when `std::stod` converts them. (5) When
`std::stod` converts `1.5`, `2` and `.25`, the text
`sin(x) + 1.5<=2 ? y_1 : .25` yields exactly 12 tokens, of the types
Identifier, LParen, Identifier, RParen, Plus, Number, LessEqual, Number,
Question, Identifier, Colon, Number. -/
theorem C22_maximal_runs (A : Arith V) (a b c : V)
    (ha : A.stod ['1', '.', '5'] = some a) (hb : A.stod ['2'] = some b)
    (hc : A.stod ['.', '2', '5'] = some c) :
    (∀ (steps pos : Nat) (first : Char) (rest : List Char) (result : Tokens V),
        (is_alpha first = true ∨ first = '_') →
        ∃ run after, first :: rest = run ++ after
          ∧ (∀ ch ∈ run, is_alnum ch = true ∨ ch = '_')
          ∧ (∀ p, p <+: first :: rest → (∀ ch ∈ p, is_alnum ch = true ∨ ch = '_') →
              p.length ≤ run.length)
          ∧ tokenize_loop A (steps + 1) (first :: rest) pos result
            = tokenize_loop A steps after (pos + run.length)
                (result ++ [Token.identifier (String.mk run)]))
    ∧ (∀ (steps pos : Nat) (first : Char) (rest : List Char) (result : Tokens V),
        (is_digit first = true ∨ (first = '.' ∧ next_is_digit rest = true)) →
        ∃ run after, first :: rest = run ++ after
          ∧ (∀ ch ∈ run, is_digit ch = true ∨ ch = '.') ∧ run.count '.' ≤ 1
          ∧ (∀ p, p <+: first :: rest → (∀ ch ∈ p, is_digit ch = true ∨ ch = '.') →
              p.count '.' ≤ 1 → p.length ≤ run.length)
          ∧ ∀ value, A.stod run = some value →
              tokenize_loop A (steps + 1) (first :: rest) pos result
                = tokenize_loop A steps after (pos + run.length)
                    (result ++ [Token.number value]))
    ∧ (∀ (steps pos : Nat) (first : Char) (rest : List Char) (result : Tokens V),
        is_space first = true →
        tokenize_loop A (steps + 1) (first :: rest) pos result
          = tokenize_loop A steps rest (pos + 1) result)
    ∧ tokenize A "_" = .ok [Token.identifier "_"]
    ∧ tokenize A "y_1" = .ok [Token.identifier "y_1"]
    ∧ tokenize A "1.5" = .ok [Token.number a]
    ∧ tokenize A ".25" = .ok [Token.number c]
    ∧ tokenize A "sin(x) + 1.5<=2 ? y_1 : .25"
        = .ok [Token.identifier "sin", Token.op .LParen, Token.identifier "x",
            Token.op .RParen, Token.op .Plus, Token.number a, Token.op .LessEqual,
            Token.number b, Token.op .Question, Token.identifier "y_1", Token.op .Colon,
            Token.number c]
    ∧ ([Token.identifier "sin", Token.op .LParen, Token.identifier "x",
            Token.op .RParen, Token.op .Plus, Token.number a, Token.op .LessEqual,
            Token.number b, Token.op .Question, Token.identifier "y_1", Token.op .Colon,
            Token.number c].map (fun t => t.type)
        = [.Identifier, .LParen, .Identifier, .RParen, .Plus, .Number, .LessEqual, .Number,
            .Question, .Identifier, .Colon, .Number]) := by
  refine ⟨?_, ?_, ?_, ?_, ?_, ?_, ?_, ?_, rfl⟩
  · intro steps pos first rest result hfirst
    refine ⟨(scan_identifier (first :: rest)).1, (scan_identifier (first :: rest)).2,
      (scan_identifier_split _).symm, ?_, scan_identifier_longest _,
      tokenize_loop_alpha A steps pos first rest result hfirst⟩
    intro ch hch
    have := scan_identifier_chars _ ch hch
    simpa using this
  · intro steps pos first rest result hfirst
    refine ⟨(scan_number (first :: rest) false).1, (scan_number (first :: rest) false).2,
      (scan_number_split _ _).symm, scan_number_chars _ _, ?_, ?_, ?_⟩
    · simpa using scan_number_count (first :: rest) false
    · intro p hp hchars hcount
      exact scan_number_longest _ false p hp hchars (by simpa using hcount)
    · intro value hvalue
      rcases hfirst with hd | ⟨rfl, hd⟩
      · rw [tokenize_loop_digit A steps pos first rest result hd]
        simp only [hvalue]
      · rw [tokenize_loop_dot A steps pos rest result hd]
        simp only [hvalue]
  · intro steps pos first rest result hfirst
    exact tokenize_loop_space A steps pos first rest result hfirst
  · rfl
  · rfl
  · have hl : "1.5".length = 3 := by decide
    have ht : "1.5".toList = ['1', '.', '5'] := by decide
    simp +decide [tokenize, hl, ht, tokenize_loop, scan_number, ha]
  · have hl : ".25".length = 3 := by decide
    have ht : ".25".toList = ['.', '2', '5'] := by decide
    simp +decide [tokenize, hl, ht, tokenize_loop, scan_number, hc, next_is_digit]
  · have hl : "sin(x) + 1.5<=2 ? y_1 : .25".length = 27 := by decide
    have ht : "sin(x) + 1.5<=2 ? y_1 : .25".toList
        = ['s', 'i', 'n', '(', 'x', ')', ' ', '+', ' ', '1', '.', '5', '<', '=', '2', ' ', '?',
            ' ', 'y', '_', '1', ' ', ':', ' ', '.', '2', '5'] := by decide
    simp +decide [tokenize, hl, ht, tokenize_loop, scan_number, scan_identifier, ha, hb, hc,
      next_is_digit, next_is_equals]

/-- C22, in rational arithmetic, where `1.5`, `2` and `.25` denote 3/2, 2
and 1/4. -/
theorem C22_maximal_runs_witness :
    tokenize Arith.rat "sin(x) + 1.5<=2 ? y_1 : .25"
      = .ok [Token.identifier "sin", Token.op .LParen, Token.identifier "x",
          Token.op .RParen, Token.op .Plus, Token.number (3 / 2 : ℚ), Token.op .LessEqual,
          Token.number (2 : ℚ), Token.op .Question, Token.identifier "y_1", Token.op .Colon,
          Token.number (1 / 4 : ℚ)] :=
  (C22_maximal_runs Arith.rat (3 / 2 : ℚ) 2 (1 / 4 : ℚ)
    (by simp [Arith.rat, rat_stod, decimal_value]; norm_num)
    (by simp [Arith.rat, rat_stod, decimal_value])
    (by simp [Arith.rat, rat_stod, decimal_value]; norm_num)).2.2.2.2.2.2.2.1

/-! ### C23: a result carries a value or an info, never both -/

/-- What `define_function` returns has an info and no value. -/
theorem define_function_result (A : Arith V) (left right : Expression V) (state state1 : State V)
    (result : EvalResult V) (h : define_function A left right state = (.ok result, state1)) :
    result.value = none ∧ result.info.isSome = true := by
  unfold define_function at h
  split at h
  · split_ifs at h
    · simp at h
    · split at h
      · simp at h
      · simp only [Prod.mk.injEq, Except.ok.injEq] at h
        obtain ⟨rfl, -⟩ := h
        exact ⟨rfl, rfl⟩
  · simp at h

/-- What `evaluate` returns: an info and no value for a definition, a value
and no info for any other expression. -/
theorem evaluate_result (A : Arith V) (fuel : Nat) (expr : Expression V) (state state1 : State V)
    (result : EvalResult V) (h : evaluate A fuel expr state = (.ok result, state1)) :
    result.info.isSome = expr.is_definition ∧ result.value.isSome = !expr.is_definition := by
  unfold evaluate at h
  split at h
  · obtain ⟨h1, h2⟩ := define_function_result A _ _ _ _ _ h
    simp [Expression.is_definition, h1, h2]
  · rename_i hnot
    have hdef : expr.is_definition = false := by
      unfold Expression.is_definition
      split
      · exact absurd rfl (hnot _ _ _)
      · rfl
    simp only at h
    split at h
    · simp at h
    · simp only [Prod.mk.injEq, Except.ok.injEq] at h
      obtain ⟨rfl, -⟩ := h
      simp [hdef]

/-- A query that returns went through the lexer, the parser and `evaluate`:
its result is the result of `evaluate` on the parsed expression. -/
theorem process_query_ok (A : Arith V) (fuel : Nat) (input : String) (state state1 : State V)
    (result : EvalResult V) (h : process_query A fuel input state = (.ok result, state1)) :
    ∃ tokens expr state2, tokenize A input = .ok tokens ∧ parse tokens = .ok expr
      ∧ evaluate A fuel expr state = (.ok result, state2)
      ∧ state1 = (match result.value with
          | some value => { state2 with last_result := value, has_last_result := true }
          | none => state2) := by
  unfold process_query at h
  split at h
  · simp at h
  · rename_i tokens htok
    split at h
    · simp at h
    · rename_i expr hparse
      split at h
      · simp at h
      · rename_i result1 state2 hev
        refine ⟨tokens, expr, state2, htok, hparse, ?_⟩
        split at h
        · rename_i value hvalue
          simp only [Prod.mk.injEq, Except.ok.injEq] at h
          obtain ⟨rfl, rfl⟩ := h
          rw [hvalue]
          exact ⟨hev, rfl⟩
        · rename_i hvalue
          simp only [Prod.mk.injEq, Except.ok.injEq] at h
          obtain ⟨rfl, rfl⟩ := h
          rw [hvalue]
          exact ⟨hev, rfl⟩

/-- C23. A successful result carries exactly one of value and info. If
`evaluate` returns a result for an expression, the result has an info and no
value when the root of the expression is an `=` node whose left side is a
function-call node, and a value and no info for every other expression. If
`process_query` returns a result for a text, the text tokenizes and parses
to an expression, and the result has an info and no value when the root of
that expression is an `=` node whose left side is a function-call node, and
a value and no info otherwise. In both cases exactly one of the two is
present. -/
theorem C23_value_or_info (A : Arith V) (fuel : Nat) :
    (∀ (expr : Expression V) (state state1 : State V) (result : EvalResult V),
        evaluate A fuel expr state = (.ok result, state1) →
        (result.info.isSome = true ↔ expr.is_definition = true)
        ∧ (result.value.isSome = true ↔ expr.is_definition = false)
        ∧ result.value.isSome ≠ result.info.isSome)
    ∧ (∀ (input : String) (state state1 : State V) (result : EvalResult V),
        process_query A fuel input state = (.ok result, state1) →
        ∃ tokens expr, tokenize A input = .ok tokens ∧ parse tokens = .ok expr
          ∧ (result.info.isSome = true ↔ expr.is_definition = true)
          ∧ (result.value.isSome = true ↔ expr.is_definition = false)
          ∧ result.value.isSome ≠ result.info.isSome) := by
  have key : ∀ (expr : Expression V) (state state1 : State V) (result : EvalResult V),
      evaluate A fuel expr state = (.ok result, state1) →
      (result.info.isSome = true ↔ expr.is_definition = true)
      ∧ (result.value.isSome = true ↔ expr.is_definition = false)
      ∧ result.value.isSome ≠ result.info.isSome := by
    intro expr state state1 result h
    obtain ⟨h1, h2⟩ := evaluate_result A fuel expr state state1 result h
    rw [h1, h2]
    cases expr.is_definition <;> simp
  refine ⟨key, ?_⟩
  intro input state state1 result h
  obtain ⟨tokens, expr, state2, htok, hparse, hev, -⟩ :=
    process_query_ok A fuel input state state1 result h
  exact ⟨tokens, expr, htok, hparse, key expr state state2 result hev⟩

/-- C23 at concrete inputs: in the rational arithmetic, the number node `5`
gives a value and no info, and the node of `f(x) = x` gives an info and no
value. -/
theorem C23_value_or_info_witness :
    evaluate Arith.rat 1 (.Number 5) (State.init Arith.rat)
        = (.ok ⟨some 5, none⟩, State.init Arith.rat)
    ∧ ((some (5 : ℚ)).isSome = true
        ↔ (Expression.Number (5 : ℚ)).is_definition = false)
    ∧ evaluate Arith.rat 1 (.Binary .Equals (.FnCall "f" [.Variable "x"]) (.Variable "x"))
          (State.init Arith.rat)
        = (.ok ⟨none, some "Defined f(x)"⟩,
            { State.init Arith.rat with
              fns := map_set (State.init Arith.rat).fns "f" ⟨["x"], .Variable "x"⟩ })
    ∧ ((some "Defined f(x)").isSome = true
        ↔ (Expression.Binary .Equals (.FnCall "f" [.Variable "x"])
            (.Variable "x" : Expression ℚ)).is_definition = true) :=
  ⟨rfl,
    ((C23_value_or_info Arith.rat 1).1 (.Number 5) (State.init Arith.rat)
      (State.init Arith.rat) ⟨some 5, none⟩ rfl).2.1,
    rfl,
    ((C23_value_or_info Arith.rat 1).1
      (.Binary .Equals (.FnCall "f" [.Variable "x"]) (.Variable "x")) (State.init Arith.rat)
      { State.init Arith.rat with
        fns := map_set (State.init Arith.rat).fns "f" ⟨["x"], .Variable "x"⟩ }
      ⟨none, some "Defined f(x)"⟩ rfl).1⟩

/-! ### C24: the last-result memo changes only on a numeric result -/

/-- The evaluator never writes the last-result memo. -/
theorem eval_value_memo (A : Arith V) (fuel : Nat) (expr : Expression V) (state : State V)
    (ctx : EvalContext V) :
    (eval_value A fuel expr state ctx).state.last_result = state.last_result
    ∧ (eval_value A fuel expr state ctx).state.has_last_result = state.has_last_result :=
  preserves_eval_value A
    (fun s => s.last_result = state.last_result ∧ s.has_last_result = state.has_last_result)
    (fun _ _ _ _ h => h) fuel expr state ctx ⟨rfl, rfl⟩

/-- The function `define_function` never writes the last-result memo. -/
theorem define_function_memo (A : Arith V) (left right : Expression V) (state : State V) :
    (define_function A left right state).2.last_result = state.last_result
    ∧ (define_function A left right state).2.has_last_result = state.has_last_result := by
  unfold define_function
  split
  · split_ifs
    · exact ⟨rfl, rfl⟩
    · split <;> exact ⟨rfl, rfl⟩
  · exact ⟨rfl, rfl⟩

/-- The function `evaluate` never writes the last-result memo. -/
theorem evaluate_memo (A : Arith V) (fuel : Nat) (expr : Expression V) (state : State V) :
    (evaluate A fuel expr state).2.last_result = state.last_result
    ∧ (evaluate A fuel expr state).2.has_last_result = state.has_last_result := by
  unfold evaluate
  split
  · exact define_function_memo A _ _ state
  · have h := eval_value_memo A fuel expr state ⟨none, true⟩
    simp only
    split <;> exact h

/-- A query that fails, or returns without a value, leaves the last-result
memo as it was. -/
theorem process_query_memo (A : Arith V) (fuel : Nat) (input : String) (state : State V)
    (h : ∀ result, (process_query A fuel input state).1 = .ok result → result.value = none) :
    (process_query A fuel input state).2.last_result = state.last_result
    ∧ (process_query A fuel input state).2.has_last_result = state.has_last_result := by
  cases htok : tokenize A input with
  | error err =>
    simp only [process_query, htok, and_self]
  | ok tokens =>
    cases hparse : parse tokens with
    | error err =>
      simp only [process_query, htok, hparse, and_self]
    | ok expr =>
      have hm := evaluate_memo A fuel expr state
      rcases hev : evaluate A fuel expr state with ⟨r, state1⟩
      rw [hev] at hm
      cases r with
      | error err =>
        simp only [process_query, htok, hparse, hev]
        exact hm
      | ok result =>
        cases hvalue : result.value with
        | none =>
          simp only [process_query, htok, hparse, hev, hvalue]
          exact hm
        | some value =>
          have := h result (by simp only [process_query, htok, hparse, hev, hvalue])
          rw [hvalue] at this
          cases this

/-- The query `pi` on a state without a variable of that name. -/
theorem process_pi (A : Arith V) (fuel : Nat) (state : State V) (h : state.vars "pi" = none) :
    process_query A (fuel + 1) "pi" state
      = (.ok ⟨some A.pi, none⟩, { state with last_result := A.pi, has_last_result := true }) := by
  have htok : tokenize A "pi" = .ok [Token.identifier "pi"] := rfl
  have hparse : parse [(Token.identifier "pi" : Token V)] = .ok (.Variable "pi") := rfl
  have hc : find_constant A "pi" = some A.pi := rfl
  simp [process_query, htok, hparse, evaluate, eval_value, eval_variable, h, hc]

/-- The query `f(x) = x`. -/
theorem process_identity_def (A : Arith V) (fuel : Nat) (state : State V) :
    process_query A fuel "f(x) = x" state
      = (.ok ⟨none, some "Defined f(x)"⟩,
          { state with fns := map_set state.fns "f" ⟨["x"], .Variable "x"⟩ }) := by
  rfl

/-- C24. The last-result memo changes only on a numeric result. Whatever the
text, the state and the budget: a query that returns the numeric value `v`
leaves `has_last_result = true` and `last_result = v`; a query that returns
without a value (a function definition) and a query that fails, with
whatever error, both leave `has_last_result` and `last_result` as they
were. In particular, on the empty state, after the query `pi` (which returns
pi) and the query `f(x) = x` (which returns "Defined f(x)"), every query
that fails leaves a state in which the query `_` returns pi. -/
theorem C24_last_result_memo (A : Arith V) :
    (∀ (fuel : Nat) (input : String) (state state1 : State V) (v : V) (info : Option String),
        process_query A fuel input state = (.ok ⟨some v, info⟩, state1) →
        state1.has_last_result = true ∧ state1.last_result = v)
    ∧ (∀ (fuel : Nat) (input : String) (state state1 : State V) (info : Option String),
        process_query A fuel input state = (.ok ⟨none, info⟩, state1) →
        state1.has_last_result = state.has_last_result
        ∧ state1.last_result = state.last_result)
    ∧ (∀ (fuel : Nat) (input : String) (state state1 : State V) (err : Error),
        process_query A fuel input state = (.error err, state1) →
        state1.has_last_result = state.has_last_result
        ∧ state1.last_result = state.last_result)
    ∧ (∀ (fuel1 fuel2 fuel3 fuel4 : Nat) (failing : String) (err : Error) (state3 : State V),
        process_query A fuel3 failing
            (process_query A fuel2 "f(x) = x"
              (process_query A (fuel1 + 1) "pi" (State.init A)).2).2
          = (.error err, state3) →
        (process_query A (fuel1 + 1) "pi" (State.init A)).1 = .ok ⟨some A.pi, none⟩
        ∧ (process_query A fuel2 "f(x) = x"
              (process_query A (fuel1 + 1) "pi" (State.init A)).2).1
            = .ok ⟨none, some "Defined f(x)"⟩
        ∧ process_query A (fuel4 + 1) "_" state3 = (.ok ⟨some A.pi, none⟩, state3)) := by
  refine ⟨?_, ?_, ?_, ?_⟩
  · intro fuel input state state1 v info h
    exact process_query_records A fuel input state state1 v info h
  · intro fuel input state state1 info h
    have hm := process_query_memo A fuel input state (by
      intro result hr
      rw [h] at hr
      simp only [Except.ok.injEq] at hr
      rw [← hr])
    rw [h] at hm
    exact ⟨hm.2, hm.1⟩
  · intro fuel input state state1 err h
    have hm := process_query_memo A fuel input state (by
      intro result hr
      rw [h] at hr
      simp at hr)
    rw [h] at hm
    exact ⟨hm.2, hm.1⟩
  · intro fuel1 fuel2 fuel3 fuel4 failing err state3 h
    rw [process_pi A fuel1 (State.init A) rfl] at h ⊢
    rw [process_identity_def] at h ⊢
    have hm := process_query_memo A fuel3 failing _ (by
      intro result hr
      rw [h] at hr
      simp at hr)
    rw [h] at hm
    simp only at hm
    refine ⟨rfl, rfl, ?_⟩
    have := process_underscore_some A fuel4 state3 hm.2
    rw [hm.1] at this
    exact this

/-- C24 at concrete inputs: in the rational arithmetic, on the empty state,
after `pi`, `f(x) = x` and the failing query `@`, the query `_` returns pi. -/
theorem C24_last_result_memo_witness :
    process_query Arith.rat 1 "@"
        (process_query Arith.rat 1 "f(x) = x"
          (process_query Arith.rat 1 "pi" (State.init Arith.rat)).2).2
      = (.error (.ParseError "Could not parse character '@' at position 0"),
          (process_query Arith.rat 1 "f(x) = x"
            (process_query Arith.rat 1 "pi" (State.init Arith.rat)).2).2)
    ∧ process_query Arith.rat 1 "_"
        (process_query Arith.rat 1 "f(x) = x"
          (process_query Arith.rat 1 "pi" (State.init Arith.rat)).2).2
      = (.ok ⟨some Arith.rat.pi, none⟩,
          (process_query Arith.rat 1 "f(x) = x"
            (process_query Arith.rat 1 "pi" (State.init Arith.rat)).2).2) :=
  ⟨rfl, ((C24_last_result_memo Arith.rat).2.2.2 0 1 1 0 "@" _ _ rfl).2.2⟩

/-! ### C25: a callee has no access to its caller's locals -/

/-- A call of a user function, once its arguments are evaluated: the body is
evaluated under the overlay of its own parameters. -/
theorem eval_user_call (A : Arith V) (f : Identifier) (ps : Identifiers) (body : Expression V)
    (args : List (Expression V)) (vs : List V) (fuel : Nat) (state state1 : State V)
    (ctx ctx1 : EvalContext V) (hb : find_builtin A f = none)
    (hf : state.fns f = some ⟨ps, body⟩) (hlen : args.length = ps.length)
    (hargs : eval_args (eval_value A fuel) args state ctx = ⟨.ok vs, state1, ctx1⟩) :
    eval_value A (fuel + 1) (.FnCall f args) state ctx
      = ⟨(eval_value A fuel body state1 ⟨some (overlay ps vs), false⟩).result,
         (eval_value A fuel body state1 ⟨some (overlay ps vs), false⟩).state, ctx1⟩ := by
  simp only [eval_value, eval_function_call, hb, hf]
  rw [if_neg (by simpa using hlen), bind_params_eq_eval_args _ _ _ _ _ _ hlen, hargs]
  rfl

/-- The query `g() = a`. -/
theorem process_g_def (A : Arith V) (fuel : Nat) (state : State V) :
    process_query A fuel "g() = a" state
      = (.ok ⟨none, some "Defined g()"⟩,
          { state with fns := map_set state.fns "g" ⟨[], .Variable "a"⟩ }) := by
  rfl

/-- The query `f(a) = g()`. -/
theorem process_f_def (A : Arith V) (fuel : Nat) (state : State V) :
    process_query A fuel "f(a) = g()" state
      = (.ok ⟨none, some "Defined f(a)"⟩,
          { state with fns := map_set state.fns "f" ⟨["a"], .FnCall "g" []⟩ }) := by
  rfl

/-- C25. A callee has no access to its caller's locals. (1) A call
`f(a1, ..., an)` of a user function `f` with parameters `ps` and body
`body`, made in any context, with or without locals of the caller, whose
arguments evaluate to the values `vs`, returns what `body` evaluates to under
the overlay `{p1 -> v1, ..., pn -> vn}`: the overlay binds every parameter
to the value at its position (the parameters being distinct) and no other
name, whatever the caller's locals hold. (2) So a variable that exists only
in the caller's overlay is undefined in the callee: if the body of `f` is
the variable `x`, and `x` is not a parameter of `f`, not `_`, not a session
variable and not a constant, the call fails with the EvalError
"Variable 'x' not defined", also when the caller's locals bind `x`. (3) In
an arithmetic that is exact on small natural numbers, on the empty state,
after the queries `g() = a` and `f(a) = g()`, the query `f(1)` fails with
the EvalError "Variable 'a' not defined" whenever at least three nested
evaluator calls are allowed, and leaves the state as the two definitions
left it. -/
theorem C25_callee_isolation (A : Arith V) :
    (∀ (f : Identifier) (ps : Identifiers) (body : Expression V)
        (args : List (Expression V)) (vs : List V) (fuel : Nat) (state state1 : State V)
        (ctx ctx1 : EvalContext V),
      find_builtin A f = none → state.fns f = some ⟨ps, body⟩ → args.length = ps.length →
      eval_args (eval_value A fuel) args state ctx = ⟨.ok vs, state1, ctx1⟩ →
      eval_value A (fuel + 1) (.FnCall f args) state ctx
          = ⟨(eval_value A fuel body state1 ⟨some (overlay ps vs), false⟩).result,
             (eval_value A fuel body state1 ⟨some (overlay ps vs), false⟩).state, ctx1⟩
      ∧ (ps.Nodup → ∀ (i : Nat) (h1 : i < ps.length) (h2 : i < vs.length),
          overlay ps vs (ps.get ⟨i, h1⟩) = some (vs.get ⟨i, h2⟩))
      ∧ (∀ name, name ∉ ps → overlay ps vs name = none))
    ∧ (∀ (f x : Identifier) (ps : Identifiers) (args : List (Expression V)) (vs : List V)
        (fuel : Nat) (state state1 : State V) (caller : VariableMap V) (v : V)
        (allow : Bool) (ctx1 : EvalContext V),
      find_builtin A f = none → state.fns f = some ⟨ps, .Variable x⟩ →
      args.length = ps.length →
      eval_args (eval_value A (fuel + 1)) args state ⟨some caller, allow⟩
        = ⟨.ok vs, state1, ctx1⟩ →
      caller x = some v → x ∉ ps → x ≠ "_" → state1.vars x = none →
      find_constant A x = none →
      eval_value A (fuel + 2) (.FnCall f args) state ⟨some caller, allow⟩
        = ⟨.error (.EvalError ("Variable '" ++ x ++ "' not defined")), state1, ctx1⟩)
    ∧ (A.ExactOnNat → ∀ (fuel1 fuel2 fuel : Nat), 3 ≤ fuel →
      process_query A fuel "f(1)"
          (process_query A fuel2 "f(a) = g()"
            (process_query A fuel1 "g() = a" (State.init A)).2).2
        = (.error (.EvalError "Variable 'a' not defined"),
            (process_query A fuel2 "f(a) = g()"
              (process_query A fuel1 "g() = a" (State.init A)).2).2)) := by
  refine ⟨?_, ?_, ?_⟩
  · intro f ps body args vs fuel state state1 ctx ctx1 hb hf hlen hargs
    exact ⟨eval_user_call A f ps body args vs fuel state state1 ctx ctx1 hb hf hlen hargs,
      fun hnd i h1 h2 => bind_fold_get ps vs _ hnd i h1 h2,
      fun name h => bind_fold_not_mem ps vs _ name h⟩
  · intro f x ps args vs fuel state state1 caller v allow ctx1 hb hf hlen hargs _ hx hu hvars
      hconst
    rw [eval_user_call A f ps (.Variable x) args vs (fuel + 1) state state1 _ ctx1 hb hf hlen
      hargs]
    have hov : overlay ps vs x = none := bind_fold_not_mem ps vs _ x hx
    simp [eval_value, eval_variable, hov, hu, hvars, hconst]
  · intro hA fuel1 fuel2 fuel hfuel
    have h1 : A.stod ['1'] = some (A.ofNat 1) :=
      stod_nat_lit A hA _ 1 (by simp) (by decide) (by decide) (by decide)
    have hl : "f(1)".length = 4 := by decide
    have ht : "f(1)".toList = ['f', '(', '1', ')'] := by decide
    have htok : tokenize A "f(1)" = .ok [Token.identifier "f", Token.op .LParen,
        Token.number (A.ofNat 1), Token.op .RParen] := by
      simp +decide [tokenize, hl, ht, tokenize_loop, scan_number, scan_identifier, h1]
    have hparse : parse [Token.identifier "f", Token.op .LParen,
        Token.number (A.ofNat 1), Token.op .RParen] = .ok (.FnCall "f" [.Number (A.ofNat 1)]) :=
      rfl
    have hbf : find_builtin A "f" = none := rfl
    have hbg : find_builtin A "g" = none := rfl
    have hca : find_constant A "a" = none := rfl
    rw [process_g_def, process_f_def]
    obtain ⟨n, rfl⟩ := Nat.exists_eq_add_of_le hfuel
    rw [show 3 + n = (n + 2) + 1 by omega]
    simp [process_query, htok, hparse, evaluate, eval_value, eval_function_call, hbf, hbg,
      map_set, bind_params, EvalOut.andThen, eval_variable, hca, State.init]

/-- C25 at concrete inputs, in the rational arithmetic: on the empty state,
after `g() = a` and `f(a) = g()`, the query `f(1)` fails because `a`, a
local of `f`, is not defined in `g`. -/
theorem C25_callee_isolation_witness :
    Arith.rat.ExactOnNat ∧ 3 ≤ 3 ∧
    (process_query Arith.rat 3 "f(1)"
        (process_query Arith.rat 0 "f(a) = g()"
          (process_query Arith.rat 0 "g() = a" (State.init Arith.rat)).2).2).1
      = .error (.EvalError "Variable 'a' not defined") :=
  ⟨Arith.rat_exactOnNat, Nat.le_refl 3,
    congrArg Prod.fst
      ((C25_callee_isolation Arith.rat).2.2 Arith.rat_exactOnNat 0 0 3 (Nat.le_refl 3))⟩

/-! ### C26: comparison results are 1 or 0 -/

/-- C26. Comparison results are 1 or 0. Let `l` evaluate to the number `a`
and then, in the state and context `l` left, `r` evaluate to the number `b`.
Then for each of the six comparison operators `<`, `<=`, `>`, `>=`, `==`,
`!=`, with `rel` the comparison of `double` it stands for, the node
`Binary op l r` evaluates to exactly `1` when `rel a b` holds and to exactly
`0` otherwise, in the state and context `r` left. In
particular, in an arithmetic that is exact on small natural numbers, the
query `2 < 3` returns 1 and the query `2 >= 3` returns 0. -/
theorem C26_comparison_results (A : Arith V) (fuel : Nat) (l r : Expression V)
    (state s1 s2 : State V) (ctx c1 c2 : EvalContext V) (a b : V)
    (hl : eval_value A fuel l state ctx = ⟨.ok a, s1, c1⟩)
    (hr : eval_value A fuel r s1 c1 = ⟨.ok b, s2, c2⟩) :
    (∀ (op : TType) (rel : V → V → Bool),
        (op, rel) ∈ [(TType.Less, A.lt), (.LessEqual, A.le), (.Greater, A.gt),
          (.GreaterEqual, A.ge), (.EqualEqual, A.eq), (.BangEqual, A.ne)] →
        eval_value A (fuel + 1) (.Binary op l r) state ctx
          = ⟨.ok (if rel a b then A.ofNat 1 else A.ofNat 0), s2, c2⟩)
    ∧ (A.ExactOnNat → ∀ (budget : Nat) (session : State V), 2 ≤ budget →
        process_query A budget "2 < 3" session
          = (.ok ⟨some (A.ofNat 1), none⟩,
              { session with last_result := A.ofNat 1, has_last_result := true })
        ∧ process_query A budget "2 >= 3" session
          = (.ok ⟨some (A.ofNat 0), none⟩,
              { session with last_result := A.ofNat 0, has_last_result := true })) := by
  constructor
  · intro op rel hop
    simp only [List.mem_cons, Prod.mk.injEq, List.mem_singleton, List.not_mem_nil,
      or_false] at hop
    rw [eval_value_binary]
    rcases hop with ⟨rfl, rfl⟩ | ⟨rfl, rfl⟩ | ⟨rfl, rfl⟩ | ⟨rfl, rfl⟩ | ⟨rfl, rfl⟩ | ⟨rfl, rfl⟩ <;>
      simp only [eval_binary, hl, EvalOut.andThen, hr, Arith.ofBool]
  · intro hA budget session hbudget
    have h2 : A.stod ['2'] = some (A.ofNat 2) :=
      stod_nat_lit A hA _ 2 (by simp) (by decide) (by decide) (by decide)
    have h3 : A.stod ['3'] = some (A.ofNat 3) :=
      stod_nat_lit A hA _ 3 (by simp) (by decide) (by decide) (by decide)
    have hlt : A.lt (A.ofNat 2) (A.ofNat 3) = true := by
      rw [hA.lt_nat 2 3 (by decide) (by decide)]; decide
    have hge : A.ge (A.ofNat 2) (A.ofNat 3) = false := by
      rw [hA.ge_nat 2 3 (by decide) (by decide)]; decide
    obtain ⟨n, rfl⟩ := Nat.exists_eq_add_of_le hbudget
    rw [show 2 + n = (n + 1) + 1 by omega]
    constructor
    · have hlen : "2 < 3".length = 5 := by decide
      have ht : "2 < 3".toList = ['2', ' ', '<', ' ', '3'] := by decide
      have htok : tokenize A "2 < 3" = .ok [Token.number (A.ofNat 2), .op .Less,
          .number (A.ofNat 3)] := by
        simp +decide [tokenize, hlen, ht, tokenize_loop, scan_number, next_is_equals, h2, h3]
      have hparse : parse [Token.number (A.ofNat 2), Token.op .Less, .number (A.ofNat 3)]
          = .ok (.Binary .Less (.Number (A.ofNat 2)) (.Number (A.ofNat 3))) := rfl
      simp [process_query, htok, hparse, evaluate, eval_value, eval_binary, EvalOut.andThen,
        Arith.ofBool, hlt]
    · have hlen : "2 >= 3".length = 6 := by decide
      have ht : "2 >= 3".toList = ['2', ' ', '>', '=', ' ', '3'] := by decide
      have htok : tokenize A "2 >= 3" = .ok [Token.number (A.ofNat 2), .op .GreaterEqual,
          .number (A.ofNat 3)] := by
        simp +decide [tokenize, hlen, ht, tokenize_loop, scan_number, next_is_equals, h2, h3]
      have hparse : parse [Token.number (A.ofNat 2), Token.op .GreaterEqual,
          .number (A.ofNat 3)]
          = .ok (.Binary .GreaterEqual (.Number (A.ofNat 2)) (.Number (A.ofNat 3))) := rfl
      simp [process_query, htok, hparse, evaluate, eval_value, eval_binary, EvalOut.andThen,
        Arith.ofBool, hge]

/-- C26 at a concrete input: in the rational arithmetic, with the literals
`2` and `3` as operands, `2 <= 3` evaluates to 1 and `2 == 3` to 0. -/
theorem C26_comparison_results_witness :
    eval_value Arith.rat 2 (.Binary .LessEqual (.Number 2) (.Number 3))
        (State.init Arith.rat) ⟨none, true⟩
      = ⟨.ok (1 : ℚ), State.init Arith.rat, ⟨none, true⟩⟩
    ∧ eval_value Arith.rat 2 (.Binary .EqualEqual (.Number 2) (.Number 3))
        (State.init Arith.rat) ⟨none, true⟩
      = ⟨.ok (0 : ℚ), State.init Arith.rat, ⟨none, true⟩⟩ := by
  have h := (C26_comparison_results Arith.rat 1 (.Number 2) (.Number 3)
    (State.init Arith.rat) (State.init Arith.rat) (State.init Arith.rat) ⟨none, true⟩
    ⟨none, true⟩ ⟨none, true⟩ (2 : ℚ) (3 : ℚ) rfl rfl).1
  constructor
  · have := h .LessEqual Arith.rat.le (by simp)
    simpa [Arith.rat] using this
  · have := h .EqualEqual Arith.rat.eq (by simp)
    simpa [Arith.rat] using this

/-! ### C27: the failures of a query -/

theorem fails_andThen {α β : Type} (Q : Error → Prop) (out : EvalOut V α)
    (next : α → State V → EvalContext V → EvalOut V β)
    (h1 : ∀ err, out.result = .error err → Q err)
    (h2 : ∀ v s c err, out.result = .ok v → (next v s c).result = .error err → Q err)
    (err : Error) (h : (out.andThen next).result = .error err) : Q err := by
  rcases out with ⟨r, s, c⟩
  cases r with
  | error err1 =>
    rw [andThen_error] at h
    cases h
    exact h1 _ rfl
  | ok v => exact h2 v s c err rfl h

theorem fails_eval_binary (A : Arith V) (Q : Error → Prop) (hQ : ∀ msg, Q (.EvalError msg))
    (ev : Evaluator V) (hev : ev.FailsWith Q) (op : TType)
    (left right : Expression V) (state : State V) (ctx : EvalContext V) (err : Error)
    (h : (eval_binary A ev op left right state ctx).result = .error err) : Q err := by
  have both : ∀ f : V → V → V,
      ((ev left state ctx).andThen fun a state ctx =>
        (ev right state ctx).andThen fun b state ctx =>
          (⟨.ok (f a b), state, ctx⟩ : EvalOut V V)).result = .error err → Q err := by
    intro f hf
    refine fails_andThen Q _ _ (hev _ _ _) (fun a s c err1 _ h1 => ?_) err hf
    refine fails_andThen Q _ _ (hev _ _ _) (fun b s2 c2 err2 _ h2 => ?_) err1 h1
    cases h2
  have powlike : ∀ f : V → V → V,
      ((ev right state ctx).andThen fun b state ctx =>
        (ev left state ctx).andThen fun a state ctx =>
          (⟨.ok (f a b), state, ctx⟩ : EvalOut V V)).result = .error err → Q err := by
    intro f hf
    refine fails_andThen Q _ _ (hev _ _ _) (fun a s c err1 _ h1 => ?_) err hf
    refine fails_andThen Q _ _ (hev _ _ _) (fun b s2 c2 err2 _ h2 => ?_) err1 h1
    cases h2
  have divlike : ∀ (msg : String) (f : V → V → V),
      ((ev right state ctx).andThen fun rhs state ctx =>
        if A.eq rhs (A.ofNat 0) = true then (⟨.error (.EvalError msg), state, ctx⟩ : EvalOut V V)
        else (ev left state ctx).andThen fun lhs state ctx =>
          ⟨.ok (f lhs rhs), state, ctx⟩).result = .error err → Q err := by
    intro msg f hf
    refine fails_andThen Q _ _ (hev _ _ _) (fun a s c err1 _ h1 => ?_) err hf
    split at h1
    · cases h1
      exact hQ _
    · refine fails_andThen Q _ _ (hev _ _ _) (fun b s2 c2 err2 _ h2 => ?_) err1 h1
      cases h2
  have direct : ∀ (msg : String) (s : State V) (c : EvalContext V),
      (⟨.error (.EvalError msg), s, c⟩ : EvalOut V V).result = .error err → Q err := by
    intro msg s c hm
    cases hm
    exact hQ _
  cases op <;> simp only [eval_binary] at h <;>
    first
    | exact both _ h
    | exact powlike _ h
    | exact divlike _ _ h
    | exact direct _ _ _ h
    | (cases h; exact hQ _)
    | skip
  cases left <;> try (cases h; exact hQ _)
  rename_i name
  simp only at h
  by_cases hres : is_reserved_identifier A name = true
  · rw [if_pos hres] at h
    exact direct _ _ _ h
  · rw [if_neg hres] at h
    refine fails_andThen Q _ _ (hev _ _ _) (fun v s c err1 _ h1 => ?_) err h
    cases hc : c.locals with
    | none => rw [hc] at h1; cases h1
    | some locals => rw [hc] at h1; cases h1

theorem fails_eval_args (Q : Error → Prop) (ev : Evaluator V) (hev : ev.FailsWith Q)
    (args : List (Expression V)) (state : State V) (ctx : EvalContext V) (err : Error)
    (h : (eval_args ev args state ctx).result = .error err) : Q err := by
  induction args generalizing state ctx err with
  | nil => cases h
  | cons a as ih =>
    simp only [eval_args] at h
    refine fails_andThen Q _ _ (hev _ _ _) (fun v s c err1 _ h1 => ?_) err h
    refine fails_andThen Q _ _ (fun err2 h2 => ih s c err2 h2) (fun vs s2 c2 err2 _ h2 => ?_)
      err1 h1
    cases h2

/-- The loop over the arguments returns as many values as there are arguments. -/
theorem eval_args_length (ev : Evaluator V) (args : List (Expression V)) (state : State V)
    (ctx : EvalContext V) (values : List V)
    (h : (eval_args ev args state ctx).result = .ok values) : values.length = args.length := by
  induction args generalizing state ctx values with
  | nil =>
    cases h
    rfl
  | cons a as ih =>
    simp only [eval_args] at h
    rcases h1 : ev a state ctx with ⟨r, s, c⟩
    rw [h1] at h
    cases r with
    | error err => cases h
    | ok v =>
      simp only [andThen_ok] at h
      rcases h2 : eval_args ev as s c with ⟨r2, s2, c2⟩
      rw [h2] at h
      cases r2 with
      | error err => cases h
      | ok vs =>
        simp only [andThen_ok] at h
        cases h
        have := ih s c vs (by rw [h2])
        simp [this]

theorem fails_bind_params (Q : Error → Prop) (ev : Evaluator V) (hev : ev.FailsWith Q)
    (ps : Identifiers) (args : List (Expression V)) (m : VariableMap V) (state : State V)
    (ctx : EvalContext V) (err : Error)
    (h : (bind_params ev ps args m state ctx).result = .error err) : Q err := by
  induction ps generalizing args m state ctx err with
  | nil => cases args <;> cases h
  | cons p ps ih =>
    cases args with
    | nil => cases h
    | cons a as =>
      simp only [bind_params] at h
      exact fails_andThen Q _ _ (hev _ _ _) (fun v s c err1 _ h1 => ih as _ s c err1 h1) err h

/-- A built-in called with as many values as its arity returns: it reads no
element past the end of the span. -/
theorem builtin_fn_ok (A : Arith V) (name : Identifier) (spec : BuiltinSpec V)
    (values : List V) (h : find_builtin A name = some spec)
    (hlen : values.length = spec.arity) : ∃ v, spec.fn values = .ok v := by
  have hmem : spec ∈ builtin_functions A := List.mem_of_find?_eq_some h
  have hu : ∀ (n d : String) (f : V → V) (vs : List V),
      vs.length = (BuiltinSpec.make_unary n d f).arity →
      ∃ v, (BuiltinSpec.make_unary n d f).fn vs = .ok v := by
    intro n d f vs hvs
    match vs, hvs with
    | [a], _ => exact ⟨f a, rfl⟩
  have hb : ∀ (n d : String) (f : V → V → V) (vs : List V),
      vs.length = (BuiltinSpec.make_binary n d f).arity →
      ∃ v, (BuiltinSpec.make_binary n d f).fn vs = .ok v := by
    intro n d f vs hvs
    match vs, hvs with
    | [a, b], _ => exact ⟨f a b, rfl⟩
  simp only [builtin_functions, List.mem_cons, List.mem_singleton, List.not_mem_nil,
    or_false] at hmem
  rcases hmem with rfl | rfl | rfl | rfl | rfl | rfl | rfl | rfl | rfl | rfl | rfl | rfl | rfl
    | rfl | rfl | rfl | rfl | rfl | rfl | rfl | rfl | rfl | rfl | rfl | rfl | rfl
  all_goals first
    | exact hu _ _ _ values hlen
    | exact hb _ _ _ values hlen

theorem fails_eval_function_call (A : Arith V) (Q : Error → Prop)
    (hQ : ∀ msg, Q (.EvalError msg)) (ev : Evaluator V) (hev : ev.FailsWith Q)
    (name : Identifier) (args : List (Expression V)) (state : State V) (ctx : EvalContext V)
    (err : Error) (h : (eval_function_call A ev name args state ctx).result = .error err) :
    Q err := by
  unfold eval_function_call at h
  split at h
  · rename_i spec hspec
    split at h
    · cases h
      exact hQ _
    · rename_i hlen
      refine fails_andThen Q _ _ (fun err1 h1 => fails_eval_args Q ev hev _ _ _ err1 h1)
        (fun vs s c err1 hvs h1 => ?_) err h
      have hl := eval_args_length ev args state ctx vs hvs
      obtain ⟨v, hv⟩ := builtin_fn_ok A name spec vs hspec (by
        rw [hl]
        simpa using hlen)
      simp only [hv] at h1
      cases h1
  · split at h
    · cases h
      exact hQ _
    · split at h
      · cases h
        exact hQ _
      · refine fails_andThen Q _ _
          (fun err1 h1 => fails_bind_params Q ev hev _ _ _ _ _ err1 h1)
          (fun locals s c err1 _ h1 => ?_) err h
        exact hev _ _ _ err1 h1

theorem fails_eval_ternary (A : Arith V) (Q : Error → Prop) (ev : Evaluator V)
    (hev : ev.FailsWith Q) (c t e : Expression V) (state : State V) (ctx : EvalContext V)
    (err : Error) (h : (eval_ternary A ev c t e state ctx).result = .error err) : Q err := by
  unfold eval_ternary at h
  refine fails_andThen Q _ _ (hev _ _ _) (fun v s c1 err1 _ h1 => ?_) err h
  split at h1
  · exact hev _ _ _ err1 h1
  · exact hev _ _ _ err1 h1

theorem fails_eval_variable (A : Arith V) (Q : Error → Prop) (hQ : ∀ msg, Q (.EvalError msg))
    (name : Identifier) (state : State V) (ctx : EvalContext V) (err : Error)
    (h : (eval_variable A name state ctx).result = .error err) : Q err := by
  unfold eval_variable at h
  repeat' split at h
  all_goals first
    | (cases h; exact hQ _)
    | cases h

/-- The evaluator fails only with an EvalError or by running out of its
budget of nested calls. -/
theorem fails_eval_value (A : Arith V) (Q : Error → Prop) (hQ : ∀ msg, Q (.EvalError msg))
    (hfuel : Q .OutOfFuel) (fuel : Nat) : Evaluator.FailsWith Q (eval_value A fuel) := by
  induction fuel with
  | zero =>
    intro expr state ctx err h
    cases h
    exact hfuel
  | succ fuel ih =>
    intro expr state ctx err h
    cases expr with
    | Number v => cases h
    | Variable name => exact fails_eval_variable A Q hQ name state ctx err h
    | Unary op right =>
      simp only [eval_value] at h
      refine fails_andThen Q _ _ (ih _ _ _) (fun v s c err1 _ h1 => ?_) err h
      cases h1
    | Binary op left right =>
      rw [eval_value_binary] at h
      exact fails_eval_binary A Q hQ _ ih op left right state ctx err h
    | FnCall name args =>
      rw [eval_value_fn_call] at h
      exact fails_eval_function_call A Q hQ _ ih name args state ctx err h
    | Ternary c t e =>
      rw [eval_value_ternary] at h
      exact fails_eval_ternary A Q _ ih c t e state ctx err h

/-- The function `define_function` fails only with an EvalError. -/
theorem fails_define_function (A : Arith V) (left right : Expression V) (state state1 : State V)
    (err : Error) (h : define_function A left right state = (.error err, state1)) :
    err.isEvalError = true := by
  unfold define_function at h
  split at h
  · rename_i name args
    split_ifs at h
    · cases h
      rfl
    · have hc : ∀ (rest : List (Expression V)) (params : Identifiers) (err1 : Error),
          collect_params A rest params = .error err1 → err1.isEvalError = true := by
        intro rest
        induction rest with
        | nil => intro params err1 h1; cases h1
        | cons arg rest ih =>
          intro params err1 h1
          cases arg <;> simp only [collect_params] at h1 <;> try (cases h1; rfl)
          split_ifs at h1
          · cases h1
            rfl
          · cases h1
            rfl
          · exact ih _ _ h1
      split at h
      · rename_i err1 hcp
        cases h
        exact hc _ _ _ hcp
      · cases h
  · cases h
    rfl

/-- The function `evaluate` fails only with an EvalError or by running out of
the budget of nested evaluator calls. -/
theorem fails_evaluate (A : Arith V) (fuel : Nat) (expr : Expression V) (state state1 : State V)
    (err : Error) (h : evaluate A fuel expr state = (.error err, state1)) :
    err.isEvalError = true ∨ err = .OutOfFuel := by
  unfold evaluate at h
  split at h
  · exact Or.inl (fails_define_function A _ _ _ _ _ h)
  · simp only at h
    split at h
    · rename_i err1 herr
      cases h
      exact fails_eval_value A (fun e => e.isEvalError = true ∨ e = .OutOfFuel)
        (fun _ => Or.inl rfl) (Or.inr rfl) fuel expr state ⟨none, true⟩ _ herr
    · cases h

/-- The lexer fails only with a ParseError or with the `std::out_of_range` of
`std::stod` on a number text that it rejects. -/
theorem fails_tokenize (A : Arith V) (input : String) (err : Error)
    (h : tokenize A input = .error err) :
    err.isParseError = true ∨ (err = .OutOfRange ∧ ∃ text, A.stod text = none) :=
  tokenize_loop_error A _ _ _ _ err (by
    show input.toList.length < input.length + 1
    exact Nat.lt_succ_self _) h

/-- The failures of a query: a ParseError, an EvalError, the
`std::out_of_range` of `std::stod` on a number text that it rejects, or the
exhaustion of the budget of nested evaluator calls. -/
theorem fails_process_query (A : Arith V) (fuel : Nat) (input : String) (state state1 : State V)
    (err : Error) (h : process_query A fuel input state = (.error err, state1)) :
    err.isParseError = true ∨ err.isEvalError = true
      ∨ (err = .OutOfRange ∧ ∃ text, A.stod text = none) ∨ err = .OutOfFuel := by
  cases htok : tokenize A input with
  | error err1 =>
    simp only [process_query, htok, Prod.mk.injEq, Except.error.injEq] at h
    obtain ⟨rfl, -⟩ := h
    rcases fails_tokenize A input err1 htok with h1 | h1
    · exact Or.inl h1
    · exact Or.inr (Or.inr (Or.inl h1))
  | ok tokens =>
    cases hparse : parse tokens with
    | error err1 =>
      simp only [process_query, htok, hparse, Prod.mk.injEq, Except.error.injEq] at h
      obtain ⟨rfl, -⟩ := h
      rcases (parse_good tokens).2 err1 hparse with h1 | ⟨-, t, ht, hwf⟩
      · exact Or.inl h1
      · rw [tokenize_well_formed A input tokens htok t ht] at hwf
        cases hwf
    | ok expr =>
      rcases hev : evaluate A fuel expr state with ⟨r, state2⟩
      cases r with
      | error err1 =>
        simp only [process_query, htok, hparse, hev, Prod.mk.injEq, Except.error.injEq] at h
        obtain ⟨rfl, -⟩ := h
        rcases fails_evaluate A fuel expr state state2 err1 hev with h1 | h1
        · exact Or.inr (Or.inl h1)
        · exact Or.inr (Or.inr (Or.inr h1))
      | ok result =>
        simp only [process_query, htok, hparse, hev] at h
        split at h <;> simp at h

/-- The lexer fails with the `std::out_of_range` of `std::stod` on a text made
of digits that `std::stod` rejects. -/
theorem tokenize_digits_out_of_range (A : Arith V) (digits : List Char) (hne : digits ≠ [])
    (hd : ∀ ch ∈ digits, is_digit ch = true) (hs : A.stod digits = none) :
    tokenize A (String.mk digits) = .error .OutOfRange := by
  have hscan : scan_number digits false = (digits, []) := by
    have := scan_number_digits_then digits [] false hd
    rw [List.append_nil] at this
    rw [this]
    simp [scan_number]
  obtain ⟨d, ds, rfl⟩ := List.exists_cons_of_ne_nil hne
  rw [tokenize_mk, tokenize_loop_digit A _ _ _ _ _ (hd d (by simp)), hscan]
  simp only [hs]

/-- C27. The failures of a query. For every text, every state (reachable or
not) and every budget of nested evaluator calls, a failure of
`process_query` is a ParseError, an EvalError, the `std::out_of_range` that
`std::stod` throws on a number text it rejects, or the exhaustion of the
budget of nested evaluator calls on a text that tokenizes and parses (the
call stack of the program, whose exhaustion is no error kind). It is never
the `std::underflow_error` of the token stream, an access past the end of a
built-in's argument list or a bad variant access. So `process_query` fails
only with ParseError or EvalError wherever `std::stod` rejects no number
text. It does not in general: on every text made of digits that `std::stod`
rejects, `process_query` fails with `std::out_of_range`, which is neither a
ParseError nor an EvalError, and leaves the state as it was. -/
theorem C27_failure_kinds (A : Arith V) :
    (∀ (fuel : Nat) (input : String) (state state1 : State V) (err : Error),
        process_query A fuel input state = (.error err, state1) →
        (err.isParseError = true ∨ err.isEvalError = true
          ∨ (err = .OutOfRange ∧ ∃ text, A.stod text = none)
          ∨ (err = .OutOfFuel ∧ ∃ tokens expr, tokenize A input = .ok tokens
              ∧ parse tokens = .ok expr ∧ (evaluate A fuel expr state).1 = .error .OutOfFuel))
        ∧ (∀ message, err ≠ .UnderflowError message) ∧ err ≠ .SpanOutOfBounds
        ∧ err ≠ .BadVariantAccess)
    ∧ ((∀ text, A.stod text ≠ none) →
        ∀ (fuel : Nat) (input : String) (state state1 : State V) (err : Error),
        process_query A fuel input state = (.error err, state1) →
        err.isParseError = true ∨ err.isEvalError = true ∨ err = .OutOfFuel)
    ∧ (∀ (digits : List Char) (fuel : Nat) (state : State V),
        digits ≠ [] → (∀ ch ∈ digits, is_digit ch = true) → A.stod digits = none →
        process_query A fuel (String.mk digits) state = (.error .OutOfRange, state)
        ∧ Error.isParseError .OutOfRange = false ∧ Error.isEvalError .OutOfRange = false) := by
  have key : ∀ (fuel : Nat) (input : String) (state state1 : State V) (err : Error),
      process_query A fuel input state = (.error err, state1) →
      err.isParseError = true ∨ err.isEvalError = true
        ∨ (err = .OutOfRange ∧ ∃ text, A.stod text = none)
        ∨ (err = .OutOfFuel ∧ ∃ tokens expr, tokenize A input = .ok tokens
            ∧ parse tokens = .ok expr ∧ (evaluate A fuel expr state).1 = .error .OutOfFuel) := by
    intro fuel input state state1 err h
    rcases fails_process_query A fuel input state state1 err h with h1 | h1 | h1 | h1
    · exact Or.inl h1
    · exact Or.inr (Or.inl h1)
    · exact Or.inr (Or.inr (Or.inl h1))
    · refine Or.inr (Or.inr (Or.inr ⟨h1, ?_⟩))
      subst h1
      cases htok : tokenize A input with
      | error err1 =>
        simp only [process_query, htok, Prod.mk.injEq, Except.error.injEq] at h
        obtain ⟨rfl, -⟩ := h
        rcases fails_tokenize A input _ htok with h2 | ⟨h2, -⟩
        · cases h2
        · cases h2
      | ok tokens =>
        cases hparse : parse tokens with
        | error err1 =>
          simp only [process_query, htok, hparse, Prod.mk.injEq, Except.error.injEq] at h
          obtain ⟨rfl, -⟩ := h
          rcases (parse_good tokens).2 _ hparse with h2 | ⟨h2, -⟩
          · cases h2
          · cases h2
        | ok expr =>
          refine ⟨tokens, expr, rfl, hparse, ?_⟩
          rcases hev : evaluate A fuel expr state with ⟨r, state2⟩
          cases r with
          | error err1 =>
            simp only [process_query, htok, hparse, hev, Prod.mk.injEq,
              Except.error.injEq] at h
            rw [h.1]
          | ok result =>
            simp only [process_query, htok, hparse, hev] at h
            split at h <;> simp at h
  refine ⟨?_, ?_, ?_⟩
  · intro fuel input state state1 err h
    have hk := key fuel input state state1 err h
    refine ⟨hk, ?_, ?_, ?_⟩
    · rintro message rfl
      rcases hk with h1 | h1 | ⟨h1, -⟩ | ⟨h1, -⟩ <;> cases h1
    · rintro rfl
      rcases hk with h1 | h1 | ⟨h1, -⟩ | ⟨h1, -⟩ <;> cases h1
    · rintro rfl
      rcases hk with h1 | h1 | ⟨h1, -⟩ | ⟨h1, -⟩ <;> cases h1
  · intro hstod fuel input state state1 err h
    rcases key fuel input state state1 err h with h1 | h1 | ⟨-, text, h1⟩ | ⟨h1, -⟩
    · exact Or.inl h1
    · exact Or.inr (Or.inl h1)
    · exact absurd h1 (hstod text)
    · exact Or.inr (Or.inr h1)
  · intro digits fuel state hne hd hs
    refine ⟨?_, rfl, rfl⟩
    simp only [process_query, tokenize_digits_out_of_range A digits hne hd hs]

/-- C27 at a concrete input: in the arithmetic with the range of `double`,
the query made of `1` and 309 zeros fails with `std::out_of_range` on the
empty state. -/
theorem C27_failure_kinds_witness :
    process_query Arith.rat_range 1 (String.mk ('1' :: List.replicate 309 '0'))
        (State.init Arith.rat_range)
      = (.error .OutOfRange, State.init Arith.rat_range)
    ∧ Error.isParseError .OutOfRange = false ∧ Error.isEvalError .OutOfRange = false :=
  (C27_failure_kinds Arith.rat_range).2.2 ('1' :: List.replicate 309 '0') 1
    (State.init Arith.rat_range) (List.cons_ne_nil _ _)
    (by
      intro ch hch
      simp only [List.mem_cons, List.mem_replicate] at hch
      rcases hch with rfl | ⟨-, rfl⟩ <;> decide)
    rat_range_overflow

/-! ### C28: errors do not roll back earlier mutations -/

/-- C28. Errors do not roll back earlier mutations. In an arithmetic that is
exact on small natural numbers, with at least three nested evaluator calls
allowed, the query `(a = 1) ? zz : 0` on any state without a variable `zz`
fails with the EvalError "Variable 'zz' not defined" and leaves the state
with `a = 1` stored in `vars`, everything else as it was. In particular, on
the empty state the variable table has no `a` before the query and holds
`a = 1` after it, so the two tables differ although the query failed. -/
theorem C28_no_rollback (A : Arith V) (hA : A.ExactOnNat) (fuel : Nat) (hfuel : 3 ≤ fuel) :
    (∀ state : State V, state.vars "zz" = none →
      process_query A fuel "(a = 1) ? zz : 0" state
        = (.error (.EvalError "Variable 'zz' not defined"),
            { state with vars := map_set state.vars "a" (A.ofNat 1) }))
    ∧ (State.init A).vars "a" = none
    ∧ (process_query A fuel "(a = 1) ? zz : 0" (State.init A)).2.vars "a" = some (A.ofNat 1)
    ∧ (process_query A fuel "(a = 1) ? zz : 0" (State.init A)).2.vars ≠ (State.init A).vars := by
  have h1 : A.stod ['1'] = some (A.ofNat 1) :=
    stod_nat_lit A hA _ 1 (by simp) (by decide) (by decide) (by decide)
  have h0 : A.stod ['0'] = some (A.ofNat 0) :=
    stod_nat_lit A hA _ 0 (by simp) (by decide) (by decide) (by decide)
  have hl : "(a = 1) ? zz : 0".length = 16 := by decide
  have ht : "(a = 1) ? zz : 0".toList
      = ['(', 'a', ' ', '=', ' ', '1', ')', ' ', '?', ' ', 'z', 'z', ' ', ':', ' ', '0'] := by
    decide
  have htok : tokenize A "(a = 1) ? zz : 0" = .ok [Token.op .LParen, Token.identifier "a",
      .op .Equals, .number (A.ofNat 1), .op .RParen, .op .Question, Token.identifier "zz",
      .op .Colon, .number (A.ofNat 0)] := by
    simp +decide [tokenize, hl, ht, tokenize_loop, scan_number, scan_identifier, next_is_equals,
      h1, h0]
  have hparse : parse [Token.op .LParen, Token.identifier "a",
      .op .Equals, .number (A.ofNat 1), .op .RParen, .op .Question, Token.identifier "zz",
      .op .Colon, .number (A.ofNat 0)]
      = .ok (.Ternary (.Binary .Equals (.Variable "a") (.Number (A.ofNat 1))) (.Variable "zz")
          (.Number (A.ofNat 0))) := rfl
  have hne : A.ne (A.ofNat 1) (A.ofNat 0) = true := by
    rw [hA.ne_nat 1 0 (by decide) (by decide)]; decide
  have hra : is_reserved_identifier A "a" = false := rfl
  have hczz : find_constant A "zz" = none := rfl
  have hgen : ∀ state : State V, state.vars "zz" = none →
      process_query A fuel "(a = 1) ? zz : 0" state
        = (.error (.EvalError "Variable 'zz' not defined"),
            { state with vars := map_set state.vars "a" (A.ofNat 1) }) := by
    intro state hzz
    obtain ⟨n, rfl⟩ := Nat.exists_eq_add_of_le hfuel
    have hzz1 : map_set state.vars "a" (A.ofNat 1) "zz" = none := by
      simp [map_set, hzz]
    rw [show 3 + n = (n + 2) + 1 by omega]
    simp [process_query, htok, hparse, evaluate, eval_value, eval_ternary, eval_binary,
      eval_variable, EvalOut.andThen, hne, hra, hczz, hzz1]
  have hinit := hgen (State.init A) rfl
  refine ⟨hgen, rfl, ?_, ?_⟩
  · rw [hinit]
    simp [map_set]
  · rw [hinit]
    intro h
    have := congrFun h "a"
    simp [map_set, State.init] at this

/-- C28 at a concrete input: in the rational arithmetic, with three nested
evaluator calls allowed, `(a = 1) ? zz : 0` on the empty state fails and
leaves `a = 1` behind. -/
theorem C28_no_rollback_witness :
    Arith.rat.ExactOnNat ∧ 3 ≤ 3 ∧
    process_query Arith.rat 3 "(a = 1) ? zz : 0" (State.init Arith.rat)
      = (.error (.EvalError "Variable 'zz' not defined"),
          { State.init Arith.rat with
            vars := map_set (State.init Arith.rat).vars "a" (Arith.rat.ofNat 1) }) :=
  ⟨Arith.rat_exactOnNat, Nat.le_refl 3,
    (C28_no_rollback Arith.rat Arith.rat_exactOnNat 3 (Nat.le_refl 3)).1
      (State.init Arith.rat) rfl⟩

/-! ### C29: the cursor of a token stream -/

/-- A stream is exhausted exactly when its cursor is not before the end. -/
theorem empty_eq_false_iff (s : TokenStream V) :
    s.empty = false ↔ s.pos_ < s.tokens_.length := by
  simp only [TokenStream.empty, TokenStream.remaining, beq_eq_false_iff_ne, ne_eq]
  omega

/-- The operations of a stream at a cursor that has a token under it. -/
theorem stream_at_token (s : TokenStream V) (token : Token V)
    (h : s.tokens_[s.pos_]? = some token) :
    s.peek = (.ok token, s) ∧ s.get = (.ok token, ⟨s.tokens_, s.pos_ + 1⟩)
    ∧ (∀ type, token.type = type →
        s.match_ type = (true, ⟨s.tokens_, s.pos_ + 1⟩)
        ∧ s.expect type = (.ok token, ⟨s.tokens_, s.pos_ + 1⟩))
    ∧ (∀ type, token.type ≠ type →
        s.match_ type = (false, s)
        ∧ s.expect type = (.error (.ParseError ("Expected token " ++ to_string type
            ++ " but found " ++ to_string token.type)), s)) := by
  obtain ⟨hlt, hget⟩ := List.getElem?_eq_some.mp h
  have he : s.empty = false := (empty_eq_false_iff s).mpr hlt
  have hcur : s.current he = token := hget
  have hpeek : s.peek = (.ok token, s) := by
    simp only [TokenStream.peek, he, dite_true, hcur]
  have hg : s.get = (.ok token, ⟨s.tokens_, s.pos_ + 1⟩) := by
    simp only [TokenStream.get, he, dite_true, hcur]
  refine ⟨hpeek, hg, ?_, ?_⟩
  · intro type htype
    constructor
    · simp only [TokenStream.match_, he, dite_true, hcur, htype, if_true, hg]
    · simp only [TokenStream.expect, he, dite_true, hcur, htype, ne_eq, not_true_eq_false,
        if_false, hg]
  · intro type htype
    constructor
    · simp only [TokenStream.match_, he, dite_true, hcur, htype, if_false]
    · simp only [TokenStream.expect, he, dite_true, hcur, ne_eq, htype, not_false_eq_true,
        if_true]

/-- The operations of an exhausted stream. -/
theorem stream_exhausted (s : TokenStream V) (type : TType) (h : s.tokens_.length ≤ s.pos_) :
    s.peek = (.error (.UnderflowError "Cannot peek empty token stream"), s)
    ∧ s.get = (.error (.UnderflowError "Cannot get from empty token stream"), s)
    ∧ s.expect type = (.error (.UnderflowError "Cannot read from empty token stream"), s)
    ∧ s.match_ type = (false, s) := by
  have he : ¬ s.empty = false := by
    rw [empty_eq_false_iff]
    omega
  refine ⟨?_, ?_, ?_, ?_⟩
  · rw [TokenStream.peek, dif_neg he]
  · rw [TokenStream.get, dif_neg he]
  · rw [TokenStream.expect, dif_neg he]
  · rw [TokenStream.match_, dif_neg he]

/-- C29. Token-stream cursor invariant. The constructor puts the cursor at 0.
For a stream over a token list of length `n` whose cursor `pos` satisfies
`pos <= n`: (1) the stream that `peek`, `get`, `match(t)` or `expect(t)`
leaves is over the same token list, its cursor is `pos` or `pos + 1` and is
at most `n`, and its `remaining()` is `n` minus its cursor; (2) `peek` never
changes the stream; (3) when there is a token under the cursor
(`pos < n`), `peek` returns `tokens[pos]`, `get` returns `tokens[pos]` and
moves the cursor to `pos + 1`, `match(t)` and `expect(t)` do what `get` does
when `tokens[pos]` has type `t` (`match` returning true), and when it has
another type `match(t)` returns false and `expect(t)` fails with the
ParseError "Expected token t but found ...", both leaving the stream as it
was; (4) `match(t)` returns true exactly when the stream is not exhausted and
`tokens[pos]` has type `t`; (5) on an exhausted stream (`pos = n`) `peek`,
`get` and `expect(t)` fail with `std::underflow_error` and `match(t)`
returns false, all leaving the stream as it was: no element `tokens[n]` is
read. -/
theorem C29_cursor_invariant (s : TokenStream V) (type : TType)
    (h : s.pos_ ≤ s.tokens_.length) :
    (∀ tokens : Tokens V, (TokenStream.mk_stream tokens).pos_ = 0
        ∧ (TokenStream.mk_stream tokens).tokens_ = tokens)
    ∧ (∀ s1 ∈ [s.peek.2, s.get.2, (s.match_ type).2, (s.expect type).2],
        s1.tokens_ = s.tokens_ ∧ (s1.pos_ = s.pos_ ∨ s1.pos_ = s.pos_ + 1)
        ∧ s1.pos_ ≤ s1.tokens_.length ∧ s1.remaining + s1.pos_ = s1.tokens_.length)
    ∧ s.peek.2 = s
    ∧ (∀ token, s.tokens_[s.pos_]? = some token →
        s.peek = (.ok token, s) ∧ s.get = (.ok token, ⟨s.tokens_, s.pos_ + 1⟩)
        ∧ (token.type = type →
            s.match_ type = (true, ⟨s.tokens_, s.pos_ + 1⟩)
            ∧ s.expect type = (.ok token, ⟨s.tokens_, s.pos_ + 1⟩))
        ∧ (token.type ≠ type →
            s.match_ type = (false, s)
            ∧ s.expect type = (.error (.ParseError ("Expected token " ++ to_string type
                ++ " but found " ++ to_string token.type)), s)))
    ∧ ((s.match_ type).1 = true
        ↔ s.empty = false ∧ ∃ token, s.tokens_[s.pos_]? = some token ∧ token.type = type)
    ∧ (s.pos_ = s.tokens_.length →
        s.empty = true
        ∧ s.peek = (.error (.UnderflowError "Cannot peek empty token stream"), s)
        ∧ s.get = (.error (.UnderflowError "Cannot get from empty token stream"), s)
        ∧ s.expect type = (.error (.UnderflowError "Cannot read from empty token stream"), s)
        ∧ s.match_ type = (false, s)) := by
  have hrem : ∀ s1 : TokenStream V, s1.pos_ ≤ s1.tokens_.length →
      s1.remaining + s1.pos_ = s1.tokens_.length := by
    intro s1 h1
    simp only [TokenStream.remaining]
    omega
  have hsame : s.tokens_ = s.tokens_ ∧ (s.pos_ = s.pos_ ∨ s.pos_ = s.pos_ + 1)
      ∧ s.pos_ ≤ s.tokens_.length ∧ s.remaining + s.pos_ = s.tokens_.length :=
    ⟨rfl, Or.inl rfl, h, hrem s h⟩
  rcases Nat.lt_or_ge s.pos_ s.tokens_.length with hlt | hge
  · obtain ⟨token, htoken⟩ : ∃ token, s.tokens_[s.pos_]? = some token :=
      ⟨s.tokens_[s.pos_], List.getElem?_eq_getElem hlt⟩
    obtain ⟨hpeek, hget, hyes, hno⟩ := stream_at_token s token htoken
    have hnext : (⟨s.tokens_, s.pos_ + 1⟩ : TokenStream V).tokens_ = s.tokens_
        ∧ ((⟨s.tokens_, s.pos_ + 1⟩ : TokenStream V).pos_ = s.pos_
          ∨ (⟨s.tokens_, s.pos_ + 1⟩ : TokenStream V).pos_ = s.pos_ + 1)
        ∧ (⟨s.tokens_, s.pos_ + 1⟩ : TokenStream V).pos_
            ≤ (⟨s.tokens_, s.pos_ + 1⟩ : TokenStream V).tokens_.length
        ∧ (⟨s.tokens_, s.pos_ + 1⟩ : TokenStream V).remaining
            + (⟨s.tokens_, s.pos_ + 1⟩ : TokenStream V).pos_
            = (⟨s.tokens_, s.pos_ + 1⟩ : TokenStream V).tokens_.length :=
      ⟨rfl, Or.inr rfl, hlt, hrem _ hlt⟩
    refine ⟨fun tokens => ⟨rfl, rfl⟩, ?_, by rw [hpeek], ?_, ?_, ?_⟩
    · intro s1 hs1
      simp only [List.mem_cons, List.mem_singleton, List.not_mem_nil, or_false] at hs1
      by_cases htype : token.type = type
      · rw [hpeek, hget, (hyes type htype).1, (hyes type htype).2] at hs1
        rcases hs1 with rfl | rfl | rfl | rfl
        · exact hsame
        · exact hnext
        · exact hnext
        · exact hnext
      · rw [hpeek, hget, (hno type htype).1, (hno type htype).2] at hs1
        rcases hs1 with rfl | rfl | rfl | rfl
        · exact hsame
        · exact hnext
        · exact hsame
        · exact hsame
    · intro token1 htoken1
      rw [htoken] at htoken1
      obtain rfl := Option.some.inj htoken1
      exact ⟨hpeek, hget, hyes type, hno type⟩
    · constructor
      · intro hm
        refine ⟨(empty_eq_false_iff s).mpr hlt, token, htoken, ?_⟩
        by_contra htype
        rw [(hno type htype).1] at hm
        exact Bool.false_ne_true hm
      · rintro ⟨-, token1, htoken1, htype⟩
        rw [htoken] at htoken1
        obtain rfl := Option.some.inj htoken1
        rw [(hyes type htype).1]
    · intro heq
      omega
  · obtain ⟨hpeek, hget, hexpect, hmatch⟩ := stream_exhausted s type hge
    have hempty : s.empty = true := by
      cases he : s.empty
      · exact absurd ((empty_eq_false_iff s).mp he) (by omega)
      · rfl
    refine ⟨fun tokens => ⟨rfl, rfl⟩, ?_, by rw [hpeek], ?_, ?_, ?_⟩
    · intro s1 hs1
      simp only [List.mem_cons, List.mem_singleton, List.not_mem_nil, or_false] at hs1
      rw [hpeek, hget, hmatch, hexpect] at hs1
      rcases hs1 with rfl | rfl | rfl | rfl <;> exact hsame
    · intro token htoken
      obtain ⟨hlt, -⟩ := List.getElem?_eq_some.mp htoken
      omega
    · constructor
      · intro hm
        rw [hmatch] at hm
        exact absurd hm Bool.false_ne_true
      · rintro ⟨he, -⟩
        rw [hempty] at he
        exact absurd he (by decide)
    · intro _
      exact ⟨hempty, hpeek, hget, hexpect, hmatch⟩

/-- C29 at a concrete stream: over the tokens of `2 +` with the cursor at 0,
`peek` returns the number and leaves the cursor, `get` returns it and moves
the cursor to 1, and `match(Plus)` returns false and leaves the cursor. -/
theorem C29_cursor_invariant_witness :
    (0 : Nat) ≤ [Token.number (2 : ℚ), Token.op .Plus].length
    ∧ (TokenStream.mk_stream [Token.number (2 : ℚ), Token.op .Plus]).peek
        = (.ok (Token.number 2), ⟨[Token.number (2 : ℚ), Token.op .Plus], 0⟩)
    ∧ (TokenStream.mk_stream [Token.number (2 : ℚ), Token.op .Plus]).get
        = (.ok (Token.number 2), ⟨[Token.number (2 : ℚ), Token.op .Plus], 1⟩)
    ∧ (TokenStream.mk_stream [Token.number (2 : ℚ), Token.op .Plus]).match_ .Plus
        = (false, ⟨[Token.number (2 : ℚ), Token.op .Plus], 0⟩) := by
  have h := (C29_cursor_invariant (TokenStream.mk_stream [Token.number (2 : ℚ), Token.op .Plus])
    .Plus (Nat.zero_le _)).2.2.2.1 (Token.number 2) rfl
  exact ⟨Nat.zero_le _, h.1, h.2.1, (h.2.2.2 (by decide)).1⟩

/-! ### C30: the binary levels below power are left-associative -/

/-- Two operators of the equality level associate to the left. -/
theorem parse_equality_left (x y z : Operand V) (o1 o2 : TType)
    (h1 : o1 = .EqualEqual ∨ o1 = .BangEqual) (h2 : o2 = .EqualEqual ∨ o2 = .BangEqual) :
    parse [x.token, Token.op o1, y.token, Token.op o2, z.token]
      = .ok (.Binary o2 (.Binary o1 x.expr y.expr) z.expr) := by
  rcases h1 with rfl | rfl <;> rcases h2 with rfl | rfl <;>
    cases x <;> cases y <;> cases z <;> rfl

set_option maxHeartbeats 1000000 in
/-- Two operators of the relational level associate to the left. -/
theorem parse_relational_left (x y z : Operand V) (o1 o2 : TType)
    (h1 : o1 = .Less ∨ o1 = .LessEqual ∨ o1 = .Greater ∨ o1 = .GreaterEqual)
    (h2 : o2 = .Less ∨ o2 = .LessEqual ∨ o2 = .Greater ∨ o2 = .GreaterEqual) :
    parse [x.token, Token.op o1, y.token, Token.op o2, z.token]
      = .ok (.Binary o2 (.Binary o1 x.expr y.expr) z.expr) := by
  rcases h1 with rfl | rfl | rfl | rfl <;> rcases h2 with rfl | rfl | rfl | rfl <;>
    cases x <;> cases y <;> cases z <;> rfl

/-- Two operators of the additive level associate to the left. -/
theorem parse_additive_left (x y z : Operand V) (o1 o2 : TType)
    (h1 : o1 = .Plus ∨ o1 = .Minus) (h2 : o2 = .Plus ∨ o2 = .Minus) :
    parse [x.token, Token.op o1, y.token, Token.op o2, z.token]
      = .ok (.Binary o2 (.Binary o1 x.expr y.expr) z.expr) := by
  rcases h1 with rfl | rfl <;> rcases h2 with rfl | rfl <;>
    cases x <;> cases y <;> cases z <;> rfl

set_option maxHeartbeats 1000000 in
/-- Two operators of the term level associate to the left. -/
theorem parse_term_left (x y z : Operand V) (o1 o2 : TType)
    (h1 : o1 = .Star ∨ o1 = .Slash ∨ o1 = .Percent)
    (h2 : o2 = .Star ∨ o2 = .Slash ∨ o2 = .Percent) :
    parse [x.token, Token.op o1, y.token, Token.op o2, z.token]
      = .ok (.Binary o2 (.Binary o1 x.expr y.expr) z.expr) := by
  rcases h1 with rfl | rfl | rfl <;> rcases h2 with rfl | rfl | rfl <;>
    cases x <;> cases y <;> cases z <;> rfl

/-- C30. Left associativity of the equality, relational, additive and term
levels. For all single-token operands `x`, `y`, `z` and any two operators
`o1`, `o2` of the same one of the levels `== !=`, `< <= > >=`, `+ -` and
`* / %`, `parse [x, o1, y, o2, z]` returns `Binary o2 (Binary o1 x y) z`. In
particular, in an arithmetic that is exact on small natural numbers,
`8 - 3 - 2` tokenizes and parses to `Binary Minus (Binary Minus 8 3) 2`, and
the query returns 3 whenever at least three nested evaluator calls are
allowed. -/
theorem C30_left_associativity (A : Arith V) (hA : A.ExactOnNat) :
    (∀ (x y z : Operand V) (level : List TType) (o1 o2 : TType),
        level ∈ [[TType.EqualEqual, .BangEqual], [.Less, .LessEqual, .Greater, .GreaterEqual],
          [.Plus, .Minus], [.Star, .Slash, .Percent]] →
        o1 ∈ level → o2 ∈ level →
        parse [x.token, Token.op o1, y.token, Token.op o2, z.token]
          = .ok (.Binary o2 (.Binary o1 x.expr y.expr) z.expr)) ∧
    (tokenize A "8 - 3 - 2").bind parse
      = .ok (.Binary .Minus (.Binary .Minus (.Number (A.ofNat 8)) (.Number (A.ofNat 3)))
          (.Number (A.ofNat 2))) ∧
    (∀ (fuel : Nat) (state : State V), 3 ≤ fuel →
      process_query A fuel "8 - 3 - 2" state
        = (.ok ⟨some (A.ofNat 3), none⟩,
            { state with last_result := A.ofNat 3, has_last_result := true })) := by
  have h8 : A.stod ['8'] = some (A.ofNat 8) :=
    stod_nat_lit A hA _ 8 (by simp) (by decide) (by decide) (by decide)
  have h3 : A.stod ['3'] = some (A.ofNat 3) :=
    stod_nat_lit A hA _ 3 (by simp) (by decide) (by decide) (by decide)
  have h2 : A.stod ['2'] = some (A.ofNat 2) :=
    stod_nat_lit A hA _ 2 (by simp) (by decide) (by decide) (by decide)
  have hl : "8 - 3 - 2".length = 9 := by decide
  have ht : "8 - 3 - 2".toList = ['8', ' ', '-', ' ', '3', ' ', '-', ' ', '2'] := by decide
  have htok : tokenize A "8 - 3 - 2" = .ok [Token.number (A.ofNat 8), .op .Minus,
      .number (A.ofNat 3), .op .Minus, .number (A.ofNat 2)] := by
    simp +decide [tokenize, hl, ht, tokenize_loop, scan_number, h8, h3, h2]
  have hparse : parse [Token.number (A.ofNat 8), Token.op .Minus,
      .number (A.ofNat 3), .op .Minus, .number (A.ofNat 2)]
      = .ok (.Binary .Minus (.Binary .Minus (.Number (A.ofNat 8)) (.Number (A.ofNat 3)))
          (.Number (A.ofNat 2))) := rfl
  refine ⟨?_, ?_, ?_⟩
  · intro x y z level o1 o2 hlevel h1 h2
    simp only [List.mem_cons, List.mem_singleton, List.not_mem_nil, or_false] at hlevel
    rcases hlevel with rfl | rfl | rfl | rfl <;>
      simp only [List.mem_cons, List.mem_singleton, List.not_mem_nil, or_false] at h1 h2
    · exact parse_equality_left x y z o1 o2 h1 h2
    · exact parse_relational_left x y z o1 o2 h1 h2
    · exact parse_additive_left x y z o1 o2 h1 h2
    · exact parse_term_left x y z o1 o2 h1 h2
  · rw [htok]; exact hparse
  · intro fuel state hfuel
    obtain ⟨n, rfl⟩ := Nat.exists_eq_add_of_le hfuel
    have hs1 : A.sub (A.ofNat 8) (A.ofNat 3) = A.ofNat 5 :=
      hA.sub_nat 8 3 (by decide) (by decide)
    have hs2 : A.sub (A.ofNat 5) (A.ofNat 2) = A.ofNat 3 :=
      hA.sub_nat 5 2 (by decide) (by decide)
    rw [show 3 + n = (n + 2) + 1 by omega]
    simp [process_query, htok, hparse, evaluate, eval_value, eval_binary, EvalOut.andThen,
      hs1, hs2]

/-- C30 at a concrete input: in the rational arithmetic, `x / y * z` over
variables parses with the division below the multiplication, and the query
`8 - 3 - 2` on a fresh state returns 3. -/
theorem C30_left_associativity_witness :
    Arith.rat.ExactOnNat ∧
    parse [Token.identifier "x", Token.op .Slash, Token.identifier "y", Token.op .Star,
        (Token.identifier "z" : Token ℚ)]
      = .ok (.Binary .Star (.Binary .Slash (.Variable "x") (.Variable "y")) (.Variable "z")) ∧
    process_query Arith.rat 3 "8 - 3 - 2" (State.init Arith.rat)
      = (.ok ⟨some (Arith.rat.ofNat 3), none⟩,
          { State.init Arith.rat with
            last_result := Arith.rat.ofNat 3, has_last_result := true }) :=
  ⟨Arith.rat_exactOnNat,
    (C30_left_associativity Arith.rat Arith.rat_exactOnNat).1 (.identifier "x")
      (.identifier "y") (.identifier "z") [.Star, .Slash, .Percent] .Slash .Star
      (by simp) (by simp) (by simp),
    (C30_left_associativity Arith.rat Arith.rat_exactOnNat).2.2 3 (State.init Arith.rat)
      (Nat.le_refl 3)⟩

/-! ### C31: unary sign and power -/

/-- C31. Unary sign binds tighter than power, and a signed exponent is
accepted. For all single-token operands `x`, `y`: `parse [-, x, ^, y]`
returns `Binary Caret (Unary Minus x) y`, `parse [x, ^, -, y]` returns
`Binary Caret x (Unary Minus y)` and `parse [-, -, x]` returns
`Unary Minus (Unary Minus x)`; the same holds with `+` for `-`. In
particular, in an arithmetic that is exact on small natural numbers, `-2 ^ 2`
tokenizes and parses to `Binary Caret (Unary Minus 2) 2`, and the query
returns `pow(-2, 2)`, the power of the negated 2, whenever at least three
nested evaluator calls are allowed. -/
theorem C31_unary_binds_tighter (A : Arith V) (hA : A.ExactOnNat) :
    (∀ (x y : Operand V) (sign : TType), (sign = .Minus ∨ sign = .Plus) →
        parse [Token.op sign, x.token, Token.op .Caret, y.token]
          = .ok (.Binary .Caret (.Unary sign x.expr) y.expr)
        ∧ parse [x.token, Token.op .Caret, Token.op sign, y.token]
          = .ok (.Binary .Caret x.expr (.Unary sign y.expr))
        ∧ parse [Token.op sign, Token.op sign, x.token]
          = .ok (.Unary sign (.Unary sign x.expr))) ∧
    (tokenize A "-2 ^ 2").bind parse
      = .ok (.Binary .Caret (.Unary .Minus (.Number (A.ofNat 2))) (.Number (A.ofNat 2))) ∧
    (∀ (fuel : Nat) (state : State V), 3 ≤ fuel →
      process_query A fuel "-2 ^ 2" state
        = (.ok ⟨some (A.cmath2 "pow" (A.neg (A.ofNat 2)) (A.ofNat 2)), none⟩,
            { state with
              last_result := A.cmath2 "pow" (A.neg (A.ofNat 2)) (A.ofNat 2),
              has_last_result := true })) := by
  have h2 : A.stod ['2'] = some (A.ofNat 2) :=
    stod_nat_lit A hA _ 2 (by simp) (by decide) (by decide) (by decide)
  have hl : "-2 ^ 2".length = 6 := by decide
  have ht : "-2 ^ 2".toList = ['-', '2', ' ', '^', ' ', '2'] := by decide
  have htok : tokenize A "-2 ^ 2" = .ok [Token.op .Minus, Token.number (A.ofNat 2),
      .op .Caret, .number (A.ofNat 2)] := by
    simp +decide [tokenize, hl, ht, tokenize_loop, scan_number, h2]
  have hparse : parse [Token.op .Minus, Token.number (A.ofNat 2),
      .op .Caret, .number (A.ofNat 2)]
      = .ok (.Binary .Caret (.Unary .Minus (.Number (A.ofNat 2))) (.Number (A.ofNat 2))) := rfl
  refine ⟨?_, ?_, ?_⟩
  · intro x y sign hsign
    rcases hsign with rfl | rfl <;> cases x <;> cases y <;> exact ⟨rfl, rfl, rfl⟩
  · rw [htok]; exact hparse
  · intro fuel state hfuel
    obtain ⟨n, rfl⟩ := Nat.exists_eq_add_of_le hfuel
    rw [show 3 + n = (n + 2) + 1 by omega]
    simp [process_query, htok, hparse, evaluate, eval_value, eval_binary, EvalOut.andThen]

/-- C31 at a concrete input: in the rational arithmetic, `- x ^ y` over
variables parses with the sign below the power, and the query `-2 ^ 2` on a
fresh state returns 4, the square of -2. -/
theorem C31_unary_binds_tighter_witness :
    Arith.rat.ExactOnNat ∧
    parse [Token.op .Minus, Token.identifier "x", Token.op .Caret,
        (Token.identifier "y" : Token ℚ)]
      = .ok (.Binary .Caret (.Unary .Minus (.Variable "x")) (.Variable "y")) ∧
    (process_query Arith.rat 3 "-2 ^ 2" (State.init Arith.rat)).1
      = .ok ⟨some (4 : ℚ), none⟩ := by
  have h := C31_unary_binds_tighter Arith.rat Arith.rat_exactOnNat
  refine ⟨Arith.rat_exactOnNat,
    (h.1 (.identifier "x") (.identifier "y") .Minus (Or.inl rfl)).1, ?_⟩
  rw [h.2.2 3 (State.init Arith.rat) (Nat.le_refl 3)]
  simp [Arith.rat]
  norm_num
/-! ### C32: the operand order of division and modulo -/

/-- C32. Operand order of `/` and `%`. Let `ev` be the evaluation function
`eval_binary` calls on its operands, any function at all. For `l / r` and
`l % r`: the right operand is evaluated first, in the state and context of the
node; if it fails, the failure propagates with the state it left, and if its
value compares equal to zero the node fails with "Division by zero" or
"Modulo by zero" in the state it left: in both cases the left operand is not
evaluated. Otherwise the left operand is evaluated once, in the state and
context the right operand left, and the node returns `a / v` or `fmod(a, v)`
(or propagates the failure of the left operand) in the state and context
the left operand left. `eval_value` is `eval_binary` with itself for `ev`.
In an arithmetic that is exact on small natural numbers, with at least three
nested evaluator calls allowed, on the empty state `(x = 1) / (x = 2)` returns
the quotient of 1 by 2 and leaves `x = 1`, and `(a = 5) / 0` fails with the
EvalError "Division by zero" and leaves the state empty, `a` undefined. -/
theorem C32_divisor_first (A : Arith V) :
    (∀ (ev : Evaluator V) (l r : Expression V) (state : State V) (ctx : EvalContext V),
      (∀ err s1 c1, ev r state ctx = ⟨.error err, s1, c1⟩ →
        eval_binary A ev .Slash l r state ctx = ⟨.error err, s1, c1⟩
        ∧ eval_binary A ev .Percent l r state ctx = ⟨.error err, s1, c1⟩)
      ∧ (∀ v s1 c1, ev r state ctx = ⟨.ok v, s1, c1⟩ →
        (A.eq v (A.ofNat 0) = true →
          eval_binary A ev .Slash l r state ctx
            = ⟨.error (.EvalError "Division by zero"), s1, c1⟩
          ∧ eval_binary A ev .Percent l r state ctx
            = ⟨.error (.EvalError "Modulo by zero"), s1, c1⟩)
        ∧ (A.eq v (A.ofNat 0) = false →
          (∀ err s2 c2, ev l s1 c1 = ⟨.error err, s2, c2⟩ →
            eval_binary A ev .Slash l r state ctx = ⟨.error err, s2, c2⟩
            ∧ eval_binary A ev .Percent l r state ctx = ⟨.error err, s2, c2⟩)
          ∧ (∀ a s2 c2, ev l s1 c1 = ⟨.ok a, s2, c2⟩ →
            eval_binary A ev .Slash l r state ctx = ⟨.ok (A.div a v), s2, c2⟩
            ∧ eval_binary A ev .Percent l r state ctx
              = ⟨.ok (A.cmath2 "fmod" a v), s2, c2⟩))))
    ∧ (∀ (fuel : Nat) (op : TType) (l r : Expression V) (state : State V)
        (ctx : EvalContext V),
        eval_value A (fuel + 1) (.Binary op l r) state ctx
          = eval_binary A (eval_value A fuel) op l r state ctx)
    ∧ (A.ExactOnNat → ∀ fuel : Nat, 3 ≤ fuel →
        process_query A fuel "(x = 1) / (x = 2)" (State.init A)
          = (.ok ⟨some (A.div (A.ofNat 1) (A.ofNat 2)), none⟩,
              { State.init A with
                vars := map_set (map_set (State.init A).vars "x" (A.ofNat 2)) "x" (A.ofNat 1),
                last_result := A.div (A.ofNat 1) (A.ofNat 2), has_last_result := true })
        ∧ (process_query A fuel "(x = 1) / (x = 2)" (State.init A)).2.vars "x"
          = some (A.ofNat 1)
        ∧ process_query A fuel "(a = 5) / 0" (State.init A)
          = (.error (.EvalError "Division by zero"), State.init A)
        ∧ (process_query A fuel "(a = 5) / 0" (State.init A)).2.vars "a" = none) := by
  refine ⟨?_, fun fuel op l r state ctx => eval_value_binary A fuel op l r state ctx, ?_⟩
  · intro ev l r state ctx
    refine ⟨?_, ?_⟩
    · intro err s1 c1 hr
      constructor <;> simp only [eval_binary, hr, andThen_error]
    · intro v s1 c1 hr
      refine ⟨?_, ?_⟩
      · intro hz
        constructor <;> simp only [eval_binary, hr, andThen_ok, hz, if_true]
      · intro hz
        refine ⟨?_, ?_⟩
        · intro err s2 c2 hl
          constructor <;>
            simp only [eval_binary, hr, andThen_ok, hz, Bool.false_eq_true, if_false, hl,
              andThen_error]
        · intro a s2 c2 hl
          constructor <;>
            simp only [eval_binary, hr, andThen_ok, hz, Bool.false_eq_true, if_false, hl]
  · intro hA fuel hfuel
    have h1 : A.stod ['1'] = some (A.ofNat 1) :=
      stod_nat_lit A hA _ 1 (by simp) (by decide) (by decide) (by decide)
    have h2 : A.stod ['2'] = some (A.ofNat 2) :=
      stod_nat_lit A hA _ 2 (by simp) (by decide) (by decide) (by decide)
    have h5 : A.stod ['5'] = some (A.ofNat 5) :=
      stod_nat_lit A hA _ 5 (by simp) (by decide) (by decide) (by decide)
    have h0 : A.stod ['0'] = some (A.ofNat 0) :=
      stod_nat_lit A hA _ 0 (by simp) (by decide) (by decide) (by decide)
    have hz2 : A.eq (A.ofNat 2) (A.ofNat 0) = false := by
      rw [hA.eq_nat 2 0 (by decide) (by decide)]; decide
    have hz0 : A.eq (A.ofNat 0) (A.ofNat 0) = true := by
      rw [hA.eq_nat 0 0 (by decide) (by decide)]; decide
    have hrx : is_reserved_identifier A "x" = false := rfl
    have hl1 : "(x = 1) / (x = 2)".length = 17 := by decide
    have ht1 : "(x = 1) / (x = 2)".toList
        = ['(', 'x', ' ', '=', ' ', '1', ')', ' ', '/', ' ', '(', 'x', ' ', '=', ' ', '2',
            ')'] := by decide
    have htok1 : tokenize A "(x = 1) / (x = 2)" = .ok [Token.op .LParen, Token.identifier "x",
        .op .Equals, .number (A.ofNat 1), .op .RParen, .op .Slash, .op .LParen,
        Token.identifier "x", .op .Equals, .number (A.ofNat 2), .op .RParen] := by
      simp +decide [tokenize, hl1, ht1, tokenize_loop, scan_number, scan_identifier,
        next_is_equals, h1, h2]
    have hparse1 : parse [Token.op .LParen, Token.identifier "x",
        .op .Equals, .number (A.ofNat 1), .op .RParen, .op .Slash, .op .LParen,
        Token.identifier "x", .op .Equals, .number (A.ofNat 2), .op .RParen]
        = .ok (.Binary .Slash (.Binary .Equals (.Variable "x") (.Number (A.ofNat 1)))
            (.Binary .Equals (.Variable "x") (.Number (A.ofNat 2)))) := rfl
    have hl2 : "(a = 5) / 0".length = 11 := by decide
    have ht2 : "(a = 5) / 0".toList
        = ['(', 'a', ' ', '=', ' ', '5', ')', ' ', '/', ' ', '0'] := by decide
    have htok2 : tokenize A "(a = 5) / 0" = .ok [Token.op .LParen, Token.identifier "a",
        .op .Equals, .number (A.ofNat 5), .op .RParen, .op .Slash, .number (A.ofNat 0)] := by
      simp +decide [tokenize, hl2, ht2, tokenize_loop, scan_number, scan_identifier,
        next_is_equals, h5, h0]
    have hparse2 : parse [Token.op .LParen, Token.identifier "a",
        .op .Equals, .number (A.ofNat 5), .op .RParen, .op .Slash, .number (A.ofNat 0)]
        = .ok (.Binary .Slash (.Binary .Equals (.Variable "a") (.Number (A.ofNat 5)))
            (.Number (A.ofNat 0))) := rfl
    obtain ⟨n, rfl⟩ := Nat.exists_eq_add_of_le hfuel
    rw [show 3 + n = (n + 2) + 1 by omega]
    have e1 : process_query A (n + 2 + 1) "(x = 1) / (x = 2)" (State.init A)
        = (.ok ⟨some (A.div (A.ofNat 1) (A.ofNat 2)), none⟩,
            { State.init A with
              vars := map_set (map_set (State.init A).vars "x" (A.ofNat 2)) "x" (A.ofNat 1),
              last_result := A.div (A.ofNat 1) (A.ofNat 2), has_last_result := true }) := by
      simp [process_query, htok1, hparse1, evaluate, eval_value, eval_binary, EvalOut.andThen,
        hz2, hrx]
    have e2 : process_query A (n + 2 + 1) "(a = 5) / 0" (State.init A)
        = (.error (.EvalError "Division by zero"), State.init A) := by
      simp [process_query, htok2, hparse2, evaluate, eval_value, eval_binary, EvalOut.andThen,
        hz0]
    refine ⟨e1, ?_, e2, ?_⟩
    · rw [e1]
      simp [map_set]
    · rw [e2]
      rfl

/-- C32 at concrete inputs: in the rational arithmetic, with three nested
evaluator calls allowed, `(x = 1) / (x = 2)` on the empty state returns 1/2
and leaves `x = 1`, and `(a = 5) / 0` fails and leaves `a` undefined. -/
theorem C32_divisor_first_witness :
    Arith.rat.ExactOnNat ∧ 3 ≤ 3
    ∧ (process_query Arith.rat 3 "(x = 1) / (x = 2)" (State.init Arith.rat)).1
      = .ok ⟨some (1 / 2 : ℚ), none⟩
    ∧ (process_query Arith.rat 3 "(x = 1) / (x = 2)" (State.init Arith.rat)).2.vars "x"
      = some (1 : ℚ)
    ∧ process_query Arith.rat 3 "(a = 5) / 0" (State.init Arith.rat)
      = (.error (.EvalError "Division by zero"), State.init Arith.rat) := by
  have h := (C32_divisor_first Arith.rat).2.2 Arith.rat_exactOnNat 3 (Nat.le_refl 3)
  refine ⟨Arith.rat_exactOnNat, Nat.le_refl 3, ?_, ?_, h.2.2.1⟩
  · rw [h.1]
    simp [Arith.rat]
  · rw [h.2.1]
    simp [Arith.rat]
/-! ### C33: the operand order of the other binary operators -/

/-- The query `(x = 1) + (x = 2)` returns 3 and leaves `x = 2`: the left
assignment is made first and the right one overwrites it. -/
theorem process_plus_assignments (A : Arith V) (hA : A.ExactOnNat) (n : Nat)
    (state : State V) :
    process_query A (n + 3) "(x = 1) + (x = 2)" state
      = (.ok ⟨some (A.ofNat 3), none⟩,
          { state with
            vars := map_set (map_set state.vars "x" (A.ofNat 1)) "x" (A.ofNat 2),
            last_result := A.ofNat 3, has_last_result := true }) := by
  have h1 : A.stod ['1'] = some (A.ofNat 1) :=
    stod_nat_lit A hA _ 1 (by simp) (by decide) (by decide) (by decide)
  have h2 : A.stod ['2'] = some (A.ofNat 2) :=
    stod_nat_lit A hA _ 2 (by simp) (by decide) (by decide) (by decide)
  have hadd : A.add (A.ofNat 1) (A.ofNat 2) = A.ofNat 3 := hA.add_nat 1 2 (by decide)
  have hrx : is_reserved_identifier A "x" = false := rfl
  have hl : "(x = 1) + (x = 2)".length = 17 := by decide
  have ht : "(x = 1) + (x = 2)".toList
      = ['(', 'x', ' ', '=', ' ', '1', ')', ' ', '+', ' ', '(', 'x', ' ', '=', ' ', '2',
          ')'] := by decide
  have htok : tokenize A "(x = 1) + (x = 2)" = .ok [Token.op .LParen, Token.identifier "x",
      .op .Equals, .number (A.ofNat 1), .op .RParen, .op .Plus, .op .LParen,
      Token.identifier "x", .op .Equals, .number (A.ofNat 2), .op .RParen] := by
    simp +decide [tokenize, hl, ht, tokenize_loop, scan_number, scan_identifier,
      next_is_equals, h1, h2]
  have hparse : parse [Token.op .LParen, Token.identifier "x",
      .op .Equals, .number (A.ofNat 1), .op .RParen, .op .Plus, .op .LParen,
      Token.identifier "x", .op .Equals, .number (A.ofNat 2), .op .RParen]
      = .ok (.Binary .Plus (.Binary .Equals (.Variable "x") (.Number (A.ofNat 1)))
          (.Binary .Equals (.Variable "x") (.Number (A.ofNat 2)))) := rfl
  rw [show n + 3 = (n + 2) + 1 by omega]
  simp [process_query, htok, hparse, evaluate, eval_value, eval_binary, EvalOut.andThen,
    hrx, hadd]

/-- The query `(x = 2) ^ (x = 3)` returns 8 and leaves `x = 2`: the right
assignment is made first and the left one overwrites it. -/
theorem process_pow_assignments (A : Arith V) (hA : A.ExactOnNat) (n : Nat)
    (state : State V) :
    process_query A (n + 3) "(x = 2) ^ (x = 3)" state
      = (.ok ⟨some (A.ofNat 8), none⟩,
          { state with
            vars := map_set (map_set state.vars "x" (A.ofNat 3)) "x" (A.ofNat 2),
            last_result := A.ofNat 8, has_last_result := true }) := by
  have h2 : A.stod ['2'] = some (A.ofNat 2) :=
    stod_nat_lit A hA _ 2 (by simp) (by decide) (by decide) (by decide)
  have h3 : A.stod ['3'] = some (A.ofNat 3) :=
    stod_nat_lit A hA _ 3 (by simp) (by decide) (by decide) (by decide)
  have hpow : A.cmath2 "pow" (A.ofNat 2) (A.ofNat 3) = A.ofNat 8 :=
    hA.pow_nat 2 3 (by decide)
  have hrx : is_reserved_identifier A "x" = false := rfl
  have hl : "(x = 2) ^ (x = 3)".length = 17 := by decide
  have ht : "(x = 2) ^ (x = 3)".toList
      = ['(', 'x', ' ', '=', ' ', '2', ')', ' ', '^', ' ', '(', 'x', ' ', '=', ' ', '3',
          ')'] := by decide
  have htok : tokenize A "(x = 2) ^ (x = 3)" = .ok [Token.op .LParen, Token.identifier "x",
      .op .Equals, .number (A.ofNat 2), .op .RParen, .op .Caret, .op .LParen,
      Token.identifier "x", .op .Equals, .number (A.ofNat 3), .op .RParen] := by
    simp +decide [tokenize, hl, ht, tokenize_loop, scan_number, scan_identifier,
      next_is_equals, h2, h3]
  have hparse : parse [Token.op .LParen, Token.identifier "x",
      .op .Equals, .number (A.ofNat 2), .op .RParen, .op .Caret, .op .LParen,
      Token.identifier "x", .op .Equals, .number (A.ofNat 3), .op .RParen]
      = .ok (.Binary .Caret (.Binary .Equals (.Variable "x") (.Number (A.ofNat 2)))
          (.Binary .Equals (.Variable "x") (.Number (A.ofNat 3)))) := rfl
  rw [show n + 3 = (n + 2) + 1 by omega]
  simp [process_query, htok, hparse, evaluate, eval_value, eval_binary, EvalOut.andThen,
    hrx, hpow]

/-- The query `(x = 2) ^ (y = x)` on a state with `x = v` returns `pow(2, v)`:
the right operand reads `x` before the left one assigns it. -/
theorem process_pow_reads (A : Arith V) (hA : A.ExactOnNat) (n : Nat)
    (state : State V) (v : V) (hx : state.vars "x" = some v) :
    process_query A (n + 3) "(x = 2) ^ (y = x)" state
      = (.ok ⟨some (A.cmath2 "pow" (A.ofNat 2) v), none⟩,
          { state with
            vars := map_set (map_set state.vars "y" v) "x" (A.ofNat 2),
            last_result := A.cmath2 "pow" (A.ofNat 2) v, has_last_result := true }) := by
  have h2 : A.stod ['2'] = some (A.ofNat 2) :=
    stod_nat_lit A hA _ 2 (by simp) (by decide) (by decide) (by decide)
  have hrx : is_reserved_identifier A "x" = false := rfl
  have hry : is_reserved_identifier A "y" = false := rfl
  have hl : "(x = 2) ^ (y = x)".length = 17 := by decide
  have ht : "(x = 2) ^ (y = x)".toList
      = ['(', 'x', ' ', '=', ' ', '2', ')', ' ', '^', ' ', '(', 'y', ' ', '=', ' ', 'x',
          ')'] := by decide
  have htok : tokenize A "(x = 2) ^ (y = x)" = .ok [Token.op .LParen, Token.identifier "x",
      .op .Equals, .number (A.ofNat 2), .op .RParen, .op .Caret, .op .LParen,
      Token.identifier "y", .op .Equals, Token.identifier "x", .op .RParen] := by
    simp +decide [tokenize, hl, ht, tokenize_loop, scan_number, scan_identifier,
      next_is_equals, h2]
  have hparse : parse [Token.op .LParen, Token.identifier "x",
      .op .Equals, .number (A.ofNat 2), .op .RParen, .op .Caret, .op .LParen,
      Token.identifier "y", .op .Equals, Token.identifier "x", .op .RParen]
      = .ok (.Binary .Caret (.Binary .Equals (.Variable "x") (.Number (A.ofNat 2)))
          (.Binary .Equals (.Variable "y") (.Variable "x"))) := rfl
  rw [show n + 3 = (n + 2) + 1 by omega]
  simp [process_query, htok, hparse, evaluate, eval_value, eval_binary, eval_variable,
    EvalOut.andThen, hrx, hry, hx]

/-- C33. Operand order of the binary operators other than `/` and `%`. Let
`ev` be the evaluation function `eval_binary` calls on its operands, any
function at all. For `+`, `-`, `*` and the six comparison operators the left
operand is evaluated first, in the state and context of the node, and the
right operand after it, in the state and context the left one left: a failure
of the left operand propagates with the right operand not evaluated, a
failure of the right operand propagates, and otherwise the node returns the
sum, difference, product or the comparison of the two values in the state and
context the right operand left. For `^` it is the other way round: the right
operand is evaluated first and the left operand after it, in the state and
context the right one left, and the node returns `pow(a, b)` in the state and
context the left operand left. `eval_value` is `eval_binary` with itself for
`ev`. In an arithmetic that is exact on small natural numbers, with at least
three nested evaluator calls allowed, on every state: `(x = 1) + (x = 2)`
returns 3 and leaves `x = 2`; `(x = 2) ^ (x = 3)` returns 8 and leaves
`x = 2`, the assignment of the left operand, not `x = 3`; and
`(x = 2) ^ (y = x)` on a state with `x = v` returns `pow(2, v)`, the right
operand reading `x` before the left one assigns it. -/
theorem C33_operand_order (A : Arith V) :
    (∀ (ev : Evaluator V) (l r : Expression V) (state : State V) (ctx : EvalContext V),
      (∀ op : TType, left_first op = true →
        (∀ err s1 c1, ev l state ctx = ⟨.error err, s1, c1⟩ →
          eval_binary A ev op l r state ctx = ⟨.error err, s1, c1⟩)
        ∧ (∀ a s1 c1 err s2 c2, ev l state ctx = ⟨.ok a, s1, c1⟩ →
          ev r s1 c1 = ⟨.error err, s2, c2⟩ →
          eval_binary A ev op l r state ctx = ⟨.error err, s2, c2⟩))
      ∧ (∀ a s1 c1 b s2 c2, ev l state ctx = ⟨.ok a, s1, c1⟩ →
        ev r s1 c1 = ⟨.ok b, s2, c2⟩ →
        eval_binary A ev .Plus l r state ctx = ⟨.ok (A.add a b), s2, c2⟩
        ∧ eval_binary A ev .Minus l r state ctx = ⟨.ok (A.sub a b), s2, c2⟩
        ∧ eval_binary A ev .Star l r state ctx = ⟨.ok (A.mul a b), s2, c2⟩
        ∧ eval_binary A ev .Less l r state ctx = ⟨.ok (A.ofBool (A.lt a b)), s2, c2⟩
        ∧ eval_binary A ev .LessEqual l r state ctx = ⟨.ok (A.ofBool (A.le a b)), s2, c2⟩
        ∧ eval_binary A ev .Greater l r state ctx = ⟨.ok (A.ofBool (A.gt a b)), s2, c2⟩
        ∧ eval_binary A ev .GreaterEqual l r state ctx
          = ⟨.ok (A.ofBool (A.ge a b)), s2, c2⟩
        ∧ eval_binary A ev .EqualEqual l r state ctx = ⟨.ok (A.ofBool (A.eq a b)), s2, c2⟩
        ∧ eval_binary A ev .BangEqual l r state ctx = ⟨.ok (A.ofBool (A.ne a b)), s2, c2⟩)
      ∧ (∀ err s1 c1, ev r state ctx = ⟨.error err, s1, c1⟩ →
        eval_binary A ev .Caret l r state ctx = ⟨.error err, s1, c1⟩)
      ∧ (∀ b s1 c1, ev r state ctx = ⟨.ok b, s1, c1⟩ →
        (∀ err s2 c2, ev l s1 c1 = ⟨.error err, s2, c2⟩ →
          eval_binary A ev .Caret l r state ctx = ⟨.error err, s2, c2⟩)
        ∧ (∀ a s2 c2, ev l s1 c1 = ⟨.ok a, s2, c2⟩ →
          eval_binary A ev .Caret l r state ctx = ⟨.ok (A.cmath2 "pow" a b), s2, c2⟩)))
    ∧ (∀ op : TType, left_first op = true ↔
        op ∈ [TType.Plus, .Minus, .Star, .Less, .LessEqual, .Greater, .GreaterEqual,
          .EqualEqual, .BangEqual])
    ∧ (∀ (fuel : Nat) (op : TType) (l r : Expression V) (state : State V)
        (ctx : EvalContext V),
        eval_value A (fuel + 1) (.Binary op l r) state ctx
          = eval_binary A (eval_value A fuel) op l r state ctx)
    ∧ (A.ExactOnNat → ∀ (fuel : Nat) (state : State V), 3 ≤ fuel →
        process_query A fuel "(x = 1) + (x = 2)" state
          = (.ok ⟨some (A.ofNat 3), none⟩,
              { state with
                vars := map_set (map_set state.vars "x" (A.ofNat 1)) "x" (A.ofNat 2),
                last_result := A.ofNat 3, has_last_result := true })
        ∧ (process_query A fuel "(x = 1) + (x = 2)" state).2.vars "x" = some (A.ofNat 2)
        ∧ process_query A fuel "(x = 2) ^ (x = 3)" state
          = (.ok ⟨some (A.ofNat 8), none⟩,
              { state with
                vars := map_set (map_set state.vars "x" (A.ofNat 3)) "x" (A.ofNat 2),
                last_result := A.ofNat 8, has_last_result := true })
        ∧ (process_query A fuel "(x = 2) ^ (x = 3)" state).2.vars "x" = some (A.ofNat 2)
        ∧ (∀ v : V, state.vars "x" = some v →
          (process_query A fuel "(x = 2) ^ (y = x)" state).1
            = .ok ⟨some (A.cmath2 "pow" (A.ofNat 2) v), none⟩)) := by
  refine ⟨?_, ?_, fun fuel op l r state ctx => eval_value_binary A fuel op l r state ctx, ?_⟩
  · intro ev l r state ctx
    refine ⟨?_, ?_, ?_, ?_⟩
    · intro op hop
      refine ⟨?_, ?_⟩
      · intro err s1 c1 hl
        cases op <;> simp only [left_first, Bool.false_eq_true] at hop <;>
          simp only [eval_binary, hl, andThen_error]
      · intro a s1 c1 err s2 c2 hl hr
        cases op <;> simp only [left_first, Bool.false_eq_true] at hop <;>
          simp only [eval_binary, hl, andThen_ok, hr, andThen_error]
    · intro a s1 c1 b s2 c2 hl hr
      refine ⟨?_, ?_, ?_, ?_, ?_, ?_, ?_, ?_, ?_⟩ <;>
        simp only [eval_binary, hl, andThen_ok, hr]
    · intro err s1 c1 hr
      simp only [eval_binary, hr, andThen_error]
    · intro b s1 c1 hr
      refine ⟨?_, ?_⟩
      · intro err s2 c2 hl
        simp only [eval_binary, hr, andThen_ok, hl, andThen_error]
      · intro a s2 c2 hl
        simp only [eval_binary, hr, andThen_ok, hl]
  · intro op
    cases op <;> simp [left_first]
  · intro hA fuel state hfuel
    obtain ⟨n, rfl⟩ := Nat.exists_eq_add_of_le hfuel
    rw [show 3 + n = n + 3 by omega]
    have e1 := process_plus_assignments A hA n state
    have e2 := process_pow_assignments A hA n state
    refine ⟨e1, ?_, e2, ?_, ?_⟩
    · rw [e1]
      simp [map_set]
    · rw [e2]
      simp [map_set]
    · intro v hx
      rw [process_pow_reads A hA n state v hx]

/-- C33 at concrete inputs: in the rational arithmetic, with three nested
evaluator calls allowed, on the empty state `(x = 1) + (x = 2)` returns 3 and
leaves `x = 2`, and `(x = 2) ^ (x = 3)` returns 8 and leaves `x = 2`; on the
state with `x = 7`, `(x = 2) ^ (y = x)` returns 128. -/
theorem C33_operand_order_witness :
    Arith.rat.ExactOnNat ∧ 3 ≤ 3
    ∧ (process_query Arith.rat 3 "(x = 1) + (x = 2)" (State.init Arith.rat)).1
      = .ok ⟨some (3 : ℚ), none⟩
    ∧ (process_query Arith.rat 3 "(x = 1) + (x = 2)" (State.init Arith.rat)).2.vars "x"
      = some (2 : ℚ)
    ∧ (process_query Arith.rat 3 "(x = 2) ^ (x = 3)" (State.init Arith.rat)).1
      = .ok ⟨some (8 : ℚ), none⟩
    ∧ (process_query Arith.rat 3 "(x = 2) ^ (x = 3)" (State.init Arith.rat)).2.vars "x"
      = some (2 : ℚ)
    ∧ (process_query Arith.rat 3 "(x = 2) ^ (y = x)"
        { State.init Arith.rat with
          vars := map_set (State.init Arith.rat).vars "x" (7 : ℚ) }).1
      = .ok ⟨some (128 : ℚ), none⟩ := by
  have h := (C33_operand_order Arith.rat).2.2.2 Arith.rat_exactOnNat 3
  have h0 := h (State.init Arith.rat) (Nat.le_refl 3)
  have h7 := (h { State.init Arith.rat with
    vars := map_set (State.init Arith.rat).vars "x" (7 : ℚ) } (Nat.le_refl 3)).2.2.2.2
    (7 : ℚ) (by simp [map_set])
  refine ⟨Arith.rat_exactOnNat, Nat.le_refl 3, ?_, ?_, ?_, ?_, ?_⟩
  · rw [h0.1]
    simp [Arith.rat]
  · rw [h0.2.1]
    simp [Arith.rat]
  · rw [h0.2.2.1]
    simp [Arith.rat]
  · rw [h0.2.2.2.1]
    simp [Arith.rat]
  · rw [h7]
    have := Arith.rat_exactOnNat.pow_nat 2 7 (by decide)
    simp [Arith.rat] at this ⊢
    norm_num

/-! ### A primary expression that is the whole input -/

theorem abstract_parse_tail_done (parser : Parser V) (is_operator : Token V → Bool)
    (assoc : Associativity) (n : Nat) (left : Expression V) (s : TokenStream V)
    (hs : s.rest = []) :
    abstract_parse_tail parser is_operator assoc n left s = .ok (left, s) := by
  unfold abstract_parse_tail
  rw [if_pos (empty_of_rest_nil s hs)]

/-- A level of binary operators returns what its operand parser returns, when
that leaves the stream exhausted. -/
theorem abstract_parse_done (parser : Parser V) (s s1 : TokenStream V) (e : Expression V)
    (operators : List TType) (assoc : Associativity) (h : parser s = .ok (e, s1))
    (h1 : s1.rest = []) : abstract_parse s parser operators assoc = .ok (e, s1) := by
  unfold abstract_parse
  rw [abstract_parse_steps_succ]
  simp only [h]
  exact abstract_parse_tail_done _ _ _ _ _ _ h1

/-- On a stream that does not start with a sign, `parse_unary` is
`parse_primary`. -/
theorem parse_unary_primary (pa : Parser V) (s : TokenStream V) (t : Token V) (r : Tokens V)
    (hs : s.rest = t :: r) (hp : t.type ≠ TType.Plus) (hm : t.type ≠ TType.Minus) :
    parse_unary pa s = parse_primary pa s := by
  unfold parse_unary
  rw [parse_unary_steps, if_neg (by simp [empty_of_rest_cons s t r hs]),
    peek_type_of_rest_cons s t r hs, if_neg (by simp [hp, hm])]

/-- The ternary level returns what the equality level returns, when that
leaves the stream exhausted. -/
theorem parse_ternary_done (pa : Parser V) (s s1 : TokenStream V) (e : Expression V)
    (h : parse_equality pa s = .ok (e, s1)) (h1 : s1.rest = []) :
    parse_ternary pa s = .ok (e, s1) := by
  unfold parse_ternary
  rw [parse_ternary_steps]
  simp only [h]
  rw [if_neg (by simp [empty_of_rest_nil s1 h1])]

/-- A primary expression that takes the whole stream is what every level of
the grammar returns. -/
theorem parse_primary_done (d : Nat) (s s1 : TokenStream V) (e : Expression V) (t : Token V)
    (r : Tokens V) (hs : s.rest = t :: r) (hp : t.type ≠ TType.Plus)
    (hm : t.type ≠ TType.Minus)
    (h : parse_primary (parse_assignment d) s = .ok (e, s1)) (h1 : s1.rest = []) :
    parse_assignment (d + 1) s = .ok (e, s1) := by
  rw [parse_assignment]
  refine abstract_parse_done _ s s1 e _ _ ?_ h1
  refine parse_ternary_done _ s s1 e ?_ h1
  refine abstract_parse_done _ s s1 e _ _ ?_ h1
  refine abstract_parse_done _ s s1 e _ _ ?_ h1
  refine abstract_parse_done _ s s1 e _ _ ?_ h1
  refine abstract_parse_done _ s s1 e _ _ ?_ h1
  refine abstract_parse_done _ s s1 e _ _ ?_ h1
  rw [parse_unary_primary _ s t r hs hp hm]
  exact h
/-! ### Balanced runs of tokens -/

theorem paren_walk_append (a b : Tokens V) :
    ∀ depth, paren_walk (a ++ b) depth = (paren_walk a depth).bind (paren_walk b) := by
  induction a with
  | nil => intro depth; rfl
  | cons t a ih =>
    intro depth
    rw [List.cons_append, paren_walk, paren_walk]
    by_cases hl : t.type = TType.LParen
    · rw [if_pos hl, if_pos hl, ih]
    · rw [if_neg hl, if_neg hl]
      by_cases hr : t.type = TType.RParen
      · rw [if_pos hr, if_pos hr]
        by_cases hd : depth = 0
        · rw [if_pos hd, if_pos hd]
          rfl
        · rw [if_neg hd, if_neg hd, ih]
      · rw [if_neg hr, if_neg hr]
        by_cases hc : t.type = TType.Comma ∧ depth = 0
        · rw [if_pos hc, if_pos hc]
          rfl
        · rw [if_neg hc, if_neg hc, ih]

/-- A run read from a depth can be read from one level deeper, and ends one
level deeper. -/
theorem paren_walk_shift (a : Tokens V) :
    ∀ depth depth1, paren_walk a depth = some depth1 →
      paren_walk a (depth + 1) = some (depth1 + 1) := by
  induction a with
  | nil =>
    intro depth depth1 h
    simp only [paren_walk, Option.some.injEq] at h ⊢
    omega
  | cons t a ih =>
    intro depth depth1 h
    rw [paren_walk] at h ⊢
    by_cases hl : t.type = TType.LParen
    · rw [if_pos hl] at h ⊢
      exact ih _ _ h
    · rw [if_neg hl] at h ⊢
      by_cases hr : t.type = TType.RParen
      · rw [if_pos hr] at h ⊢
        by_cases hd : depth = 0
        · rw [if_pos hd] at h
          simp at h
        · rw [if_neg hd] at h
          rw [if_neg (by omega)]
          have := ih _ _ h
          rw [show depth - 1 + 1 = depth + 1 - 1 by omega] at this
          exact this
      · rw [if_neg hr] at h ⊢
        by_cases hc : t.type = TType.Comma ∧ depth = 0
        · rw [if_pos hc] at h
          simp at h
        · rw [if_neg hc] at h
          rw [if_neg (by omega)]
          exact ih _ _ h

/-- A token that is no parenthesis and no comma leaves the depth. -/
theorem paren_walk_plain (t : Token V) (a : Tokens V) (depth : Nat)
    (hl : t.type ≠ TType.LParen) (hr : t.type ≠ TType.RParen) (hc : t.type ≠ TType.Comma) :
    paren_walk (t :: a) depth = paren_walk a depth := by
  rw [paren_walk, if_neg hl, if_neg hr, if_neg (fun h => hc h.1)]

theorem balanced_nil : Balanced ([] : Tokens V) := rfl

theorem balanced_append (a b : Tokens V) (ha : Balanced a) (hb : Balanced b) :
    Balanced (a ++ b) := by
  unfold Balanced at ha hb ⊢
  rw [paren_walk_append, ha]
  exact hb

theorem balanced_plain (t : Token V) (hl : t.type ≠ TType.LParen)
    (hr : t.type ≠ TType.RParen) (hc : t.type ≠ TType.Comma) : Balanced [t] := by
  unfold Balanced
  rw [paren_walk_plain t _ _ hl hr hc]
  rfl

/-- A run read from depth 1 back to depth 1, between an LParen and an RParen,
is balanced. -/
theorem balanced_paren (lp rp : Token V) (a : Tokens V) (hlp : lp.type = TType.LParen)
    (hrp : rp.type = TType.RParen) (ha : paren_walk a 1 = some 1) :
    Balanced (lp :: a ++ [rp]) := by
  unfold Balanced
  rw [List.cons_append, paren_walk, if_pos hlp, paren_walk_append, ha]
  simp only [Option.some_bind, Nat.zero_add]
  rw [paren_walk, if_neg (by rw [hrp]; decide), if_pos hrp, if_neg (by decide)]
  rfl

theorem balances_refl (s : TokenStream V) : Balances s s := ⟨[], rfl, balanced_nil⟩

theorem balances_trans {s s1 s2 : TokenStream V} (h : Balances s s1) (h1 : Balances s1 s2) :
    Balances s s2 := by
  obtain ⟨c, he, hb⟩ := h
  obtain ⟨c1, he1, hb1⟩ := h1
  exact ⟨c ++ c1, by rw [he, he1, List.append_assoc], balanced_append _ _ hb hb1⟩

theorem balances_get (s : TokenStream V) (t : Token V) (r : Tokens V) (h : s.rest = t :: r)
    (hl : t.type ≠ TType.LParen) (hr : t.type ≠ TType.RParen) (hc : t.type ≠ TType.Comma) :
    Balances s s.next :=
  ⟨[t], by rw [(get_of_rest_cons s t r h).2, h]; rfl, balanced_plain t hl hr hc⟩

/-- A balanced run between an LParen and an RParen is a balanced run. -/
theorem balances_wrap (s s2 : TokenStream V) (lp c : Token V) (r r2 : Tokens V)
    (hs : s.rest = lp :: r) (hlp : lp.type = TType.LParen) (h : Balances s.next s2)
    (hs2 : s2.rest = c :: r2) (hc : c.type = TType.RParen) : Balances s s2.next := by
  obtain ⟨a, he, hb⟩ := h
  refine ⟨lp :: a ++ [c], ?_, balanced_paren lp c a hlp hc (paren_walk_shift a 0 0 hb)⟩
  rw [hs, ← (get_of_rest_cons s lp r hs).2, he, hs2, (get_of_rest_cons s2 c r2 hs2).2]
  simp
/-- The argument scan of a call that stops in front of a token has consumed a
run that, read one level deep, ends one level deep: its parentheses match and
its commas are no commas of depth 0 for the enclosing call. -/
theorem scan_fn_args_balanced (steps : Nat) :
    ∀ (s : TokenStream V) (sets : List (Tokens V)) (d : Nat) (sets1 : List (Tokens V))
      (s1 : TokenStream V),
      scan_fn_args steps s sets (d : Int) = .ok (sets1, s1) → s1.rest ≠ [] →
      ∃ consumed, s.rest = consumed ++ s1.rest ∧ paren_walk consumed (d + 1) = some 1 := by
  induction steps with
  | zero => intro s sets d sets1 s1 h; simp [scan_fn_args] at h
  | succ n ih =>
    intro s sets d sets1 s1 h hne
    rw [scan_fn_args] at h
    rcases hs : s.rest with _ | ⟨t, r⟩
    · rw [if_pos (empty_of_rest_nil s hs)] at h
      simp only [Except.ok.injEq, Prod.mk.injEq] at h
      obtain ⟨-, rfl⟩ := h
      exact absurd hs hne
    · rw [if_neg (by simp [empty_of_rest_cons s t r hs]), peek_type_of_rest_cons s t r hs] at h
      by_cases hstop : some t.type = some TType.RParen ∧ (d : Int) = 0
      · rw [if_pos hstop] at h
        simp only [Except.ok.injEq, Prod.mk.injEq] at h
        obtain ⟨-, rfl⟩ := h
        have hd : d = 0 := by exact_mod_cast hstop.2
        subst hd
        exact ⟨[], by simp [hs], rfl⟩
      · rw [if_neg hstop] at h
        obtain ⟨hget, hnext⟩ := get_of_rest_cons s t r hs
        rw [hget] at h
        simp only at h
        have hstep : ∀ (sets0 : List (Tokens V)) (d1 : Nat),
            scan_fn_args n s.next sets0 (d1 : Int) = .ok (sets1, s1) →
            paren_walk [t] (d + 1) = some (d1 + 1) →
            ∃ consumed, t :: r = consumed ++ s1.rest
              ∧ paren_walk consumed (d + 1) = some 1 := by
          intro sets0 d1 h0 hw
          obtain ⟨c, he, hc⟩ := ih s.next sets0 d1 sets1 s1 h0 hne
          refine ⟨t :: c, by rw [← hnext, he]; rfl, ?_⟩
          have := paren_walk_append [t] c (d + 1)
          rw [List.singleton_append] at this
          rw [this, hw]
          exact hc
        by_cases hl : t.type = TType.LParen
        · rw [if_pos hl] at h
          simp only at h
          have hcast : ((d : Int) + 1) = ((d + 1 : Nat) : Int) := by push_cast; rfl
          rw [hcast] at h
          have hw : paren_walk [t] (d + 1) = some (d + 1 + 1) := by
            rw [paren_walk, if_pos hl]
            rfl
          split_ifs at h
          · exact hstep _ _ h hw
          · exact hstep _ _ h hw
        · rw [if_neg hl] at h
          by_cases hr : t.type = TType.RParen
          · rw [if_pos hr] at h
            by_cases hd : (d : Int) = 0
            · rw [if_pos hd] at h
              simp at h
            · rw [if_neg hd] at h
              simp only at h
              have hd1 : d ≠ 0 := fun h0 => hd (by exact_mod_cast h0)
              have hcast : ((d : Int) - 1) = ((d - 1 : Nat) : Int) := by omega
              rw [hcast] at h
              have hw : paren_walk [t] (d + 1) = some (d - 1 + 1) := by
                rw [paren_walk, if_neg hl, if_pos hr, if_neg (by omega)]
                simp only [paren_walk, Option.some.injEq]
                omega
              split_ifs at h
              · exact hstep _ _ h hw
              · exact hstep _ _ h hw
          · rw [if_neg hr] at h
            simp only at h
            have hw : paren_walk [t] (d + 1) = some (d + 1) := by
              rw [paren_walk, if_neg hl, if_neg hr, if_neg (by omega)]
              rfl
            split_ifs at h
            · exact hstep _ _ h hw
            · exact hstep _ _ h hw

/-- The argument list of a call, when it is parsed, is a run that matches its
parentheses, between an LParen and an RParen. -/
theorem parse_fn_args_balanced (parse : Tokens V → Except Error (Expression V))
    (s s1 : TokenStream V) (args : ExpressionList V)
    (h : parse_fn_args parse s = .ok (args, s1)) :
    ∃ lp seg c, s.rest = lp :: seg ++ [c] ++ s1.rest ∧ lp.type = TType.LParen
      ∧ c.type = TType.RParen ∧ paren_walk seg 1 = some 1 := by
  unfold parse_fn_args at h
  rcases hs : s.rest with _ | ⟨lp, r⟩
  · simp [TokenStream.expect, empty_of_rest_nil s hs] at h
  · rw [expect_of_rest_cons s lp r _ hs] at h
    by_cases hlp : lp.type = TType.LParen
    · rw [if_neg (by simp [hlp])] at h
      simp only at h
      obtain ⟨-, hnext⟩ := get_of_rest_cons s lp r hs
      cases hscan : scan_fn_args (s.next.remaining + 1) s.next [[]] 0 with
      | error err => rw [hscan] at h; simp at h
      | ok out =>
        obtain ⟨sets, s2⟩ := out
        rw [hscan] at h
        simp only at h
        rcases hs2 : s2.rest with _ | ⟨c, r2⟩
        · rw [if_pos (empty_of_rest_nil s2 hs2)] at h
          simp at h
        · rw [if_neg (by simp [empty_of_rest_cons s2 c r2 hs2])] at h
          obtain ⟨hget2, hnext2⟩ := get_of_rest_cons s2 c r2 hs2
          rw [hget2] at h
          simp only at h
          obtain ⟨seg, hseg, hwalk⟩ := scan_fn_args_balanced _ s.next [[]] 0 sets s2
            (by exact_mod_cast hscan) (by rw [hs2]; simp)
          have hc : c.type = TType.RParen := by
            obtain ⟨_, -, -, -, -, -, -, hstop⟩ := (scan_fn_args_spec _ s.next [[]] 0 (by simp)
              (by rw [remaining_eq_length]; omega)).1 sets s2 hscan
            exact hstop c r2 hs2
          have hs1 : s1 = s2.next := by
            split_ifs at h
            · simp only [Except.ok.injEq, Prod.mk.injEq] at h
              exact h.2.symm
            · cases hp : parse_token_sets parse sets with
              | error err => rw [hp] at h; simp at h
              | ok args1 =>
                rw [hp] at h
                simp only [Except.ok.injEq, Prod.mk.injEq] at h
                exact h.2.symm
          subst hs1
          refine ⟨lp, seg, c, ?_, hlp, hc, hwalk⟩
          rw [← hnext, hseg, hs2, hnext2]
          simp
    · rw [if_pos (by simpa using hlp)] at h
      simp at h
/-- `parse_primary` consumes a balanced run, over a parsing function that
does. -/
theorem parse_primary_balanced (pa : Parser V) (hpa : Parser.Balanced pa) :
    Parser.Balanced (parse_primary pa) := by
  intro s e s1 h
  unfold parse_primary at h
  rcases hs : s.rest with _ | ⟨t, r⟩
  · rw [if_pos (empty_of_rest_nil s hs)] at h
    simp at h
  · rw [if_neg (by simp [empty_of_rest_cons s t r hs])] at h
    obtain ⟨hget, hnext⟩ := get_of_rest_cons s t r hs
    rw [hget] at h
    simp only at h
    cases htype : t.type <;> rw [htype] at h <;> simp only at h <;> try (simp at h; done)
    case Number =>
      have hfirst : Balances s s.next := balances_get s t r hs (by rw [htype]; decide)
        (by rw [htype]; decide) (by rw [htype]; decide)
      cases hv : t.get_double with
      | error err => rw [hv] at h; simp at h
      | ok value =>
        rw [hv] at h
        simp only [Except.ok.injEq, Prod.mk.injEq] at h
        obtain ⟨-, rfl⟩ := h
        exact hfirst
    case Identifier =>
      have hfirst : Balances s s.next := balances_get s t r hs (by rw [htype]; decide)
        (by rw [htype]; decide) (by rw [htype]; decide)
      cases hv : t.get_identifier with
      | error err => rw [hv] at h; simp at h
      | ok name =>
        rw [hv] at h
        simp only at h
        split_ifs at h with hcall
        · cases hp : parse_fn_args (parse_all pa) s.next with
          | error err => rw [hp] at h; simp at h
          | ok out =>
            obtain ⟨args, s2⟩ := out
            rw [hp] at h
            simp only [Except.ok.injEq, Prod.mk.injEq] at h
            obtain ⟨-, rfl⟩ := h
            obtain ⟨lp, seg, c, hsplit, hlp, hc, hwalk⟩ :=
              parse_fn_args_balanced _ s.next s2 args hp
            exact balances_trans hfirst
              ⟨lp :: seg ++ [c], hsplit, balanced_paren lp c seg hlp hc hwalk⟩
        · simp only [Except.ok.injEq, Prod.mk.injEq] at h
          obtain ⟨-, rfl⟩ := h
          exact hfirst
    case LParen =>
      cases hp : pa s.next with
      | error err => rw [hp] at h; simp at h
      | ok out =>
        obtain ⟨result, s2⟩ := out
        rw [hp] at h
        simp only at h
        have hinner := hpa s.next result s2 hp
        rcases hs2 : s2.rest with _ | ⟨c, r2⟩
        · rw [if_pos (empty_of_rest_nil s2 hs2)] at h
          simp at h
        · rw [if_neg (by simp [empty_of_rest_cons s2 c r2 hs2])] at h
          obtain ⟨hget2, hnext2⟩ := get_of_rest_cons s2 c r2 hs2
          rw [hget2] at h
          simp only at h
          split_ifs at h with hclose
          simp only [Except.ok.injEq, Prod.mk.injEq] at h
          obtain ⟨-, rfl⟩ := h
          have hc : c.type = TType.RParen := by simpa using hclose
          exact balances_wrap s s2 t c r r2 hs htype hinner hs2 hc

/-- `parse_unary` with any bound consumes a balanced run. -/
theorem parse_unary_steps_balanced (pa : Parser V) (hpa : Parser.Balanced pa) (n : Nat) :
    ∀ (s : TokenStream V) (e : Expression V) (s1 : TokenStream V),
      parse_unary_steps pa n s = .ok (e, s1) → Balances s s1 := by
  induction n with
  | zero => intro s e s1 h; simp [parse_unary_steps] at h
  | succ n ih =>
    intro s e s1 h
    rw [parse_unary_steps] at h
    rcases hs : s.rest with _ | ⟨t, r⟩
    · rw [if_pos (empty_of_rest_nil s hs)] at h
      simp at h
    · rw [if_neg (by simp [empty_of_rest_cons s t r hs]), peek_type_of_rest_cons s t r hs] at h
      by_cases hsign : some t.type = some TType.Plus ∨ some t.type = some TType.Minus
      · rw [if_pos hsign] at h
        obtain ⟨hget, hnext⟩ := get_of_rest_cons s t r hs
        rw [hget] at h
        simp only at h
        have hplain : t.type ≠ TType.LParen ∧ t.type ≠ TType.RParen ∧ t.type ≠ TType.Comma := by
          rcases hsign with h1 | h1 <;> simp only [Option.some.injEq] at h1 <;> rw [h1] <;> decide
        cases hp : parse_unary_steps pa n s.next with
        | error err => rw [hp] at h; simp at h
        | ok out =>
          obtain ⟨right, s2⟩ := out
          rw [hp] at h
          simp only [Except.ok.injEq, Prod.mk.injEq] at h
          obtain ⟨-, rfl⟩ := h
          exact balances_trans (balances_get s t r hs hplain.1 hplain.2.1 hplain.2.2)
            (ih s.next right s2 hp)
      · rw [if_neg hsign] at h
        exact parse_primary_balanced pa hpa s e s1 h

theorem parse_unary_balanced (pa : Parser V) (hpa : Parser.Balanced pa) :
    Parser.Balanced (parse_unary pa) := fun s e s1 h =>
  parse_unary_steps_balanced pa hpa _ s e s1 h
/-- The loop of `abstract_parse` consumes a balanced run, over an operand
parser that does and operators that are no parentheses and no comma. -/
theorem abstract_parse_steps_balanced (parser : Parser V) (hp : Parser.Balanced parser)
    (is_operator : Token V → Bool) (assoc : Associativity)
    (hop : ∀ t, is_operator t = true →
      t.type ≠ TType.LParen ∧ t.type ≠ TType.RParen ∧ t.type ≠ TType.Comma) (n : Nat) :
    ∀ (s : TokenStream V) (left : Option (Expression V)) (e : Expression V)
      (s1 : TokenStream V),
      abstract_parse_steps parser is_operator assoc n s left = .ok (e, s1) →
      Balances s s1 := by
  induction n with
  | zero => intro s left e s1 h; simp [abstract_parse_steps] at h
  | succ n ih =>
    intro s left e s1 h
    rw [abstract_parse_steps_succ] at h
    have htail : ∀ (l : Expression V) (s0 : TokenStream V),
        abstract_parse_tail parser is_operator assoc n l s0 = .ok (e, s1) →
        Balances s0 s1 := by
      intro l s0 h0
      unfold abstract_parse_tail at h0
      rcases hs0 : s0.rest with _ | ⟨t, r⟩
      · rw [if_pos (empty_of_rest_nil s0 hs0)] at h0
        simp only [Except.ok.injEq, Prod.mk.injEq] at h0
        obtain ⟨-, rfl⟩ := h0
        exact balances_refl _
      · rw [if_neg (by simp [empty_of_rest_cons s0 t r hs0]),
          peek_of_rest_cons s0 t r hs0] at h0
        simp only at h0
        obtain ⟨hget, hnext⟩ := get_of_rest_cons s0 t r hs0
        by_cases hisop : is_operator t = true
        · rw [if_pos hisop, hget] at h0
          simp only at h0
          obtain ⟨h1, h2, h3⟩ := hop t hisop
          have hstep : Balances s0 s0.next := balances_get s0 t r hs0 h1 h2 h3
          by_cases hright : assoc = Associativity.Right
          · rw [if_pos hright] at h0
            cases hrec : abstract_parse_steps parser is_operator assoc n s0.next none with
            | error err => rw [hrec] at h0; simp at h0
            | ok out =>
              obtain ⟨right, s2⟩ := out
              rw [hrec] at h0
              simp only [Except.ok.injEq, Prod.mk.injEq] at h0
              obtain ⟨-, rfl⟩ := h0
              exact balances_trans hstep (ih s0.next none right s2 hrec)
          · rw [if_neg hright] at h0
            cases hpar : parser s0.next with
            | error err => rw [hpar] at h0; simp at h0
            | ok out =>
              obtain ⟨right, s2⟩ := out
              rw [hpar] at h0
              simp only at h0
              exact balances_trans hstep
                (balances_trans (hp s0.next right s2 hpar) (ih s2 _ e s1 h0))
        · rw [if_neg hisop] at h0
          simp only [Except.ok.injEq, Prod.mk.injEq] at h0
          obtain ⟨-, rfl⟩ := h0
          exact balances_refl _
    cases left with
    | some l => exact htail l s h
    | none =>
      simp only at h
      cases hpar : parser s with
      | error err => rw [hpar] at h; simp at h
      | ok out =>
        obtain ⟨l, s0⟩ := out
        rw [hpar] at h
        exact balances_trans (hp s l s0 hpar) (htail l s0 h)

theorem abstract_parse_balanced (parser : Parser V) (hp : Parser.Balanced parser)
    (operators : List TType) (assoc : Associativity)
    (hq : TType.LParen ∉ operators ∧ TType.RParen ∉ operators ∧ TType.Comma ∉ operators) :
    Parser.Balanced (fun s => abstract_parse s parser operators assoc) := by
  intro s e s1 h
  refine abstract_parse_steps_balanced parser hp (valid_operator operators) assoc ?_ _ s none
    e s1 h
  intro t ht
  have := valid_operator_type operators t ht
  exact ⟨fun h1 => hq.1 (h1 ▸ this), fun h1 => hq.2.1 (h1 ▸ this),
    fun h1 => hq.2.2 (h1 ▸ this)⟩

theorem parse_equality_balanced (pa : Parser V) (hpa : Parser.Balanced pa) :
    Parser.Balanced (parse_equality pa) :=
  abstract_parse_balanced _
    (abstract_parse_balanced _
      (abstract_parse_balanced _
        (abstract_parse_balanced _
          (abstract_parse_balanced _ (parse_unary_balanced pa hpa) _ _ (by decide))
          _ _ (by decide))
        _ _ (by decide))
      _ _ (by decide))
    _ _ (by decide)

/-- `parse_ternary` with any bound consumes a balanced run. -/
theorem parse_ternary_steps_balanced (pa : Parser V) (hpa : Parser.Balanced pa) (n : Nat) :
    ∀ (s : TokenStream V) (e : Expression V) (s1 : TokenStream V),
      parse_ternary_steps pa n s = .ok (e, s1) → Balances s s1 := by
  induction n with
  | zero => intro s e s1 h; simp [parse_ternary_steps] at h
  | succ n ih =>
    intro s e s1 h
    rw [parse_ternary_steps] at h
    cases hcond : parse_equality pa s with
    | error err => rw [hcond] at h; simp at h
    | ok out =>
      obtain ⟨condition, s2⟩ := out
      rw [hcond] at h
      simp only at h
      have h2 : Balances s s2 := parse_equality_balanced pa hpa s condition s2 hcond
      by_cases hq : (!s2.empty) = true ∧ s2.peek_type = some TType.Question
      · rw [if_pos hq] at h
        rcases hs2 : s2.rest with _ | ⟨q, r2⟩
        · rw [empty_of_rest_nil s2 hs2] at hq
          simp at hq
        · obtain ⟨hget, hnext⟩ := get_of_rest_cons s2 q r2 hs2
          have hqt : q.type = TType.Question := by
            have := hq.2
            rw [peek_type_of_rest_cons s2 q r2 hs2] at this
            simpa using this
          rw [hget] at h
          simp only at h
          have h3 : Balances s2 s2.next := balances_get s2 q r2 hs2 (by rw [hqt]; decide)
            (by rw [hqt]; decide) (by rw [hqt]; decide)
          cases hthen : parse_ternary_steps pa n s2.next with
          | error err => rw [hthen] at h; simp at h
          | ok out =>
            obtain ⟨then_branch, s3⟩ := out
            rw [hthen] at h
            simp only at h
            have h4 : Balances s2.next s3 := ih _ _ _ hthen
            rcases hs3 : s3.rest with _ | ⟨c, r3⟩
            · rw [if_pos (empty_of_rest_nil s3 hs3)] at h
              simp at h
            · rw [if_neg (by simp [empty_of_rest_cons s3 c r3 hs3])] at h
              obtain ⟨hget3, hnext3⟩ := get_of_rest_cons s3 c r3 hs3
              rw [hget3] at h
              simp only at h
              by_cases hcolon : c.type ≠ TType.Colon
              · rw [if_pos hcolon] at h
                simp at h
              · rw [if_neg hcolon] at h
                have hct : c.type = TType.Colon := by simpa using hcolon
                have h5 : Balances s3 s3.next := balances_get s3 c r3 hs3
                  (by rw [hct]; decide) (by rw [hct]; decide) (by rw [hct]; decide)
                cases helse : parse_ternary_steps pa n s3.next with
                | error err => rw [helse] at h; simp at h
                | ok out =>
                  obtain ⟨else_branch, s4⟩ := out
                  rw [helse] at h
                  simp only [Except.ok.injEq, Prod.mk.injEq] at h
                  obtain ⟨-, rfl⟩ := h
                  exact balances_trans h2 (balances_trans h3 (balances_trans h4
                    (balances_trans h5 (ih _ _ _ helse))))
      · rw [if_neg hq] at h
        simp only [Except.ok.injEq, Prod.mk.injEq] at h
        obtain ⟨-, rfl⟩ := h
        exact h2

theorem parse_ternary_balanced (pa : Parser V) (hpa : Parser.Balanced pa) :
    Parser.Balanced (parse_ternary pa) := fun s e s1 h =>
  parse_ternary_steps_balanced pa hpa _ s e s1 h

/-- `parse_assignment` consumes a balanced run, at every nesting bound. -/
theorem parse_assignment_balanced (depth : Nat) :
    Parser.Balanced (parse_assignment depth : Parser V) := by
  induction depth with
  | zero => intro s e s1 h; simp [parse_assignment] at h
  | succ d ih =>
    exact abstract_parse_balanced _ (parse_ternary_balanced _ ih) _ _ (by decide)

/-- What `parse` accepts is balanced and not empty. -/
theorem parse_balanced (tokens : Tokens V) (e : Expression V) (h : parse tokens = .ok e) :
    Balanced tokens ∧ tokens ≠ [] := by
  refine ⟨?_, ((parse_good tokens).1 e h).1⟩
  obtain ⟨s1, hp, hs1⟩ := ((parse_all_cases _ tokens).1 e).mp h
  obtain ⟨consumed, hsplit, hb⟩ := parse_assignment_balanced _ _ e s1 hp
  rw [hs1, List.append_nil, rest_mk_stream] at hsplit
  rw [hsplit]
  exact hb
/-! ### C34: the arguments of a call are parsed in isolation -/

theorem push_back_last_snoc (init : List (Tokens V)) (cur : Tokens V) (t : Token V) :
    push_back_last (init ++ [cur]) t = init ++ [cur ++ [t]] := by
  simp [push_back_last]

/-- The argument scan over a run that holds no RParen and no Comma of depth 0
puts the run into the last token set and goes on after it. -/
theorem scan_fn_args_walk (a : Tokens V) :
    ∀ (d d1 : Nat), paren_walk a d = some d1 →
      ∀ (k : Nat) (s : TokenStream V) (init : List (Tokens V)) (cur r : Tokens V),
        s.rest = a ++ r →
        ∃ s1, s1.rest = r
          ∧ scan_fn_args (k + a.length) s (init ++ [cur]) (d : Int)
            = scan_fn_args k s1 (init ++ [cur ++ a]) (d1 : Int) := by
  induction a with
  | nil =>
    intro d d1 hw k s init cur r hs
    simp only [paren_walk, Option.some.injEq] at hw
    subst hw
    exact ⟨s, by simpa using hs, by simp⟩
  | cons t a ih =>
    intro d d1 hw k s init cur r hs
    have hs1 : s.rest = t :: (a ++ r) := hs
    obtain ⟨hget, hnext⟩ := get_of_rest_cons s t _ hs1
    have hlen : k + (t :: a).length = (k + a.length) + 1 := by simp only [List.length_cons]; omega
    rw [hlen, scan_fn_args, if_neg (by simp [empty_of_rest_cons s t _ hs1]),
      peek_type_of_rest_cons s t _ hs1]
    rw [paren_walk] at hw
    have hgo : ∀ (d2 : Nat), paren_walk a d2 = some d1 →
        ∃ s1, s1.rest = r
          ∧ scan_fn_args (k + a.length) s.next (push_back_last (init ++ [cur]) t) (d2 : Int)
            = scan_fn_args k s1 (init ++ [cur ++ t :: a]) (d1 : Int) := by
      intro d2 hw2
      obtain ⟨s1, hr, he⟩ := ih d2 d1 hw2 k s.next init (cur ++ [t]) r hnext
      refine ⟨s1, hr, ?_⟩
      rw [push_back_last_snoc, he]
      simp
    by_cases hl : t.type = TType.LParen
    · rw [if_pos hl] at hw
      obtain ⟨s1, hr, he⟩ := hgo _ hw
      refine ⟨s1, hr, ?_⟩
      rw [if_neg (by simp [hl]), hget]
      simp only
      rw [if_pos hl]
      simp only
      rw [if_neg (by simp [hl])]
      have hcast : ((d : Int) + 1) = ((d + 1 : Nat) : Int) := by push_cast; rfl
      rw [hcast]
      exact he
    · rw [if_neg hl] at hw
      by_cases hr : t.type = TType.RParen
      · rw [if_pos hr] at hw
        by_cases hd : d = 0
        · rw [if_pos hd] at hw
          simp at hw
        · rw [if_neg hd] at hw
          obtain ⟨s1, hr1, he⟩ := hgo _ hw
          refine ⟨s1, hr1, ?_⟩
          have hd1 : ¬ (d : Int) = 0 := fun h0 => hd (by exact_mod_cast h0)
          rw [if_neg (fun h => hd1 h.2), hget]
          simp only
          rw [if_neg hl, if_pos hr, if_neg hd1]
          simp only
          rw [if_neg (by simp [hr])]
          have hcast : ((d : Int) - 1) = ((d - 1 : Nat) : Int) := by omega
          rw [hcast]
          exact he
      · rw [if_neg hr] at hw
        by_cases hc : t.type = TType.Comma ∧ d = 0
        · rw [if_pos hc] at hw
          simp at hw
        · rw [if_neg hc] at hw
          obtain ⟨s1, hr1, he⟩ := hgo _ hw
          refine ⟨s1, hr1, ?_⟩
          rw [if_neg (by simp [hr]), hget]
          simp only
          rw [if_neg hl, if_neg hr]
          simp only
          rw [if_neg (fun h => hc ⟨h.1, by exact_mod_cast h.2⟩)]
          exact he
/-- The argument scan over balanced argument runs separated by commas and
followed by an RParen returns the runs, one token set each, and stops in front
of the RParen. -/
theorem scan_fn_args_join (rest : List (Tokens V)) :
    ∀ (a : Tokens V), (∀ x ∈ a :: rest, Balanced x) →
      ∀ (k : Nat) (s : TokenStream V) (init : List (Tokens V)) (cur : Tokens V) (rp : Token V)
        (tail : Tokens V),
        s.rest = join_args (a :: rest) ++ rp :: tail → rp.type = TType.RParen →
        ∃ s1, s1.rest = rp :: tail
          ∧ scan_fn_args (k + (join_args (a :: rest)).length + 1) s (init ++ [cur]) 0
            = .ok (init ++ (cur ++ a) :: rest, s1) := by
  induction rest with
  | nil =>
    intro a hb k s init cur rp tail hs hrp
    have ha : Balanced a := hb a (by simp)
    rw [show join_args [a] = a from rfl] at hs ⊢
    obtain ⟨s1, hr, he⟩ := scan_fn_args_walk a 0 0 ha (k + 1) s init cur _ hs
    refine ⟨s1, hr, ?_⟩
    rw [show k + a.length + 1 = k + 1 + a.length by omega]
    rw [show (0 : Int) = ((0 : Nat) : Int) from rfl, he]
    rw [scan_fn_args, if_neg (by simp [empty_of_rest_cons s1 rp _ hr]),
      peek_type_of_rest_cons s1 rp _ hr, if_pos ⟨by rw [hrp], rfl⟩]
  | cons b rest ih =>
    intro a hb k s init cur rp tail hs hrp
    have ha : Balanced a := hb a (by simp)
    have hj : join_args (a :: b :: rest) = a ++ Token.op .Comma :: join_args (b :: rest) := rfl
    rw [hj, List.append_assoc, List.cons_append] at hs
    obtain ⟨s1, hr, he⟩ := scan_fn_args_walk a 0 0 ha (k + (join_args (b :: rest)).length + 1 + 1)
      s init cur _ hs
    obtain ⟨hget, hnext⟩ := get_of_rest_cons s1 _ _ hr
    obtain ⟨s2, hr2, he2⟩ := ih b (fun x hx => hb x (List.mem_cons_of_mem _ hx)) k s1.next
      (init ++ [cur ++ a]) [] rp tail hnext hrp
    refine ⟨s2, hr2, ?_⟩
    rw [hj]
    rw [show k + (a ++ Token.op TType.Comma :: join_args (b :: rest)).length + 1
      = k + (join_args (b :: rest)).length + 1 + 1 + a.length by
        simp only [List.length_append, List.length_cons]; omega]
    rw [show (0 : Int) = ((0 : Nat) : Int) from rfl, he]
    rw [scan_fn_args, if_neg (by simp [empty_of_rest_cons s1 _ _ hr]),
      peek_type_of_rest_cons s1 _ _ hr,
      if_neg (by simp [Token.op]), hget]
    simp only
    rw [if_neg (by simp [Token.op]), if_neg (by simp [Token.op])]
    simp only
    rw [if_pos ⟨rfl, rfl⟩]
    have := he2
    simp only [List.nil_append, List.append_assoc, List.singleton_append] at this
    simp only [List.append_assoc, List.singleton_append, Nat.cast_zero]
    exact this
theorem parse_token_sets_forall (parse1 : Tokens V → Except Error (Expression V))
    (args : List (Tokens V)) (trees : List (Expression V))
    (h : List.Forall₂ (fun a t => parse1 a = .ok t ∧ a ≠ []) args trees) :
    parse_token_sets parse1 args = .ok trees := by
  induction h with
  | nil => rfl
  | @cons a t args trees ha _ ih =>
    rw [parse_token_sets, if_neg (by simpa using ha.2), ha.1]
    simp only [ih]

theorem length_le_join (args : List (Tokens V)) :
    ∀ a ∈ args, a.length ≤ (join_args args).length := by
  induction args with
  | nil => intro a h; simp at h
  | cons b args ih =>
    intro a h
    cases args with
    | nil =>
      simp only [List.mem_singleton] at h
      subst h
      exact Nat.le_refl _
    | cons c args =>
      rw [show join_args (b :: c :: args) = b ++ Token.op .Comma :: join_args (c :: args)
        from rfl]
      simp only [List.length_append, List.length_cons]
      rcases List.mem_cons.mp h with rfl | h
      · omega
      · have := ih a h
        omega

/-- The argument list of a call whose arguments are balanced runs that the
parser reads: the arguments are split at the commas between them and read one
by one. -/
theorem parse_fn_args_join (parse1 : Tokens V → Except Error (Expression V))
    (args : List (Tokens V)) (trees : List (Expression V)) (s : TokenStream V)
    (lp rp : Token V) (tail : Tokens V)
    (hs : s.rest = lp :: (join_args args ++ rp :: tail)) (hlp : lp.type = TType.LParen)
    (hrp : rp.type = TType.RParen) (hb : ∀ a ∈ args, Balanced a)
    (hp : List.Forall₂ (fun a t => parse1 a = .ok t ∧ a ≠ []) args trees) :
    ∃ s1, s1.rest = tail ∧ parse_fn_args parse1 s = .ok (trees, s1) := by
  unfold parse_fn_args
  rw [expect_of_rest_cons s lp _ _ hs, if_neg (by simp [hlp])]
  simp only
  obtain ⟨-, hnext⟩ := get_of_rest_cons s lp _ hs
  rw [remaining_eq_length, hnext]
  cases args with
  | nil =>
    cases hp
    have hn : s.next.rest = rp :: tail := hnext
    obtain ⟨hget2, hnext2⟩ := get_of_rest_cons s.next rp tail hn
    refine ⟨s.next.next, hnext2, ?_⟩
    rw [scan_fn_args, if_neg (by simp [empty_of_rest_cons _ rp _ hn]),
      peek_type_of_rest_cons _ rp _ hn, if_pos ⟨by rw [hrp], rfl⟩]
    simp only
    rw [if_neg (by simp [empty_of_rest_cons _ rp _ hn]), hget2]
    simp
  | cons a rest =>
    obtain ⟨s1, hr, he⟩ := scan_fn_args_join rest a hb (tail.length + 1) s.next [] [] rp tail
      hnext hrp
    obtain ⟨hget2, hnext2⟩ := get_of_rest_cons s1 rp tail hr
    refine ⟨s1.next, hnext2, ?_⟩
    rw [show (join_args (a :: rest) ++ rp :: tail).length + 1
      = tail.length + 1 + (join_args (a :: rest)).length + 1 by
        simp only [List.length_append, List.length_cons]; omega]
    simp only [List.nil_append] at he
    rw [he]
    simp only
    rw [if_neg (by simp [empty_of_rest_cons s1 rp _ hr]), hget2]
    simp only
    have hne : a ≠ [] := by
      cases hp with
      | cons h _ => exact h.2
    rw [if_neg (by simp [hne]), parse_token_sets_forall parse1 _ _ hp]

/-- Argument runs that `parse` reads are balanced, not empty, and read the
same under every nesting bound that exceeds their lengths. -/
theorem parse_args_at_depth (args : List (Tokens V)) (trees : List (Expression V))
    (h : List.Forall₂ (fun a t => parse a = .ok t) args trees) (depth : Nat) :
    (∀ a ∈ args, a.length + 1 ≤ depth) →
    (∀ a ∈ args, Balanced a)
    ∧ List.Forall₂ (fun a t => parse_all (parse_assignment depth) a = .ok t ∧ a ≠ [])
        args trees := by
  induction h with
  | nil => intro _; exact ⟨fun a ha => by simp at ha, List.Forall₂.nil⟩
  | @cons a t args trees ha _ ih =>
    intro hd
    obtain ⟨ih1, ih2⟩ := ih (fun x hx => hd x (List.mem_cons_of_mem _ hx))
    obtain ⟨hbal, hne⟩ := parse_balanced a t ha
    refine ⟨?_, List.Forall₂.cons ⟨?_, hne⟩ ih2⟩
    · intro x hx
      rcases List.mem_cons.mp hx with rfl | hx
      · exact hbal
      · exact ih1 x hx
    · exact parse_all_extends _ _
        (parse_assignment_extends (a.length + 1) depth (hd a (List.mem_cons_self _ _))) a t ha

/-- The parser on the tokens of a call whose arguments it reads. -/
theorem parse_call_tokens (f : Identifier) (args : List (Tokens V))
    (trees : List (Expression V))
    (h : List.Forall₂ (fun a t => parse a = .ok t) args trees) :
    parse (call_tokens f args) = .ok (.FnCall f trees) := by
  have hlen : (call_tokens f args).length = (join_args args).length + 3 := by
    simp [call_tokens]
  obtain ⟨hb, hp⟩ := parse_args_at_depth args trees h (call_tokens f args).length (by
    intro a ha
    have := length_le_join args a ha
    omega)
  have hS : (TokenStream.mk_stream (call_tokens f args)).rest
      = Token.identifier f :: (Token.op .LParen :: (join_args args ++ [Token.op .RParen])) :=
    rfl
  obtain ⟨hget, hnext⟩ := get_of_rest_cons _ _ _ hS
  obtain ⟨s1, hs1, hargs⟩ := parse_fn_args_join
    (parse_all (parse_assignment (call_tokens f args).length)) args trees
    (TokenStream.mk_stream (call_tokens f args)).next (Token.op .LParen) (Token.op .RParen) []
    hnext rfl rfl hb hp
  have hprim : parse_primary (parse_assignment (call_tokens f args).length)
      (TokenStream.mk_stream (call_tokens f args)) = .ok (.FnCall f trees, s1) := by
    have he := empty_of_rest_cons _ _ _ hS
    rw [parse_primary, if_neg (by rw [he]; exact Bool.false_ne_true), hget]
    have hid : (Token.identifier f : Token V).get_identifier = .ok f := rfl
    have hty : (Token.identifier f : Token V).type = TType.Identifier := rfl
    simp only [hty, hid]
    rw [if_pos ⟨by simp [empty_of_rest_cons _ _ _ hnext],
      by rw [peek_type_of_rest_cons _ _ _ hnext]; rfl⟩, hargs]
  have hpa := parse_primary_done _ _ s1 _ (Token.identifier f) _ hS (by simp [Token.identifier])
    (by simp [Token.identifier]) hprim hs1
  exact ((parse_all_cases _ _).1 _).mpr ⟨s1, hpa, hs1⟩

/-- C34. Function-call arguments are parsed in isolation. For every
identifier `f`, every `n >= 0` and all token sequences `a1, ..., an` that
`parse` accepts with the trees `t1, ..., tn`, `parse` of the sequence
`f ( a1 , a2 , ... , an )` returns `FnCall f [t1, ..., tn]`, the trees in the
order of the arguments: each argument is read exactly as `parse` reads it
alone, whatever calls, parentheses and commas it holds. For `n = 0`, the
sequence `f ( )`, the argument list is empty. What makes the split right:
every sequence that `parse` accepts is not empty, its parentheses match and
its commas all stand inside parentheses, so the commas of depth 0 between
`(` and `)` are exactly the commas between the arguments. -/
theorem C34_call_arguments (f : Identifier) (args : List (Tokens V))
    (trees : List (Expression V))
    (h : List.Forall₂ (fun a t => parse a = .ok t) args trees) :
    parse (call_tokens f args) = .ok (.FnCall f trees)
    ∧ parse [Token.identifier f, Token.op .LParen, (Token.op .RParen : Token V)]
      = .ok (.FnCall f [])
    ∧ (∀ a ∈ args, a ≠ [] ∧ Balanced a) := by
  have h0 : parse (call_tokens f ([] : List (Tokens V))) = .ok (.FnCall f []) :=
    parse_call_tokens f [] [] List.Forall₂.nil
  refine ⟨parse_call_tokens f args trees h, ?_, ?_⟩
  · simpa only [call_tokens, join_args, List.nil_append] using h0
  · intro a ha
    induction h with
    | nil => simp at ha
    | @cons b t args trees hb _ ih =>
      rcases List.mem_cons.mp ha with rfl | ha
      · exact ⟨(parse_balanced _ _ hb).2, (parse_balanced _ _ hb).1⟩
      · exact ih ha

/-- C34 at a concrete input: the tokens of `f(g(1, 2), (3))` parse to the
call of `f` on the call `g(1, 2)` and the number 3. -/
theorem C34_call_arguments_witness :
    parse [Token.identifier "f", Token.op .LParen, Token.identifier "g", .op .LParen,
        Token.number (1 : ℚ), .op .Comma, .number 2, .op .RParen, .op .Comma, .op .LParen,
        .number 3, .op .RParen, .op .RParen]
      = .ok (.FnCall "f" [.FnCall "g" [.Number 1, .Number 2], .Number 3]) :=
  (C34_call_arguments "f"
    [[Token.identifier "g", .op .LParen, Token.number (1 : ℚ), .op .Comma, .number 2,
        .op .RParen], [.op .LParen, .number 3, .op .RParen]]
    [.FnCall "g" [.Number 1, .Number 2], .Number 3]
    (List.Forall₂.cons rfl (List.Forall₂.cons rfl List.Forall₂.nil))).1
/-! ### C35: function definitions only at the root -/

/-- The evaluator never writes the function table. -/
theorem eval_value_fns (A : Arith V) (fuel : Nat) (expr : Expression V) (state : State V)
    (ctx : EvalContext V) : (eval_value A fuel expr state ctx).state.fns = state.fns :=
  preserves_eval_value A (fun s => s.fns = state.fns) (fun _ _ _ _ h => h) fuel expr state ctx
    rfl

/-- An `=` node whose left side is a call, reached by the evaluator, fails
before anything is evaluated. -/
theorem eval_nested_definition (A : Arith V) (fuel : Nat) (name : Identifier)
    (args : List (Expression V)) (right : Expression V) (state : State V)
    (ctx : EvalContext V) :
    eval_value A (fuel + 1) (.Binary .Equals (.FnCall name args) right) state ctx
      = ⟨.error (.EvalError "Left side of '=' must be a variable name"), state, ctx⟩ := by
  rw [eval_value_binary]
  rfl

/-- A query whose expression is no definition leaves the function table as it
was, and so does a query that does not tokenize or parse. -/
theorem process_query_fns (A : Arith V) (fuel : Nat) (input : String) (state : State V)
    (h : ∀ tokens expr, tokenize A input = .ok tokens → parse tokens = .ok expr →
      expr.is_definition = false) :
    (process_query A fuel input state).2.fns = state.fns := by
  cases htok : tokenize A input with
  | error err => simp only [process_query, htok]
  | ok tokens =>
    cases hparse : parse tokens with
    | error err => simp only [process_query, htok, hparse]
    | ok expr =>
      have hdef := h tokens expr htok hparse
      have hev : evaluate A fuel expr state
          = (match (eval_value A fuel expr state ⟨none, true⟩).result with
            | .error err => (.error err, (eval_value A fuel expr state ⟨none, true⟩).state)
            | .ok value =>
              (.ok ⟨some value, none⟩, (eval_value A fuel expr state ⟨none, true⟩).state)) := by
        unfold evaluate
        split
        · simp [Expression.is_definition] at hdef
        · rfl
      have hf := eval_value_fns A fuel expr state ⟨none, true⟩
      simp only [process_query, htok, hparse, hev]
      cases hr : (eval_value A fuel expr state ⟨none, true⟩).result with
      | error err => exact hf
      | ok value => exact hf

/-- The query `a = f(x) = x`. -/
theorem process_assign_definition (A : Arith V) (fuel : Nat) (state : State V) :
    process_query A (fuel + 2) "a = f(x) = x" state
      = (.error (.EvalError "Left side of '=' must be a variable name"), state) := by
  have htok : tokenize A "a = f(x) = x" = .ok [Token.identifier "a", Token.op .Equals,
      Token.identifier "f", .op .LParen, Token.identifier "x", .op .RParen, .op .Equals,
      Token.identifier "x"] := rfl
  have hparse : parse [Token.identifier "a", Token.op .Equals,
      Token.identifier "f", .op .LParen, Token.identifier "x", .op .RParen, .op .Equals,
      (Token.identifier "x" : Token V)]
      = .ok (.Binary .Equals (.Variable "a")
          (.Binary .Equals (.FnCall "f" [.Variable "x"]) (.Variable "x"))) := rfl
  have hra : is_reserved_identifier A "a" = false := rfl
  simp [process_query, htok, hparse, evaluate, eval_value, eval_binary, EvalOut.andThen, hra]

/-- The query `g() = f(x) = x`. -/
theorem process_g_nested_def (A : Arith V) (fuel : Nat) (state : State V) :
    process_query A fuel "g() = f(x) = x" state
      = (.ok ⟨none, some "Defined g()"⟩,
          { state with
            fns := map_set state.fns "g"
              ⟨[], .Binary .Equals (.FnCall "f" [.Variable "x"]) (.Variable "x")⟩ }) := by
  have htok : tokenize A "g() = f(x) = x" = .ok [Token.identifier "g", Token.op .LParen,
      .op .RParen, .op .Equals, Token.identifier "f", .op .LParen, Token.identifier "x",
      .op .RParen, .op .Equals, Token.identifier "x"] := rfl
  have hparse : parse [Token.identifier "g", Token.op .LParen,
      .op .RParen, .op .Equals, Token.identifier "f", .op .LParen, Token.identifier "x",
      .op .RParen, .op .Equals, (Token.identifier "x" : Token V)]
      = .ok (.Binary .Equals (.FnCall "g" [])
          (.Binary .Equals (.FnCall "f" [.Variable "x"]) (.Variable "x"))) := rfl
  have hrg : is_reserved_identifier A "g" = false := rfl
  have hmsg : "Defined g(" ++ join_params [] ++ ")" = "Defined g()" := by decide
  simp [process_query, htok, hparse, evaluate, define_function, hrg, collect_params, hmsg]

/-- The query `g()` after `g() = f(x) = x`. -/
theorem process_g_nested_call (A : Arith V) (fuel : Nat) (state : State V) :
    process_query A (fuel + 2) "g()"
        { state with
          fns := map_set state.fns "g"
            ⟨[], .Binary .Equals (.FnCall "f" [.Variable "x"]) (.Variable "x")⟩ }
      = (.error (.EvalError "Left side of '=' must be a variable name"),
          { state with
            fns := map_set state.fns "g"
              ⟨[], .Binary .Equals (.FnCall "f" [.Variable "x"]) (.Variable "x")⟩ }) := by
  have htok : tokenize A "g()" = .ok [Token.identifier "g", Token.op .LParen,
      Token.op .RParen] := rfl
  have hparse : parse [Token.identifier "g", Token.op .LParen, (Token.op .RParen : Token V)]
      = .ok (.FnCall "g" []) := rfl
  have hbg : find_builtin A "g" = none := rfl
  simp [process_query, htok, hparse, evaluate, eval_value, eval_function_call, hbg, map_set,
    bind_params, EvalOut.andThen, eval_binary]

/-- The query `1 ? (f(x) = x) : 0`. -/
theorem process_ternary_definition (A : Arith V) (hA : A.ExactOnNat) (fuel : Nat)
    (state : State V) :
    process_query A (fuel + 2) "1 ? (f(x) = x) : 0" state
      = (.error (.EvalError "Left side of '=' must be a variable name"), state) := by
  have h1 : A.stod ['1'] = some (A.ofNat 1) :=
    stod_nat_lit A hA _ 1 (by simp) (by decide) (by decide) (by decide)
  have h0 : A.stod ['0'] = some (A.ofNat 0) :=
    stod_nat_lit A hA _ 0 (by simp) (by decide) (by decide) (by decide)
  have hne : A.ne (A.ofNat 1) (A.ofNat 0) = true := by
    rw [hA.ne_nat 1 0 (by decide) (by decide)]; decide
  have hl : "1 ? (f(x) = x) : 0".length = 18 := by decide
  have ht : "1 ? (f(x) = x) : 0".toList
      = ['1', ' ', '?', ' ', '(', 'f', '(', 'x', ')', ' ', '=', ' ', 'x', ')', ' ', ':', ' ',
          '0'] := by decide
  have htok : tokenize A "1 ? (f(x) = x) : 0" = .ok [Token.number (A.ofNat 1),
      Token.op .Question, .op .LParen, Token.identifier "f", .op .LParen,
      Token.identifier "x", .op .RParen, .op .Equals, Token.identifier "x", .op .RParen,
      .op .Colon, .number (A.ofNat 0)] := by
    simp +decide [tokenize, hl, ht, tokenize_loop, scan_number, scan_identifier,
      next_is_equals, h1, h0]
  have hparse : parse [Token.number (A.ofNat 1),
      Token.op .Question, .op .LParen, Token.identifier "f", .op .LParen,
      Token.identifier "x", .op .RParen, .op .Equals, Token.identifier "x", .op .RParen,
      .op .Colon, .number (A.ofNat 0)]
      = .ok (.Ternary (.Number (A.ofNat 1))
          (.Binary .Equals (.FnCall "f" [.Variable "x"]) (.Variable "x"))
          (.Number (A.ofNat 0))) := rfl
  simp [process_query, htok, hparse, evaluate, eval_value, eval_ternary, eval_binary,
    EvalOut.andThen, hne]

/-- C35. Function definitions are accepted only at the root of a query.
(1) The evaluator, reaching an `=` node whose left side is a function-call
node, in any state and context (inside a user function's body or not), with
room for one call, fails with the EvalError "Left side of '=' must be a
variable name" and leaves state and context as they were. (2) A query whose
parsed expression is not an `=` node with a function-call node on the left,
and a query that does not tokenize or parse, leave the function table as it
was, whether they return or fail. (3) With at least two nested evaluator
calls allowed, on every state: `a = f(x) = x` fails with that EvalError and
leaves the state as it was; `g() = f(x) = x` is a definition of `g`, after
which the query `g()` fails with that EvalError; and, in an arithmetic exact
on small natural numbers, `1 ? (f(x) = x) : 0` fails with that EvalError and
leaves the state as it was. -/
theorem C35_definitions_only_at_root (A : Arith V) :
    (∀ (fuel : Nat) (name : Identifier) (args : List (Expression V)) (right : Expression V)
        (state : State V) (ctx : EvalContext V),
        eval_value A (fuel + 1) (.Binary .Equals (.FnCall name args) right) state ctx
          = ⟨.error (.EvalError "Left side of '=' must be a variable name"), state, ctx⟩)
    ∧ (∀ (fuel : Nat) (input : String) (state : State V),
        (∀ tokens expr, tokenize A input = .ok tokens → parse tokens = .ok expr →
          expr.is_definition = false) →
        (process_query A fuel input state).2.fns = state.fns)
    ∧ (∀ (fuel : Nat) (state : State V), 2 ≤ fuel →
        process_query A fuel "a = f(x) = x" state
          = (.error (.EvalError "Left side of '=' must be a variable name"), state)
        ∧ process_query A fuel "g() = f(x) = x" state
          = (.ok ⟨none, some "Defined g()"⟩,
              { state with
                fns := map_set state.fns "g"
                  ⟨[], .Binary .Equals (.FnCall "f" [.Variable "x"]) (.Variable "x")⟩ })
        ∧ process_query A fuel "g()"
            { state with
              fns := map_set state.fns "g"
                ⟨[], .Binary .Equals (.FnCall "f" [.Variable "x"]) (.Variable "x")⟩ }
          = (.error (.EvalError "Left side of '=' must be a variable name"),
              { state with
                fns := map_set state.fns "g"
                  ⟨[], .Binary .Equals (.FnCall "f" [.Variable "x"]) (.Variable "x")⟩ })
        ∧ (A.ExactOnNat →
          process_query A fuel "1 ? (f(x) = x) : 0" state
            = (.error (.EvalError "Left side of '=' must be a variable name"), state))) := by
  refine ⟨eval_nested_definition A, process_query_fns A, ?_⟩
  intro fuel state hfuel
  obtain ⟨n, rfl⟩ := Nat.exists_eq_add_of_le hfuel
  rw [show 2 + n = n + 2 by omega]
  exact ⟨process_assign_definition A n state, process_g_nested_def A _ state,
    process_g_nested_call A n state, fun hA => process_ternary_definition A hA n state⟩

/-- C35 at concrete inputs: in the rational arithmetic, on the empty state,
`a = f(x) = x` fails and leaves the state empty, and the query `2`, which is
no definition, leaves the function table as it was. -/
theorem C35_definitions_only_at_root_witness :
    (2 : Nat) ≤ 2
    ∧ process_query Arith.rat 2 "a = f(x) = x" (State.init Arith.rat)
      = (.error (.EvalError "Left side of '=' must be a variable name"),
          State.init Arith.rat)
    ∧ (process_query Arith.rat 2 "2" (State.init Arith.rat)).2.fns
      = (State.init Arith.rat).fns :=
  ⟨Nat.le_refl 2,
    ((C35_definitions_only_at_root Arith.rat).2.2 2 (State.init Arith.rat) (Nat.le_refl 2)).1,
    (C35_definitions_only_at_root Arith.rat).2.1 2 "2" (State.init Arith.rat) (by
      intro tokens expr htok hparse
      have h2 : tokenize Arith.rat "2" = .ok [Token.number (2 : ℚ)] := by
        have hl : "2".length = 1 := by decide
        have ht : "2".toList = ['2'] := by decide
        have hs : Arith.rat.stod ['2'] = some (2 : ℚ) := by
          simp [Arith.rat, rat_stod, decimal_value]
        simp +decide [tokenize, hl, ht, tokenize_loop, scan_number, hs]
      rw [h2] at htok
      cases htok
      have hp : parse [Token.number (2 : ℚ)] = .ok (.Number 2) := rfl
      rw [hp] at hparse
      cases hparse
      rfl)⟩
/-! ### C36: parentheses are transparent -/

/-- The parser on a parenthesized token sequence returns the tree of the
sequence. -/
theorem parse_parenthesized (ts : Tokens V) (e : Expression V) (lp rp : Token V)
    (hlp : lp.type = TType.LParen) (hrp : rp.type = TType.RParen) (h : parse ts = .ok e) :
    parse (lp :: ts ++ [rp]) = .ok e := by
  obtain ⟨s1, hp, hs1⟩ := ((parse_all_cases _ ts).1 e).mp h
  have hS : (TokenStream.mk_stream (lp :: ts ++ [rp])).rest = lp :: (ts ++ [rp]) := rfl
  obtain ⟨hget, hnext⟩ := get_of_rest_cons _ lp _ hS
  obtain ⟨s3, hq, hrest⟩ := parse_assignment_extends (ts.length + 1) (ts.length + 2) (by omega)
    (TokenStream.mk_stream ts) (TokenStream.mk_stream (lp :: ts ++ [rp])).next [rp] e s1
    (by rw [hnext, rest_mk_stream])
    (by
      intro t ht
      simp only [List.head?_cons, Option.mem_def, Option.some.injEq] at ht
      subst ht
      rw [hrp]
      rfl)
    hp
  rw [hs1, List.nil_append] at hrest
  obtain ⟨hget3, hnext3⟩ := get_of_rest_cons s3 rp [] hrest
  have hprim : parse_primary (parse_assignment (ts.length + 2))
      (TokenStream.mk_stream (lp :: ts ++ [rp])) = .ok (e, s3.next) := by
    have he := empty_of_rest_cons _ lp _ hS
    rw [parse_primary, if_neg (by rw [he]; exact Bool.false_ne_true), hget]
    simp only [hlp, hq]
    rw [if_neg (by simp [empty_of_rest_cons s3 rp [] hrest]), hget3]
    simp only [hrp, ne_eq, not_true_eq_false, if_false]
  have hpa := parse_primary_done (ts.length + 2) _ s3.next e lp _ hS (by rw [hlp]; decide)
    (by rw [hlp]; decide) hprim hnext3
  refine ((parse_all_cases _ _).1 e).mpr ⟨s3.next, ?_, hnext3⟩
  have hlen : (lp :: ts ++ [rp]).length + 1 = ts.length + 2 + 1 := by simp
  rw [hlen]
  exact hpa

/-- The lexer on a parenthesized text. -/
theorem tokenize_parenthesized (A : Arith V) (text : String) (ts : Tokens V)
    (h : tokenize A text = .ok ts) :
    tokenize A ("(" ++ text ++ ")") = .ok (Token.op .LParen :: ts ++ [Token.op .RParen]) := by
  have h1 : tokenize A "(" = .ok [Token.op .LParen] := rfl
  have h2 : tokenize A ")" = .ok [Token.op .RParen] := rfl
  have hb1 : Boundary "(".toList text.toList := by
    intro p hp c _
    simp only [String.toList, List.getLast?_singleton, Option.mem_def,
      Option.some.injEq] at hp
    subst hp
    simp +decide [glues]
  have h3 := tokenize_concat A "(" text _ ts h1 h hb1
  have hb2 : Boundary ("(" ++ text).toList ")".toList :=
    boundary_of_head _ ')' [] (by decide)
  have h4 := tokenize_concat A ("(" ++ text) ")" _ _ h3 h2 hb2
  rw [h4]
  simp

/-- C36. Parentheses are transparent. For every token sequence `ts` that
`parse` accepts with tree `e`, `parse` of `ts` between an LParen token and an
RParen token returns the same tree `e`: no node stands for the parentheses.
So for every text that tokenizes and parses, the text between `(` and `)`
tokenizes and parses to the same tree, and the query on it does, on every
state and with every budget, what the query on the text does: the same
result or failure and the same state after it, a function definition
included. -/
theorem C36_parentheses_transparent (A : Arith V) :
    (∀ (ts : Tokens V) (e : Expression V), parse ts = .ok e →
        parse ([Token.op .LParen] ++ ts ++ [Token.op .RParen]) = .ok e)
    ∧ (∀ (text : String) (ts : Tokens V) (e : Expression V),
        tokenize A text = .ok ts → parse ts = .ok e →
        (tokenize A ("(" ++ text ++ ")")).bind parse = .ok e
        ∧ ∀ (fuel : Nat) (state : State V),
            process_query A fuel ("(" ++ text ++ ")") state = process_query A fuel text state)
      := by
  have key : ∀ (ts : Tokens V) (e : Expression V), parse ts = .ok e →
      parse ([Token.op .LParen] ++ ts ++ [Token.op .RParen]) = .ok e :=
    fun ts e h => parse_parenthesized ts e _ _ rfl rfl h
  refine ⟨key, ?_⟩
  intro text ts e htok hparse
  have htok1 := tokenize_parenthesized A text ts htok
  have hparse1 : parse (Token.op .LParen :: ts ++ [Token.op .RParen]) = .ok e :=
    key ts e hparse
  refine ⟨?_, ?_⟩
  · rw [htok1]
    exact hparse1
  · intro fuel state
    simp only [process_query, htok1, hparse1, htok, hparse]

/-- C36 at concrete inputs: in the rational arithmetic, the tokens of `(1)`
parse to the number 1, and the text `(f(x) = x)` is the definition that
`f(x) = x` is. -/
theorem C36_parentheses_transparent_witness :
    parse ([Token.op .LParen] ++ [Token.number (1 : ℚ)] ++ [Token.op .RParen])
      = .ok (.Number 1)
    ∧ process_query Arith.rat 0 ("(" ++ "f(x) = x" ++ ")") (State.init Arith.rat)
      = process_query Arith.rat 0 "f(x) = x" (State.init Arith.rat) :=
  ⟨(C36_parentheses_transparent Arith.rat).1 [Token.number 1] (.Number 1) rfl,
    ((C36_parentheses_transparent Arith.rat).2 "f(x) = x"
      [Token.identifier "f", Token.op .LParen, Token.identifier "x", .op .RParen, .op .Equals,
        Token.identifier "x"]
      (.Binary .Equals (.FnCall "f" [.Variable "x"]) (.Variable "x")) rfl rfl).2 0
      (State.init Arith.rat)⟩
/-! ### C37: a rejected call evaluates none of its arguments -/

/-- The query `sin(x = 1, 2)`. -/
theorem process_sin_two_args (A : Arith V) (hA : A.ExactOnNat) (fuel : Nat) (state : State V) :
    process_query A (fuel + 1) "sin(x = 1, 2)" state
      = (.error (.EvalError "Function 'sin' expects 1 arguments, got 2"), state) := by
  have h1 : A.stod ['1'] = some (A.ofNat 1) :=
    stod_nat_lit A hA _ 1 (by simp) (by decide) (by decide) (by decide)
  have h2 : A.stod ['2'] = some (A.ofNat 2) :=
    stod_nat_lit A hA _ 2 (by simp) (by decide) (by decide) (by decide)
  have hl : "sin(x = 1, 2)".length = 13 := by decide
  have ht : "sin(x = 1, 2)".toList
      = ['s', 'i', 'n', '(', 'x', ' ', '=', ' ', '1', ',', ' ', '2', ')'] := by decide
  have htok : tokenize A "sin(x = 1, 2)" = .ok [Token.identifier "sin", Token.op .LParen,
      Token.identifier "x", .op .Equals, .number (A.ofNat 1), .op .Comma,
      .number (A.ofNat 2), .op .RParen] := by
    simp +decide [tokenize, hl, ht, tokenize_loop, scan_number, scan_identifier,
      next_is_equals, h1, h2]
  have hparse : parse [Token.identifier "sin", Token.op .LParen,
      Token.identifier "x", .op .Equals, .number (A.ofNat 1), .op .Comma,
      .number (A.ofNat 2), .op .RParen]
      = .ok (.FnCall "sin" [.Binary .Equals (.Variable "x") (.Number (A.ofNat 1)),
          .Number (A.ofNat 2)]) := rfl
  have hb : find_builtin A "sin" = some (.make_unary "sin" "Sine (radians)" (A.cmath1 "sin")) :=
    rfl
  have hmsg : "Function 'sin' expects " ++ toString 1 ++ " arguments, got " ++ toString 2
      = "Function 'sin' expects 1 arguments, got 2" := by decide
  simp [process_query, htok, hparse, evaluate, eval_value, eval_function_call, hb,
    BuiltinSpec.make_unary, hmsg]

/-- The query `nofn(x = 1)` on a state without a function `nofn`. -/
theorem process_nofn (A : Arith V) (hA : A.ExactOnNat) (fuel : Nat) (state : State V)
    (hf : state.fns "nofn" = none) :
    process_query A (fuel + 1) "nofn(x = 1)" state
      = (.error (.EvalError "Function 'nofn' not defined"), state) := by
  have h1 : A.stod ['1'] = some (A.ofNat 1) :=
    stod_nat_lit A hA _ 1 (by simp) (by decide) (by decide) (by decide)
  have hl : "nofn(x = 1)".length = 11 := by decide
  have ht : "nofn(x = 1)".toList
      = ['n', 'o', 'f', 'n', '(', 'x', ' ', '=', ' ', '1', ')'] := by decide
  have htok : tokenize A "nofn(x = 1)" = .ok [Token.identifier "nofn", Token.op .LParen,
      Token.identifier "x", .op .Equals, .number (A.ofNat 1), .op .RParen] := by
    simp +decide [tokenize, hl, ht, tokenize_loop, scan_number, scan_identifier,
      next_is_equals, h1]
  have hparse : parse [Token.identifier "nofn", Token.op .LParen,
      Token.identifier "x", .op .Equals, .number (A.ofNat 1), .op .RParen]
      = .ok (.FnCall "nofn" [.Binary .Equals (.Variable "x") (.Number (A.ofNat 1))]) := rfl
  have hb : find_builtin A "nofn" = none := rfl
  have hmsg : "Function '" ++ "nofn" ++ "' not defined" = "Function 'nofn' not defined" := by
    decide
  simp [process_query, htok, hparse, evaluate, eval_value, eval_function_call, hb, hf, hmsg]

/-- C37. A rejected call evaluates none of its arguments. Let `ev` be the
evaluation function `eval_function_call` calls on the arguments and the
body, any function at all. A call whose name is a built-in of another arity
than the number of arguments, a call whose name is neither a built-in nor a
user function, and a call of a user function with another number of
parameters than the number of arguments each fail with their EvalError and
leave the state (vars, fns, the last result) and the context (the local
overlay) as they were, whatever `ev` would do to them: `ev` is applied to no
argument. `eval_value` is `eval_function_call` with itself for `ev`. In an
arithmetic that is exact on small natural numbers, `sin(x = 1, 2)` fails with
"Function 'sin' expects 1 arguments, got 2" on every state, `nofn(x = 1)`
fails with "Function 'nofn' not defined" on every state without a function
`nofn`, and both leave the state as it was: on the empty state `x` stays
undefined. -/
theorem C37_rejected_call (A : Arith V) :
    (∀ (ev : Evaluator V) (f : Identifier) (args : List (Expression V)) (state : State V)
        (ctx : EvalContext V),
      (∀ spec : BuiltinSpec V, find_builtin A f = some spec → args.length ≠ spec.arity →
        eval_function_call A ev f args state ctx
          = ⟨.error (.EvalError ("Function '" ++ f ++ "' expects " ++ toString spec.arity
              ++ " arguments, got " ++ toString args.length)), state, ctx⟩)
      ∧ (find_builtin A f = none → state.fns f = none →
        eval_function_call A ev f args state ctx
          = ⟨.error (.EvalError ("Function '" ++ f ++ "' not defined")), state, ctx⟩)
      ∧ (∀ fn_obj : FnObj V, find_builtin A f = none → state.fns f = some fn_obj →
        args.length ≠ fn_obj.params.length →
        eval_function_call A ev f args state ctx
          = ⟨.error (.EvalError ("Function '" ++ f ++ "' expects "
              ++ toString fn_obj.params.length ++ " arguments, got "
              ++ toString args.length)), state, ctx⟩))
    ∧ (∀ (fuel : Nat) (f : Identifier) (args : List (Expression V)) (state : State V)
        (ctx : EvalContext V),
        eval_value A (fuel + 1) (.FnCall f args) state ctx
          = eval_function_call A (eval_value A fuel) f args state ctx)
    ∧ (A.ExactOnNat → ∀ (fuel : Nat),
        (∀ state : State V,
          process_query A (fuel + 1) "sin(x = 1, 2)" state
            = (.error (.EvalError "Function 'sin' expects 1 arguments, got 2"), state))
        ∧ (∀ state : State V, state.fns "nofn" = none →
          process_query A (fuel + 1) "nofn(x = 1)" state
            = (.error (.EvalError "Function 'nofn' not defined"), state))
        ∧ (process_query A (fuel + 1) "sin(x = 1, 2)" (State.init A)).2.vars "x" = none
        ∧ (process_query A (fuel + 1) "nofn(x = 1)" (State.init A)).2.vars "x" = none) := by
  refine ⟨?_, fun fuel f args state ctx => eval_value_fn_call A fuel f args state ctx, ?_⟩
  · intro ev f args state ctx
    refine ⟨?_, ?_, ?_⟩
    · intro spec hb hlen
      simp only [eval_function_call, hb, hlen, ne_eq, not_false_eq_true, if_true]
    · intro hb hf
      simp only [eval_function_call, hb, hf]
    · intro fn_obj hb hf hlen
      simp only [eval_function_call, hb, hf, hlen, ne_eq, not_false_eq_true, if_true]
  · intro hA fuel
    refine ⟨process_sin_two_args A hA fuel, process_nofn A hA fuel, ?_, ?_⟩
    · rw [process_sin_two_args A hA fuel]
      rfl
    · rw [process_nofn A hA fuel _ rfl]
      rfl

/-- C37 at concrete inputs: in the rational arithmetic, on the empty state,
`sin(x = 1, 2)` and `nofn(x = 1)` fail and leave the state empty. -/
theorem C37_rejected_call_witness :
    Arith.rat.ExactOnNat
    ∧ process_query Arith.rat 1 "sin(x = 1, 2)" (State.init Arith.rat)
      = (.error (.EvalError "Function 'sin' expects 1 arguments, got 2"),
          State.init Arith.rat)
    ∧ process_query Arith.rat 1 "nofn(x = 1)" (State.init Arith.rat)
      = (.error (.EvalError "Function 'nofn' not defined"), State.init Arith.rat) :=
  ⟨Arith.rat_exactOnNat,
    ((C37_rejected_call Arith.rat).2.2 Arith.rat_exactOnNat 0).1 (State.init Arith.rat),
    ((C37_rejected_call Arith.rat).2.2 Arith.rat_exactOnNat 0).2.1 (State.init Arith.rat) rfl⟩
/-! ### C38: tokenizing is compositional over whitespace -/

/-- A whitespace character is no letter, digit, `_`, `.`, `=`, `<` or `>`. -/
theorem space_class (c : Char) (h : is_space c = true) :
    is_alnum c = false ∧ c ≠ '_' ∧ c ≠ '.' ∧ c ≠ '=' ∧ c ≠ '<' ∧ c ≠ '>' := by
  simp only [is_space, decide_eq_true_eq] at h
  refine ⟨?_, ?_, ?_, ?_, ?_, ?_⟩
  · simp only [is_alnum, is_alpha, is_digit, Bool.or_eq_false_iff, decide_eq_false_iff_not]
    have ha : 'a'.toNat = 97 := rfl
    have hz : 'z'.toNat = 122 := rfl
    have hA : 'A'.toNat = 65 := rfl
    have hZ : 'Z'.toNat = 90 := rfl
    have h0 : '0'.toNat = 48 := rfl
    have h9 : '9'.toNat = 57 := rfl
    rw [ha, hz, hA, hZ, h0, h9]
    constructor <;> omega
  all_goals
    rintro rfl
    revert h
    decide

/-- Nothing glues to a whitespace character, and a whitespace character glues
to nothing. -/
theorem glues_space (p c : Char) (h : is_space p = true ∨ is_space c = true) :
    glues p c = false := by
  rcases h with h | h
  · obtain ⟨h1, h2, h3, h4, h5, h6⟩ := space_class p h
    simp [glues, h1, h2, h3, h4, h5, h6]
  · obtain ⟨h1, h2, h3, h4, -, -⟩ := space_class c h
    simp [glues, h1, h2, h3, h4]

/-- The loop of the lexer skips a run of whitespace. -/
theorem tokenize_loop_whitespace (A : Arith V) (w : List Char)
    (hw : ∀ c ∈ w, is_space c = true) :
    ∀ (steps pos : Nat) (result : Tokens V), w.length < steps →
      tokenize_loop A steps w pos result = .ok result := by
  induction w with
  | nil =>
    intro steps pos result hs
    obtain ⟨n, rfl⟩ : ∃ n, steps = n + 1 := ⟨steps - 1, by omega⟩
    rfl
  | cons c w ih =>
    intro steps pos result hs
    obtain ⟨n, rfl⟩ : ∃ n, steps = n + 1 := ⟨steps - 1, by omega⟩
    rw [tokenize_loop_space A n pos c w result (hw c (by simp))]
    exact ih (fun d hd => hw d (by simp [hd])) n _ result (by
      simp only [List.length_cons] at hs
      omega)

/-- A text of whitespace has no tokens. -/
theorem tokenize_whitespace (A : Arith V) (w : String)
    (hw : ∀ c ∈ w.toList, is_space c = true) : tokenize A w = .ok [] := by
  rw [tokenize_eq]
  exact tokenize_loop_whitespace A w.toList hw _ _ _ (by omega)

/-- Whitespace may follow any text. -/
theorem boundary_space_right (pre w : List Char) (hw : ∀ c ∈ w, is_space c = true) :
    Boundary pre w := by
  intro p _ c hc
  exact glues_space p c (Or.inr (hw c (List.mem_of_mem_head? hc)))

/-- Any text may follow whitespace, also whitespace that follows a text. -/
theorem boundary_space_left (pre w post : List Char) (hw : ∀ c ∈ w, is_space c = true)
    (hne : w ≠ []) : Boundary (pre ++ w) post := by
  intro p hp c _
  rw [List.getLast?_append_of_ne_nil _ hne] at hp
  exact glues_space p c (Or.inl (hw p (List.mem_of_mem_getLast? hp)))

/-- The tokens of two texts separated by whitespace are the tokens of the
first followed by the tokens of the second. -/
theorem tokenize_separated (A : Arith V) (s1 w s2 : String) (ts1 ts2 : Tokens V)
    (hw : ∀ c ∈ w.toList, is_space c = true) (hne : w.toList ≠ [])
    (h1 : tokenize A s1 = .ok ts1) (h2 : tokenize A s2 = .ok ts2) :
    tokenize A (s1 ++ w ++ s2) = .ok (ts1 ++ ts2) := by
  have h3 : tokenize A (s1 ++ w) = .ok (ts1 ++ []) :=
    tokenize_concat A s1 w ts1 [] h1 (tokenize_whitespace A w hw)
      (boundary_space_right _ _ hw)
  rw [List.append_nil] at h3
  refine tokenize_concat A (s1 ++ w) s2 ts1 ts2 h3 h2 ?_
  rw [toList_append]
  exact boundary_space_left _ _ _ hw hne

/-- C38. Tokenizing is compositional over whitespace. For all texts `s1`
and `s2` that `tokenize` reads to the token sequences `ts1` and `ts2`:
`tokenize` of `s1`, a space and `s2` returns `ts1` followed by `ts2`, and so
it does with any non-empty run `w` of whitespace characters (space, tab, line
feed, vertical tab, form feed, carriage return) for the space. In particular
whitespace before or after a text that `tokenize` reads does not change its
token sequence, and a text of whitespace alone has no tokens. -/
theorem C38_whitespace_compositional (A : Arith V) (s1 s2 : String) (ts1 ts2 : Tokens V)
    (h1 : tokenize A s1 = .ok ts1) (h2 : tokenize A s2 = .ok ts2) :
    tokenize A (s1 ++ " " ++ s2) = .ok (ts1 ++ ts2)
    ∧ (∀ w : String, (∀ c ∈ w.toList, is_space c = true) →
        (w.toList ≠ [] → tokenize A (s1 ++ w ++ s2) = .ok (ts1 ++ ts2))
        ∧ tokenize A (w ++ s1) = .ok ts1
        ∧ tokenize A (s1 ++ w) = .ok ts1
        ∧ tokenize A w = .ok [])
    ∧ tokenize A (" " ++ s1) = .ok ts1
    ∧ tokenize A (s1 ++ " ") = .ok ts1 := by
  have hsp : ∀ c ∈ " ".toList, is_space c = true := by decide
  have hw : ∀ w : String, (∀ c ∈ w.toList, is_space c = true) →
      (w.toList ≠ [] → tokenize A (s1 ++ w ++ s2) = .ok (ts1 ++ ts2))
      ∧ tokenize A (w ++ s1) = .ok ts1
      ∧ tokenize A (s1 ++ w) = .ok ts1
      ∧ tokenize A w = .ok [] := by
    intro w hw
    refine ⟨fun hne => tokenize_separated A s1 w s2 ts1 ts2 hw hne h1 h2, ?_, ?_,
      tokenize_whitespace A w hw⟩
    · have h := tokenize_concat A w s1 [] ts1 (tokenize_whitespace A w hw) h1 (by
        by_cases hne : w.toList = []
        · intro p hp
          rw [hne] at hp
          cases hp
        · have := boundary_space_left [] w.toList s1.toList hw hne
          rwa [List.nil_append] at this)
      rwa [List.nil_append] at h
    · have h := tokenize_concat A s1 w ts1 [] h1 (tokenize_whitespace A w hw)
        (boundary_space_right _ _ hw)
      rwa [List.append_nil] at h
  exact ⟨(hw " " hsp).1 (by decide), hw, (hw " " hsp).2.1, (hw " " hsp).2.2.1⟩

/-- C38 at a concrete input: in the rational arithmetic, `x` and `y` separated
by a space tokenize to the two identifiers. -/
theorem C38_whitespace_compositional_witness :
    tokenize Arith.rat ("x" ++ " " ++ "y")
      = .ok ([Token.identifier "x"] ++ [Token.identifier "y"]) :=
  (C38_whitespace_compositional Arith.rat "x" "y" [Token.identifier "x"]
    [Token.identifier "y"] rfl rfl).1

end Theorems

end Repl
